import Mathlib

/-!
# Chunked hierarchical-heap storage (runtime/gc/chunk.c)

A shallow embedding of the chunk-list, level-list and union-find code of
`runtime/gc/chunk.c`.

* Pointers are natural numbers, `0` is `NULL`.
* Memory is a pair of typed stores, one for `struct HM_chunk` and one for
  `struct HM_chunkList`; a C statement that writes through a pointer becomes a
  store update.
* Dereferencing `NULL` is a fault (`Fault.nullDeref`).
* Loops take a fuel argument, one unit per evaluation of the loop condition;
  running out is `Fault.outOfFuel`.
* The build modelled is the one with `ASSERT` off: `assert(..)` and the
  `#if ASSERT` blocks compile to nothing.
* `Word32` and `size_t`/`Word64` arithmetic is arithmetic on `Nat` reduced
  modulo `2^32` and `2^64` where the C code computes.
-/

namespace HM

/-- A machine address; `0` is `NULL`. -/
abbrev Ptr := Nat

/-- Fields of `struct HM_chunk` (the header stored at the chunk's base address). -/
structure HM_chunk where
  frontier : Ptr
  limit : Ptr
  nextChunk : Ptr
  prevChunk : Ptr
  nextAdjacent : Ptr
  prevAdjacent : Ptr
  levelHead : Ptr
  mightContainMultipleObjects : Bool
  magic : Nat
deriving DecidableEq

/-- Fields of `struct HM_chunkList`. -/
structure HM_chunkList where
  firstChunk : Ptr
  lastChunk : Ptr
  parent : Ptr
  nextHead : Ptr
  containingHH : Ptr
  toChunkList : Ptr
  size : Nat
  isInToSpace : Bool
  level : Nat
deriving DecidableEq

/-- The two typed stores. -/
structure State where
  chunks : Ptr → HM_chunk
  lists : Ptr → HM_chunkList

/-- Ways in which a run stops without a result. -/
inductive Fault where
  | nullDeref
  | outOfFuel
deriving DecidableEq

deriving instance DecidableEq for Except

/-- Store `v` at chunk-list address `p`. -/
def State.setList (s : State) (p : Ptr) (v : HM_chunkList) : State :=
  { s with lists := fun q => if q = p then v else s.lists q }

/-- Store `v` at chunk address `p`. -/
def State.setChunk (s : State) (p : Ptr) (v : HM_chunk) : State :=
  { s with chunks := fun q => if q = p then v else s.chunks q }

/-- `2^64`, the modulus of `size_t` and `Word64`. -/
def W64 : Nat := 18446744073709551616

/-- `2^32`, the modulus of `Word32`. -/
def W32 : Nat := 4294967296

/-! ## Union-find lookups -/

/-- The `while` loop of `HM_getLevelHead`:
`while (cursor != NULL && cursor->parent != cursor) cursor = cursor->parent;` -/
def HM_getLevelHead_loop : Nat → State → Ptr → Except Fault Ptr
  | 0, _, _ => .error .outOfFuel
  | fuel + 1, s, cursor =>
    if cursor ≠ 0 ∧ (s.lists cursor).parent ≠ cursor then
      HM_getLevelHead_loop fuel s (s.lists cursor).parent
    else .ok cursor

/-- `HM_getLevelHead(chunk)`. -/
def HM_getLevelHead (fuel : Nat) (s : State) (chunk : Ptr) : Except Fault Ptr :=
  if chunk = 0 then .error .nullDeref
  else HM_getLevelHead_loop fuel s (s.chunks chunk).levelHead

/-- The `while (cursor != levelHead)` loop of `HM_getLevelHeadPathCompress`. -/
def HM_getLevelHeadPathCompress_loop : Nat → State → Ptr → Ptr → Except Fault State
  | 0, _, _, _ => .error .outOfFuel
  | fuel + 1, s, cursor, levelHead =>
    if cursor ≠ levelHead then
      if cursor = 0 then .error .nullDeref
      else
        let parent := (s.lists cursor).parent
        HM_getLevelHeadPathCompress_loop fuel
          (s.setList cursor { s.lists cursor with parent := levelHead }) parent levelHead
    else .ok s

/-- `HM_getLevelHeadPathCompress(chunk)`: the resulting store and the returned head. -/
def HM_getLevelHeadPathCompress (fuel : Nat) (s : State) (chunk : Ptr) :
    Except Fault (State × Ptr) :=
  match HM_getLevelHead fuel s chunk with
  | .error e => .error e
  | .ok levelHead =>
    let cursor := (s.chunks chunk).levelHead
    let s1 := s.setChunk chunk { s.chunks chunk with levelHead := levelHead }
    match HM_getLevelHeadPathCompress_loop fuel s1 cursor levelHead with
    | .error e => .error e
    | .ok s2 => .ok (s2, levelHead)

/-! ## Concatenation of two chunk lists -/

/-- `appendChunkList(list1, list2, sentinel)` with `ASSERT` off. -/
def appendChunkList (s : State) (list1 list2 : Ptr) : Except Fault State :=
  if list2 = 0 then .ok s
  else if list1 = 0 then .error .nullDeref
  else
    let s1 :=
      if (s.lists list1).lastChunk = 0 then
        s.setList list1 { s.lists list1 with firstChunk := (s.lists list2).firstChunk }
      else
        s.setChunk (s.lists list1).lastChunk
          { s.chunks (s.lists list1).lastChunk with nextChunk := (s.lists list2).firstChunk }
    let s2 :=
      if (s1.lists list2).firstChunk ≠ 0 then
        s1.setChunk (s1.lists list2).firstChunk
          { s1.chunks (s1.lists list2).firstChunk with prevChunk := (s1.lists list1).lastChunk }
      else s1
    let s3 := s2.setList list1 { s2.lists list1 with lastChunk := (s2.lists list2).lastChunk }
    let s4 := s3.setList list1
      { s3.lists list1 with size := ((s3.lists list1).size + (s3.lists list2).size) % W64 }
    .ok (s4.setList list2 { s4.lists list2 with parent := list1 })

/-! ## Paths through the stores -/

/-- A walk that starts at `p`, visits the nodes `xs` in order, none of which satisfies
`stop`, moving by `next`, and ends at `q`, which satisfies `stop`. -/
def Path (next : Ptr → Ptr) (stop : Ptr → Prop) : Ptr → List Ptr → Ptr → Prop
  | p, [], q => p = q ∧ stop q
  | p, x :: xs, q => p = x ∧ ¬ stop x ∧ Path next stop (next x) xs q

instance Path.decide (next : Ptr → Ptr) (stop : Ptr → Prop) [DecidablePred stop] :
    ∀ (p : Ptr) (xs : List Ptr) (q : Ptr), Decidable (Path next stop p xs q)
  | p, [], q => inferInstanceAs (Decidable (p = q ∧ stop q))
  | p, x :: xs, q =>
    have := Path.decide next stop (next x) xs q
    inferInstanceAs (Decidable (p = x ∧ ¬ stop x ∧ Path next stop (next x) xs q))

/-- Where the walk of `HM_getLevelHead` ends: at `NULL` or at a self-parent node. -/
def isRootOrNull (s : State) (n : Ptr) : Prop := n = 0 ∨ (s.lists n).parent = n

instance (s : State) : DecidablePred (isRootOrNull s) := fun n =>
  inferInstanceAs (Decidable (n = 0 ∨ (s.lists n).parent = n))

/-- `HM_isLevelHead`: a non-null node that is its own parent. -/
def isLevelHead (s : State) (n : Ptr) : Prop := n ≠ 0 ∧ (s.lists n).parent = n

instance (s : State) : DecidablePred (isLevelHead s) := fun n =>
  inferInstanceAs (Decidable (n ≠ 0 ∧ (s.lists n).parent = n))

/-- The parent chain from node `n` passes through `path` (none of them a root) and ends in
the level head `R`. -/
def ParentPath (s : State) (n : Ptr) (path : List Ptr) (R : Ptr) : Prop :=
  Path (fun x => (s.lists x).parent) (isRootOrNull s) n path R ∧ R ≠ 0

instance (s : State) (n : Ptr) (path : List Ptr) (R : Ptr) :
    Decidable (ParentPath s n path R) :=
  inferInstanceAs (Decidable (Path _ (isRootOrNull s) n path R ∧ R ≠ 0))

/-- Chunk `c` resolves to level head `R`: its `levelHead` chain is acyclic and ends in the
self-parent node `R`. -/
def Resolves (s : State) (c : Ptr) (R : Ptr) : Prop :=
  c ≠ 0 ∧ ∃ path, ParentPath s (s.chunks c).levelHead path R


/-- The chunks linked from `p` by `nextChunk`, in order, up to `NULL`. -/
def ChunkSeq (s : State) (p : Ptr) (cs : List Ptr) : Prop :=
  Path (fun c => (s.chunks c).nextChunk) (fun c => c = 0) p cs 0

instance (s : State) (p : Ptr) (cs : List Ptr) : Decidable (ChunkSeq s p cs) :=
  inferInstanceAs (Decidable (Path _ (fun c => c = 0) p cs 0))

/-- The level heads linked from `p` by `nextHead`, in order, up to `NULL`. -/
def LevelList (s : State) (p : Ptr) (hs : List Ptr) : Prop :=
  Path (fun n => (s.lists n).nextHead) (fun n => n = 0) p hs 0

instance (s : State) (p : Ptr) (hs : List Ptr) : Decidable (LevelList s p hs) :=
  inferInstanceAs (Decidable (Path _ (fun n => n = 0) p hs 0))

/-- The last element of a chunk sequence, `NULL` for the empty sequence. -/
def lastOf (cs : List Ptr) : Ptr := cs.getLast?.getD 0

/-- Node `H` is a well-formed level head with chunk list `cs`: it is its own parent, the
chunks linked from `firstChunk` by `nextChunk` are `cs`, `lastChunk` is the last of them
(`NULL` when there is none), and the `levelHead` chain of each of them ends in `H`. -/
def HeadWF (s : State) (H : Ptr) (cs : List Ptr) : Prop :=
  isLevelHead s H ∧ ChunkSeq s (s.lists H).firstChunk cs ∧
    (s.lists H).lastChunk = lastOf cs ∧ ∀ c ∈ cs, Resolves s c H

/-! ## Concrete stores -/

/-- An all-zero chunk header. -/
def HM_chunk.zero : HM_chunk :=
  { frontier := 0, limit := 0, nextChunk := 0, prevChunk := 0, nextAdjacent := 0,
    prevAdjacent := 0, levelHead := 0, mightContainMultipleObjects := false, magic := 0 }

/-- An all-zero chunk-list node. -/
def HM_chunkList.zero : HM_chunkList :=
  { firstChunk := 0, lastChunk := 0, parent := 0, nextHead := 0, containingHH := 0,
    toChunkList := 0, size := 0, isInToSpace := false, level := 0 }

/-- A linked chunk of one 4 KiB block at address `base`. -/
def blockChunk (base next prev levelHead : Ptr) : HM_chunk :=
  { HM_chunk.zero with
    frontier := base + 64, limit := base + 4096, nextChunk := next, prevChunk := prev,
    levelHead := levelHead, mightContainMultipleObjects := true }

/-- A level head with the given chunk list, successor, level and size, owned by heap `7`. -/
def levelNode (self first last next level size : Nat) : HM_chunkList :=
  { HM_chunkList.zero with
    firstChunk := first, lastChunk := last, parent := self, nextHead := next,
    containingHH := 7, size := size, level := level }

/-- Three separate level heads `1`, `2`, `3`, with one, one and two chunks, and an unlinked
chunk at `20480`. -/
def threeHeads : State :=
  { chunks := fun c =>
      if c = 4096 then blockChunk 4096 0 0 1
      else if c = 8192 then blockChunk 8192 0 0 2
      else if c = 12288 then blockChunk 12288 16384 0 3
      else if c = 16384 then blockChunk 16384 0 12288 3
      else if c = 20480 then blockChunk 20480 0 0 0
      else HM_chunk.zero
    lists := fun n =>
      if n = 1 then levelNode 1 4096 4096 0 4 4096
      else if n = 2 then levelNode 2 8192 8192 0 4 4096
      else if n = 3 then levelNode 3 12288 16384 0 4 8192
      else HM_chunkList.zero }

/-- The store `threeHeads` after `appendChunkList(2, 3)` and then `appendChunkList(1, 2)`. -/
def chainedHeads : State :=
  match (appendChunkList threeHeads 2 3).bind (fun s => appendChunkList s 1 2) with
  | .ok s => s
  | .error _ => threeHeads


/-! ## Level lists: promotion -/

/-- A location of type `HM_chunkList *`: the caller's list variable (`levelList`, or the
local `newLevelList`), or the `nextHead` field of a node. -/
inductive Loc where
  | var
  | nextHead (n : Ptr)
deriving DecidableEq

/-- Read `*loc`, where `var` is the current value of the list variable. -/
def Loc.read (s : State) (var : Ptr) : Loc → Ptr
  | .var => var
  | .nextHead n => (s.lists n).nextHead

/-- Write `*loc = v`: the new store and the new value of the list variable. -/
def Loc.write (s : State) (var : Ptr) (v : Ptr) : Loc → State × Ptr
  | .var => (s, v)
  | .nextHead n => (s.setList n { s.lists n with nextHead := v }, var)

/-- The `for` loop of `HM_promoteChunks` with `ASSERT` off:
`for (cursor = levelList; (*cursor)->level > level; cursor = &((*cursor)->nextHead))`. -/
def HM_promoteChunks_loop : Nat → State → Ptr → Loc → Nat → Except Fault Loc
  | 0, _, _, _, _ => .error .outOfFuel
  | fuel + 1, s, var, cursor, level =>
    if cursor.read s var = 0 then .error .nullDeref
    else if (s.lists (cursor.read s var)).level > level then
      HM_promoteChunks_loop fuel s var (.nextHead (cursor.read s var)) level
    else .ok cursor

/-- `HM_promoteChunks(levelList, level)` with `ASSERT` off; `levelList` is the value of
`*levelList` on entry and the second component of the result its value on exit.
`level` is a `size_t`, so `level - 1` is computed modulo `2^64`, and the store into the
`Word32` field `level` truncates modulo `2^32`. -/
def HM_promoteChunks (fuel : Nat) (s : State) (levelList : Ptr) (level : Nat) :
    Except Fault (State × Ptr) :=
  if levelList = 0 then .error .nullDeref
  else
    match HM_promoteChunks_loop fuel s levelList .var level with
    | .error e => .error e
    | .ok cursor =>
      if cursor.read s levelList = 0 then .error .nullDeref
      else if (s.lists (cursor.read s levelList)).level < level then .ok (s, levelList)
      else
        let chunkList := cursor.read s levelList
        let w1 := cursor.write s levelList (s.lists chunkList).nextHead
        let s1 := w1.1
        let var1 := w1.2
        if cursor.read s1 var1 ≠ 0 ∧
            (level + W64 - 1) % W64 = (s1.lists (cursor.read s1 var1)).level then
          match appendChunkList s1 (cursor.read s1 var1) chunkList with
          | .error e => .error e
          | .ok s2 => .ok (s2, var1)
        else
          let s2 := s1.setList chunkList
            { s1.lists chunkList with level := ((level + W64 - 1) % W64) % W32 }
          let s3 := s2.setList chunkList
            { s2.lists chunkList with nextHead := cursor.read s2 var1 }
          .ok (cursor.write s3 var1 chunkList)

/-- The level strictly decreases along the list of heads `hs`. -/
def Descending (s : State) (hs : List Ptr) : Prop :=
  hs.Pairwise (fun a b => (s.lists b).level < (s.lists a).level)

instance (s : State) (hs : List Ptr) : Decidable (Descending s hs) :=
  inferInstanceAs (Decidable (List.Pairwise _ hs))

/-- The location reached from `cur` after stepping over the nodes `pre`. -/
def locAfter : Loc → List Ptr → Loc
  | cur, [] => cur
  | _, a :: pre => locAfter (.nextHead a) pre

/-- A heap with level heads `1`, `2`, `3` at levels `3`, `2`, `0`, linked in this order,
holding one, one and two chunks. -/
def heapS2 : State :=
  { chunks := threeHeads.chunks
    lists := fun n =>
      if n = 1 then levelNode 1 4096 4096 2 3 4096
      else if n = 2 then levelNode 2 8192 8192 3 2 4096
      else if n = 3 then levelNode 3 12288 16384 0 0 8192
      else HM_chunkList.zero }

/-- Two stores that agree except for the `nextHead` and `level` fields of list nodes. -/
def SameChunkData (s s' : State) : Prop :=
  s'.chunks = s.chunks ∧ ∀ n, (s'.lists n).firstChunk = (s.lists n).firstChunk ∧
    (s'.lists n).lastChunk = (s.lists n).lastChunk ∧ (s'.lists n).parent = (s.lists n).parent ∧
    (s'.lists n).size = (s.lists n).size ∧
    (s'.lists n).containingHH = (s.lists n).containingHH ∧
    (s'.lists n).isInToSpace = (s.lists n).isInToSpace ∧
    (s'.lists n).toChunkList = (s.lists n).toChunkList



/-! ## Level lists: merging -/

/-- One pass through the body of the `while ((NULL != cursor1) && (NULL != cursor2))` loop of
`HM_mergeLevelList` up to and including the advance of the cursors: the store, the local
`newLevelList` and the two cursors. -/
def HM_mergeLevelList_branch (s : State) (newLevelList : Ptr) (previousChunkList : Loc)
    (cursor1 cursor2 : Ptr) : Except Fault (State × Ptr × Ptr × Ptr) :=
  let level1 := (s.lists cursor1).level
  let level2 := (s.lists cursor2).level
  if level1 > level2 then
    let w := previousChunkList.write s newLevelList cursor1
    .ok (w.1, w.2, (w.1.lists cursor1).nextHead, cursor2)
  else if level1 < level2 then
    let w := previousChunkList.write s newLevelList cursor2
    .ok (w.1, w.2, cursor1, (w.1.lists cursor2).nextHead)
  else
    let savedCursor2 := cursor2
    let cursor2' := (s.lists cursor2).nextHead
    match appendChunkList s cursor1 savedCursor2 with
    | .error e => .error e
    | .ok s1 =>
      let w := previousChunkList.write s1 newLevelList cursor1
      .ok (w.1, w.2, (w.1.lists cursor1).nextHead, cursor2')

/-- The `while ((NULL != cursor1) && (NULL != cursor2))` loop of `HM_mergeLevelList`; the
result is the store, `newLevelList`, `previousChunkList` and the two cursors on exit. -/
def HM_mergeLevelList_loop :
    Nat → State → Ptr → Loc → Ptr → Ptr → Ptr → Except Fault (State × Ptr × Loc × Ptr × Ptr)
  | 0, _, _, _, _, _, _ => .error .outOfFuel
  | fuel + 1, s, newLevelList, previousChunkList, cursor1, cursor2, hh =>
    if cursor1 ≠ 0 ∧ cursor2 ≠ 0 then
      match HM_mergeLevelList_branch s newLevelList previousChunkList cursor1 cursor2 with
      | .error e => .error e
      | .ok (s1, newLevelList1, cursor1', cursor2') =>
        if previousChunkList.read s1 newLevelList1 = 0 then .error .nullDeref
        else
          let s2 := s1.setList (previousChunkList.read s1 newLevelList1)
            { s1.lists (previousChunkList.read s1 newLevelList1) with containingHH := hh }
          HM_mergeLevelList_loop fuel s2 newLevelList1
            (.nextHead (previousChunkList.read s2 newLevelList1)) cursor1' cursor2' hh
    else .ok (s, newLevelList, previousChunkList, cursor1, cursor2)

/-- The loop `for (chunkList = ..; NULL != chunkList; chunkList = chunkList->nextHead)
chunkList->containingHH = hh;`. -/
def setContainingHH_loop : Nat → State → Ptr → Ptr → Except Fault State
  | 0, _, _, _ => .error .outOfFuel
  | fuel + 1, s, chunkList, hh =>
    if chunkList ≠ 0 then
      let s1 := s.setList chunkList { s.lists chunkList with containingHH := hh }
      setContainingHH_loop fuel s1 (s1.lists chunkList).nextHead hh
    else .ok s

/-- The loop `for (chunkList = ..; chunkList != NULL; chunkList = chunkList->nextHead)
chunkList->isInToSpace = false;`. -/
def resetToFromSpace_loop : Nat → State → Ptr → Except Fault State
  | 0, _, _ => .error .outOfFuel
  | fuel + 1, s, chunkList =>
    if chunkList ≠ 0 then
      let s1 := s.setList chunkList { s.lists chunkList with isInToSpace := false }
      resetToFromSpace_loop fuel s1 (s1.lists chunkList).nextHead
    else .ok s

/-- The block `/* construct newLevelList */` of `HM_mergeLevelList`, entered with the given
values of `newLevelList`, `previousChunkList` and the cursors; `fuel1` is for the `while`
loop and `fuel2` for the `for` loop. -/
def HM_mergeLevelList_construct (fuel1 fuel2 : Nat) (s : State) (newLevelList : Ptr)
    (previousChunkList : Loc) (cursor1 cursor2 hh : Ptr) : Except Fault (State × Ptr) :=
  match HM_mergeLevelList_loop fuel1 s newLevelList previousChunkList cursor1 cursor2 hh with
  | .error e => .error e
  | .ok (s1, newLevelList1, prev, c1, c2) =>
    let w :=
      if c1 ≠ 0 then prev.write s1 newLevelList1 c1
      else if c2 ≠ 0 then prev.write s1 newLevelList1 c2
      else (s1, newLevelList1)
    match setContainingHH_loop fuel2 w.1 (prev.read w.1 w.2) hh with
    | .error e => .error e
    | .ok s2 => .ok (s2, w.2)

/-- `HM_mergeLevelList(destinationLevelList, levelList, hh, resetToFromSpace)` with `ASSERT`
off; `destinationLevelList` is the value of `*destinationLevelList` on entry and the second
component of the result its value on exit. -/
def HM_mergeLevelList (fuel : Nat) (s : State) (destinationLevelList levelList hh : Ptr)
    (resetToFromSpace : Bool) : Except Fault (State × Ptr) :=
  match HM_mergeLevelList_construct fuel fuel s 0 .var destinationLevelList levelList hh with
  | .error e => .error e
  | .ok (s1, newLevelList) =>
    if resetToFromSpace then
      match resetToFromSpace_loop fuel s1 newLevelList with
      | .error e => .error e
      | .ok s2 => .ok (s2, newLevelList)
    else .ok (s1, newLevelList)

/-- The heads of the merged list, in order: the list the merge loop builds from the head
lists `xs` and `ys`, where `lv` gives the level of a head. -/
def mergeHeads (lv : Ptr → Nat) : List Ptr → List Ptr → List Ptr
  | [], ys => ys
  | x :: xs, [] => x :: xs
  | x :: xs, y :: ys =>
    if lv x > lv y then x :: mergeHeads lv xs (y :: ys)
    else if lv x < lv y then y :: mergeHeads lv (x :: xs) ys
    else x :: mergeHeads lv xs ys
termination_by xs ys => xs.length + ys.length

/-- The pairs `(x, y)` of equal-level heads the merge loop passes to `appendChunkList`. -/
def mergePairs (lv : Ptr → Nat) : List Ptr → List Ptr → List (Ptr × Ptr)
  | [], _ => []
  | _ :: _, [] => []
  | x :: xs, y :: ys =>
    if lv x > lv y then mergePairs lv xs (y :: ys)
    else if lv x < lv y then mergePairs lv (x :: xs) ys
    else (x, y) :: mergePairs lv xs ys
termination_by xs ys => xs.length + ys.length

/-- Run `appendChunkList` on each pair in turn. -/
def appendPairs : State → List (Ptr × Ptr) → Except Fault State
  | s, [] => .ok s
  | s, (x, y) :: ps =>
    match appendChunkList s x y with
    | .error e => .error e
    | .ok s1 => appendPairs s1 ps

/-- Two stores with the same chunks and the same `firstChunk`, `lastChunk`, `parent` and
`size` fields: they differ only in fields `appendChunkList` does not touch. -/
def SameChunkLinks (s s' : State) : Prop :=
  s'.chunks = s.chunks ∧ ∀ n, (s'.lists n).firstChunk = (s.lists n).firstChunk ∧
    (s'.lists n).lastChunk = (s.lists n).lastChunk ∧ (s'.lists n).parent = (s.lists n).parent ∧
    (s'.lists n).size = (s.lists n).size

/-- Scenario S3: heap A has heads `11`, `12`, `13` at levels `5`, `4`, `2` and heap B has
heads `21`, `22`, `23` at levels `5`, `3`, `2`, each head with one chunk. -/
def heapS3 : State :=
  { chunks := fun c =>
      if c = 4096 then blockChunk 4096 0 0 11
      else if c = 8192 then blockChunk 8192 0 0 12
      else if c = 12288 then blockChunk 12288 0 0 13
      else if c = 16384 then blockChunk 16384 0 0 21
      else if c = 20480 then blockChunk 20480 0 0 22
      else if c = 24576 then blockChunk 24576 0 0 23
      else HM_chunk.zero
    lists := fun n =>
      if n = 11 then levelNode 11 4096 4096 12 5 4096
      else if n = 12 then levelNode 12 8192 8192 13 4 4096
      else if n = 13 then levelNode 13 12288 12288 0 2 4096
      else if n = 21 then { levelNode 21 16384 16384 22 5 4096 with isInToSpace := true }
      else if n = 22 then { levelNode 22 20480 20480 23 3 4096 with isInToSpace := true }
      else if n = 23 then { levelNode 23 24576 24576 0 2 4096 with isInToSpace := true }
      else HM_chunkList.zero }

/-- The two statements that close an iteration of the merge loop for the emitted head `e`:
`*previousChunkList = e; (*previousChunkList)->containingHH = hh;`. -/
def emitHead (hh : Ptr) (s : State) (newLevelList : Ptr) (previousChunkList : Loc) (e : Ptr) :
    State × Ptr :=
  ((previousChunkList.write s newLevelList e).1.setList e
      { (previousChunkList.write s newLevelList e).1.lists e with containingHH := hh },
    (previousChunkList.write s newLevelList e).2)

/-- What the block `/* construct newLevelList */` establishes when it is entered in store `s`
with the cursors at the head lists `xs` and `ys` and leaves store `s'`. -/
def ConstructPost (lv : Ptr → Nat) (hh : Ptr) (s : State) (nl : Ptr) (prev : Loc)
    (xs ys : List Ptr) (s' : State) (nl' : Ptr) : Prop :=
  (∀ c, prev = .nextHead c → nl' = nl) ∧
  LevelList s' (prev.read s' nl') (mergeHeads lv xs ys) ∧
  (∀ m, (s'.lists m).level = (s.lists m).level ∧
    (s'.lists m).isInToSpace = (s.lists m).isInToSpace ∧
    (s'.lists m).toChunkList = (s.lists m).toChunkList) ∧
  (∀ m, (s'.lists m).containingHH =
    if m ∈ mergeHeads lv xs ys then hh else (s.lists m).containingHH) ∧
  (∀ m, m ∉ xs → m ∉ ys → prev ≠ .nextHead m →
    (s'.lists m).nextHead = (s.lists m).nextHead) ∧
  ∃ t, appendPairs s (mergePairs lv xs ys) = .ok t ∧ SameChunkLinks t s'


/-- Node `H` is a level head, the chunks linked from its `firstChunk` are `cs`, and each of
them resolves to `H` (`HeadWF` without the condition on `lastChunk`). -/
def HeadSeq (s : State) (H : Ptr) (cs : List Ptr) : Prop :=
  isLevelHead s H ∧ ChunkSeq s (s.lists H).firstChunk cs ∧ ∀ c ∈ cs, Resolves s c H

/-- The nodes that occur in a list of pairs. -/
def involved : List (Ptr × Ptr) → List Ptr
  | [] => []
  | (x, y) :: ps => x :: y :: involved ps

/-- The chunk lists of the heads of the merged list, in the order of `mergeHeads`, where `G`
gives the chunk list of a head before the merge. -/
def mergeChunkLists (lv : Ptr → Nat) (G : Ptr → List Ptr) : List Ptr → List Ptr → List (List Ptr)
  | [], ys => ys.map G
  | x :: xs, [] => (x :: xs).map G
  | x :: xs, y :: ys =>
    if lv x > lv y then G x :: mergeChunkLists lv G xs (y :: ys)
    else if lv x < lv y then G y :: mergeChunkLists lv G (x :: xs) ys
    else (G x ++ G y) :: mergeChunkLists lv G xs ys
termination_by xs ys => xs.length + ys.length

/-- The chunk list of each level head of `heapS3`. -/
def heapS3_chunks (h : Ptr) : List Ptr :=
  if h = 11 then [4096]
  else if h = 12 then [8192]
  else if h = 13 then [12288]
  else if h = 21 then [16384]
  else if h = 22 then [20480]
  else if h = 23 then [24576]
  else []


/-! ## Chunk lists: linking, unlinking and splitting chunks -/

/-- Constants of `chunk.h` that `chunk.c` uses: `sizeof(struct HM_chunk)` and
`CHUNK_MAGIC`. -/
structure Consts where
  sizeofChunk : Nat
  CHUNK_MAGIC : Nat

/-- `HM_getChunkSize(chunk)`: the pointer difference `chunk->limit - (pointer)chunk` as a
`Word64`. -/
def HM_getChunkSize (s : State) (chunk : Ptr) : Nat :=
  ((s.chunks chunk).limit + W64 - chunk % W64) % W64

/-- `HM_prependChunk(levelHead, chunk)` with `ASSERT` off. -/
def HM_prependChunk (s : State) (levelHead chunk : Ptr) : Except Fault State :=
  if chunk = 0 then .error .nullDeref
  else if levelHead = 0 then .error .nullDeref
  else
    let s1 := s.setChunk chunk { s.chunks chunk with levelHead := levelHead }
    let s2 := s1.setChunk chunk
      { s1.chunks chunk with nextChunk := (s1.lists levelHead).firstChunk }
    let s3 :=
      if (s2.lists levelHead).firstChunk ≠ 0 then
        s2.setChunk (s2.lists levelHead).firstChunk
          { s2.chunks (s2.lists levelHead).firstChunk with prevChunk := chunk }
      else s2
    let s4 :=
      if (s3.lists levelHead).lastChunk = 0 then
        s3.setList levelHead { s3.lists levelHead with lastChunk := chunk }
      else s3
    let s5 := s4.setList levelHead { s4.lists levelHead with firstChunk := chunk }
    .ok (s5.setList levelHead
      { s5.lists levelHead with
        size := ((s5.lists levelHead).size + HM_getChunkSize s5 chunk) % W64 })

/-- `HM_appendChunk(levelHead, chunk)` with `ASSERT` off. -/
def HM_appendChunk (s : State) (levelHead chunk : Ptr) : Except Fault State :=
  if chunk = 0 then .error .nullDeref
  else if levelHead = 0 then .error .nullDeref
  else
    let s1 := s.setChunk chunk { s.chunks chunk with levelHead := levelHead }
    let s2 := s1.setChunk chunk
      { s1.chunks chunk with prevChunk := (s1.lists levelHead).lastChunk }
    let s3 :=
      if (s2.lists levelHead).lastChunk ≠ 0 then
        s2.setChunk (s2.lists levelHead).lastChunk
          { s2.chunks (s2.lists levelHead).lastChunk with nextChunk := chunk }
      else s2
    let s4 :=
      if (s3.lists levelHead).firstChunk = 0 then
        s3.setList levelHead { s3.lists levelHead with firstChunk := chunk }
      else s3
    let s5 := s4.setList levelHead { s4.lists levelHead with lastChunk := chunk }
    .ok (s5.setList levelHead
      { s5.lists levelHead with
        size := ((s5.lists levelHead).size + HM_getChunkSize s5 chunk) % W64 })

/-! ### Single-field stores -/

/-- The store after `p->levelHead = v` on a chunk. -/
def State.setLevelHead (s : State) (p v : Ptr) : State :=
  s.setChunk p { s.chunks p with levelHead := v }

/-- The store after `p->nextChunk = v` on a chunk. -/
def State.setNextChunk (s : State) (p v : Ptr) : State :=
  s.setChunk p { s.chunks p with nextChunk := v }

/-- The store after `p->prevChunk = v` on a chunk. -/
def State.setPrevChunk (s : State) (p v : Ptr) : State :=
  s.setChunk p { s.chunks p with prevChunk := v }

/-- The store after `p->limit = v` on a chunk. -/
def State.setLimit (s : State) (p v : Ptr) : State :=
  s.setChunk p { s.chunks p with limit := v }

/-- The store after `p->nextAdjacent = v` on a chunk. -/
def State.setNextAdjacent (s : State) (p v : Ptr) : State :=
  s.setChunk p { s.chunks p with nextAdjacent := v }

/-- The store after `p->prevAdjacent = v` on a chunk. -/
def State.setPrevAdjacent (s : State) (p v : Ptr) : State :=
  s.setChunk p { s.chunks p with prevAdjacent := v }

/-- The store after `n->firstChunk = v` on a chunk-list node. -/
def State.setFirstChunk (s : State) (n v : Nat) : State :=
  s.setList n { s.lists n with firstChunk := v }

/-- The store after `n->lastChunk = v` on a chunk-list node. -/
def State.setLastChunk (s : State) (n v : Nat) : State :=
  s.setList n { s.lists n with lastChunk := v }

/-- The store after `n->size = v` on a chunk-list node. -/
def State.setSize (s : State) (n v : Nat) : State :=
  s.setList n { s.lists n with size := v }

/-- `HM_unlinkChunk(chunk)` with `ASSERT` off. The head returned by the lookup is
dereferenced on every path (`levelHead->size -= ..`), so a `NULL` head is a fault. -/
def HM_unlinkChunk (fuel : Nat) (s : State) (chunk : Ptr) : Except Fault State :=
  match HM_getLevelHeadPathCompress fuel s chunk with
  | .error e => .error e
  | .ok (s0, levelHead) =>
    if levelHead = 0 then .error .nullDeref
    else
      let s1 :=
        if (s0.chunks chunk).prevChunk = 0 then
          s0.setFirstChunk levelHead (s0.chunks chunk).nextChunk
        else
          s0.setNextChunk (s0.chunks chunk).prevChunk (s0.chunks chunk).nextChunk
      let s2 :=
        if (s1.chunks chunk).nextChunk = 0 then
          s1.setLastChunk levelHead (s1.chunks chunk).prevChunk
        else
          s1.setPrevChunk (s1.chunks chunk).nextChunk (s1.chunks chunk).prevChunk
      let s3 := s2.setSize levelHead
        (((s2.lists levelHead).size + W64 - HM_getChunkSize s2 chunk) % W64)
      let s4 := s3.setLevelHead chunk 0
      let s5 := s4.setPrevChunk chunk 0
      .ok (s5.setNextChunk chunk 0)

/-- `HM_initializeChunk(start, end)` with `ASSERT` off: the header is written at `start`. -/
def HM_initializeChunk (k : Consts) (s : State) (start end_ : Ptr) : Except Fault (State × Ptr) :=
  if start = 0 then .error .nullDeref
  else
    .ok (s.setChunk start
      { frontier := start + k.sizeofChunk, limit := end_, nextChunk := 0, prevChunk := 0,
        nextAdjacent := 0, prevAdjacent := 0, levelHead := 0,
        mightContainMultipleObjects := true, magic := k.CHUNK_MAGIC }, start)

/-- `splitChunkAt(chunk, splitPoint)` with `ASSERT` off: the store and the new chunk. -/
def splitChunkAt (k : Consts) (fuel : Nat) (s : State) (chunk splitPoint : Ptr) :
    Except Fault (State × Ptr) :=
  match HM_getLevelHeadPathCompress fuel s chunk with
  | .error e => .error e
  | .ok (s0, levelHead) =>
    let limit := (s0.chunks chunk).limit
    let s1 := s0.setLimit chunk splitPoint
    match HM_initializeChunk k s1 splitPoint limit with
    | .error e => .error e
    | .ok (s2, result) =>
      let s3 := s2.setLevelHead result levelHead
      if (s3.chunks chunk).nextChunk = 0 ∧ levelHead = 0 then .error .nullDeref
      else
        let s4 :=
          if (s3.chunks chunk).nextChunk = 0 then s3.setLastChunk levelHead result
          else s3.setPrevChunk (s3.chunks chunk).nextChunk result
        let s5 := s4.setPrevChunk result chunk
        let s6 := s5.setNextChunk result (s5.chunks chunk).nextChunk
        let s7 := s6.setNextChunk chunk result
        let s8 :=
          if (s7.chunks chunk).nextAdjacent ≠ 0 then
            s7.setPrevAdjacent (s7.chunks chunk).nextAdjacent result
          else s7
        let s9 := s8.setNextAdjacent result (s8.chunks chunk).nextAdjacent
        let s10 := s9.setPrevAdjacent result chunk
        .ok (s10.setNextAdjacent chunk result, result)

/-- Modelled from the spec: `HM_isUnlinked` of `chunk.h`, which is not among the sources;
the spec says of `nextChunk` and `prevChunk` that "both null" means the chunk is unlinked. -/
def HM_isUnlinked (s : State) (chunk : Ptr) : Prop :=
  (s.chunks chunk).prevChunk = 0 ∧ (s.chunks chunk).nextChunk = 0

instance (s : State) (chunk : Ptr) : Decidable (HM_isUnlinked s chunk) :=
  inferInstanceAs (Decidable (_ ∧ _))

/-- The `prevChunk` links along a chunk sequence: each chunk points back to its
predecessor, the first one to `prev`. -/
def PrevLinks (s : State) : Ptr → List Ptr → Prop
  | _, [] => True
  | prev, c :: cs => (s.chunks c).prevChunk = prev ∧ PrevLinks s c cs

instance PrevLinks.decide (s : State) : ∀ (prev : Ptr) (cs : List Ptr),
    Decidable (PrevLinks s prev cs)
  | _, [] => inferInstanceAs (Decidable True)
  | prev, c :: cs =>
    have := PrevLinks.decide s c cs
    inferInstanceAs (Decidable ((s.chunks c).prevChunk = prev ∧ PrevLinks s c cs))

/-! ## Coalescing, the free-chunk pool and freeing -/

/-- The store after `p->frontier = v` on a chunk. -/
def State.setFrontier (s : State) (p v : Ptr) : State :=
  s.setChunk p { s.chunks p with frontier := v }

/-- The store after `p->mightContainMultipleObjects = v` on a chunk. -/
def State.setMightContainMultipleObjects (s : State) (p : Ptr) (v : Bool) : State :=
  s.setChunk p { s.chunks p with mightContainMultipleObjects := v }

/-- `HM_getChunkStart(chunk)`: `(pointer)chunk + sizeof(struct HM_chunk)`. -/
def HM_getChunkStart (k : Consts) (chunk : Ptr) : Ptr := chunk + k.sizeofChunk

/-- `HM_coalesceChunks(left, right)` with `ASSERT` off. -/
def HM_coalesceChunks (s : State) (left right : Ptr) : Except Fault State :=
  if left = 0 ∨ right = 0 then .error .nullDeref
  else
    let s1 := s.setLimit left (s.chunks right).limit
    let s2 := s1.setNextAdjacent left (s1.chunks right).nextAdjacent
    if (s2.chunks right).nextAdjacent ≠ 0 then
      .ok (s2.setPrevAdjacent (s2.chunks right).nextAdjacent left)
    else .ok s2

/-- Modelled from the spec: `align(a, b)` of the runtime's utility code, which is not among
the sources: `a` rounded up to a multiple of the block size `b`, computed in `size_t` as
`a += b - 1; a -= a % b`. -/
def align (a b : Nat) : Nat := (a + (b - 1)) % W64 - ((a + (b - 1)) % W64) % b

/-- The fields of `GC_state` that `chunk.c` uses. -/
structure GC_state where
  freeChunks : Ptr
  nextChunkAllocSize : Nat
deriving DecidableEq

/-- `mmapNewChunk(chunkWidth)`; `GC_mmapAnon` is the block mapper, given the number of bytes
and returning the start of the mapped region or `NULL`, and `bs` is `HM_BLOCK_SIZE`. -/
def mmapNewChunk (k : Consts) (bs : Nat) (GC_mmapAnon : Nat → Ptr) (s : State)
    (chunkWidth : Nat) : Except Fault (State × Ptr) :=
  let start := GC_mmapAnon ((chunkWidth + bs) % W64)
  if start = 0 then .ok (s, 0)
  else HM_initializeChunk k s (align start bs) (align start bs + chunkWidth)

/-- `HM_splitChunkFront(chunk, bytesRequested)` with `ASSERT` off. -/
def HM_splitChunkFront (k : Consts) (bs : Nat) (fuel : Nat) (s : State) (chunk : Ptr)
    (bytesRequested : Nat) : Except Fault (State × Ptr) :=
  if chunk = 0 then .error .nullDeref
  else if align ((s.chunks chunk).frontier + bytesRequested) bs = (s.chunks chunk).limit then
    .ok (s, 0)
  else splitChunkAt k fuel s chunk (align ((s.chunks chunk).frontier + bytesRequested) bs)

/-- The tail of `HM_getFreeChunk`: split the front of `chunk`, unlink it and return it. -/
def HM_getFreeChunk_take (k : Consts) (bs : Nat) (fuel : Nat) (g : GC_state) (s : State)
    (chunk : Ptr) (bytesRequested : Nat) : Except Fault (GC_state × State × Ptr) :=
  match HM_splitChunkFront k bs fuel s chunk bytesRequested with
  | .error e => .error e
  | .ok (s1, _) =>
    match HM_unlinkChunk fuel s1 chunk with
    | .error e => .error e
    | .ok s2 => .ok (g, s2, chunk)

/-- `HM_getFreeChunk(s, bytesRequested)`: the `GC_state`, the store and the returned
chunk. -/
def HM_getFreeChunk (k : Consts) (bs : Nat) (GC_mmapAnon : Nat → Ptr) (fuel : Nat)
    (g : GC_state) (s : State) (bytesRequested : Nat) :
    Except Fault (GC_state × State × Ptr) :=
  if g.freeChunks = 0 then .error .nullDeref
  else
    let chunk := (s.lists g.freeChunks).firstChunk
    if chunk = 0 ∨
        ((s.chunks chunk).limit + W64 - (s.chunks chunk).frontier % W64) % W64
          < bytesRequested then
      let bytesNeeded := align ((bytesRequested + k.sizeofChunk) % W64) bs
      let allocSize := max bytesNeeded g.nextChunkAllocSize
      let g1 := { g with nextChunkAllocSize := (2 * allocSize) % W64 }
      match mmapNewChunk k bs GC_mmapAnon s allocSize with
      | .error e => .error e
      | .ok (s1, chunk1) =>
        match HM_prependChunk s1 g1.freeChunks chunk1 with
        | .error e => .error e
        | .ok s2 => HM_getFreeChunk_take k bs fuel g1 s2 chunk1 bytesRequested
    else HM_getFreeChunk_take k bs fuel g s chunk bytesRequested

/-- `HM_allocateChunk(levelHead, bytesRequested)`. -/
def HM_allocateChunk (k : Consts) (bs : Nat) (GC_mmapAnon : Nat → Ptr) (fuel : Nat)
    (g : GC_state) (s : State) (levelHead : Ptr) (bytesRequested : Nat) :
    Except Fault (GC_state × State × Ptr) :=
  match HM_getFreeChunk k bs GC_mmapAnon fuel g s bytesRequested with
  | .error e => .error e
  | .ok (g1, s1, chunk) =>
    if chunk = 0 then .ok (g1, s1, 0)
    else
      match HM_appendChunk s1 levelHead chunk with
      | .error e => .error e
      | .ok s2 => .ok (g1, s2, chunk)

/-- `HM_newChunkList(hh, level)`; `list` is the address `malloc` returns and `copyHH` is
`COPY_OBJECT_HH_VALUE`. -/
def HM_newChunkList (copyHH : Ptr) (s : State) (list hh : Ptr) (level : Nat) :
    Except Fault (State × Ptr) :=
  if list = 0 then .error .nullDeref
  else
    .ok (s.setList list
      { firstChunk := 0, lastChunk := 0, parent := list, nextHead := 0, containingHH := hh,
        toChunkList := 0, size := 0, isInToSpace := decide (hh = copyHH), level := level },
      list)

/-- `HM_allocateLevelHeadChunk(levelList, bytesRequested, level, hh)`: the `GC_state`, the
store, the value of `*levelList` on exit and the returned chunk. -/
def HM_allocateLevelHeadChunk (k : Consts) (bs : Nat) (GC_mmapAnon : Nat → Ptr) (copyHH : Ptr)
    (fuel : Nat) (g : GC_state) (s : State) (levelList : Ptr) (list : Ptr)
    (bytesRequested : Nat) (level : Nat) (hh : Ptr) :
    Except Fault (GC_state × State × Ptr × Ptr) :=
  match HM_getFreeChunk k bs GC_mmapAnon fuel g s bytesRequested with
  | .error e => .error e
  | .ok (g1, s1, chunk) =>
    if chunk = 0 then .ok (g1, s1, levelList, 0)
    else
      match HM_newChunkList copyHH s1 list hh level with
      | .error e => .error e
      | .ok (s2, levelHead) =>
        match HM_appendChunk s2 levelHead chunk with
        | .error e => .error e
        | .ok s3 =>
          match HM_mergeLevelList fuel s3 levelList levelHead hh false with
          | .error e => .error e
          | .ok (s4, levelList1) => .ok (g1, s4, levelList1, chunk)

/-! ## `HM_freeChunks` -/

/-- The first `if` under `if (coalesce)` in `HM_freeChunks`: when the chunk before `chunk` in
memory is in the free list, it is unlinked and swallows `chunk`. The store and the new value
of `chunk`. -/
def HM_freeChunks_coalescePrev (fuel : Nat) (s : State) (freeList chunk : Ptr) :
    Except Fault (State × Ptr) :=
  if (s.chunks chunk).prevAdjacent = 0 then .ok (s, chunk)
  else
    match HM_getLevelHead fuel s (s.chunks chunk).prevAdjacent with
    | .error e => .error e
    | .ok h =>
      if h = freeList then
        match HM_unlinkChunk fuel s (s.chunks chunk).prevAdjacent with
        | .error e => .error e
        | .ok s1 =>
          match HM_coalesceChunks s1 (s1.chunks chunk).prevAdjacent
              (s1.chunks (s1.chunks chunk).prevAdjacent).nextAdjacent with
          | .error e => .error e
          | .ok s2 => .ok (s2, (s1.chunks chunk).prevAdjacent)
      else .ok (s, chunk)

/-- The second `if` under `if (coalesce)` in `HM_freeChunks`: when the chunk after `chunk` in
memory is in the free list, it is unlinked and `chunk` swallows it. -/
def HM_freeChunks_coalesceNext (fuel : Nat) (s : State) (freeList chunk : Ptr) :
    Except Fault State :=
  if (s.chunks chunk).nextAdjacent = 0 then .ok s
  else
    match HM_getLevelHead fuel s (s.chunks chunk).nextAdjacent with
    | .error e => .error e
    | .ok h =>
      if h = freeList then
        match HM_unlinkChunk fuel s (s.chunks chunk).nextAdjacent with
        | .error e => .error e
        | .ok s1 => HM_coalesceChunks s1 chunk (s1.chunks chunk).nextAdjacent
      else .ok s

/-- The body of the inner loop of `HM_freeChunks` up to the assignment `chunk = next`, for a
non-null `chunk`. -/
def HM_freeChunks_body (k : Consts) (fuel : Nat) (s : State) (freeList : Ptr)
    (coalesce : Bool) (chunk : Ptr) : Except Fault State :=
  match HM_unlinkChunk fuel s chunk with
  | .error e => .error e
  | .ok s1 =>
    let s2 := s1.setFrontier chunk (HM_getChunkStart k chunk)
    let s3 := s2.setMightContainMultipleObjects chunk true
    if coalesce then
      match HM_freeChunks_coalescePrev fuel s3 freeList chunk with
      | .error e => .error e
      | .ok (s4, chunk1) =>
        match HM_freeChunks_coalesceNext fuel s4 freeList chunk1 with
        | .error e => .error e
        | .ok s5 => HM_appendChunk s5 freeList chunk1
    else HM_appendChunk s3 freeList chunk

/-- The inner loop of `HM_freeChunks`, `while (NULL != chunk)`; `fuel` bounds the union-find
walks and `n` the iterations. -/
def HM_freeChunks_chunks (k : Consts) (fuel : Nat) :
    Nat → State → Ptr → Bool → Ptr → Except Fault State
  | 0, _, _, _, _ => .error .outOfFuel
  | n + 1, s, freeList, coalesce, chunk =>
    if chunk ≠ 0 then
      match HM_freeChunks_body k fuel s freeList coalesce chunk with
      | .error e => .error e
      | .ok s1 => HM_freeChunks_chunks k fuel n s1 freeList coalesce (s.chunks chunk).nextChunk
    else .ok s

/-- The outer loop of `HM_freeChunks`, `while (list != NULL && list->level >= minLevel)`:
the store and the final value of `list`. -/
def HM_freeChunks_lists (k : Consts) (fuel : Nat) :
    Nat → State → Ptr → Nat → Bool → Ptr → Except Fault (State × Ptr)
  | 0, _, _, _, _, _ => .error .outOfFuel
  | n + 1, s, freeList, minLevel, coalesce, list =>
    if list ≠ 0 ∧ (s.lists list).level ≥ minLevel then
      match HM_freeChunks_chunks k fuel fuel s freeList coalesce (s.lists list).firstChunk with
      | .error e => .error e
      | .ok s1 =>
        HM_freeChunks_lists k fuel n s1 freeList minLevel coalesce (s1.lists list).nextHead
    else .ok (s, list)

/-- `HM_freeChunks(levelList, freeList, minLevel, coalesce)` with `ASSERT` off: the store and
the value of `*levelList` on exit. The argument `freeList->containingHH` of the final call is
read also when the callee does nothing. -/
def HM_freeChunks (k : Consts) (fuel : Nat) (s : State) (levelList freeList : Ptr)
    (minLevel : Nat) (coalesce : Bool) : Except Fault (State × Ptr) :=
  match HM_freeChunks_lists k fuel fuel s freeList minLevel coalesce levelList with
  | .error e => .error e
  | .ok (s1, list) => if freeList = 0 then .error .nullDeref else .ok (s1, list)

/-! ## Relations between stores -/

/-- The store `s0` is `s` after `HM_getLevelHeadPathCompress(c)`, where the `levelHead` chain
of `c` passes through `path` and ends in the level head `R`: `c->levelHead` and the `parent`
of every node of `path` are `R`, nothing else has changed. -/
def Compressed (s s0 : State) (c R : Ptr) (path : List Ptr) : Prop :=
  ParentPath s (s.chunks c).levelHead path R ∧
    (∀ d, s0.chunks d = if d = c then { s.chunks c with levelHead := R } else s.chunks d) ∧
    (∀ x ∈ path, s0.lists x = { s.lists x with parent := R }) ∧
    (∀ y, y ∉ path → s0.lists y = s.lists y)

/-- The spatial-adjacency invariant over the chunks `live`: a chunk `a` with a non-null
`nextAdjacent` `b` has `a.limit = b` and `b.prevAdjacent = a`, a chunk `a` with a non-null
`prevAdjacent` `b` has `b.limit = a` and `b.nextAdjacent = a`, and `b` is a chunk too; no
chunk is at `NULL`. -/
def AdjInv (live : Ptr → Prop) (s : State) : Prop :=
  ∀ a, live a → a ≠ 0 ∧
    ((s.chunks a).nextAdjacent ≠ 0 → live (s.chunks a).nextAdjacent ∧
      (s.chunks a).limit = (s.chunks a).nextAdjacent ∧
      (s.chunks (s.chunks a).nextAdjacent).prevAdjacent = a) ∧
    ((s.chunks a).prevAdjacent ≠ 0 → live (s.chunks a).prevAdjacent ∧
      (s.chunks (s.chunks a).prevAdjacent).limit = a ∧
      (s.chunks (s.chunks a).prevAdjacent).nextAdjacent = a)

/-- The store `threeHeads` in which the two chunks of head `3` lie next to each other in
memory. -/
def adjHeads : State :=
  (threeHeads.setNextAdjacent 12288 16384).setPrevAdjacent 16384 12288

/-! ## Scenario S1: the free pool -/

/-- A store without chunks: the free pool is the head `9`, and the level list consists of the
head `5` of level `2`; both heads have no chunks. -/
def poolS1 : State :=
  { chunks := fun _ => HM_chunk.zero
    lists := fun n =>
      if n = 9 then levelNode 9 0 0 0 0 0
      else if n = 5 then levelNode 5 0 0 0 2 0
      else HM_chunkList.zero }

/-- The `GC_state` of scenario S1: the free pool `9` and an alloc size of 16 KiB. -/
def gcS1 : GC_state := { freeChunks := 9, nextChunkAllocSize := 16384 }

/-- A block mapper that maps every region at address `65000`. -/
def mapS1 : Nat → Ptr := fun _ => 65000

/-- A block mapper that always fails. -/
def mapFail : Nat → Ptr := fun _ => 0

/-! ## A pool with one chunk -/

/-- The store of scenario S1 with one 16 KiB chunk at `65536` in the free pool `9`. -/
def poolS2 : State :=
  { chunks := fun c =>
      if c = 65536 then
        { frontier := 65600, limit := 81920, nextChunk := 0, prevChunk := 0,
          nextAdjacent := 0, prevAdjacent := 0, levelHead := 9,
          mightContainMultipleObjects := true, magic := 99 }
      else HM_chunk.zero
    lists := fun n =>
      if n = 9 then levelNode 9 65536 65536 0 0 16384
      else if n = 5 then levelNode 5 0 0 0 2 0
      else HM_chunkList.zero }

/-! ## Well-formed heaps of chunk lists -/

/-- The heads `HS` have the chunk lists `cl` and `live` is a set of chunk headers such that:
every head of `HS` is well formed with consistent `prevChunk` links and live chunks; a live
chunk whose `levelHead` chain ends in a head of `HS` is in the list of that head; the
`levelHead` chain of a live chunk ends after fewer than `D` steps; adjacency links are
consistent; and a live chunk lies before its limit. -/
def HeapWF (HS : List Ptr) (cl : Ptr → List Ptr) (live : Ptr → Prop) (D : Nat) (s : State) :
    Prop :=
  (∀ h ∈ HS, HeadWF s h (cl h) ∧ PrevLinks s 0 (cl h) ∧ ∀ c ∈ cl h, live c) ∧
    (∀ h ∈ HS, ∀ a, live a → Resolves s a h → a ∈ cl h) ∧
    (∀ a, live a → ∃ path e,
      Path (fun x => (s.lists x).parent) (isRootOrNull s) (s.chunks a).levelHead path e ∧
        path.length < D) ∧
    AdjInv live s ∧ (∀ a, live a → a < (s.chunks a).limit)

/-- The chunks `E` have their frontier at the payload start and may contain multiple
objects. -/
def PoolReset (k : Consts) (s : State) (E : List Ptr) : Prop :=
  ∀ d ∈ E, (s.chunks d).frontier = HM_getChunkStart k d ∧
    (s.chunks d).mightContainMultipleObjects = true

/-- The bytes of every chunk of `E` in store `s`, from its header to its limit, lie within a
chunk of `E'` in store `s'`. -/
def Covers (s s' : State) (E E' : List Ptr) : Prop :=
  ∀ d ∈ E, ∃ d' ∈ E', d' ≤ d ∧ (s.chunks d).limit ≤ (s'.chunks d').limit

/-- Chunk `a` has the same header in `s` and `s'`, the field `prevAdjacent` apart. -/
def KeepChunk (s s' : State) (a : Ptr) : Prop :=
  (s'.chunks a).nextChunk = (s.chunks a).nextChunk ∧
    (s'.chunks a).prevChunk = (s.chunks a).prevChunk ∧
    (s'.chunks a).levelHead = (s.chunks a).levelHead ∧
    (s'.chunks a).limit = (s.chunks a).limit ∧
    (s'.chunks a).frontier = (s.chunks a).frontier ∧
    (s'.chunks a).nextAdjacent = (s.chunks a).nextAdjacent ∧
    (s'.chunks a).mightContainMultipleObjects = (s.chunks a).mightContainMultipleObjects

/-- The list nodes keep `nextHead` and `level` from `s` to `s'`, and all nodes but `X` and
`Y` keep `firstChunk`, `lastChunk` and `size`. -/
def KeepNodes (s s' : State) (X Y : Ptr) : Prop :=
  (∀ n, (s'.lists n).nextHead = (s.lists n).nextHead ∧
    (s'.lists n).level = (s.lists n).level) ∧
    (∀ n, n ≠ X → n ≠ Y → (s'.lists n).firstChunk = (s.lists n).firstChunk ∧
      (s'.lists n).lastChunk = (s.lists n).lastChunk ∧
      (s'.lists n).size = (s.lists n).size)

/-- From `s` to `s'` no chunk limit shrinks, and every chunk frontier stays or is reset to the
payload start. -/
def Grows (k : Consts) (s s' : State) : Prop :=
  ∀ d, (s.chunks d).limit ≤ (s'.chunks d).limit ∧
    ((s'.chunks d).frontier = (s.chunks d).frontier ∨
      (s'.chunks d).frontier = HM_getChunkStart k d)

/-! ## A heap with a pool and two levels -/

/-- A chunk at `base` of 4 KiB with a 64-byte header, given by its list links, its
neighbours in memory and its level head. -/
def poolChunk (base next prev nextAdj prevAdj levelHead : Ptr) : HM_chunk :=
  { frontier := base + 64, limit := base + 4096, nextChunk := next, prevChunk := prev,
    nextAdjacent := nextAdj, prevAdjacent := prevAdj, levelHead := levelHead,
    mightContainMultipleObjects := true, magic := 99 }

/-- Four chunks in a row in memory: `61440` in the free pool `9`, `65536` and `69632` in the
head `5` of level 2, and `73728` in the head `6` of level 1; the level list is `5, 6`. -/
def heapS4 : State :=
  { chunks := fun c =>
      if c = 61440 then poolChunk 61440 0 0 65536 0 9
      else if c = 65536 then poolChunk 65536 69632 0 69632 61440 5
      else if c = 69632 then poolChunk 69632 0 65536 73728 65536 5
      else if c = 73728 then poolChunk 73728 0 0 0 69632 6
      else HM_chunk.zero
    lists := fun n =>
      if n = 9 then levelNode 9 61440 61440 0 0 4096
      else if n = 5 then levelNode 5 65536 69632 6 2 8192
      else if n = 6 then levelNode 6 73728 73728 0 1 4096
      else HM_chunkList.zero }

/-- The chunk lists of the heads of `heapS4`. -/
def heapS4_chunks (h : Ptr) : List Ptr :=
  if h = 9 then [61440] else if h = 5 then [65536, 69632] else if h = 6 then [73728] else []

/-! ## Splitting for a request, level sizes and heap back pointers -/

/-- `HM_splitChunk(chunk, bytesRequested)` with `ASSERT` off; `bs` is `HM_BLOCK_SIZE`. The
split point `limit - totalSize` is computed in pointer arithmetic, modulo `2^64`. -/
def HM_splitChunk (k : Consts) (bs : Nat) (fuel : Nat) (s : State) (chunk : Ptr)
    (bytesRequested : Nat) : Except Fault (State × Ptr) :=
  if chunk = 0 then .error .nullDeref
  else
    let totalSize := align ((bytesRequested + k.sizeofChunk) % W64) bs
    let limit := (s.chunks chunk).limit
    let splitPoint := (limit + W64 - totalSize % W64) % W64
    if splitPoint < (s.chunks chunk).frontier then .ok (s, 0)
    else splitChunkAt k fuel s chunk splitPoint

/-- The loop `while (cursor != NULL && cursor->level > level) cursor = cursor->nextHead;` of
`HM_getLevelSize`: the cursor on exit. -/
def HM_getLevelSize_loop : Nat → State → Ptr → Nat → Except Fault Ptr
  | 0, _, _, _ => .error .outOfFuel
  | fuel + 1, s, cursor, level =>
    if cursor ≠ 0 ∧ (s.lists cursor).level > level then
      HM_getLevelSize_loop fuel s (s.lists cursor).nextHead level
    else .ok cursor

/-- `HM_getLevelSize(levelList, level)` with `ASSERT` off. -/
def HM_getLevelSize (fuel : Nat) (s : State) (levelList : Ptr) (level : Nat) :
    Except Fault Nat :=
  match HM_getLevelSize_loop fuel s levelList level with
  | .error e => .error e
  | .ok cursor =>
    if cursor = 0 ∨ (s.lists cursor).level ≠ level then .ok 0
    else .ok (s.lists cursor).size

/-- `HM_updateChunkValues(chunk, frontier)` with `ASSERT` off. -/
def HM_updateChunkValues (s : State) (chunk frontier : Ptr) : Except Fault State :=
  if chunk = 0 then .error .nullDeref
  else .ok (s.setFrontier chunk frontier)

/-- `HM_updateLevelListPointers(levelList, hh)`: the loop
`for (cursor = levelList; NULL != cursor; cursor = cursor->nextHead) cursor->containingHH = hh;`
is the loop `setContainingHH_loop`. -/
def HM_updateLevelListPointers (fuel : Nat) (s : State) (levelList hh : Ptr) :
    Except Fault State :=
  setContainingHH_loop fuel s levelList hh

/-- The flag `isInToSpace` of the list node `n` mirrors the sentinel: it is set exactly when
`containingHH` is `copyHH`, the value `COPY_OBJECT_HH_VALUE`. -/
def Mirrors (copyHH : Ptr) (s : State) (n : Ptr) : Prop :=
  (s.lists n).isInToSpace = decide ((s.lists n).containingHH = copyHH)

instance (copyHH : Ptr) (s : State) (n : Ptr) : Decidable (Mirrors copyHH s n) :=
  inferInstanceAs (Decidable (_ = _))

/-- The chunk header invariant of `HM_assertChunkInvariants`:
`HM_getChunkStart(chunk) <= chunk->frontier && chunk->frontier <= chunk->limit`. -/
def ChunkInv (k : Consts) (s : State) (c : Ptr) : Prop :=
  HM_getChunkStart k c ≤ (s.chunks c).frontier ∧ (s.chunks c).frontier ≤ (s.chunks c).limit

instance (k : Consts) (s : State) (c : Ptr) : Decidable (ChunkInv k s c) :=
  inferInstanceAs (Decidable (_ ∧ _))

/-! ## A heap and a to-space level list -/

/-- The heaps of scenario S3 where the heads `21`, `22`, `23` of heap B are in to-space:
their `containingHH` is the sentinel `99` and their flag `isInToSpace` is set; the heads
`11`, `12`, `13` of heap A belong to the heap `7` and have the flag cleared. -/
def heapS5 : State :=
  { chunks := heapS3.chunks
    lists := fun n =>
      if n = 21 ∨ n = 22 ∨ n = 23 then { heapS3.lists n with containingHH := 99 }
      else heapS3.lists n }

/-! ## The rotating critical section of `processor.c` -/

/-- A signed 32-bit integer after an arithmetic step: `x` reduced to `[-2^31, 2^31)`. -/
def wrapInt32 (x : Int) : Int := (x + 2147483648) % 4294967296 - 2147483648

/-- `Proc_isInitialized(s)`: `Proc_initializedCount == s->numberOfProcs`. -/
def Proc_isInitialized (Proc_initializedCount : Int) (numberOfProcs : Nat) : Bool :=
  decide (Proc_initializedCount = numberOfProcs)

/-- The program points of a processor that calls `Proc_beginCriticalSection` and
`Proc_endCriticalSection` in turn; the step from a point makes one access to the variables
shared by the processors.
* `outside`: before the call of `Proc_beginCriticalSection`, at `Proc_isInitialized (s)`;
* `beginSolo`: at `Proc_syncCount = 1` of the uninitialized branch;
* `beginLock`: at `pthread_mutex_lock_safe(&Proc_syncCountLock)`;
* `beginCount`: at `mySyncCount = __sync_add_and_fetch(&Proc_syncCount, 1)`;
* `beginSignal`: at `Proc_criticalTicket = 0`, when `mySyncCount == s->numberOfProcs`;
* `beginUnlock`: at `pthread_mutex_unlock_safe(&Proc_syncCountLock)`;
* `beginSpin`: at `while (Proc_criticalTicket != myTicket) {}`;
* `inside`: returned from `Proc_beginCriticalSection`, before the call of
  `Proc_endCriticalSection`, at its `Proc_isInitialized (s)`;
* `endSolo`: at `Proc_syncCount = 0` of the uninitialized branch;
* `endTicket`: at `myTicket = __sync_add_and_fetch (&Proc_criticalTicket, 1)`;
* `endResetCount`: at `Proc_syncCount = Proc_SYNC_COUNT_INITIALIZER`, when
  `myTicket == s->numberOfProcs`;
* `endResetTicket`: at `Proc_criticalTicket = Proc_CRITICAL_TICKET_INITIALIZER`;
* `endSpin`: at `while (Proc_criticalTicket >= 0) {}`. -/
inductive CritPc where
  | outside
  | beginSolo
  | beginLock
  | beginCount
  | beginSignal
  | beginUnlock
  | beginSpin
  | inside
  | endSolo
  | endTicket
  | endResetCount
  | endResetTicket
  | endSpin
deriving DecidableEq

/-- The static variables of `processor.c` used by the critical section, the owner of the
mutex `Proc_syncCountLock` if it is held, and the program point of every processor. -/
structure CritState where
  Proc_initializedCount : Int
  Proc_syncCount : Int
  Proc_criticalTicket : Int
  Proc_syncCountLock : Option Nat
  pc : Nat → CritPc

/-- Processor `p` moves to the program point `x`. -/
def CritState.goto (c : CritState) (p : Nat) (x : CritPc) : CritState :=
  { c with pc := fun q => if q = p then x else c.pc q }

/-- One step of processor `p` in `Proc_beginCriticalSection`, `N` being `s->numberOfProcs`
and `p` the result of `Proc_processorNumber (s)`. A processor waiting for the mutex or in the
wait loop stays where it is. The timing calls, which touch no shared variable of the protocol,
are left out. -/
def Proc_beginCriticalSection_step (N : Nat) (c : CritState) (p : Nat) : CritState :=
  match c.pc p with
  | .outside =>
    if Proc_isInitialized c.Proc_initializedCount N then c.goto p .beginLock
    else c.goto p .beginSolo
  | .beginSolo => CritState.goto { c with Proc_syncCount := 1 } p .inside
  | .beginLock =>
    if c.Proc_syncCountLock = none then
      CritState.goto { c with Proc_syncCountLock := some p } p .beginCount
    else c
  | .beginCount =>
    CritState.goto { c with Proc_syncCount := wrapInt32 (c.Proc_syncCount + 1) } p
      (if wrapInt32 (c.Proc_syncCount + 1) = N then .beginSignal else .beginUnlock)
  | .beginSignal => CritState.goto { c with Proc_criticalTicket := 0 } p .beginUnlock
  | .beginUnlock => CritState.goto { c with Proc_syncCountLock := none } p .beginSpin
  | .beginSpin => if c.Proc_criticalTicket ≠ (p : Int) then c else c.goto p .inside
  | _ => c

/-- One step of processor `p` in `Proc_endCriticalSection`; a processor in the wait loop
stays where it is. -/
def Proc_endCriticalSection_step (N : Nat) (c : CritState) (p : Nat) : CritState :=
  match c.pc p with
  | .inside =>
    if Proc_isInitialized c.Proc_initializedCount N then c.goto p .endTicket
    else c.goto p .endSolo
  | .endSolo => CritState.goto { c with Proc_syncCount := 0 } p .outside
  | .endTicket =>
    CritState.goto { c with Proc_criticalTicket := wrapInt32 (c.Proc_criticalTicket + 1) } p
      (if wrapInt32 (c.Proc_criticalTicket + 1) = N then .endResetCount else .endSpin)
  | .endResetCount => CritState.goto { c with Proc_syncCount := 0 } p .endResetTicket
  | .endResetTicket => CritState.goto { c with Proc_criticalTicket := -1 } p .endSpin
  | .endSpin => if c.Proc_criticalTicket ≥ 0 then c else c.goto p .outside
  | _ => c

/-- The program points of `Proc_beginCriticalSection`. -/
def CritPc.inBegin : CritPc → Bool
  | .outside | .beginSolo | .beginLock | .beginCount | .beginSignal | .beginUnlock
  | .beginSpin => true
  | _ => false

/-- One step of processor `p`, one of the processors `0, …, N - 1`. -/
def critStep (N : Nat) (c : CritState) (p : Nat) : CritState :=
  if N ≤ p then c
  else if (c.pc p).inBegin then Proc_beginCriticalSection_step N c p
  else Proc_endCriticalSection_step N c p

/-- The next step of processor `p` isAdmission it to its critical region: it leaves the wait loop
of `Proc_beginCriticalSection`. -/
def isAdmission (N : Nat) (c : CritState) (p : Nat) : Bool :=
  decide (p < N ∧ c.pc p = .beginSpin ∧ c.Proc_criticalTicket = (p : Int))

/-- One step of processor `p`, and the log of the admissions so far. -/
def critStepLog (N : Nat) (cl : CritState × List Nat) (p : Nat) : CritState × List Nat :=
  (critStep N cl.1 p, if isAdmission N cl.1 p then cl.2 ++ [p] else cl.2)

/-- The run of a schedule: the processors step in the order given. -/
def critRun (N : Nat) (cl : CritState × List Nat) (sched : List Nat) :
    CritState × List Nat :=
  sched.foldl (critStepLog N) cl

/-- The state after `Proc_signalInitialization` and the `Proc_waitForInitialization` of all
`N` processors: the counters are at `Proc_SYNC_COUNT_INITIALIZER` and
`Proc_CRITICAL_TICKET_INITIALIZER`, and every processor is outside. -/
def critInit (N : Nat) : CritState :=
  { Proc_initializedCount := N, Proc_syncCount := 0, Proc_criticalTicket := -1,
    Proc_syncCountLock := none, pc := fun _ => .outside }

/-- Processor `p` has been counted in `Proc_syncCount` and waits for its ticket. -/
def Counted (c : CritState) (p : Nat) : Prop :=
  c.pc p = .beginSignal ∨ c.pc p = .beginUnlock ∨ c.pc p = .beginSpin

instance (c : CritState) : DecidablePred (Counted c) := fun p => by
  unfold Counted; exact inferInstance

/-- The processors holding the mutex are those between lock and unlock. -/
def LockInv (N : Nat) (c : CritState) : Prop :=
  ∀ p, p < N → ((c.pc p = .beginCount ∨ c.pc p = .beginSignal ∨ c.pc p = .beginUnlock) ↔
    c.Proc_syncCountLock = some p)

/-- The processors gather: the ticket is at its initializer, `Proc_syncCount` is the number
of counted processors, and the one that counted last is about to signal. -/
def Gathering (N : Nat) (c : CritState) : Prop :=
  c.Proc_criticalTicket = -1 ∧
    c.Proc_syncCount = (((Finset.range N).filter (fun p => Counted c p)).card : Int) ∧
    (∀ p, p < N → c.pc p = .outside ∨ c.pc p = .beginLock ∨ c.pc p = .beginCount ∨
      c.pc p = .beginSignal ∨ c.pc p = .beginUnlock ∨ c.pc p = .beginSpin ∨
      c.pc p = .endSpin) ∧
    (∀ p, p < N → c.pc p = .beginSignal → c.Proc_syncCount = N)

/-- Ticket `t` is served: the processors below `t` are done, processor `t` is on its way
into, in or just out of its region, and the processors above `t` wait. -/
def Serving (N : Nat) (c : CritState) (t : Nat) : Prop :=
  t < N ∧ c.Proc_criticalTicket = t ∧ c.Proc_syncCount = N ∧
    ∀ p, p < N → (p < t → c.pc p = .endSpin) ∧
      (p = t → c.pc p = .beginUnlock ∨ c.pc p = .beginSpin ∨ c.pc p = .inside ∨
        c.pc p = .endTicket) ∧
      (t < p → c.pc p = .beginUnlock ∨ c.pc p = .beginSpin)

/-- The last processor resets the counters while all others wait for the reset. -/
def Resetting (N : Nat) (c : CritState) : Prop :=
  c.Proc_criticalTicket = N ∧ ∃ q, q < N ∧
    ((c.pc q = .endResetCount ∧ c.Proc_syncCount = N) ∨
      (c.pc q = .endResetTicket ∧ c.Proc_syncCount = 0)) ∧
    ∀ p, p < N → p ≠ q → c.pc p = .endSpin

/-- The admissions of `r` full rounds: `0, …, N - 1`, `r` times. -/
def rounds (N r : Nat) : List Nat := (List.replicate r (List.range N)).flatten

/-- The phase of the round, with the log of admissions: gathering or resetting after full
rounds, or serving ticket `t` after full rounds and the admissions of the processors before
`t`, and of `t` once it is in its region. -/
def Phase (N : Nat) (c : CritState) (log : List Nat) : Prop :=
  ∃ r, (Gathering N c ∧ log = rounds N r) ∨
    (∃ t, Serving N c t ∧ log = rounds N r ++
      List.range (t + if c.pc t = .inside ∨ c.pc t = .endTicket then 1 else 0)) ∨
    (Resetting N c ∧ log = rounds N r)

/-- The invariant of the protocol with all `N` processors initialized, with the log of
admissions. -/
def CritInv (N : Nat) (c : CritState) (log : List Nat) : Prop :=
  c.Proc_initializedCount = N ∧ LockInv N c ∧ Phase N c log

/-! ## The BSP coordinator of `processor.c` -/

/-- The values of `enum BSPState` that `processor.c` uses. -/
inductive BSPState where
  | DONE
  | WAITING
  | IN_PROGRESS
deriving DecidableEq

/-- The static variables of `processor.c` that `Proc_BSP` uses, with the owner of the mutex
`Proc_bspCountLock` if it is held. -/
structure BSPShared where
  Proc_initializedCount : Int
  Proc_bspState : BSPState
  Proc_bspCount : Int
  Proc_bspCountLock : Option Nat
  initiatorStart : Bool
  participantStart : Bool
  numParticipants : Nat
  numParticipantsFinished : Nat
  sharedFunctions : Ptr
  sharedNumFunctions : Nat
  sharedArgs : Ptr
deriving DecidableEq

/-- The program points of a call of `Proc_BSP`; the step from a point is a straight-line
piece of the function.
* `entry`: at the call, before `Proc_isInitialized(s)`, `Proc_BSPState()` and the test of
  the state;
* `lock`: at `pthread_mutex_lock_safe(&Proc_bspCountLock)`;
* `count`: at `myBSPCount = __sync_add_and_fetch(&Proc_bspCount, 1)`;
* `lostRace`: at `__sync_sub_and_fetch(&Proc_bspCount, 1)`;
* `lostUnlock`: at the unlock and `return FALSE` of an initiator that lost the race;
* `earlyUnlock`: at the unlock and `return FALSE` of a participant that came first;
* `setWaiting`: at `Proc_bspState = WAITING`;
* `setInProgress`: at `Proc_bspState = IN_PROGRESS`, when `myBSPCount == s->numberOfProcs`;
* `raiseInitiator`: at `initiatorStart = TRUE`;
* `unlock`: at `pthread_mutex_unlock_safe(&Proc_bspCountLock)`;
* `waitInitiator`: at `while (FALSE == initiatorStart) { }`;
* `setup`: at the five assignments that set up the round;
* `raiseParticipant`: at `participantStart = TRUE`;
* `waitParticipant`: at `while (FALSE == participantStart) { }`;
* `cache`: at the three reads of the shared values;
* `running i`: in the call `functions[i](args[i])`;
* `finished i`: at `__sync_add_and_fetch(&numParticipantsFinished, 1)` after step `i`;
* `rendezvous i`: at `while (numParticipantsFinished < numParticipants) { }` after step `i`;
* `leave`: at `__sync_sub_and_fetch(&numParticipants, 1)`;
* `waitAll`: at `while (0 != numParticipants) { }`;
* `reset`: at the seven assignments under `reset for next BSP`;
* `setDone`: at `Proc_bspState = DONE`;
* `returned b`: after `return b`;
* `died`: after `DIE`. -/
inductive BSPPc where
  | entry
  | lock
  | count
  | lostRace
  | lostUnlock
  | earlyUnlock
  | setWaiting
  | setInProgress
  | raiseInitiator
  | unlock
  | waitInitiator
  | setup
  | raiseParticipant
  | waitParticipant
  | cache
  | running (i : Nat)
  | finished (i : Nat)
  | rendezvous (i : Nat)
  | leave
  | waitAll
  | reset
  | setDone
  | returned (b : Bool)
  | died
deriving DecidableEq

/-- The parameters and local variables of a call of `Proc_BSP`, and its program point. -/
structure BSPThread where
  pc : BSPPc
  functions : Ptr
  numFunctions : Nat
  args : Ptr
  amInitiator : Bool
  myBSPCount : Int
deriving DecidableEq

/-- A call `Proc_BSP(s, functions, numFunctions, args)` at its entry. -/
def BSPThread.enter (functions : Ptr) (numFunctions : Nat) (args : Ptr) : BSPThread :=
  { pc := .entry, functions := functions, numFunctions := numFunctions, args := args,
    amInitiator := false, myBSPCount := 0 }

/-- The shared variables and the calls of the processors. -/
structure BSPConfig where
  shared : BSPShared
  threads : Nat → BSPThread

/-- The configuration with new shared variables and a new state of the call of `p`. -/
def BSPConfig.update (c : BSPConfig) (p : Nat) (sh : BSPShared) (th : BSPThread) :
    BSPConfig :=
  { shared := sh, threads := fun q => if q = p then th else c.threads q }

/-- Processor `p` makes a new call of `Proc_BSP`. -/
def BSPConfig.call (c : BSPConfig) (p : Nat) (functions : Ptr) (numFunctions : Nat)
    (args : Ptr) : BSPConfig :=
  c.update p c.shared (BSPThread.enter functions numFunctions args)

/-- The program point after step `i` of the pipeline: the next call, or the end of the
loop. -/
def BSPPc.next (numFunctions i : Nat) : BSPPc :=
  if i + 1 < numFunctions then .running (i + 1) else .leave

/-- One step of the call of `Proc_BSP` by processor `p`. `N` is `s->numberOfProcs` and
`res p i` is the result of `functions[i](args[i])` on processor `p`. A call that waits for
the mutex or in a wait loop stays where it is. Every run of the steps is a run of the code in
which each straight-line piece is executed without interruption. The timing calls, which
touch no variable of the coordinator, are left out. -/
def Proc_BSP_step (N : Nat) (res : Nat → Nat → Bool) (c : BSPConfig) (p : Nat) : BSPConfig :=
  match (c.threads p).pc with
  | .entry =>
    if Proc_isInitialized c.shared.Proc_initializedCount N = false then
      c.update p c.shared { c.threads p with pc := .died }
    else if c.shared.Proc_bspState = .IN_PROGRESS ∨
        ((c.threads p).functions ≠ 0 ∧ c.shared.Proc_bspState = .WAITING) ∨
        ((c.threads p).functions = 0 ∧ c.shared.Proc_bspState = .DONE) then
      c.update p c.shared
        { c.threads p with amInitiator := decide ((c.threads p).functions ≠ 0),
                           pc := .returned false }
    else
      c.update p c.shared
        { c.threads p with amInitiator := decide ((c.threads p).functions ≠ 0), pc := .lock }
  | .lock =>
    if c.shared.Proc_bspCountLock = none then
      c.update p { c.shared with Proc_bspCountLock := some p } { c.threads p with pc := .count }
    else c
  | .count =>
    c.update p { c.shared with Proc_bspCount := wrapInt32 (c.shared.Proc_bspCount + 1) }
      { c.threads p with
        myBSPCount := wrapInt32 (c.shared.Proc_bspCount + 1),
        pc :=
          if wrapInt32 (c.shared.Proc_bspCount + 1) ≠ 1 ∧ (c.threads p).amInitiator = true then
            .lostRace
          else if wrapInt32 (c.shared.Proc_bspCount + 1) = 1 then
            (if (c.threads p).amInitiator = false then .earlyUnlock else .setWaiting)
          else if wrapInt32 (c.shared.Proc_bspCount + 1) = N then .setInProgress
          else .unlock }
  | .lostRace =>
    c.update p { c.shared with Proc_bspCount := wrapInt32 (c.shared.Proc_bspCount - 1) }
      { c.threads p with pc := .lostUnlock }
  | .lostUnlock =>
    c.update p { c.shared with Proc_bspCountLock := none }
      { c.threads p with pc := .returned false }
  | .earlyUnlock =>
    c.update p { c.shared with Proc_bspCountLock := none }
      { c.threads p with pc := .returned false }
  | .setWaiting =>
    c.update p { c.shared with Proc_bspState := .WAITING }
      { c.threads p with
        pc := if (c.threads p).myBSPCount = N then .setInProgress else .unlock }
  | .setInProgress =>
    c.update p { c.shared with Proc_bspState := .IN_PROGRESS }
      { c.threads p with pc := .raiseInitiator }
  | .raiseInitiator =>
    c.update p { c.shared with initiatorStart := true } { c.threads p with pc := .unlock }
  | .unlock =>
    c.update p { c.shared with Proc_bspCountLock := none }
      { c.threads p with
        pc := if (c.threads p).amInitiator = true then .waitInitiator else .waitParticipant }
  | .waitInitiator =>
    if c.shared.initiatorStart = false then c
    else c.update p c.shared { c.threads p with pc := .setup }
  | .setup =>
    c.update p
      { c.shared with
        numParticipants := N % W64, numParticipantsFinished := 0,
        sharedFunctions := (c.threads p).functions,
        sharedNumFunctions := (c.threads p).numFunctions,
        sharedArgs := (c.threads p).args }
      { c.threads p with pc := .raiseParticipant }
  | .raiseParticipant =>
    c.update p { c.shared with participantStart := true }
      { c.threads p with pc := .waitParticipant }
  | .waitParticipant =>
    if c.shared.participantStart = false then c
    else c.update p c.shared { c.threads p with pc := .cache }
  | .cache =>
    c.update p c.shared
      { c.threads p with
        functions := c.shared.sharedFunctions, numFunctions := c.shared.sharedNumFunctions,
        args := c.shared.sharedArgs,
        pc := if 0 < c.shared.sharedNumFunctions then .running 0 else .leave }
  | .running i =>
    if res p i = true then c.update p c.shared { c.threads p with pc := .finished i }
    else c.update p c.shared { c.threads p with pc := .leave }
  | .finished i =>
    c.update p
      { c.shared with
        numParticipantsFinished := (c.shared.numParticipantsFinished + 1) % W64 }
      { c.threads p with pc := .rendezvous i }
  | .rendezvous i =>
    if c.shared.numParticipantsFinished < c.shared.numParticipants then c
    else c.update p c.shared { c.threads p with pc := BSPPc.next (c.threads p).numFunctions i }
  | .leave =>
    c.update p
      { c.shared with numParticipants := (c.shared.numParticipants + W64 - 1) % W64 }
      { c.threads p with
        pc := if (c.threads p).amInitiator = true then .waitAll else .returned true }
  | .waitAll =>
    if c.shared.numParticipants ≠ 0 then c
    else c.update p c.shared { c.threads p with pc := .reset }
  | .reset =>
    c.update p
      { c.shared with
        initiatorStart := false, participantStart := false, numParticipants := 0,
        numParticipantsFinished := 0, sharedFunctions := 0, sharedNumFunctions := 0,
        sharedArgs := 0 }
      { c.threads p with pc := .setDone }
  | .setDone =>
    c.update p { c.shared with Proc_bspState := .DONE }
      { c.threads p with pc := .returned true }
  | .returned _ => c
  | .died => c

/-- The run of a schedule: the processors step in the order given. -/
def bspRun (N : Nat) (res : Nat → Nat → Bool) (c : BSPConfig) (sched : List Nat) : BSPConfig :=
  sched.foldl (Proc_BSP_step N res) c

/-- The coordinator after `Proc_signalInitialization` and the initialization of all `N`
processors: the state is `DONE`, the counter is at `Proc_BSP_COUNT_INITIALIZER`, the flags
are `FALSE` and the other static variables are zero. -/
def bspShared0 (N : Nat) : BSPShared :=
  { Proc_initializedCount := N, Proc_bspState := .DONE, Proc_bspCount := 0,
    Proc_bspCountLock := none, initiatorStart := false, participantStart := false,
    numParticipants := 0, numParticipantsFinished := 0, sharedFunctions := 0,
    sharedNumFunctions := 0, sharedArgs := 0 }

/-- Two processors: processor `0` calls `Proc_BSP` with `numFunctions` functions at `100`
and arguments at `200`, processor `1` calls it as a participant. -/
def bspTwo (numFunctions : Nat) : BSPConfig :=
  { shared := bspShared0 2
    threads := fun q =>
      if q = 0 then BSPThread.enter 100 numFunctions 200 else BSPThread.enter 0 0 0 }

/-- The schedule of a round of two processors up to the first rendezvous: processor `0` is
elected and waits for `initiatorStart`; processor `1` joins last, sets `IN_PROGRESS` and
raises `initiatorStart`; processor `0` sets up the round, raises `participantStart` and
completes `f[0]`; processor `1` completes `f[0]`. -/
def bspFirstStep : List Nat :=
  [0, 0, 0, 0, 0, 1, 1, 1, 1, 1, 1, 0, 0, 0, 0, 0, 0, 0, 1, 1, 1, 1]

/-- The schedule of a round of two functions up to the return of processor `1`: after the
first rendezvous processor `0` completes `f[1]` and leaves the loop, then processor `1`
does. -/
def bspSecondStep : List Nat := bspFirstStep ++ [0, 0, 0, 0, 0, 1, 1, 1, 1, 1]

/-- The schedule of a full round of two functions: after `bspSecondStep` processor `0` sees
`numParticipants = 0`, resets the shared variables, sets `DONE` and returns. -/
def bspFullRound : List Nat := bspSecondStep ++ [0, 0, 0]

/-! ## Atomic sections of `atomic.c` -/

/-- The fields of `GC_state` that `atomic.c` uses. -/
structure GC_atomic where
  atomicState : Nat
  limit : Ptr
  limitPlusSlop : Ptr
  signalIsPending : Bool
deriving DecidableEq

/-- `beginAtomic(s)`. `A` is the number of values of the unsigned type of `atomicState` and
`slop` is `GC_HEAP_LIMIT_SLOP`; the declarations of both are not among the sources. -/
def beginAtomic (A slop : Nat) (s : GC_atomic) : GC_atomic :=
  let s1 := { s with atomicState := (s.atomicState + 1) % A }
  if 0 = s1.limit then { s1 with limit := (s1.limitPlusSlop + W64 - slop % W64) % W64 }
  else s1

/-- `endAtomic(s)` with `ASSERT` off. -/
def endAtomic (A : Nat) (s : GC_atomic) : GC_atomic :=
  let s1 := { s with atomicState := (s.atomicState + A - 1) % A }
  if 0 = s1.atomicState ∧ s1.signalIsPending = true then { s1 with limit := 0 }
  else s1

/-! ## The calls made in a BSP round -/

/-- The index `i` of the call `functions[i](args[i])` that the next step of processor `p`
returns from, if it is in such a call. -/
def bspCall (c : BSPConfig) (p : Nat) : Option Nat :=
  match (c.threads p).pc with
  | .running i => some i
  | _ => none

/-- One step of processor `p`, and the log of the calls `functions[i](args[i])` made so far,
each with its processor and its index. -/
def bspStepLog (N : Nat) (res : Nat → Nat → Bool) (cl : BSPConfig × List (Nat × Nat))
    (p : Nat) : BSPConfig × List (Nat × Nat) :=
  (Proc_BSP_step N res cl.1 p,
    match bspCall cl.1 p with
    | some i => cl.2 ++ [(p, i)]
    | none => cl.2)

/-- The run of a schedule with the log of the calls. -/
def bspRunLog (N : Nat) (res : Nat → Nat → Bool) (cl : BSPConfig × List (Nat × Nat))
    (sched : List Nat) : BSPConfig × List (Nat × Nat) :=
  sched.foldl (bspStepLog N res) cl

/-- A single initialized processor at the entry of `Proc_BSP(s, functions, numFunctions,
args)`, with the coordinator as `Proc_signalInitialization` leaves it. -/
def bspOne (functions : Ptr) (numFunctions : Nat) (args : Ptr) : BSPConfig :=
  { shared := bspShared0 1, threads := fun _ => BSPThread.enter functions numFunctions args }

/-! ## A pool, an empty head and an unlinked chunk -/

/-- Processor `p` is not held up: it is one of the processors `0, …, N - 1`, and it is not
waiting for the mutex while the mutex is held, not in the wait loop of
`Proc_beginCriticalSection` while `Proc_criticalTicket` is not its number, and not in the
wait loop of `Proc_endCriticalSection` while `Proc_criticalTicket` is non-negative. -/
def critCanMove (N : Nat) (c : CritState) (p : Nat) : Bool :=
  decide (p < N ∧ ¬ (c.pc p = .beginLock ∧ c.Proc_syncCountLock ≠ none) ∧
    ¬ (c.pc p = .beginSpin ∧ c.Proc_criticalTicket ≠ (p : Int)) ∧
    ¬ (c.pc p = .endSpin ∧ c.Proc_criticalTicket ≥ 0))

/-- The number of steps of the schedule, run from `c`, that are taken by a processor that is
not held up. -/
def critMoves (N : Nat) : CritState → List Nat → Nat
  | _, [] => 0
  | c, p :: ps => (if critCanMove N c p then 1 else 0) + critMoves N (critStep N c p) ps

/-- The program points in the order in which a processor passes them, counted from its
admission to the critical region; a processor that is not held up moves to a point of higher
rank, but for the admission itself. (With all processors initialized the points `beginSolo`
and `endSolo` are not reached.) -/
def CritPc.rank : CritPc → Nat
  | .inside => 0
  | .endSolo => 1
  | .endTicket => 1
  | .endResetCount => 2
  | .endResetTicket => 3
  | .endSpin => 4
  | .outside => 5
  | .beginSolo => 6
  | .beginLock => 6
  | .beginCount => 7
  | .beginSignal => 8
  | .beginUnlock => 9
  | .beginSpin => 10

/-- The progress made so far: eleven for every admission, and for every processor the rank of
the program point it is at. -/
def critPotential (N : Nat) (c : CritState) (log : List Nat) : Nat :=
  11 * log.length + (Finset.range N).sum (fun p => (c.pc p).rank)

/-- The mutex is held by one of the processors only, and when all `N` processors, at least
one, have been counted while `Proc_criticalTicket` is at its initializer, the processor that
was counted last is about to signal. -/
def CritLive (N : Nat) (c : CritState) : Prop :=
  (∀ q, c.Proc_syncCountLock = some q → q < N) ∧
    (0 < N → c.Proc_criticalTicket = -1 → c.Proc_syncCount = N →
      ∃ p, p < N ∧ c.pc p = .beginSignal)

/-! ## Facts about paths -/

theorem Path.not_stop_of_mem {next : Ptr → Ptr} {stop : Ptr → Prop} :
    ∀ {xs : List Ptr} {p q : Ptr}, Path next stop p xs q → ∀ x ∈ xs, ¬ stop x
  | [], _, _, _, x, hx => by simp at hx
  | y :: ys, p, q, h, x, hx => by
    rcases List.mem_cons.1 hx with rfl | hx
    · exact h.2.1
    · exact Path.not_stop_of_mem h.2.2 x hx

theorem Path.stop_end {next : Ptr → Ptr} {stop : Ptr → Prop} :
    ∀ {xs : List Ptr} {p q : Ptr}, Path next stop p xs q → stop q
  | [], _, _, h => h.2
  | _ :: _, _, _, h => Path.stop_end h.2.2

theorem Path.end_not_mem {next : Ptr → Ptr} {stop : Ptr → Prop} {xs : List Ptr} {p q : Ptr}
    (h : Path next stop p xs q) : q ∉ xs :=
  fun hq => Path.not_stop_of_mem h q hq (Path.stop_end h)

theorem Path.congr {next next' : Ptr → Ptr} {stop stop' : Ptr → Prop} :
    ∀ {xs : List Ptr} {p q : Ptr}, (∀ x ∈ xs, next x = next' x) →
      (∀ x ∈ xs, stop' x → stop x) → (stop q → stop' q) →
      Path next stop p xs q → Path next' stop' p xs q
  | [], _, _, _, _, hq, h => ⟨h.1, hq h.2⟩
  | y :: ys, p, q, hn, hs, hq, h => by
    refine ⟨h.1, fun hy => h.2.1 (hs y (List.mem_cons_self _ _) hy), ?_⟩
    rw [← hn y (List.mem_cons_self _ _)]
    exact Path.congr (fun x hx => hn x (List.mem_cons_of_mem _ hx))
      (fun x hx => hs x (List.mem_cons_of_mem _ hx)) hq h.2.2

theorem Path.det {next : Ptr → Ptr} {stop : Ptr → Prop} :
    ∀ {xs ys : List Ptr} {p q r : Ptr}, Path next stop p xs q → Path next stop p ys r →
      xs = ys ∧ q = r
  | [], [], _, _, _, h1, h2 => ⟨rfl, h1.1.symm.trans h2.1⟩
  | [], y :: ys, p, q, r, h1, h2 => by
    exact absurd h1.2 (by rw [← h1.1, h2.1]; exact h2.2.1)
  | x :: xs, [], p, q, r, h1, h2 => by
    exact absurd h2.2 (by rw [← h2.1, h1.1]; exact h1.2.1)
  | x :: xs, y :: ys, p, q, r, h1, h2 => by
    have hxy : x = y := h1.1.symm.trans h2.1
    subst hxy
    obtain ⟨h3, h4⟩ := Path.det h1.2.2 h2.2.2
    exact ⟨by rw [h3], h4⟩

theorem Path.suffix {next : Ptr → Ptr} {stop : Ptr → Prop} :
    ∀ (as : List Ptr) {bs : List Ptr} {p m q : Ptr}, Path next stop p (as ++ m :: bs) q →
      Path next stop m (m :: bs) q
  | [], _, _, _, _, h => ⟨rfl, h.2.1, h.2.2⟩
  | _ :: as, _, _, _, _, h => Path.suffix as h.2.2

theorem Path.nodup {next : Ptr → Ptr} {stop : Ptr → Prop} :
    ∀ {xs : List Ptr} {p q : Ptr}, Path next stop p xs q → xs.Nodup
  | [], _, _, _ => List.nodup_nil
  | x :: xs, p, q, h => by
    refine List.nodup_cons.2 ⟨fun hx => ?_, Path.nodup h.2.2⟩
    obtain ⟨as, bs, rfl⟩ := List.append_of_mem hx
    have h1 : Path next stop x (x :: bs) q := Path.suffix as h.2.2
    have h2 : Path next stop x (x :: (as ++ x :: bs)) q := ⟨rfl, h.2.1, h.2.2⟩
    have h3 := (Path.det h1 h2).1
    have h4 := congrArg List.length h3
    simp at h4
    omega

theorem Path.extend {next next' : Ptr → Ptr} {stop stop' : Ptr → Prop} :
    ∀ {xs : List Ptr} {p m : Ptr} (ys : List Ptr) (q : Ptr), Path next stop p xs m →
      (∀ x ∈ xs, next x = next' x) → (∀ x ∈ xs, stop' x → stop x) →
      Path next' stop' m ys q → Path next' stop' p (xs ++ ys) q
  | [], _, _, _, _, h, _, _, h2 => by
    rw [h.1]; exact h2
  | x :: xs, p, m, ys, q, h, hn, hs, h2 => by
    refine ⟨h.1, fun hx => h.2.1 (hs x (List.mem_cons_self _ _) hx), ?_⟩
    rw [← hn x (List.mem_cons_self _ _)]
    exact Path.extend ys q h.2.2 (fun y hy => hn y (List.mem_cons_of_mem _ hy))
      (fun y hy => hs y (List.mem_cons_of_mem _ hy)) h2

theorem Path.start_eq {next : Ptr → Ptr} {stop : Ptr → Prop} {x : Ptr} {xs : List Ptr}
    {p q : Ptr} (h : Path next stop p (x :: xs) q) : p = x := h.1

/-! ## Union-find: lookup and path compression -/

theorem HM_getLevelHead_loop_of_path (s : State) :
    ∀ (path : List Ptr) (n R : Ptr) (fuel : Nat),
      Path (fun x => (s.lists x).parent) (isRootOrNull s) n path R → path.length < fuel →
      HM_getLevelHead_loop fuel s n = .ok R
  | [], n, R, fuel, h, hf => by
    obtain ⟨f, rfl⟩ : ∃ f, fuel = f + 1 := ⟨fuel - 1, by simp at hf; omega⟩
    obtain ⟨rfl, hstop⟩ := h
    unfold HM_getLevelHead_loop
    rw [if_neg]
    rintro ⟨h0, hp⟩
    rcases hstop with h1 | h1
    · exact h0 h1
    · exact hp h1
  | x :: xs, n, R, fuel, h, hf => by
    obtain ⟨f, rfl⟩ : ∃ f, fuel = f + 1 := ⟨fuel - 1, by simp at hf; omega⟩
    obtain ⟨rfl, hns, hrest⟩ := h
    unfold HM_getLevelHead_loop
    have hc : n ≠ 0 ∧ (s.lists n).parent ≠ n :=
      ⟨fun h0 => hns (Or.inl h0), fun hp => hns (Or.inr hp)⟩
    rw [if_pos hc]
    exact HM_getLevelHead_loop_of_path s xs _ R f hrest (by simp at hf; omega)

theorem HM_getLevelHead_of_resolves (s : State) (c R : Ptr) (path : List Ptr) (fuel : Nat)
    (hc : c ≠ 0) (h : ParentPath s (s.chunks c).levelHead path R) (hf : path.length < fuel) :
    HM_getLevelHead fuel s c = .ok R := by
  unfold HM_getLevelHead
  rw [if_neg hc]
  exact HM_getLevelHead_loop_of_path s path _ R fuel h.1 hf


theorem Path.append_chain {next next' : Ptr → Ptr} {stop : Ptr → Prop} :
    ∀ (xs : List Ptr) {l p e : Ptr} {ys : List Ptr} {q : Ptr},
      Path next stop p (xs ++ [l]) e → (∀ x ∈ xs, next' x = next x) →
      Path next' stop (next' l) ys q → Path next' stop p (xs ++ l :: ys) q
  | [], _, _, _, _, _, h, _, h2 => ⟨h.1, h.2.1, h2⟩
  | x :: xs, _, _, _, _, _, h, hn, h2 => by
    refine ⟨h.1, h.2.1, ?_⟩
    rw [hn x (List.mem_cons_self _ _)]
    exact Path.append_chain xs h.2.2 (fun y hy => hn y (List.mem_cons_of_mem _ hy)) h2

theorem Path.tail_path {next : Ptr → Ptr} {stop : Ptr → Prop} :
    ∀ (xs : List Ptr) {ys : List Ptr} {p q : Ptr}, Path next stop p (xs ++ ys) q →
      ∃ m, Path next stop m ys q
  | [], _, p, _, h => ⟨p, h⟩
  | _ :: xs, _, _, _, h => Path.tail_path xs h.2.2

theorem Path.ne_zero_of_mem {next : Ptr → Ptr} {xs : List Ptr} {p q : Ptr}
    (h : Path next (fun n => n = 0) p xs q) : ∀ x ∈ xs, x ≠ 0 :=
  fun x hx => Path.not_stop_of_mem h x hx

@[simp] theorem lists_setList (s : State) (p q : Ptr) (v : HM_chunkList) :
    (s.setList p v).lists q = if q = p then v else s.lists q := rfl

@[simp] theorem chunks_setList (s : State) (p : Ptr) (v : HM_chunkList) :
    (s.setList p v).chunks = s.chunks := rfl

@[simp] theorem chunks_setChunk (s : State) (p q : Ptr) (v : HM_chunk) :
    (s.setChunk p v).chunks q = if q = p then v else s.chunks q := rfl

@[simp] theorem lists_setChunk (s : State) (p : Ptr) (v : HM_chunk) :
    (s.setChunk p v).lists = s.lists := rfl

theorem HM_getLevelHeadPathCompress_loop_spec :
    ∀ (path : List Ptr) (s : State) (n R : Ptr) (fuel : Nat),
      Path (fun x => (s.lists x).parent) (isRootOrNull s) n path R → path.length < fuel →
      ∃ s', HM_getLevelHeadPathCompress_loop fuel s n R = .ok s' ∧
        s'.chunks = s.chunks ∧
        (∀ x ∈ path, s'.lists x = { s.lists x with parent := R }) ∧
        (∀ y, y ∉ path → s'.lists y = s.lists y)
  | [], s, n, R, fuel, h, hf => by
    obtain ⟨f, rfl⟩ : ∃ f, fuel = f + 1 := ⟨fuel - 1, by simp at hf; omega⟩
    obtain ⟨rfl, -⟩ := h
    refine ⟨s, ?_, rfl, by simp, fun _ _ => rfl⟩
    unfold HM_getLevelHeadPathCompress_loop
    simp
  | x :: xs, s, n, R, fuel, h, hf => by
    obtain ⟨f, rfl⟩ : ∃ f, fuel = f + 1 := ⟨fuel - 1, by simp at hf; omega⟩
    have hnd : x ∉ xs := (List.nodup_cons.1 (Path.nodup h)).1
    have hRmem : R ∉ x :: xs := Path.end_not_mem h
    obtain ⟨rfl, hns, hrest⟩ := h
    have hxR : n ≠ R := fun e => hRmem (by simp [e])
    have hx0 : n ≠ 0 := fun e => hns (Or.inl e)
    have hpath : Path (fun y => ((s.setList n { s.lists n with parent := R }).lists y).parent)
        (isRootOrNull (s.setList n { s.lists n with parent := R }))
        (s.lists n).parent xs R := by
      refine Path.congr (fun y hy => ?_) (fun y hy hst => ?_) (fun hst => ?_) hrest
      · have : y ≠ n := fun e => hnd (e ▸ hy)
        simp [this]
      · have : y ≠ n := fun e => hnd (e ▸ hy)
        simpa [isRootOrNull, this] using hst
      · have : R ≠ n := fun e => hxR e.symm
        simpa [isRootOrNull, this] using hst
    obtain ⟨s', hrun, hch, hin, hout⟩ :=
      HM_getLevelHeadPathCompress_loop_spec xs _ _ R f hpath (by simp at hf; omega)
    refine ⟨s', ?_, ?_, ?_, ?_⟩
    · unfold HM_getLevelHeadPathCompress_loop
      rw [if_pos hxR, if_neg hx0]
      exact hrun
    · rw [hch]; rfl
    · intro y hy
      rcases List.mem_cons.1 hy with rfl | hy
      · rw [hout _ hnd]; simp
      · have : y ≠ n := fun e => hnd (e ▸ hy)
        rw [hin y hy]; simp [this]
    · intro y hy
      have hyn : y ≠ n := fun e => hy (by simp [e])
      have hyx : y ∉ xs := fun e => hy (List.mem_cons_of_mem _ e)
      rw [hout y hyx]; simp [hyn]

/-- Effect of `HM_getLevelHeadPathCompress` on a chunk whose chain ends in a level head. -/
theorem HM_getLevelHeadPathCompress_spec (s : State) (c R : Ptr) (path : List Ptr) (fuel : Nat)
    (hc : c ≠ 0) (h : ParentPath s (s.chunks c).levelHead path R) (hf : path.length < fuel) :
    ∃ s', HM_getLevelHeadPathCompress fuel s c = .ok (s', R) ∧
      (∀ d, s'.chunks d = if d = c then { s.chunks c with levelHead := R } else s.chunks d) ∧
      (∀ x ∈ path, s'.lists x = { s.lists x with parent := R }) ∧
      (∀ y, y ∉ path → s'.lists y = s.lists y) := by
  have hget := HM_getLevelHead_of_resolves s c R path fuel hc h hf
  obtain ⟨s', hrun, hch, hin, hout⟩ := HM_getLevelHeadPathCompress_loop_spec path
    (s.setChunk c { s.chunks c with levelHead := R }) (s.chunks c).levelHead R fuel h.1 hf
  refine ⟨s', ?_, ?_, hin, hout⟩
  · unfold HM_getLevelHeadPathCompress
    rw [hget]
    simp only [hrun]
  · intro d
    rw [hch]; rfl

/-! ## `appendChunkList` -/

/-- The store written by `appendChunkList` on two distinct non-null nodes, field by field. -/
theorem appendChunkList_ok (s : State) (l1 l2 : Ptr) (h1 : l1 ≠ 0) (h2 : l2 ≠ 0)
    (hne : l1 ≠ l2) :
    ∃ s', appendChunkList s l1 l2 = .ok s' ∧
      s'.lists l1 =
        { s.lists l1 with
          firstChunk := if (s.lists l1).lastChunk = 0 then (s.lists l2).firstChunk
                        else (s.lists l1).firstChunk
          lastChunk := (s.lists l2).lastChunk
          size := ((s.lists l1).size + (s.lists l2).size) % W64 } ∧
      s'.lists l2 = { s.lists l2 with parent := l1 } ∧
      (∀ n, n ≠ l1 → n ≠ l2 → s'.lists n = s.lists n) ∧
      (∀ c, (s'.chunks c).nextChunk =
          if c = (s.lists l1).lastChunk ∧ c ≠ 0 then (s.lists l2).firstChunk
          else (s.chunks c).nextChunk) ∧
      (∀ c, (s'.chunks c).prevChunk =
          if c = (s.lists l2).firstChunk ∧ c ≠ 0 then (s.lists l1).lastChunk
          else (s.chunks c).prevChunk) ∧
      (∀ c, (s'.chunks c).levelHead = (s.chunks c).levelHead ∧
          (s'.chunks c).limit = (s.chunks c).limit ∧
          (s'.chunks c).frontier = (s.chunks c).frontier ∧
          (s'.chunks c).nextAdjacent = (s.chunks c).nextAdjacent ∧
          (s'.chunks c).prevAdjacent = (s.chunks c).prevAdjacent ∧
          (s'.chunks c).mightContainMultipleObjects = (s.chunks c).mightContainMultipleObjects ∧
          (s'.chunks c).magic = (s.chunks c).magic) := by
  have hne' : l2 ≠ l1 := fun e => hne e.symm
  refine ⟨_, by unfold appendChunkList; rw [if_neg h2, if_neg h1], ?_, ?_, ?_, ?_, ?_, ?_⟩
  · by_cases hl : (s.lists l1).lastChunk = 0 <;> by_cases hf : (s.lists l2).firstChunk = 0 <;>
      simp [hl, hf, hne, hne']
  · by_cases hl : (s.lists l1).lastChunk = 0 <;> by_cases hf : (s.lists l2).firstChunk = 0 <;>
      simp [hl, hf, hne, hne']
  · intro n hn1 hn2
    by_cases hl : (s.lists l1).lastChunk = 0 <;> by_cases hf : (s.lists l2).firstChunk = 0 <;>
      simp [hl, hf, hne, hne', hn1, hn2]
  · intro c
    by_cases hl : (s.lists l1).lastChunk = 0 <;> by_cases hf : (s.lists l2).firstChunk = 0 <;>
      simp [hl, hf, hne, hne'] <;> split_ifs <;> simp_all
  · intro c
    by_cases hl : (s.lists l1).lastChunk = 0 <;> by_cases hf : (s.lists l2).firstChunk = 0 <;>
      simp [hl, hf, hne, hne'] <;> split_ifs <;> simp_all
  · intro c
    by_cases hl : (s.lists l1).lastChunk = 0 <;> by_cases hf : (s.lists l2).firstChunk = 0 <;>
      simp [hl, hf, hne, hne'] <;> split_ifs <;> simp_all

/-- After `appendChunkList dst src`, a parent chain that ended in `src` ends in `dst`, one
step later. -/
theorem appendChunkList_path_src (s s' : State) (dst src : Ptr)
    (hdst : isLevelHead s dst) (hsrc : isLevelHead s src) (hne : dst ≠ src)
    (hrun : appendChunkList s dst src = .ok s') (n : Ptr) (path : List Ptr)
    (h : ParentPath s n path src) : ParentPath s' n (path ++ [src]) dst := by
  obtain ⟨t, ht, hl1, hl2, hother, -, -, -⟩ := appendChunkList_ok s dst src hdst.1 hsrc.1 hne
  rw [hrun] at ht
  cases ht
  have hunch : ∀ x ∈ path, s'.lists x = s.lists x := by
    intro x hx
    refine hother x (fun e => ?_) (fun e => ?_)
    · exact Path.not_stop_of_mem h.1 x hx (Or.inr (e ▸ hdst.2))
    · exact Path.end_not_mem h.1 (e ▸ hx)
  refine ⟨Path.extend [src] dst h.1 (fun x hx => by rw [hunch x hx])
    (fun x hx hst => by simpa [isRootOrNull, hunch x hx] using hst) ?_, hdst.1⟩
  refine ⟨rfl, ?_, ?_, ?_⟩
  · rintro (h0 | hp)
    · exact hsrc.1 h0
    · rw [hl2] at hp; exact hne hp
  · show (s'.lists src).parent = dst
    rw [hl2]
  · right; rw [hl1]; exact hdst.2

/-- After `appendChunkList dst src`, parent chains that ended in a head other than `src` are
as before. -/
theorem appendChunkList_path_other (s s' : State) (dst src : Ptr)
    (hdst : isLevelHead s dst) (hsrc : isLevelHead s src) (hne : dst ≠ src)
    (hrun : appendChunkList s dst src = .ok s') (n R : Ptr) (path : List Ptr) (hR : R ≠ src)
    (h : ParentPath s n path R) : ParentPath s' n path R := by
  obtain ⟨t, ht, hl1, hl2, hother, -, -, -⟩ := appendChunkList_ok s dst src hdst.1 hsrc.1 hne
  rw [hrun] at ht
  cases ht
  have hpar : ∀ x, x ≠ src → (s'.lists x).parent = (s.lists x).parent := by
    intro x hx
    by_cases hxd : x = dst
    · rw [hxd, hl1]
    · rw [hother x hxd hx]
  have hns : ∀ x ∈ path, x ≠ src := fun x hx e =>
    Path.not_stop_of_mem h.1 x hx (Or.inr (e ▸ hsrc.2))
  refine ⟨Path.congr (fun x hx => (hpar x (hns x hx)).symm) (fun x hx hst => ?_) (fun hst => ?_) h.1,
    h.2⟩
  · simpa [isRootOrNull, hpar x (hns x hx)] using hst
  · simpa [isRootOrNull, hpar R hR] using hst

theorem appendChunkList_levelHead_field (s s' : State) (dst src : Ptr)
    (hrun : appendChunkList s dst src = .ok s') (c : Ptr) :
    (s'.chunks c).levelHead = (s.chunks c).levelHead := by
  unfold appendChunkList at hrun
  by_cases h1 : src = 0
  · rw [if_pos h1] at hrun; cases hrun; rfl
  by_cases h2 : dst = 0
  · rw [if_neg h1, if_pos h2] at hrun; cases hrun
  rw [if_neg h1, if_neg h2] at hrun
  simp only [Except.ok.injEq] at hrun
  subst hrun
  by_cases hl : (s.lists dst).lastChunk = 0 <;> by_cases hf : (s.lists src).firstChunk = 0 <;>
    simp [hl, hf, apply_ite HM_chunk.levelHead, apply_ite HM_chunkList.firstChunk]
  all_goals first
    | (intro h; rw [h])
    | (split_ifs <;> simp_all)

theorem findHead_of_resolves {s : State} {c R : Ptr} (h : Resolves s c R) :
    ∃ n, ∀ fuel, n ≤ fuel → HM_getLevelHead fuel s c = .ok R := by
  obtain ⟨hc, path, hp⟩ := h
  exact ⟨path.length + 1, fun fuel hf =>
    HM_getLevelHead_of_resolves s c R path fuel hc hp (by omega)⟩

theorem appendChunkList_resolves_src (s s' : State) (dst src : Ptr)
    (hdst : isLevelHead s dst) (hsrc : isLevelHead s src) (hne : dst ≠ src)
    (hrun : appendChunkList s dst src = .ok s') (c : Ptr) (h : Resolves s c src) :
    Resolves s' c dst := by
  obtain ⟨hc, path, hp⟩ := h
  refine ⟨hc, path ++ [src], ?_⟩
  rw [appendChunkList_levelHead_field s s' dst src hrun c]
  exact appendChunkList_path_src s s' dst src hdst hsrc hne hrun _ path hp

theorem appendChunkList_resolves_other (s s' : State) (dst src : Ptr)
    (hdst : isLevelHead s dst) (hsrc : isLevelHead s src) (hne : dst ≠ src)
    (hrun : appendChunkList s dst src = .ok s') (c R : Ptr) (hR : R ≠ src)
    (h : Resolves s c R) : Resolves s' c R := by
  obtain ⟨hc, path, hp⟩ := h
  refine ⟨hc, path, ?_⟩
  rw [appendChunkList_levelHead_field s s' dst src hrun c]
  exact appendChunkList_path_other s s' dst src hdst hsrc hne hrun _ R path hR hp

/-! ## Claims on the union-find structure -/

theorem threeHeads_wf1 : HeadWF threeHeads 1 [4096] := by
  refine ⟨by decide, by decide, by decide, fun c hc => ?_⟩
  obtain rfl : c = 4096 := by simpa using hc
  exact ⟨by decide, [], by decide⟩

theorem threeHeads_wf3 : HeadWF threeHeads 3 [12288, 16384] := by
  refine ⟨by decide, by decide, by decide, fun c hc => ?_⟩
  simp only [List.mem_cons, List.mem_singleton, List.not_mem_nil, or_false] at hc
  rcases hc with rfl | rfl
  · exact ⟨by decide, [], by decide⟩
  · exact ⟨by decide, [], by decide⟩


/-- C5: for two distinct well-formed level heads `dst` and `src` with chunk lists `cd` and
`cs`, after `appendChunkList(dst, src)` the node `src` has `parent = dst`, `dst` is still its
own parent, every chunk of `src`'s former chunk list is resolved by `HM_getLevelHead` to
`dst`, and the chunks of `dst`'s chunk list are still resolved to `dst`. -/
theorem appendChunkList_unionFind (s : State) (dst src : Ptr) (cd cs : List Ptr)
    (hdst : HeadWF s dst cd) (hsrc : HeadWF s src cs) (hne : dst ≠ src) :
    ∃ s', appendChunkList s dst src = .ok s' ∧ (s'.lists src).parent = dst ∧
      (s'.lists dst).parent = dst ∧
      (∀ c ∈ cs, ∃ n, ∀ fuel, n ≤ fuel → HM_getLevelHead fuel s' c = .ok dst) ∧
      (∀ c ∈ cd, ∃ n, ∀ fuel, n ≤ fuel → HM_getLevelHead fuel s' c = .ok dst) := by
  obtain ⟨hd, -, -, hrd⟩ := hdst
  obtain ⟨hs, -, -, hrs⟩ := hsrc
  obtain ⟨s', hrun, hl1, hl2, -⟩ := appendChunkList_ok s dst src hd.1 hs.1 hne
  refine ⟨s', hrun, by rw [hl2], by rw [hl1]; exact hd.2, fun c hc => ?_, fun c hc => ?_⟩
  · exact findHead_of_resolves
      (appendChunkList_resolves_src s s' dst src hd hs hne hrun c (hrs c hc))
  · exact findHead_of_resolves
      (appendChunkList_resolves_other s s' dst src hd hs hne hrun c dst hne (hrd c hc))

theorem appendChunkList_unionFind_witness :
    ∃ s', appendChunkList threeHeads 1 3 = .ok s' ∧ (s'.lists 3).parent = 1 ∧
      (s'.lists 1).parent = 1 ∧
      (∀ c ∈ [12288, 16384], ∃ n, ∀ fuel, n ≤ fuel → HM_getLevelHead fuel s' c = .ok 1) ∧
      (∀ c ∈ [4096], ∃ n, ∀ fuel, n ≤ fuel → HM_getLevelHead fuel s' c = .ok 1) :=
  appendChunkList_unionFind threeHeads 1 3 [4096] [12288, 16384] threeHeads_wf1 threeHeads_wf3
    (by decide)

/-- C6: for a chunk whose `levelHead` chain is acyclic and ends in the self-parent node `R`,
`HM_getLevelHeadPathCompress` returns `R`, the node `HM_getLevelHead` returns, and afterwards
`chunk.levelHead = R` and every node visited on the chain, and `R` itself, has `parent = R`.
In particular, after `appendChunkList(L2, L3)` then `appendChunkList(L1, L2)` on three
distinct level heads, `HM_getLevelHeadPathCompress` on a chunk that resolved to `L3` returns
`L1` and leaves `L1`, `L2` and `L3` with `parent = L1`. -/
theorem HM_getLevelHeadPathCompress_correct :
    (∀ (s : State) (c R : Ptr) (path : List Ptr) (fuel : Nat), c ≠ 0 →
      ParentPath s (s.chunks c).levelHead path R → path.length < fuel →
      ∃ s', HM_getLevelHeadPathCompress fuel s c = .ok (s', R) ∧
        HM_getLevelHead fuel s c = .ok R ∧ (s'.chunks c).levelHead = R ∧
        (∀ x ∈ path, (s'.lists x).parent = R) ∧ (s'.lists R).parent = R) ∧
    (∀ (s : State) (L1 L2 L3 c : Ptr) (path : List Ptr),
      isLevelHead s L1 → isLevelHead s L2 → isLevelHead s L3 →
      L1 ≠ L2 → L1 ≠ L3 → L2 ≠ L3 → c ≠ 0 →
      ParentPath s (s.chunks c).levelHead path L3 →
      ∃ s1 s2, appendChunkList s L2 L3 = .ok s1 ∧ appendChunkList s1 L1 L2 = .ok s2 ∧
        ∀ fuel, path.length + 2 < fuel →
          ∃ s3, HM_getLevelHeadPathCompress fuel s2 c = .ok (s3, L1) ∧
            (s3.chunks c).levelHead = L1 ∧ (s3.lists L1).parent = L1 ∧
            (s3.lists L2).parent = L1 ∧ (s3.lists L3).parent = L1) := by
  constructor
  · intro s c R path fuel hc h hf
    obtain ⟨s', hrun, hch, hin, hout⟩ := HM_getLevelHeadPathCompress_spec s c R path fuel hc h hf
    refine ⟨s', hrun, HM_getLevelHead_of_resolves s c R path fuel hc h hf, ?_, ?_, ?_⟩
    · rw [hch]; simp
    · intro x hx; rw [hin x hx]
    · rw [hout R (Path.end_not_mem h.1)]
      rcases Path.stop_end h.1 with h0 | hp
      · exact absurd h0 h.2
      · exact hp
  · intro s L1 L2 L3 c path h1 h2 h3 h12 h13 h23 hc hp
    obtain ⟨s1, hrun1, hl2, -, hother1, -⟩ := appendChunkList_ok s L2 L3 h2.1 h3.1 h23
    have h1' : isLevelHead s1 L1 := by
      refine ⟨h1.1, ?_⟩
      rw [hother1 L1 h12 h13]; exact h1.2
    have h2' : isLevelHead s1 L2 := by
      refine ⟨h2.1, ?_⟩
      rw [hl2]; exact h2.2
    obtain ⟨s2, hrun2, hl1, -⟩ := appendChunkList_ok s1 L1 L2 h1.1 h2.1 h12
    refine ⟨s1, s2, hrun1, hrun2, fun fuel hf => ?_⟩
    have hp1 := appendChunkList_path_src s s1 L2 L3 h2 h3 h23 hrun1 _ path hp
    have hp2 := appendChunkList_path_src s1 s2 L1 L2 h1' h2' h12 hrun2 _ _ hp1
    have hlh : (s2.chunks c).levelHead = (s.chunks c).levelHead := by
      rw [appendChunkList_levelHead_field s1 s2 L1 L2 hrun2 c,
        appendChunkList_levelHead_field s s1 L2 L3 hrun1 c]
    rw [← hlh] at hp2
    obtain ⟨s3, hrun3, hch, hin, hout⟩ :=
      HM_getLevelHeadPathCompress_spec s2 c L1 _ fuel hc hp2 (by simp; omega)
    refine ⟨s3, hrun3, ?_, ?_, ?_, ?_⟩
    · rw [hch]; simp
    · rw [hout L1 (Path.end_not_mem hp2.1), hl1]
      exact h1'.2
    · rw [hin L2 (by simp)]
    · rw [hin L3 (by simp)]

theorem HM_getLevelHeadPathCompress_correct_witness :
    (∃ s', HM_getLevelHeadPathCompress 3 chainedHeads 16384 = .ok (s', 1) ∧
        HM_getLevelHead 3 chainedHeads 16384 = .ok 1 ∧ (s'.chunks 16384).levelHead = 1 ∧
        (∀ x ∈ [3, 2], (s'.lists x).parent = 1) ∧ (s'.lists 1).parent = 1) ∧
    (∃ s1 s2, appendChunkList threeHeads 2 3 = .ok s1 ∧ appendChunkList s1 1 2 = .ok s2 ∧
        ∀ fuel, 2 < fuel →
          ∃ s3, HM_getLevelHeadPathCompress fuel s2 16384 = .ok (s3, 1) ∧
            (s3.chunks 16384).levelHead = 1 ∧ (s3.lists 1).parent = 1 ∧
            (s3.lists 2).parent = 1 ∧ (s3.lists 3).parent = 1) :=
  ⟨HM_getLevelHeadPathCompress_correct.1 chainedHeads 16384 1 [3, 2] 3 (by decide) (by decide)
      (by decide),
    HM_getLevelHeadPathCompress_correct.2 threeHeads 1 2 3 16384 [] (by decide) (by decide)
      (by decide) (by decide) (by decide) (by decide) (by decide) (by decide)⟩

/-! ## Frame facts -/

/-- Fields of list nodes that `appendChunkList` never writes, whatever its arguments. -/
theorem appendChunkList_frame (s s' : State) (l1 l2 : Ptr)
    (hrun : appendChunkList s l1 l2 = .ok s') (n : Ptr) :
    (s'.lists n).nextHead = (s.lists n).nextHead ∧ (s'.lists n).level = (s.lists n).level ∧
      (s'.lists n).containingHH = (s.lists n).containingHH ∧
      (s'.lists n).isInToSpace = (s.lists n).isInToSpace ∧
      (s'.lists n).toChunkList = (s.lists n).toChunkList := by
  unfold appendChunkList at hrun
  by_cases h1 : l2 = 0
  · rw [if_pos h1] at hrun; cases hrun; simp
  by_cases h2 : l1 = 0
  · rw [if_neg h1, if_pos h2] at hrun; cases hrun
  rw [if_neg h1, if_neg h2] at hrun
  simp only [Except.ok.injEq] at hrun
  subst hrun
  by_cases hl : (s.lists l1).lastChunk = 0 <;> by_cases hf : (s.lists l2).firstChunk = 0 <;>
    by_cases hn1 : n = l1 <;> by_cases hn2 : n = l2 <;> by_cases h12 : l2 = l1 <;>
    simp_all

theorem SameChunkData.refl (s : State) : SameChunkData s s :=
  ⟨rfl, fun _ => ⟨rfl, rfl, rfl, rfl, rfl, rfl, rfl⟩⟩

theorem SameChunkData.trans {s t u : State} (h1 : SameChunkData s t) (h2 : SameChunkData t u) :
    SameChunkData s u := by
  refine ⟨h2.1.trans h1.1, fun n => ?_⟩
  obtain ⟨a1, a2, a3, a4, a5, a6, a7⟩ := h1.2 n
  obtain ⟨b1, b2, b3, b4, b5, b6, b7⟩ := h2.2 n
  exact ⟨b1.trans a1, b2.trans a2, b3.trans a3, b4.trans a4, b5.trans a5, b6.trans a6,
    b7.trans a7⟩

theorem SameChunkData.setNextHead (s : State) (n v : Ptr) :
    SameChunkData s (s.setList n { s.lists n with nextHead := v }) := by
  refine ⟨rfl, fun m => ?_⟩
  by_cases h : m = n <;> simp [h]

theorem SameChunkData.setLevel (s : State) (n v : Nat) :
    SameChunkData s (s.setList n { s.lists n with level := v }) := by
  refine ⟨rfl, fun m => ?_⟩
  by_cases h : m = n <;> simp [h]

theorem SameChunkData.isLevelHead {s s' : State} (h : SameChunkData s s') {n : Ptr}
    (hn : isLevelHead s n) : isLevelHead s' n :=
  ⟨hn.1, by rw [(h.2 n).2.2.1]; exact hn.2⟩

theorem SameChunkData.parentPath {s s' : State} (h : SameChunkData s s') {n R : Ptr}
    {path : List Ptr} (hp : ParentPath s n path R) : ParentPath s' n path R := by
  refine ⟨Path.congr (fun x _ => ((h.2 x).2.2.1).symm) (fun x _ hst => ?_) (fun hst => ?_) hp.1,
    hp.2⟩
  · simpa [isRootOrNull, (h.2 x).2.2.1] using hst
  · simpa [isRootOrNull, (h.2 R).2.2.1] using hst

theorem SameChunkData.resolves {s s' : State} (h : SameChunkData s s') {c R : Ptr}
    (hr : Resolves s c R) : Resolves s' c R := by
  obtain ⟨hc, path, hp⟩ := hr
  refine ⟨hc, path, ?_⟩
  rw [h.1]
  exact h.parentPath hp

theorem SameChunkData.chunkSeq {s s' : State} (h : SameChunkData s s') {p : Ptr}
    {cs : List Ptr} (hc : ChunkSeq s p cs) : ChunkSeq s' p cs := by
  unfold ChunkSeq at *
  rw [h.1]
  exact hc

theorem SameChunkData.headWF {s s' : State} (h : SameChunkData s s') {H : Ptr}
    {cs : List Ptr} (hw : HeadWF s H cs) : HeadWF s' H cs := by
  obtain ⟨h1, h2, h3, h4⟩ := hw
  refine ⟨h.isLevelHead h1, ?_, ?_, fun c hc => h.resolves (h4 c hc)⟩
  · rw [(h.2 H).1]; exact h.chunkSeq h2
  · rw [(h.2 H).2.1]; exact h3

/-! ## Locations and the cursor loop of `HM_promoteChunks` -/

theorem locAfter_snoc : ∀ (pre : List Ptr) (cur : Loc) (l : Ptr),
    locAfter cur (pre ++ [l]) = .nextHead l
  | [], _, _ => rfl
  | _ :: pre, _, l => locAfter_snoc pre _ l

theorem locAfter_write_var : ∀ (pre : List Ptr) (a : Ptr) (s : State) (var v : Ptr),
    ((locAfter (.nextHead a) pre).write s var v).2 = var
  | [], _, _, _, _ => rfl
  | _ :: pre, _, s, var, v => locAfter_write_var pre _ s var v

theorem locAfter_write_same (pre : List Ptr) (cur : Loc) (s : State) (var v : Ptr) :
    SameChunkData s ((locAfter cur pre).write s var v).1 := by
  cases h : locAfter cur pre with
  | var => exact SameChunkData.refl s
  | nextHead n => exact SameChunkData.setNextHead s n v

theorem locAfter_write_level (pre : List Ptr) (cur : Loc) (s : State) (var v : Ptr) (n : Ptr) :
    (((locAfter cur pre).write s var v).1.lists n).level = (s.lists n).level := by
  cases h : locAfter cur pre with
  | var => rfl
  | nextHead m =>
    show ((s.setList m _).lists n).level = _
    by_cases hn : n = m <;> simp [hn]

theorem HM_promoteChunks_loop_spec (s : State) (var L : Nat) :
    ∀ (pre : List Ptr) (cur : Loc) (x : Ptr) (post : List Ptr) (fuel : Nat),
      LevelList s (cur.read s var) (pre ++ x :: post) →
      (∀ h ∈ pre, L < (s.lists h).level) → (s.lists x).level ≤ L → pre.length < fuel →
      HM_promoteChunks_loop fuel s var cur L = .ok (locAfter cur pre) ∧
        (locAfter cur pre).read s var = x
  | [], cur, x, post, fuel, hl, _, hx, hf => by
    obtain ⟨f, rfl⟩ : ∃ f, fuel = f + 1 := ⟨fuel - 1, by simp at hf; omega⟩
    have hcur : cur.read s var = x := hl.1
    have hx0 : x ≠ 0 := hl.2.1
    refine ⟨?_, hcur⟩
    unfold HM_promoteChunks_loop
    rw [hcur, if_neg hx0, if_neg (by omega)]
    rfl
  | a :: pre, cur, x, post, fuel, hl, hpre, hx, hf => by
    obtain ⟨f, rfl⟩ : ∃ f, fuel = f + 1 := ⟨fuel - 1, by simp at hf; omega⟩
    have hcur : cur.read s var = a := hl.1
    have ha0 : a ≠ 0 := hl.2.1
    have hrec := HM_promoteChunks_loop_spec s var L pre (.nextHead a) x post f hl.2.2
      (fun h hh => hpre h (List.mem_cons_of_mem _ hh)) hx (by simp at hf; omega)
    refine ⟨?_, hrec.2⟩
    unfold HM_promoteChunks_loop
    rw [hcur, if_neg ha0, if_pos (hpre a (List.mem_cons_self _ _))]
    exact hrec.1

/-- Writing `v` at the location reached after `pre` replaces what followed `pre` by the list
that starts at `v`. -/
theorem locAfter_write_path (s : State) :
    ∀ (pre : List Ptr) (cur : Loc) (var v : Ptr) (tail rest : List Ptr),
      LevelList s (cur.read s var) (pre ++ tail) → LevelList s v rest →
      (∀ x ∈ pre, x ∉ rest) → (∀ c, cur = .nextHead c → c ∉ pre ∧ c ∉ rest) →
      LevelList ((locAfter cur pre).write s var v).1
        (cur.read ((locAfter cur pre).write s var v).1 ((locAfter cur pre).write s var v).2)
        (pre ++ rest)
  | [], cur, var, v, tail, rest, _, hv, _, hcur => by
    cases cur with
    | var => exact hv
    | nextHead c =>
      have hc := (hcur c rfl).2
      show LevelList (s.setList c _) ((s.setList c _).lists c).nextHead rest
      simp only [lists_setList, if_pos]
      refine Path.congr (fun x hx => ?_) (fun _ _ h => h) (fun h => h) hv
      have : x ≠ c := fun e => hc (e ▸ hx)
      simp [this]
  | a :: pre, cur, var, v, tail, rest, hl, hv, hdis, hcur => by
    have hnd : (a :: (pre ++ tail)).Nodup := Path.nodup hl
    have ha : a ∉ pre := fun h => (List.nodup_cons.1 hnd).1 (List.mem_append_left _ h)
    have har : a ∉ rest := hdis a (List.mem_cons_self _ _)
    have hrec := locAfter_write_path s pre (.nextHead a) var v tail rest hl.2.2 hv
      (fun x hx => hdis x (List.mem_cons_of_mem _ hx))
      (fun c hc => by cases hc; exact ⟨ha, har⟩)
    have hvar := locAfter_write_var pre a s var v
    show LevelList ((locAfter (.nextHead a) pre).write s var v).1 _ (a :: (pre ++ rest))
    refine ⟨?_, hl.2.1, hrec⟩
    show cur.read ((locAfter (.nextHead a) pre).write s var v).1
      ((locAfter (.nextHead a) pre).write s var v).2 = a
    rw [hvar]
    cases cur with
    | var => exact hl.1
    | nextHead c =>
      have hc := (hcur c rfl).1
      have hca : c ≠ a := fun e => hc (by simp [e])
      have hcp : c ∉ pre := fun e => hc (List.mem_cons_of_mem _ e)
      have h0 : (s.lists c).nextHead = a := hl.1
      show (((locAfter (.nextHead a) pre).write s var v).1.lists c).nextHead = a
      clear hrec hvar
      rcases List.eq_nil_or_concat pre with rfl | ⟨pre', l, rfl⟩
      · show ((s.setList a _).lists c).nextHead = a
        simp [hca, h0]
      · rw [List.concat_eq_append, locAfter_snoc]
        have hcl : c ≠ l := fun e => hcp (by simp [e])
        show ((s.setList l _).lists c).nextHead = a
        simp [hcl, h0]

/-! ## The three outcomes of `HM_promoteChunks` -/

theorem Loc.read_write (loc : Loc) (s : State) (var v : Ptr) :
    loc.read (loc.write s var v).1 (loc.write s var v).2 = v := by
  cases loc with
  | var => rfl
  | nextHead n => simp [Loc.read, Loc.write]

theorem exists_first_le (lv : Ptr → Nat) (L : Nat) :
    ∀ (hs : List Ptr), (∃ h ∈ hs, lv h ≤ L) →
      ∃ pre x post, hs = pre ++ x :: post ∧ (∀ h ∈ pre, L < lv h) ∧ lv x ≤ L
  | [], h => by simp at h
  | a :: hs, h => by
    by_cases ha : lv a ≤ L
    · exact ⟨[], a, hs, rfl, by simp, ha⟩
    · obtain ⟨b, hb, hbl⟩ := h
      have hb' : b ∈ hs := by
        rcases List.mem_cons.1 hb with rfl | hb'
        · exact absurd hbl ha
        · exact hb'
      obtain ⟨pre, x, post, rfl, hpre, hx⟩ := exists_first_le lv L hs ⟨b, hb', hbl⟩
      refine ⟨a :: pre, x, post, rfl, ?_, hx⟩
      intro h hh
      rcases List.mem_cons.1 hh with rfl | hh
      · omega
      · exact hpre h hh

theorem LevelList.head_ne_zero {s : State} {p : Ptr} {hs : List Ptr} (h : LevelList s p hs)
    (hne : hs ≠ []) : p ≠ 0 := by
  cases hs with
  | nil => exact absurd rfl hne
  | cons a hs => rw [h.1]; exact h.2.1

/-- No head of level `level`, the first head of level at most `level` lies below it:
nothing is written. -/
theorem HM_promoteChunks_below (s : State) (p L : Nat) (pre : List Ptr) (x : Ptr)
    (post : List Ptr) (fuel : Nat) (hl : LevelList s p (pre ++ x :: post))
    (hpre : ∀ h ∈ pre, L < (s.lists h).level) (hx : (s.lists x).level < L)
    (hf : pre.length < fuel) : HM_promoteChunks fuel s p L = .ok (s, p) := by
  have hp0 : p ≠ 0 := hl.head_ne_zero (by simp)
  obtain ⟨hloop, hread⟩ := HM_promoteChunks_loop_spec s p L pre .var x post fuel hl hpre
    (by omega) hf
  have hx0 : x ≠ 0 := Path.ne_zero_of_mem hl x (by simp)
  unfold HM_promoteChunks
  rw [if_neg hp0, hloop]
  simp only [hread, if_neg hx0, if_pos hx]

/-- The head `x` of level `level` is followed by the head `y` of level `level - 1`: `x` is
taken out of the list and `appendChunkList(y, x)` runs on the store `s1` obtained by
redirecting the link that led to `x`. -/
theorem HM_promoteChunks_merge (s : State) (p L : Nat) (pre : List Ptr) (x y : Ptr)
    (post : List Ptr) (fuel : Nat) (hl : LevelList s p (pre ++ x :: y :: post))
    (hpre : ∀ h ∈ pre, L < (s.lists h).level) (hx : (s.lists x).level = L)
    (hy : (L + W64 - 1) % W64 = (s.lists y).level) (hf : pre.length < fuel) :
    ∃ s1 var1 s', SameChunkData s s1 ∧ (∀ n, (s1.lists n).level = (s.lists n).level) ∧
      LevelList s1 var1 (pre ++ y :: post) ∧ appendChunkList s1 y x = .ok s' ∧
      HM_promoteChunks fuel s p L = .ok (s', var1) ∧ LevelList s' var1 (pre ++ y :: post) := by
  have hp0 : p ≠ 0 := hl.head_ne_zero (by simp)
  obtain ⟨hloop, hread⟩ := HM_promoteChunks_loop_spec s p L pre .var x (y :: post) fuel hl hpre
    (by omega) hf
  have hx0 : x ≠ 0 := Path.ne_zero_of_mem hl x (by simp)
  have hy0 : y ≠ 0 := Path.ne_zero_of_mem hl y (by simp)
  have hnd : (pre ++ x :: y :: post).Nodup := Path.nodup hl
  have hxy : y ≠ x := by
    have := (List.nodup_append.1 hnd).2.1
    intro e
    simp [e] at this
  obtain ⟨m, hm⟩ := Path.tail_path pre hl
  have hnext : (s.lists x).nextHead = y := hm.2.2.1
  have htail : LevelList s y (y :: post) := ⟨rfl, hm.2.2.2.1, hm.2.2.2.2⟩
  have hdis : ∀ h ∈ pre, h ∉ y :: post := by
    intro h hh hmem
    exact (List.nodup_append.1 hnd).2.2 hh (List.mem_cons_of_mem _ hmem)
  have hpath := locAfter_write_path s pre .var p y (x :: y :: post) (y :: post) hl htail hdis
    (fun c hc => by cases hc)
  have hsame := locAfter_write_same pre .var s p y
  have hlev := locAfter_write_level pre .var s p y
  have hrw := Loc.read_write (locAfter .var pre) s p y
  obtain ⟨s', hrun, -⟩ := appendChunkList_ok ((locAfter .var pre).write s p y).1 y x hy0 hx0 hxy
  refine ⟨_, _, s', hsame, hlev, hpath, hrun, ?_, ?_⟩
  · unfold HM_promoteChunks
    rw [if_neg hp0, hloop]
    simp only [hread, if_neg hx0, if_neg (show ¬ (s.lists x).level < L by omega), hnext, hrw]
    rw [if_pos ⟨hy0, by rw [hlev]; exact hy⟩, hrun]
    rfl
  · exact Path.congr (fun n _ => ((appendChunkList_frame _ s' y x hrun n).1).symm)
      (fun _ _ h => h) (fun h => h) hpath

/-- The head `x` of level `level` is not followed by a head of level `level - 1`: its
`level` field is rewritten and the list keeps its shape. -/
theorem HM_promoteChunks_relevel (s : State) (p L : Nat) (pre : List Ptr) (x : Ptr)
    (post : List Ptr) (fuel : Nat) (hl : LevelList s p (pre ++ x :: post))
    (hpre : ∀ h ∈ pre, L < (s.lists h).level) (hx : (s.lists x).level = L)
    (hy : ∀ y ∈ post.head?, (L + W64 - 1) % W64 ≠ (s.lists y).level) (hf : pre.length < fuel) :
    ∃ s' var', HM_promoteChunks fuel s p L = .ok (s', var') ∧ SameChunkData s s' ∧
      LevelList s' var' (pre ++ x :: post) ∧
      (∀ n, (s'.lists n).level =
        if n = x then ((L + W64 - 1) % W64) % W32 else (s.lists n).level) := by
  have hp0 : p ≠ 0 := hl.head_ne_zero (by simp)
  obtain ⟨hloop, hread⟩ := HM_promoteChunks_loop_spec s p L pre .var x post fuel hl hpre
    (by omega) hf
  have hx0 : x ≠ 0 := Path.ne_zero_of_mem hl x (by simp)
  have hnd : (pre ++ x :: post).Nodup := Path.nodup hl
  have hxpre : x ∉ pre := fun h => (List.nodup_append.1 hnd).2.2 h (List.mem_cons_self _ _)
  have hxpost : x ∉ post := (List.nodup_cons.1 (List.nodup_append.1 hnd).2.1).1
  obtain ⟨m, hm⟩ := Path.tail_path pre hl
  have htail : LevelList s (s.lists x).nextHead post := hm.2.2
  have hdis : ∀ h ∈ pre, h ∉ post := by
    intro h hh hmem
    exact (List.nodup_append.1 hnd).2.2 hh (List.mem_cons_of_mem _ hmem)
  -- first write: `*cursor = chunkList->nextHead`
  have hpath1 := locAfter_write_path s pre .var p (s.lists x).nextHead (x :: post) post hl htail
    hdis (fun c hc => by cases hc)
  have hsame1 := locAfter_write_same pre .var s p (s.lists x).nextHead
  have hlev1 := locAfter_write_level pre .var s p (s.lists x).nextHead
  have hrw1 := Loc.read_write (locAfter .var pre) s p (s.lists x).nextHead
  generalize hw1 : (locAfter .var pre).write s p (s.lists x).nextHead = w1 at *
  obtain ⟨s1, var1⟩ := w1
  simp only at hpath1 hsame1 hlev1 hrw1
  -- the `nextHead` fields of the nodes outside `pre` are those of `s`
  have hnh1 : ∀ n, n ∉ pre → (s1.lists n).nextHead = (s.lists n).nextHead := by
    intro n hn
    rcases List.eq_nil_or_concat pre with rfl | ⟨pre', l, rfl⟩
    · simp only [locAfter, Loc.write, Prod.mk.injEq] at hw1
      rw [← hw1.1]
    · rw [List.concat_eq_append, locAfter_snoc] at hw1
      simp only [Loc.write, Prod.mk.injEq] at hw1
      rw [← hw1.1]
      have : n ≠ l := fun e => hn (by simp [e])
      simp [this]
  have hnot : ¬ ((locAfter .var pre).read s1 var1 ≠ 0 ∧
      (L + W64 - 1) % W64 = (s1.lists ((locAfter .var pre).read s1 var1)).level) := by
    rw [hrw1, hlev1]
    rintro ⟨h0, hlv⟩
    cases post with
    | nil => exact h0 htail.1
    | cons y post =>
      have : (s.lists x).nextHead = y := htail.1
      rw [this] at hlv
      exact hy y (by simp) hlv
  -- the two writes to `chunkList`
  set s2 := s1.setList x { s1.lists x with level := ((L + W64 - 1) % W64) % W32 } with hs2
  have hread2 : (locAfter .var pre).read s2 var1 = (s.lists x).nextHead := by
    rw [← hrw1]
    rcases List.eq_nil_or_concat pre with rfl | ⟨pre', l, rfl⟩
    · rfl
    · rw [List.concat_eq_append, locAfter_snoc]
      have : l ≠ x := fun e => hxpre (by simp [e])
      simp [Loc.read, hs2, this]
  set s3 := s2.setList x { s2.lists x with nextHead := (locAfter .var pre).read s2 var1 }
    with hs3
  have hnh3 : ∀ n, (s3.lists n).nextHead = (s1.lists n).nextHead := by
    intro n
    by_cases hn : n = x
    · subst hn
      rw [hnh1 n hxpre]
      simp [hs3, hread2]
    · simp [hs3, hs2, hn]
  have hpath3 : LevelList s3 var1 (pre ++ post) :=
    Path.congr (fun n _ => (hnh3 n).symm) (fun _ _ h => h) (fun h => h) hpath1
  have htail3 : LevelList s3 x (x :: post) := by
    refine ⟨rfl, hx0, ?_⟩
    refine Path.congr (fun n hn => ?_) (fun _ _ h => h) (fun h => h)
      (show Path (fun n => (s.lists n).nextHead) (fun n => n = 0) ((s3.lists x).nextHead) post 0
        from ?_)
    · show (s.lists n).nextHead = (s3.lists n).nextHead
      rw [hnh3 n, hnh1 n (fun h => hdis n h hn)]
    · rw [hnh3 x, hnh1 x hxpre]
      exact htail
  -- second write: `*cursor = chunkList`
  have hpath4 := locAfter_write_path s3 pre .var var1 x post (x :: post) hpath3 htail3
    (fun h hh hmem => by
      rcases List.mem_cons.1 hmem with rfl | hmem
      · exact hxpre hh
      · exact hdis h hh hmem)
    (fun c hc => by cases hc)
  have hsame4 := locAfter_write_same pre .var s3 var1 x
  have hlev4 := locAfter_write_level pre .var s3 var1 x
  have hsame3 : SameChunkData s s3 :=
    (hsame1.trans (SameChunkData.setLevel s1 x _)).trans (SameChunkData.setNextHead s2 x _)
  refine ⟨((locAfter .var pre).write s3 var1 x).1, ((locAfter .var pre).write s3 var1 x).2,
    ?_, hsame3.trans hsame4, hpath4, ?_⟩
  · unfold HM_promoteChunks
    rw [if_neg hp0, hloop]
    simp only [hread, if_neg hx0, if_neg (show ¬ (s.lists x).level < L by omega), hw1]
    rw [if_neg hnot]
  · intro n
    rw [hlev4]
    by_cases hn : n = x
    · simp [hs3, hs2, hn]
    · simp [hs3, hs2, hn, hlev1]

/-! ## `appendChunkList` on well-formed heads -/

theorem appendChunkList_chunk_other (s s' : State) (l1 l2 : Ptr)
    (hrun : appendChunkList s l1 l2 = .ok s') (c : Ptr)
    (h1 : c ≠ (s.lists l1).lastChunk) (h2 : c ≠ (s.lists l2).firstChunk) :
    s'.chunks c = s.chunks c := by
  unfold appendChunkList at hrun
  by_cases hl2 : l2 = 0
  · rw [if_pos hl2] at hrun; cases hrun; rfl
  by_cases hl1 : l1 = 0
  · rw [if_neg hl2, if_pos hl1] at hrun; cases hrun
  rw [if_neg hl2, if_neg hl1] at hrun
  simp only [Except.ok.injEq] at hrun
  subst hrun
  by_cases hl : (s.lists l1).lastChunk = 0 <;> by_cases hf : (s.lists l2).firstChunk = 0 <;>
    by_cases h12 : l2 = l1 <;> simp_all

theorem Resolves.unique {s : State} {c R R' : Ptr} (h : Resolves s c R) (h' : Resolves s c R') :
    R = R' := by
  obtain ⟨-, p, hp⟩ := h
  obtain ⟨-, p', hp'⟩ := h'
  exact (Path.det hp.1 hp'.1).2

theorem HeadWF.disjoint {s : State} {H H' : Ptr} {cs cs' : List Ptr} (h : HeadWF s H cs)
    (h' : HeadWF s H' cs') (hne : H ≠ H') : ∀ c ∈ cs, c ∉ cs' :=
  fun c hc hc' => hne ((h.2.2.2 c hc).unique (h'.2.2.2 c hc'))

theorem lastOf_mem {cs : List Ptr} (h : cs ≠ []) : lastOf cs ∈ cs := by
  rcases List.eq_nil_or_concat cs with rfl | ⟨xs, l, rfl⟩
  · exact absurd rfl h
  · simp [lastOf]

theorem lastOf_snoc (xs : List Ptr) (l : Ptr) : lastOf (xs ++ [l]) = l := by
  simp [lastOf]

theorem ChunkSeq.first_mem {s : State} {p : Ptr} {cs : List Ptr} (h : ChunkSeq s p cs)
    (hp : p ≠ 0) : p ∈ cs := by
  cases cs with
  | nil => exact absurd h.1 hp
  | cons a cs => rw [h.1]; exact List.mem_cons_self _ _

/-- The chunk list of `dst` after `appendChunkList(dst, src)` is that of `dst` followed by
that of `src`, and all of these chunks resolve to `dst`. -/
theorem appendChunkList_chunkSeq (s s' : State) (dst src : Ptr) (cd cs : List Ptr)
    (hdst : HeadWF s dst cd) (hsrc : HeadWF s src cs) (hne : dst ≠ src)
    (hrun : appendChunkList s dst src = .ok s') :
    ChunkSeq s' (s'.lists dst).firstChunk (cd ++ cs) ∧ (∀ c ∈ cd ++ cs, Resolves s' c dst) ∧
      isLevelHead s' dst ∧
      (s'.lists dst).size = ((s.lists dst).size + (s.lists src).size) % W64 ∧
      (s'.lists src).parent = dst := by
  obtain ⟨t, ht, hl1, hl2, -, hnext, -, -⟩ := appendChunkList_ok s dst src hdst.1.1 hsrc.1.1 hne
  rw [hrun] at ht
  cases ht
  have hdis := hdst.disjoint hsrc hne
  refine ⟨?_, ?_, ⟨hdst.1.1, by rw [hl1]; exact hdst.1.2⟩, by rw [hl1], by rw [hl2]⟩
  · rcases List.eq_nil_or_concat cd with rfl | ⟨xs, l, rfl⟩
    · have hlast : (s.lists dst).lastChunk = 0 := hdst.2.2.1
      rw [hl1]
      simp only [hlast, if_true, List.nil_append]
      refine Path.congr (fun c hc => ?_) (fun _ _ h => h) (fun h => h) hsrc.2.1
      show (s.chunks c).nextChunk = (s'.chunks c).nextChunk
      rw [hnext c, if_neg]
      rintro ⟨e, h0⟩
      exact h0 (e.trans hlast)
    · rw [List.concat_eq_append] at hdst hdis ⊢
      have hlast : (s.lists dst).lastChunk = l := by rw [hdst.2.2.1, lastOf_snoc]
      have hl0 : l ≠ 0 := Path.ne_zero_of_mem hdst.2.1 l (by simp)
      have hnd : (xs ++ [l]).Nodup := Path.nodup hdst.2.1
      have hlxs : l ∉ xs := fun h => by
        have := List.disjoint_of_nodup_append hnd h
        simp at this
      rw [hl1]
      simp only [hlast, if_neg hl0, List.append_assoc, List.singleton_append]
      refine Path.append_chain xs hdst.2.1 (fun x hx => ?_) ?_
      · show (s'.chunks x).nextChunk = (s.chunks x).nextChunk
        rw [hnext x, if_neg]
        rintro ⟨e, -⟩
        exact hlxs (by rw [← hlast, ← e]; exact hx)
      · have hl' : (s'.chunks l).nextChunk = (s.lists src).firstChunk := by
          rw [hnext l, if_pos ⟨hlast.symm, hl0⟩]
        show Path _ _ (s'.chunks l).nextChunk cs 0
        rw [hl']
        refine Path.congr (fun c hc => ?_) (fun _ _ h => h) (fun h => h) hsrc.2.1
        show (s.chunks c).nextChunk = (s'.chunks c).nextChunk
        rw [hnext c, if_neg]
        rintro ⟨e, -⟩
        exact hdis l (by simp) (by rw [← hlast, ← e]; exact hc)
  · intro c hc
    rcases List.mem_append.1 hc with hc | hc
    · exact appendChunkList_resolves_other s s' dst src hdst.1 hsrc.1 hne hrun c dst hne
        (hdst.2.2.2 c hc)
    · exact appendChunkList_resolves_src s s' dst src hdst.1 hsrc.1 hne hrun c (hsrc.2.2.2 c hc)

/-- A well-formed head other than the two arguments of `appendChunkList` keeps its fields,
its chunk list and the contents of its chunks. -/
theorem appendChunkList_headWF_other (s s' : State) (dst src : Ptr) (cd cs : List Ptr)
    (hdst : HeadWF s dst cd) (hsrc : HeadWF s src cs) (hne : dst ≠ src)
    (hrun : appendChunkList s dst src = .ok s') (h : Ptr) (ch : List Ptr)
    (hh : HeadWF s h ch) (hd : h ≠ dst) (hs : h ≠ src) :
    HeadWF s' h ch ∧ s'.lists h = s.lists h ∧ ∀ c ∈ ch, s'.chunks c = s.chunks c := by
  obtain ⟨t, ht, -, -, hother, -⟩ := appendChunkList_ok s dst src hdst.1.1 hsrc.1.1 hne
  rw [hrun] at ht
  cases ht
  have hch : ∀ c ∈ ch, s'.chunks c = s.chunks c := by
    intro c hc
    have hc0 : c ≠ 0 := Path.ne_zero_of_mem hh.2.1 c hc
    refine appendChunkList_chunk_other s s' dst src hrun c (fun e => ?_) (fun e => ?_)
    · by_cases hcd : cd = []
      · rw [hdst.2.2.1, hcd] at e
        exact hc0 e
      · have := lastOf_mem hcd
        rw [← hdst.2.2.1, ← e] at this
        exact hh.disjoint hdst hd c hc this
    · have := hsrc.2.1.first_mem (e ▸ hc0)
      rw [← e] at this
      exact hh.disjoint hsrc hs c hc this
  have hl := hother h hd hs
  refine ⟨⟨⟨hh.1.1, by rw [hl]; exact hh.1.2⟩, ?_, by rw [hl]; exact hh.2.2.1, fun c hc => ?_⟩,
    hl, hch⟩
  · rw [hl]
    exact Path.congr (fun c hc => by rw [hch c hc]) (fun _ _ h => h) (fun h => h) hh.2.1
  · exact appendChunkList_resolves_other s s' dst src hdst.1 hsrc.1 hne hrun c h hs
      (hh.2.2.2 c hc)

/-! ## Claims on `HM_promoteChunks` -/

theorem chunkList_eq_upto_nextHead (a b : HM_chunkList) (h1 : a.firstChunk = b.firstChunk)
    (h2 : a.lastChunk = b.lastChunk) (h3 : a.parent = b.parent) (h4 : a.size = b.size)
    (h5 : a.containingHH = b.containingHH) (h6 : a.isInToSpace = b.isInToSpace)
    (h7 : a.toChunkList = b.toChunkList) (h8 : a.level = b.level) :
    a = { b with nextHead := a.nextHead } := by
  cases a; cases b; simp_all

theorem heapS2_wf1 : HeadWF heapS2 1 [4096] := by
  refine ⟨by decide, by decide, by decide, fun c hc => ?_⟩
  obtain rfl : c = 4096 := by simpa using hc
  exact ⟨by decide, [], by decide⟩

theorem heapS2_wf2 : HeadWF heapS2 2 [8192] := by
  refine ⟨by decide, by decide, by decide, fun c hc => ?_⟩
  obtain rfl : c = 8192 := by simpa using hc
  exact ⟨by decide, [], by decide⟩

/-- C7: in a strictly descending level list with a head `x` of level `L` directly followed by
the head `y` of level `L - 1`, both well-formed with chunk lists `cx` and `cy`,
`HM_promoteChunks(list, L)` returns; `x` is no longer in the list and the other heads keep
their order; `y` stays a level head of level `L - 1` whose chunk sequence is `cy` followed
by `cx` and whose size is the sum of the two sizes (computed in 64 bits); every other
well-formed head keeps all its fields except possibly `nextHead`, its chunk list and the
contents of its chunks. -/
theorem HM_promoteChunks_concatenates (s : State) (p L : Nat) (pre : List Ptr) (x y : Ptr)
    (post cx cy : List Ptr) (fuel : Nat)
    (hl : LevelList s p (pre ++ x :: y :: post)) (hdesc : Descending s (pre ++ x :: y :: post))
    (hx : (s.lists x).level = L) (hy : (s.lists y).level + 1 = L) (hL : L < W64)
    (hwx : HeadWF s x cx) (hwy : HeadWF s y cy) (hf : pre.length < fuel) :
    ∃ s' p', HM_promoteChunks fuel s p L = .ok (s', p') ∧
      LevelList s' p' (pre ++ y :: post) ∧ x ∉ pre ++ y :: post ∧
      isLevelHead s' y ∧ (s'.lists y).level = (s.lists y).level ∧
      ChunkSeq s' (s'.lists y).firstChunk (cy ++ cx) ∧
      (s'.lists y).size = ((s.lists y).size + (s.lists x).size) % W64 ∧
      ((s.lists y).size + (s.lists x).size < W64 →
        (s'.lists y).size = (s.lists y).size + (s.lists x).size) ∧
      (∀ h ch, h ≠ x → h ≠ y → HeadWF s h ch →
        HeadWF s' h ch ∧ s'.lists h = { s.lists h with nextHead := (s'.lists h).nextHead } ∧
          ∀ c ∈ ch, s'.chunks c = s.chunks c) := by
  have hpre : ∀ h ∈ pre, L < (s.lists h).level := by
    intro h hh
    have := (List.pairwise_append.1 hdesc).2.2 h hh x (List.mem_cons_self _ _)
    omega
  have hy' : (L + W64 - 1) % W64 = (s.lists y).level := by
    unfold W64 at *
    omega
  obtain ⟨s1, var1, s', hsame, hlev, -, hrun, hprom, hlist⟩ :=
    HM_promoteChunks_merge s p L pre x y post fuel hl hpre hx hy' hf
  have hnd : (pre ++ x :: y :: post).Nodup := Path.nodup hl
  have hxy : y ≠ x := by
    have := (List.nodup_append.1 hnd).2.1
    intro e
    simp [e] at this
  have hwx1 := hsame.headWF hwx
  have hwy1 := hsame.headWF hwy
  obtain ⟨hseq, -, hhead, hsize, -⟩ := appendChunkList_chunkSeq s1 s' y x cy cx hwy1 hwx1 hxy hrun
  have hsz : (s'.lists y).size = ((s.lists y).size + (s.lists x).size) % W64 := by
    rw [hsize, (hsame.2 y).2.2.2.1, (hsame.2 x).2.2.2.1]
  refine ⟨s', var1, hprom, hlist, ?_, hhead, ?_, hseq, hsz, fun hlt => ?_, ?_⟩
  · intro hmem
    have h1 : x ∉ pre := fun h =>
      (List.nodup_append.1 hnd).2.2 h (List.mem_cons_self _ _)
    have h2 : x ∉ y :: post := (List.nodup_cons.1 (List.nodup_append.1 hnd).2.1).1
    rcases List.mem_append.1 hmem with h | h
    · exact h1 h
    · exact h2 h
  · rw [(appendChunkList_frame s1 s' y x hrun y).2.1, hlev]
  · rw [hsz, Nat.mod_eq_of_lt hlt]
  · intro h ch hhx hhy hwh
    obtain ⟨hw', hl', hc'⟩ := appendChunkList_headWF_other s1 s' y x cy cx hwy1 hwx1 hxy hrun h ch
      (hsame.headWF hwh) hhy hhx
    refine ⟨hw', ?_, fun c hc => ?_⟩
    · obtain ⟨a1, a2, a3, a4, a5, a6, a7⟩ := hsame.2 h
      refine chunkList_eq_upto_nextHead _ _ ?_ ?_ ?_ ?_ ?_ ?_ ?_ ?_ <;> rw [hl']
      · exact a1
      · exact a2
      · exact a3
      · exact a4
      · exact a5
      · exact a6
      · exact a7
      · exact hlev h
    · rw [hc' c hc, hsame.1]

theorem HM_promoteChunks_concatenates_witness :
    ∃ s' p', HM_promoteChunks 1 heapS2 1 3 = .ok (s', p') ∧
      LevelList s' p' ([] ++ 2 :: [3]) ∧ 1 ∉ [] ++ 2 :: [3] ∧
      isLevelHead s' 2 ∧ (s'.lists 2).level = (heapS2.lists 2).level ∧
      ChunkSeq s' (s'.lists 2).firstChunk ([8192] ++ [4096]) ∧
      (s'.lists 2).size = ((heapS2.lists 2).size + (heapS2.lists 1).size) % W64 ∧
      ((heapS2.lists 2).size + (heapS2.lists 1).size < W64 →
        (s'.lists 2).size = (heapS2.lists 2).size + (heapS2.lists 1).size) ∧
      (∀ h ch, h ≠ 1 → h ≠ 2 → HeadWF heapS2 h ch →
        HeadWF s' h ch ∧ s'.lists h = { heapS2.lists h with nextHead := (s'.lists h).nextHead } ∧
          ∀ c ∈ ch, s'.chunks c = heapS2.chunks c) :=
  HM_promoteChunks_concatenates heapS2 1 3 [] 1 2 [3] [4096] [8192] 1 (by decide) (by decide)
    (by decide) (by decide) (by decide) heapS2_wf1 heapS2_wf2 (by decide)

/-- C8, amended: when the list has no head of level `L` but has a head of a level below `L`,
`HM_promoteChunks(list, L)` returns and leaves the list variable and the whole store
unchanged. -/
theorem HM_promoteChunks_noop (s : State) (p L : Nat) (hs : List Ptr) (fuel : Nat)
    (hl : LevelList s p hs) (hno : ∀ h ∈ hs, (s.lists h).level ≠ L)
    (hlow : ∃ h ∈ hs, (s.lists h).level < L) (hf : hs.length < fuel) :
    HM_promoteChunks fuel s p L = .ok (s, p) := by
  obtain ⟨h, hh, hlt⟩ := hlow
  obtain ⟨pre, x, post, rfl, hpre, hx⟩ :=
    exists_first_le (fun n => (s.lists n).level) L hs ⟨h, hh, le_of_lt hlt⟩
  have hx' : (s.lists x).level ≤ L := hx
  have hxL : (s.lists x).level < L := by
    have := hno x (by simp)
    omega
  exact HM_promoteChunks_below s p L pre x post fuel hl hpre hxL (by simp at hf; omega)

theorem HM_promoteChunks_noop_witness :
    LevelList heapS2 1 [1, 2, 3] ∧ HM_promoteChunks 4 heapS2 1 1 = .ok (heapS2, 1) :=
  ⟨by decide, HM_promoteChunks_noop heapS2 1 1 [1, 2, 3] 4 (by decide) (by decide) (by decide)
    (by decide)⟩

/-- C8 as stated fails: the list that consists of the single head `1` of level `4` has no
head of level `2`, and `HM_promoteChunks(list, 2)` never returns: with `ASSERT` off the
cursor loop runs past the last head and dereferences `NULL`. -/
theorem HM_promoteChunks_noop_counterexample :
    LevelList threeHeads 1 [1] ∧ (∀ h ∈ [1], (threeHeads.lists h).level ≠ 2) ∧
      (∀ h ∈ [1], 2 < (threeHeads.lists h).level) ∧
      (∀ fuel, HM_promoteChunks (fuel + 2) threeHeads 1 2 = .error .nullDeref) ∧
      ∀ fuel r, HM_promoteChunks fuel threeHeads 1 2 ≠ .ok r := by
  refine ⟨by decide, by decide, by decide, fun fuel => rfl, fun fuel r => ?_⟩
  intro h
  have h2 : ∀ n, HM_promoteChunks (n + 2) threeHeads 1 2 = .error .nullDeref := fun _ => rfl
  match fuel, h with
  | 0, h => cases h
  | 1, h => cases h
  | n + 2, h => rw [h2 n] at h; cases h

/-- C9 fails at level `0`: on the strictly descending list of heads `1`, `2`, `3` with
levels `3`, `2`, `0`, the call `HM_promoteChunks(list, 0)` returns, keeps the three heads in
the list in the same order, and stores `(Word32)(0 - 1) = 4294967295` as the level of the
last head, so the list is no longer strictly descending. -/
theorem HM_promoteChunks_level_zero :
    LevelList heapS2 1 [1, 2, 3] ∧ Descending heapS2 [1, 2, 3] ∧
      ∀ fuel, ∃ s', HM_promoteChunks (fuel + 3) heapS2 1 0 = .ok (s', 1) ∧
        LevelList s' 1 [1, 2, 3] ∧ (s'.lists 3).level = 4294967295 ∧
        ¬ Descending s' [1, 2, 3] := by
  refine ⟨by decide, by decide, fun fuel => ⟨_, rfl, by decide, by decide, by decide⟩⟩

/-- For a level `L` with `1 ≤ L < 2^32` and a strictly descending list that has a head of
level at most `L`, `HM_promoteChunks(list, L)` returns and the list is again strictly
descending. -/
theorem HM_promoteChunks_descending (s : State) (p L : Nat) (hs : List Ptr) (fuel : Nat)
    (hl : LevelList s p hs) (hd : Descending s hs) (hL1 : 1 ≤ L) (hL : L < W32)
    (hex : ∃ h ∈ hs, (s.lists h).level ≤ L) (hf : hs.length < fuel) :
    ∃ s' p' hs', HM_promoteChunks fuel s p L = .ok (s', p') ∧ LevelList s' p' hs' ∧
      Descending s' hs' := by
  obtain ⟨pre, x, post, rfl, hpre, hx⟩ := exists_first_le (fun n => (s.lists n).level) L hs hex
  have hx' : (s.lists x).level ≤ L := hx
  have hfp : pre.length < fuel := by simp at hf; omega
  rcases Nat.lt_or_eq_of_le hx' with hlt | heq
  · exact ⟨s, p, _, HM_promoteChunks_below s p L pre x post fuel hl hpre hlt hfp, hl, hd⟩
  have hsub : (L + W64 - 1) % W64 = L - 1 := by
    unfold W64 W32 at *
    omega
  have hpost : ∀ h ∈ post, (s.lists h).level < L := by
    intro h hh
    have := (List.pairwise_cons.1 (List.pairwise_append.1 hd).2.1).1 h hh
    omega
  by_cases hm : ∃ y post', post = y :: post' ∧ (s.lists y).level = L - 1
  · obtain ⟨y, post', rfl, hy⟩ := hm
    obtain ⟨s1, var1, s', -, hlev, -, hrun, hprom, hlist⟩ :=
      HM_promoteChunks_merge s p L pre x y post' fuel hl hpre heq (by rw [hsub, hy]) hfp
    refine ⟨s', var1, _, hprom, hlist, ?_⟩
    have hsubl : List.Sublist (pre ++ y :: post') (pre ++ x :: y :: post') :=
      List.Sublist.append_left (List.sublist_cons_self x (y :: post')) pre
    have hd' : Descending s (pre ++ y :: post') := List.Pairwise.sublist hsubl hd
    refine List.Pairwise.imp_of_mem (fun {a b} _ _ hab => ?_) hd'
    rw [(appendChunkList_frame s1 s' y x hrun a).2.1, (appendChunkList_frame s1 s' y x hrun b).2.1,
      hlev, hlev]
    exact hab
  · have hy : ∀ y ∈ post.head?, (L + W64 - 1) % W64 ≠ (s.lists y).level := by
      intro y hyh e
      cases post with
      | nil => simp at hyh
      | cons z post' =>
        simp only [List.head?_cons, Option.mem_def, Option.some.injEq] at hyh
        subst hyh
        exact hm ⟨z, post', rfl, by rw [← e, hsub]⟩
    obtain ⟨s', var', hprom, -, hlist, hlev⟩ :=
      HM_promoteChunks_relevel s p L pre x post fuel hl hpre heq hy hfp
    refine ⟨s', var', _, hprom, hlist, ?_⟩
    have hnew : ((L + W64 - 1) % W64) % W32 = L - 1 := by
      rw [hsub]
      unfold W32 at *
      omega
    have hnd : (pre ++ x :: post).Nodup := Path.nodup hl
    have hxpre : x ∉ pre := fun h => (List.nodup_append.1 hnd).2.2 h (List.mem_cons_self _ _)
    have hxpost : x ∉ post := (List.nodup_cons.1 (List.nodup_append.1 hnd).2.1).1
    have hlpre : ∀ h ∈ pre, (s'.lists h).level = (s.lists h).level := fun h hh => by
      have hne : h ≠ x := fun e => hxpre (e ▸ hh)
      rw [hlev, if_neg hne]
    have hlpost : ∀ h ∈ post, (s'.lists h).level = (s.lists h).level := fun h hh => by
      have hne : h ≠ x := fun e => hxpost (e ▸ hh)
      rw [hlev, if_neg hne]
    have hlx : (s'.lists x).level = L - 1 := by rw [hlev, if_pos rfl, hnew]
    have hpost' : ∀ h ∈ post, (s.lists h).level < L - 1 := by
      intro h hh
      cases post with
      | nil => simp at hh
      | cons z post' =>
        have hz : (s.lists z).level < L := hpost z (List.mem_cons_self _ _)
        have hz' : (s.lists z).level ≠ L - 1 := fun e => hy z (by simp) (by rw [hsub, e])
        rcases List.mem_cons.1 hh with rfl | hh'
        · omega
        · have hdz := (List.pairwise_cons.1 (List.pairwise_append.1 hd).2.1).2
          have := (List.pairwise_cons.1 hdz).1 h hh'
          omega
    obtain ⟨hd1, hd2, hd3⟩ := List.pairwise_append.1 hd
    obtain ⟨-, hd4⟩ := List.pairwise_cons.1 hd2
    refine List.pairwise_append.2 ⟨?_, List.pairwise_cons.2 ⟨?_, ?_⟩, ?_⟩
    · refine List.Pairwise.imp_of_mem (fun {a b} ha hb hab => ?_) hd1
      rw [hlpre a ha, hlpre b hb]; exact hab
    · intro h hh
      rw [hlpost h hh, hlx]
      exact hpost' h hh
    · refine List.Pairwise.imp_of_mem (fun {a b} ha hb hab => ?_) hd4
      rw [hlpost a ha, hlpost b hb]; exact hab
    · intro a ha b hb
      rw [hlpre a ha]
      have hpa := hpre a ha
      rcases List.mem_cons.1 hb with rfl | hb
      · rw [hlx]; omega
      · rw [hlpost b hb]
        have := hpost b hb
        omega

theorem HM_promoteChunks_descending_witness :
    ∃ s' p' hs', HM_promoteChunks 4 heapS2 1 2 = .ok (s', p') ∧ LevelList s' p' hs' ∧
      Descending s' hs' :=
  HM_promoteChunks_descending heapS2 1 2 [1, 2, 3] 4 (by decide) (by decide) (by decide)
    (by decide) (by decide) (by decide)

/-! ## Auxiliary loops of `HM_mergeLevelList` -/

theorem SameChunkLinks.refl_links (s : State) : SameChunkLinks s s :=
  ⟨rfl, fun _ => ⟨rfl, rfl, rfl, rfl⟩⟩

theorem SameChunkLinks.symm {s t : State} (h : SameChunkLinks s t) : SameChunkLinks t s :=
  ⟨h.1.symm, fun n => ⟨(h.2 n).1.symm, (h.2 n).2.1.symm, (h.2 n).2.2.1.symm,
    (h.2 n).2.2.2.symm⟩⟩

theorem SameChunkLinks.trans_links {s t u : State} (h1 : SameChunkLinks s t)
    (h2 : SameChunkLinks t u) : SameChunkLinks s u := by
  refine ⟨h2.1.trans h1.1, fun n => ?_⟩
  obtain ⟨a1, a2, a3, a4⟩ := h1.2 n
  obtain ⟨b1, b2, b3, b4⟩ := h2.2 n
  exact ⟨b1.trans a1, b2.trans a2, b3.trans a3, b4.trans a4⟩

theorem SameChunkData.links {s t : State} (h : SameChunkData s t) : SameChunkLinks s t :=
  ⟨h.1, fun n => ⟨(h.2 n).1, (h.2 n).2.1, (h.2 n).2.2.1, (h.2 n).2.2.2.1⟩⟩

theorem SameChunkLinks.setContainingHH (s : State) (n v : Ptr) :
    SameChunkLinks s (s.setList n { s.lists n with containingHH := v }) := by
  refine ⟨rfl, fun m => ?_⟩
  by_cases h : m = n <;> simp [h]

theorem SameChunkLinks.setIsInToSpace (s : State) (n : Ptr) (v : Bool) :
    SameChunkLinks s (s.setList n { s.lists n with isInToSpace := v }) := by
  refine ⟨rfl, fun m => ?_⟩
  by_cases h : m = n <;> simp [h]

theorem SameChunkLinks.write (loc : Loc) (s : State) (var v : Ptr) :
    SameChunkLinks s (loc.write s var v).1 := by
  cases loc with
  | var => exact SameChunkLinks.refl_links s
  | nextHead n => exact (SameChunkData.setNextHead s n v).links

/-- `appendChunkList` reads and writes only the chunks and the `firstChunk`, `lastChunk`,
`parent` and `size` fields. -/
theorem appendChunkList_congr {s u s' : State} (h : SameChunkLinks s u) (x y : Ptr)
    (hrun : appendChunkList s x y = .ok s') :
    ∃ u', appendChunkList u x y = .ok u' ∧ SameChunkLinks s' u' := by
  obtain ⟨hch, hf⟩ := h
  unfold appendChunkList at hrun ⊢
  by_cases hy : y = 0
  · rw [if_pos hy] at hrun ⊢
    cases hrun
    exact ⟨u, rfl, hch, hf⟩
  by_cases hx : x = 0
  · rw [if_neg hy, if_pos hx] at hrun; cases hrun
  rw [if_neg hy, if_neg hx] at hrun ⊢
  simp only [Except.ok.injEq] at hrun
  subst hrun
  refine ⟨_, rfl, ?_, ?_⟩
  · funext c
    have e1 := (hf x).2.1
    have e2 := (hf y).1
    by_cases hl : (s.lists x).lastChunk = 0 <;> by_cases hfc : (s.lists y).firstChunk = 0 <;>
      by_cases hxy : y = x <;> simp_all
  · intro n
    have e1 := hf x
    have e2 := hf y
    have e3 := hf n
    by_cases hl : (s.lists x).lastChunk = 0 <;> by_cases hfc : (s.lists y).firstChunk = 0 <;>
      by_cases hxy : y = x <;> by_cases hnx : n = x <;> by_cases hny : n = y <;> simp_all

theorem appendPairs_congr : ∀ (ps : List (Ptr × Ptr)) {s u t : State}, SameChunkLinks s u →
    appendPairs s ps = .ok t → ∃ t', appendPairs u ps = .ok t' ∧ SameChunkLinks t t'
  | [], s, u, t, h, hrun => by
    cases hrun
    exact ⟨u, rfl, h⟩
  | (x, y) :: ps, s, u, t, h, hrun => by
    unfold appendPairs at hrun ⊢
    cases h1 : appendChunkList s x y with
    | error e => rw [h1] at hrun; cases hrun
    | ok s1 =>
      rw [h1] at hrun
      obtain ⟨u1, hu1, hsame⟩ := appendChunkList_congr h x y h1
      rw [hu1]
      exact appendPairs_congr ps hsame hrun

theorem setContainingHH_loop_spec (hh : Ptr) :
    ∀ (hs : List Ptr) (s : State) (p : Ptr) (fuel : Nat), LevelList s p hs → hs.length < fuel →
      ∃ s', setContainingHH_loop fuel s p hh = .ok s' ∧ s'.chunks = s.chunks ∧
        ∀ n, s'.lists n =
          if n ∈ hs then { s.lists n with containingHH := hh } else s.lists n
  | [], s, p, fuel, hl, hf => by
    obtain ⟨f, rfl⟩ : ∃ f, fuel = f + 1 := ⟨fuel - 1, by simp at hf; omega⟩
    have hp : p = 0 := hl.1
    refine ⟨s, ?_, rfl, fun n => by simp⟩
    unfold setContainingHH_loop
    simp [hp]
  | a :: hs, s, p, fuel, hl, hf => by
    obtain ⟨f, rfl⟩ : ∃ f, fuel = f + 1 := ⟨fuel - 1, by simp at hf; omega⟩
    have hp : p = a := hl.1
    have ha0 : a ≠ 0 := hl.2.1
    have hnd : a ∉ hs := (List.nodup_cons.1 (Path.nodup hl)).1
    subst hp
    have hl1 : LevelList (s.setList p { s.lists p with containingHH := hh })
        ((s.setList p { s.lists p with containingHH := hh }).lists p).nextHead hs := by
      have e : ((s.setList p { s.lists p with containingHH := hh }).lists p).nextHead =
          (s.lists p).nextHead := by simp
      rw [e]
      refine Path.congr (fun n hn => ?_) (fun _ _ h => h) (fun h => h) hl.2.2
      by_cases hnp : n = p <;> simp [hnp]
    obtain ⟨s', hrun, hch, hlists⟩ :=
      setContainingHH_loop_spec hh hs _ _ f hl1 (by simp at hf; omega)
    refine ⟨s', ?_, by rw [hch]; rfl, fun n => ?_⟩
    · unfold setContainingHH_loop
      rw [if_pos ha0]
      exact hrun
    · rw [hlists n]
      by_cases hnp : n = p
      · subst hnp
        simp [hnd]
      · simp [hnp]

theorem resetToFromSpace_loop_spec :
    ∀ (hs : List Ptr) (s : State) (p : Ptr) (fuel : Nat), LevelList s p hs → hs.length < fuel →
      ∃ s', resetToFromSpace_loop fuel s p = .ok s' ∧ s'.chunks = s.chunks ∧
        ∀ n, s'.lists n =
          if n ∈ hs then { s.lists n with isInToSpace := false } else s.lists n
  | [], s, p, fuel, hl, hf => by
    obtain ⟨f, rfl⟩ : ∃ f, fuel = f + 1 := ⟨fuel - 1, by simp at hf; omega⟩
    have hp : p = 0 := hl.1
    refine ⟨s, ?_, rfl, fun n => by simp⟩
    unfold resetToFromSpace_loop
    simp [hp]
  | a :: hs, s, p, fuel, hl, hf => by
    obtain ⟨f, rfl⟩ : ∃ f, fuel = f + 1 := ⟨fuel - 1, by simp at hf; omega⟩
    have hp : p = a := hl.1
    have ha0 : a ≠ 0 := hl.2.1
    have hnd : a ∉ hs := (List.nodup_cons.1 (Path.nodup hl)).1
    subst hp
    have hl1 : LevelList (s.setList p { s.lists p with isInToSpace := false })
        ((s.setList p { s.lists p with isInToSpace := false }).lists p).nextHead hs := by
      have e : ((s.setList p { s.lists p with isInToSpace := false }).lists p).nextHead =
          (s.lists p).nextHead := by simp
      rw [e]
      refine Path.congr (fun n hn => ?_) (fun _ _ h => h) (fun h => h) hl.2.2
      by_cases hnp : n = p <;> simp [hnp]
    obtain ⟨s', hrun, hch, hlists⟩ :=
      resetToFromSpace_loop_spec hs _ _ f hl1 (by simp at hf; omega)
    refine ⟨s', ?_, by rw [hch]; rfl, fun n => ?_⟩
    · unfold resetToFromSpace_loop
      rw [if_pos ha0]
      exact hrun
    · rw [hlists n]
      by_cases hnp : n = p
      · subst hnp
        simp [hnd]
      · simp [hnp]

/-! ## One iteration of the merge loop -/

theorem emitHead_facts (hh : Ptr) (s : State) (nl : Ptr) (prev : Loc) (e : Ptr)
    (hprev : ∀ c, prev = .nextHead c → c ≠ e) :
    prev.read (emitHead hh s nl prev e).1 (emitHead hh s nl prev e).2 = e ∧
    (∀ c, prev = .nextHead c → (emitHead hh s nl prev e).2 = nl) ∧
    (∀ m, ((emitHead hh s nl prev e).1.lists m).level = (s.lists m).level ∧
      ((emitHead hh s nl prev e).1.lists m).isInToSpace = (s.lists m).isInToSpace ∧
      ((emitHead hh s nl prev e).1.lists m).toChunkList = (s.lists m).toChunkList) ∧
    (∀ m, ((emitHead hh s nl prev e).1.lists m).containingHH =
      if m = e then hh else (s.lists m).containingHH) ∧
    (∀ m, prev ≠ .nextHead m →
      ((emitHead hh s nl prev e).1.lists m).nextHead = (s.lists m).nextHead) ∧
    SameChunkLinks s (emitHead hh s nl prev e).1 := by
  cases prev with
  | var =>
    refine ⟨rfl, fun c hc => (by cases hc), fun m => ?_, fun m => ?_, fun m _ => ?_, ?_⟩
    · by_cases hm : m = e <;> simp [emitHead, Loc.write, hm]
    · by_cases hm : m = e <;> simp [emitHead, Loc.write, hm]
    · by_cases hm : m = e <;> simp [emitHead, Loc.write, hm]
    · exact SameChunkLinks.setContainingHH s e hh
  | nextHead c =>
    have hce : c ≠ e := hprev c rfl
    have hec : e ≠ c := fun h => hce h.symm
    refine ⟨?_, fun _ _ => rfl, fun m => ?_, fun m => ?_, fun m hm => ?_, ?_⟩
    · simp [emitHead, Loc.write, Loc.read, hce]
    · by_cases hm : m = e <;> by_cases hmc : m = c <;>
        simp [emitHead, Loc.write, hm, hmc, hec, hce]
    · by_cases hm : m = e <;> by_cases hmc : m = c <;>
        simp [emitHead, Loc.write, hm, hmc, hec, hce]
    · have hmc : m ≠ c := fun h => hm (by rw [h])
      by_cases hme : m = e <;> simp [emitHead, Loc.write, hme, hmc, hec]
    · exact (SameChunkLinks.write (.nextHead c) s nl e).trans_links
        (SameChunkLinks.setContainingHH _ e hh)

theorem HM_mergeLevelList_loop_gt (hh : Ptr) (f : Nat) (s : State) (nl : Ptr) (prev : Loc)
    (x y : Ptr) (hx : x ≠ 0) (hy : y ≠ 0) (hlv : (s.lists y).level < (s.lists x).level)
    (hprev : ∀ c, prev = .nextHead c → c ≠ x) :
    HM_mergeLevelList_loop (f + 1) s nl prev x y hh =
      HM_mergeLevelList_loop f (emitHead hh s nl prev x).1 (emitHead hh s nl prev x).2
        (.nextHead x) (s.lists x).nextHead y hh := by
  have hread := (emitHead_facts hh s nl prev x hprev).1
  have hrw := Loc.read_write prev s nl x
  have hnext : ((prev.write s nl x).1.lists x).nextHead = (s.lists x).nextHead := by
    cases prev with
    | var => rfl
    | nextHead c =>
      have hxc : x ≠ c := fun h => hprev c rfl h.symm
      simp [Loc.write, hxc]
  rw [HM_mergeLevelList_loop, if_pos ⟨hx, hy⟩]
  simp only [HM_mergeLevelList_branch, gt_iff_lt, if_pos hlv, hrw, if_neg hx]
  show HM_mergeLevelList_loop f (emitHead hh s nl prev x).1 (emitHead hh s nl prev x).2
    (.nextHead (prev.read (emitHead hh s nl prev x).1 (emitHead hh s nl prev x).2))
    ((prev.write s nl x).1.lists x).nextHead y hh = _
  rw [hread, hnext]

theorem HM_mergeLevelList_loop_lt (hh : Ptr) (f : Nat) (s : State) (nl : Ptr) (prev : Loc)
    (x y : Ptr) (hx : x ≠ 0) (hy : y ≠ 0) (hlv : (s.lists x).level < (s.lists y).level)
    (hprev : ∀ c, prev = .nextHead c → c ≠ y) :
    HM_mergeLevelList_loop (f + 1) s nl prev x y hh =
      HM_mergeLevelList_loop f (emitHead hh s nl prev y).1 (emitHead hh s nl prev y).2
        (.nextHead y) x (s.lists y).nextHead hh := by
  have hread := (emitHead_facts hh s nl prev y hprev).1
  have hrw := Loc.read_write prev s nl y
  have hnext : ((prev.write s nl y).1.lists y).nextHead = (s.lists y).nextHead := by
    cases prev with
    | var => rfl
    | nextHead c =>
      have hyc : y ≠ c := fun h => hprev c rfl h.symm
      simp [Loc.write, hyc]
  rw [HM_mergeLevelList_loop, if_pos ⟨hx, hy⟩]
  simp only [HM_mergeLevelList_branch, gt_iff_lt, if_neg (Nat.lt_asymm hlv), if_pos hlv, hrw,
    if_neg hy]
  show HM_mergeLevelList_loop f (emitHead hh s nl prev y).1 (emitHead hh s nl prev y).2
    (.nextHead (prev.read (emitHead hh s nl prev y).1 (emitHead hh s nl prev y).2))
    x ((prev.write s nl y).1.lists y).nextHead hh = _
  rw [hread, hnext]

theorem HM_mergeLevelList_loop_eq (hh : Ptr) (f : Nat) (s s0 : State) (nl : Ptr) (prev : Loc)
    (x y : Ptr) (hx : x ≠ 0) (hy : y ≠ 0) (hlv : (s.lists x).level = (s.lists y).level)
    (hprev : ∀ c, prev = .nextHead c → c ≠ x) (hrun : appendChunkList s x y = .ok s0) :
    HM_mergeLevelList_loop (f + 1) s nl prev x y hh =
      HM_mergeLevelList_loop f (emitHead hh s0 nl prev x).1 (emitHead hh s0 nl prev x).2
        (.nextHead x) (s.lists x).nextHead (s.lists y).nextHead hh := by
  have hread := (emitHead_facts hh s0 nl prev x hprev).1
  have hrw := Loc.read_write prev s0 nl x
  have hnext : ((prev.write s0 nl x).1.lists x).nextHead = (s.lists x).nextHead := by
    rw [← (appendChunkList_frame s s0 x y hrun x).1]
    cases prev with
    | var => rfl
    | nextHead c =>
      have hxc : x ≠ c := fun h => hprev c rfl h.symm
      simp [Loc.write, hxc]
  rw [HM_mergeLevelList_loop, if_pos ⟨hx, hy⟩]
  simp only [HM_mergeLevelList_branch, gt_iff_lt, hlv, lt_irrefl, if_false, hrun, hrw, if_neg hx]
  show HM_mergeLevelList_loop f (emitHead hh s0 nl prev x).1 (emitHead hh s0 nl prev x).2
    (.nextHead (prev.read (emitHead hh s0 nl prev x).1 (emitHead hh s0 nl prev x).2))
    ((prev.write s0 nl x).1.lists x).nextHead (s.lists y).nextHead hh = _
  rw [hread, hnext]

/-! ## The list the merge loop builds -/

theorem mergeHeads_nil_left (lv : Ptr → Nat) (ys : List Ptr) : mergeHeads lv [] ys = ys := by
  rw [mergeHeads]

theorem mergeHeads_nil_right (lv : Ptr → Nat) (xs : List Ptr) : mergeHeads lv xs [] = xs := by
  cases xs <;> rw [mergeHeads]

theorem mergeHeads_gt (lv : Ptr → Nat) (x y : Ptr) (xs ys : List Ptr) (h : lv y < lv x) :
    mergeHeads lv (x :: xs) (y :: ys) = x :: mergeHeads lv xs (y :: ys) := by
  rw [mergeHeads, if_pos h]

theorem mergeHeads_lt (lv : Ptr → Nat) (x y : Ptr) (xs ys : List Ptr) (h : lv x < lv y) :
    mergeHeads lv (x :: xs) (y :: ys) = y :: mergeHeads lv (x :: xs) ys := by
  rw [mergeHeads, if_neg (Nat.lt_asymm h), if_pos h]

theorem mergeHeads_eq (lv : Ptr → Nat) (x y : Ptr) (xs ys : List Ptr) (h : lv x = lv y) :
    mergeHeads lv (x :: xs) (y :: ys) = x :: mergeHeads lv xs ys := by
  rw [mergeHeads, if_neg (by omega), if_neg (by omega)]

theorem mergePairs_nil_left (lv : Ptr → Nat) (ys : List Ptr) : mergePairs lv [] ys = [] := by
  rw [mergePairs]

theorem mergePairs_nil_right (lv : Ptr → Nat) (xs : List Ptr) : mergePairs lv xs [] = [] := by
  cases xs <;> rw [mergePairs]

theorem mergePairs_gt (lv : Ptr → Nat) (x y : Ptr) (xs ys : List Ptr) (h : lv y < lv x) :
    mergePairs lv (x :: xs) (y :: ys) = mergePairs lv xs (y :: ys) := by
  rw [mergePairs, if_pos h]

theorem mergePairs_lt (lv : Ptr → Nat) (x y : Ptr) (xs ys : List Ptr) (h : lv x < lv y) :
    mergePairs lv (x :: xs) (y :: ys) = mergePairs lv (x :: xs) ys := by
  rw [mergePairs, if_neg (Nat.lt_asymm h), if_pos h]

theorem mergePairs_eq (lv : Ptr → Nat) (x y : Ptr) (xs ys : List Ptr) (h : lv x = lv y) :
    mergePairs lv (x :: xs) (y :: ys) = (x, y) :: mergePairs lv xs ys := by
  rw [mergePairs, if_neg (by omega), if_neg (by omega)]

/-! ## Leaving the merge loop -/

theorem Loc.write_fields (loc : Loc) (s : State) (var v m : Ptr) :
    ((loc.write s var v).1.lists m).level = (s.lists m).level ∧
    ((loc.write s var v).1.lists m).isInToSpace = (s.lists m).isInToSpace ∧
    ((loc.write s var v).1.lists m).toChunkList = (s.lists m).toChunkList ∧
    ((loc.write s var v).1.lists m).containingHH = (s.lists m).containingHH ∧
    (loc ≠ .nextHead m → ((loc.write s var v).1.lists m).nextHead = (s.lists m).nextHead) := by
  cases loc with
  | var => exact ⟨rfl, rfl, rfl, rfl, fun _ => rfl⟩
  | nextHead c =>
    by_cases hm : m = c
    · subst hm
      simp [Loc.write]
    · have : Loc.nextHead c ≠ Loc.nextHead m := fun h => hm (by cases h; rfl)
      simp [Loc.write, hm]

theorem construct_tail_write (hh : Ptr) (s : State) (nl : Ptr) (prev : Loc) (p : Ptr)
    (hs : List Ptr) (f2 : Nat) (hl : LevelList s p hs)
    (hprev : ∀ c, prev = .nextHead c → c ∉ hs) (hf2 : hs.length < f2) :
    ∃ s', setContainingHH_loop f2 (prev.write s nl p).1
        (prev.read (prev.write s nl p).1 (prev.write s nl p).2) hh = .ok s' ∧
      (∀ c, prev = .nextHead c → (prev.write s nl p).2 = nl) ∧
      LevelList s' (prev.read s' (prev.write s nl p).2) hs ∧
      (∀ m, (s'.lists m).level = (s.lists m).level ∧
        (s'.lists m).isInToSpace = (s.lists m).isInToSpace ∧
        (s'.lists m).toChunkList = (s.lists m).toChunkList) ∧
      (∀ m, (s'.lists m).containingHH = if m ∈ hs then hh else (s.lists m).containingHH) ∧
      (∀ m, prev ≠ .nextHead m → (s'.lists m).nextHead = (s.lists m).nextHead) ∧
      SameChunkLinks s s' := by
  have hrw := Loc.read_write prev s nl p
  have hfld := Loc.write_fields prev s nl p
  have hl1 : LevelList (prev.write s nl p).1 p hs := by
    refine Path.congr (fun m hm => ?_) (fun _ _ h => h) (fun h => h) hl
    refine ((hfld m).2.2.2.2 (fun e => ?_)).symm
    exact hprev m e hm
  rw [hrw]
  obtain ⟨s', hrun, hch, hlists⟩ := setContainingHH_loop_spec hh hs _ p f2 hl1 hf2
  have hnh : ∀ m, (s'.lists m).nextHead = ((prev.write s nl p).1.lists m).nextHead := by
    intro m
    rw [hlists m]
    split <;> rfl
  refine ⟨s', hrun, ?_, ?_, fun m => ?_, fun m => ?_, fun m hm => ?_, ?_⟩
  · intro c hc
    subst hc
    rfl
  · have hread : prev.read s' (prev.write s nl p).2 = p := by
      rw [← hrw]
      cases prev with
      | var => rfl
      | nextHead c => exact hnh c
    rw [hread]
    exact Path.congr (fun m _ => (hnh m).symm) (fun _ _ h => h) (fun h => h) hl1
  · rw [hlists m]
    obtain ⟨a1, a2, a3, -, -⟩ := hfld m
    split
    · exact ⟨a1, a2, a3⟩
    · exact ⟨a1, a2, a3⟩
  · rw [hlists m]
    obtain ⟨-, -, -, a4, -⟩ := hfld m
    by_cases hm : m ∈ hs
    · rw [if_pos hm, if_pos hm]
    · rw [if_neg hm, if_neg hm, a4]
  · rw [hnh m, (hfld m).2.2.2.2 hm]
  · refine (SameChunkLinks.write prev s nl p).trans_links ⟨hch, fun m => ?_⟩
    rw [hlists m]
    split <;> exact ⟨rfl, rfl, rfl, rfl⟩

theorem HM_mergeLevelList_construct_tail (lv : Ptr → Nat) (hh : Ptr) (s : State) (nl : Ptr)
    (prev : Loc) (c1 c2 : Ptr) (xs ys : List Ptr) (f1 f2 : Nat)
    (hl1 : LevelList s c1 xs) (hl2 : LevelList s c2 ys) (hemp : xs = [] ∨ ys = [])
    (hprev : ∀ c, prev = .nextHead c → c ∉ xs ∧ c ∉ ys)
    (h0 : xs = [] → ys = [] → prev.read s nl = 0)
    (hf1 : 0 < f1) (hf2 : xs.length + ys.length < f2) :
    ∃ s' nl', HM_mergeLevelList_construct f1 f2 s nl prev c1 c2 hh = .ok (s', nl') ∧
      ConstructPost lv hh s nl prev xs ys s' nl' := by
  obtain ⟨f, rfl⟩ : ∃ f, f1 = f + 1 := ⟨f1 - 1, by omega⟩
  have hloop : HM_mergeLevelList_loop (f + 1) s nl prev c1 c2 hh = .ok (s, nl, prev, c1, c2) := by
    rw [HM_mergeLevelList_loop, if_neg]
    rintro ⟨h1, h2⟩
    rcases hemp with rfl | rfl
    · exact h1 hl1.1
    · exact h2 hl2.1
  unfold HM_mergeLevelList_construct
  rw [hloop]
  simp only
  cases xs with
  | nil =>
    have hc1 : c1 = 0 := hl1.1
    cases ys with
    | nil =>
      have hc2 : c2 = 0 := hl2.1
      have hr := h0 rfl rfl
      simp only [hc1, hc2, ne_eq, not_true_eq_false, if_false, hr]
      obtain ⟨f', rfl⟩ : ∃ f', f2 = f' + 1 := ⟨f2 - 1, by omega⟩
      refine ⟨s, nl, by simp [setContainingHH_loop], fun _ _ => rfl, ?_, fun m => ⟨rfl, rfl, rfl⟩,
        fun m => ?_, fun _ _ _ _ => rfl, s, ?_, SameChunkLinks.refl_links s⟩
      · rw [mergeHeads_nil_left, hr]
        exact ⟨rfl, rfl⟩
      · rw [mergeHeads_nil_left]; simp
      · rw [mergePairs_nil_left]; rfl
    | cons y ys =>
      have hc2 : c2 ≠ 0 := by rw [hl2.1]; exact hl2.2.1
      simp only [hc1, ne_eq, not_true_eq_false, if_false, hc2, not_false_eq_true, if_true]
      obtain ⟨s', hrun, a1, a2, a3, a4, a5, a6⟩ := construct_tail_write hh s nl prev c2 (y :: ys)
        f2 hl2 (fun c hc => (hprev c hc).2) (by simpa using hf2)
      refine ⟨s', _, by rw [hrun], a1, ?_, a3, ?_, fun m _ _ hm => a5 m hm, s, ?_, a6⟩
      · rw [mergeHeads_nil_left]; exact a2
      · rw [mergeHeads_nil_left]; exact a4
      · rw [mergePairs_nil_left]; rfl
  | cons x xs =>
    have hys : ys = [] := by
      rcases hemp with h | h
      · cases h
      · exact h
    subst hys
    have hc1 : c1 ≠ 0 := by rw [hl1.1]; exact hl1.2.1
    simp only [ne_eq, hc1, not_false_eq_true, if_true]
    obtain ⟨s', hrun, a1, a2, a3, a4, a5, a6⟩ := construct_tail_write hh s nl prev c1 (x :: xs)
      f2 hl1 (fun c hc => (hprev c hc).1) (by simpa using hf2)
    refine ⟨s', _, by rw [hrun], a1, ?_, a3, ?_, fun m _ _ hm => a5 m hm, s, ?_, a6⟩
    · rw [mergeHeads_nil_right]; exact a2
    · rw [mergeHeads_nil_right]; exact a4
    · rw [mergePairs_nil_right]; rfl

/-- The result of the block on the tails of the lists, after the head `e` was emitted,
gives the result on the lists themselves. -/
theorem ConstructPost.lift (lv : Ptr → Nat) (hh : Ptr) (s s0 s2 : State) (nl nl1 : Ptr)
    (prev : Loc) (e : Ptr) (xs ys xs1 ys1 : List Ptr) (s' : State) (nl' : Ptr)
    (hpost : ConstructPost lv hh s2 nl1 (.nextHead e) xs1 ys1 s' nl') (he0 : e ≠ 0)
    (hread : prev.read s2 nl1 = e) (hnl : ∀ c, prev = .nextHead c → nl1 = nl)
    (hprev : ∀ c, prev = .nextHead c → c ≠ e ∧ c ∉ xs1 ∧ c ∉ ys1)
    (hfld : ∀ m, (s2.lists m).level = (s.lists m).level ∧
      (s2.lists m).isInToSpace = (s.lists m).isInToSpace ∧
      (s2.lists m).toChunkList = (s.lists m).toChunkList)
    (hhh : ∀ m, (s2.lists m).containingHH = if m = e then hh else (s.lists m).containingHH)
    (hnh : ∀ m, prev ≠ .nextHead m → (s2.lists m).nextHead = (s.lists m).nextHead)
    (hsub1 : ∀ m ∈ xs1, m ∈ xs) (hsub2 : ∀ m ∈ ys1, m ∈ ys) (hexs : e ∈ xs ∨ e ∈ ys)
    (hmh : mergeHeads lv xs ys = e :: mergeHeads lv xs1 ys1)
    (hpairs : ∀ t, appendPairs s0 (mergePairs lv xs1 ys1) = .ok t →
      appendPairs s (mergePairs lv xs ys) = .ok t)
    (hlinks : SameChunkLinks s0 s2) :
    ConstructPost lv hh s nl prev xs ys s' nl' := by
  obtain ⟨p1, p2, p3, p4, p5, t2, p6, p7⟩ := hpost
  have hnl' : nl' = nl1 := p1 e rfl
  refine ⟨fun c hc => by rw [hnl', hnl c hc], ?_, fun m => ?_, fun m => ?_, fun m hx hy hm => ?_,
    ?_⟩
  · rw [hmh]
    refine ⟨?_, he0, p2⟩
    cases prev with
    | var =>
      show nl' = e
      rw [hnl']; exact hread
    | nextHead c =>
      obtain ⟨h1, h2, h3⟩ := hprev c rfl
      show (s'.lists c).nextHead = e
      rw [p5 c h2 h3 (fun h => h1 (by cases h; rfl))]
      exact hread
  · obtain ⟨a1, a2, a3⟩ := p3 m
    obtain ⟨b1, b2, b3⟩ := hfld m
    exact ⟨a1.trans b1, a2.trans b2, a3.trans b3⟩
  · rw [p4 m, hhh m, hmh]
    by_cases h1 : m ∈ mergeHeads lv xs1 ys1 <;> by_cases h2 : m = e <;> simp [h1, h2]
  · have hme : m ≠ e := by
      rintro rfl
      rcases hexs with h | h
      · exact hx h
      · exact hy h
    rw [p5 m (fun h => hx (hsub1 m h)) (fun h => hy (hsub2 m h))
      (fun h => hme (by cases h; rfl)), hnh m hm]
  · obtain ⟨t0, ht0, hsame⟩ := appendPairs_congr _ hlinks.symm p6
    exact ⟨t0, hpairs t0 ht0, hsame.symm.trans_links p7⟩

/-! ## The block that constructs the merged list -/

theorem appendChunkList_isOk (s : State) (l1 l2 : Ptr) (h1 : l1 ≠ 0) :
    ∃ s', appendChunkList s l1 l2 = .ok s' := by
  unfold appendChunkList
  by_cases h2 : l2 = 0
  · exact ⟨s, by rw [if_pos h2]⟩
  · exact ⟨_, by rw [if_neg h2, if_neg h1]⟩

theorem Descending.of_level_eq {s s' : State} {hs : List Ptr}
    (h : ∀ m, (s'.lists m).level = (s.lists m).level) (hd : Descending s hs) :
    Descending s' hs := by
  refine List.Pairwise.imp (fun {a b} hab => ?_) hd
  rw [h a, h b]; exact hab

theorem Descending.lt_head {s : State} {a : Ptr} {hs : List Ptr} (hd : Descending s (a :: hs)) :
    ∀ m ∈ hs, (s.lists m).level < (s.lists a).level :=
  (List.pairwise_cons.1 hd).1

theorem Descending.tail {s : State} {a : Ptr} {hs : List Ptr} (hd : Descending s (a :: hs)) :
    Descending s hs :=
  (List.pairwise_cons.1 hd).2

theorem Descending.head_not_mem {s : State} {a : Ptr} {hs : List Ptr}
    (hd : Descending s (a :: hs)) : a ∉ hs :=
  fun h => Nat.lt_irrefl _ (hd.lt_head a h)

theorem HM_mergeLevelList_construct_spec (lv : Ptr → Nat) (hh : Ptr) :
    ∀ (n : Nat) (xs ys : List Ptr), xs.length + ys.length = n →
      ∀ (s : State) (nl : Ptr) (prev : Loc) (c1 c2 : Ptr) (f1 f2 : Nat),
      (∀ m, (s.lists m).level = lv m) → LevelList s c1 xs → LevelList s c2 ys →
      Descending s xs → Descending s ys →
      (∀ c, prev = .nextHead c → c ∉ xs ∧ c ∉ ys) →
      (xs = [] → ys = [] → prev.read s nl = 0) → n < f1 → n < f2 →
      ∃ s' nl', HM_mergeLevelList_construct f1 f2 s nl prev c1 c2 hh = .ok (s', nl') ∧
        ConstructPost lv hh s nl prev xs ys s' nl' := by
  intro n
  induction n using Nat.strong_induction_on with
  | _ n ih =>
    intro xs ys hn s nl prev c1 c2 f1 f2 hlv hl1 hl2 hd1 hd2 hprev h0 hf1 hf2
    rcases xs with _ | ⟨x, xs⟩
    · exact HM_mergeLevelList_construct_tail lv hh s nl prev c1 c2 [] ys f1 f2 hl1 hl2
        (Or.inl rfl) hprev h0 (by omega) (by omega)
    rcases ys with _ | ⟨y, ys⟩
    · exact HM_mergeLevelList_construct_tail lv hh s nl prev c1 c2 (x :: xs) [] f1 f2 hl1 hl2
        (Or.inr rfl) hprev h0 (by omega) (by omega)
    simp only [List.length_cons] at hn
    obtain ⟨f, rfl⟩ : ∃ f, f1 = f + 1 := ⟨f1 - 1, by omega⟩
    have hc1 : c1 = x := hl1.1
    have hc2 : c2 = y := hl2.1
    subst hc1 hc2
    have hx0 : c1 ≠ 0 := hl1.2.1
    have hy0 : c2 ≠ 0 := hl2.2.1
    have hpx : ∀ c, prev = .nextHead c → c ≠ c1 := fun c hc e =>
      (hprev c hc).1 (by rw [e]; exact List.mem_cons_self _ _)
    have hpy : ∀ c, prev = .nextHead c → c ≠ c2 := fun c hc e =>
      (hprev c hc).2 (by rw [e]; exact List.mem_cons_self _ _)
    have hpne : ∀ m, (m ∈ c1 :: xs ∨ m ∈ c2 :: ys) → prev ≠ .nextHead m := by
      intro m hm e
      rcases hm with h | h
      · exact (hprev m e).1 h
      · exact (hprev m e).2 h
    rcases Nat.lt_trichotomy (lv c1) (lv c2) with hlt | heq | hgt
    · -- the head of the second list is emitted
      obtain ⟨e1, e2, e3, e4, e5, e6⟩ := emitHead_facts hh s nl prev c2 hpy
      have hc2x : c2 ∉ c1 :: xs := by
        intro hmem
        rcases List.mem_cons.1 hmem with h | h
        · rw [h] at hlt; exact Nat.lt_irrefl _ hlt
        · have := hd1.lt_head c2 h
          rw [hlv, hlv] at this
          omega
      have hstep := HM_mergeLevelList_loop_lt hh f s nl prev c1 c2 hx0 hy0
        (by rw [hlv, hlv]; exact hlt) hpy
      obtain ⟨s', nl', hrun, hpost⟩ := ih (xs.length + 1 + ys.length) (by omega) (c1 :: xs) ys
        (by simp) (emitHead hh s nl prev c2).1 (emitHead hh s nl prev c2).2 (.nextHead c2)
        c1 (s.lists c2).nextHead f f2 (fun m => by rw [(e3 m).1, hlv])
        (Path.congr (fun m hm => (e5 m (hpne m (Or.inl hm))).symm) (fun _ _ h => h) (fun h => h)
          hl1)
        (Path.congr (fun m hm => (e5 m (hpne m (Or.inr (List.mem_cons_of_mem _ hm)))).symm)
          (fun _ _ h => h) (fun h => h) hl2.2.2)
        (hd1.of_level_eq (fun m => (e3 m).1)) (hd2.tail.of_level_eq (fun m => (e3 m).1))
        (fun c hc => by cases hc; exact ⟨hc2x, hd2.head_not_mem⟩)
        (fun h => by cases h) (by omega) (by omega)
      refine ⟨s', nl', ?_, ?_⟩
      · unfold HM_mergeLevelList_construct at hrun ⊢
        rw [hstep]; exact hrun
      · exact ConstructPost.lift lv hh s s _ nl _ prev c2 (c1 :: xs) (c2 :: ys) (c1 :: xs) ys s' nl'
          hpost hy0 e1 e2
          (fun c hc => ⟨hpy c hc, (hprev c hc).1,
            fun h => (hprev c hc).2 (List.mem_cons_of_mem _ h)⟩)
          e3 e4 e5 (fun m hm => hm) (fun m hm => List.mem_cons_of_mem _ hm)
          (Or.inr (List.mem_cons_self _ _)) (mergeHeads_lt lv c1 c2 xs ys hlt)
          (fun t ht => by rw [mergePairs_lt lv c1 c2 xs ys hlt]; exact ht) e6
    · -- equal levels: the second head is appended to the first, which is emitted
      obtain ⟨s0, hrun0⟩ := appendChunkList_isOk s c1 c2 hx0
      have hfr := appendChunkList_frame s s0 c1 c2 hrun0
      obtain ⟨e1, e2, e3, e4, e5, e6⟩ := emitHead_facts hh s0 nl prev c1 hpx
      have hc1y : c1 ∉ ys := by
        intro h
        have := hd2.lt_head c1 h
        rw [hlv, hlv] at this
        omega
      have hstep := HM_mergeLevelList_loop_eq hh f s s0 nl prev c1 c2 hx0 hy0
        (by rw [hlv, hlv]; exact heq) hpx hrun0
      have hnh : ∀ m, prev ≠ .nextHead m →
          ((emitHead hh s0 nl prev c1).1.lists m).nextHead = (s.lists m).nextHead :=
        fun m hm => by rw [e5 m hm, (hfr m).1]
      have hlevel : ∀ m, ((emitHead hh s0 nl prev c1).1.lists m).level = (s.lists m).level :=
        fun m => by rw [(e3 m).1, (hfr m).2.1]
      obtain ⟨s', nl', hrun, hpost⟩ := ih (xs.length + ys.length) (by omega) xs ys rfl
        (emitHead hh s0 nl prev c1).1 (emitHead hh s0 nl prev c1).2 (.nextHead c1)
        (s.lists c1).nextHead (s.lists c2).nextHead f f2 (fun m => by rw [hlevel, hlv])
        (Path.congr (fun m hm => (hnh m (hpne m (Or.inl (List.mem_cons_of_mem _ hm)))).symm)
          (fun _ _ h => h) (fun h => h) hl1.2.2)
        (Path.congr (fun m hm => (hnh m (hpne m (Or.inr (List.mem_cons_of_mem _ hm)))).symm)
          (fun _ _ h => h) (fun h => h) hl2.2.2)
        (hd1.tail.of_level_eq hlevel) (hd2.tail.of_level_eq hlevel)
        (fun c hc => by cases hc; exact ⟨hd1.head_not_mem, hc1y⟩)
        (fun hxs _ => by
          subst hxs
          show ((emitHead hh s0 nl prev c1).1.lists c1).nextHead = 0
          rw [hnh c1 (hpne c1 (Or.inl (List.mem_cons_self _ _)))]
          exact hl1.2.2.1)
        (by omega) (by omega)
      refine ⟨s', nl', ?_, ?_⟩
      · unfold HM_mergeLevelList_construct at hrun ⊢
        rw [hstep]; exact hrun
      · refine ConstructPost.lift lv hh s s0 _ nl _ prev c1 (c1 :: xs) (c2 :: ys) xs ys s' nl'
          hpost hx0 e1 e2
          (fun c hc => ⟨hpx c hc, fun h => (hprev c hc).1 (List.mem_cons_of_mem _ h),
            fun h => (hprev c hc).2 (List.mem_cons_of_mem _ h)⟩)
          (fun m => ?_) (fun m => ?_) hnh (fun m hm => List.mem_cons_of_mem _ hm)
          (fun m hm => List.mem_cons_of_mem _ hm)
          (Or.inl (List.mem_cons_self _ _)) (mergeHeads_eq lv c1 c2 xs ys heq)
          (fun t ht => ?_) e6
        · obtain ⟨a1, a2, a3⟩ := e3 m
          obtain ⟨-, b1, -, b2, b3⟩ := hfr m
          exact ⟨a1.trans b1, a2.trans b2, a3.trans b3⟩
        · rw [e4 m, (hfr m).2.2.1]
        · rw [mergePairs_eq lv c1 c2 xs ys heq, appendPairs, hrun0]
          exact ht
    · -- the head of the first list is emitted
      obtain ⟨e1, e2, e3, e4, e5, e6⟩ := emitHead_facts hh s nl prev c1 hpx
      have hc1y : c1 ∉ c2 :: ys := by
        intro hmem
        rcases List.mem_cons.1 hmem with h | h
        · rw [h] at hgt; exact Nat.lt_irrefl _ hgt
        · have := hd2.lt_head c1 h
          rw [hlv, hlv] at this
          omega
      have hstep := HM_mergeLevelList_loop_gt hh f s nl prev c1 c2 hx0 hy0
        (by rw [hlv, hlv]; exact hgt) hpx
      obtain ⟨s', nl', hrun, hpost⟩ := ih (xs.length + (ys.length + 1)) (by omega) xs (c2 :: ys)
        (by simp) (emitHead hh s nl prev c1).1 (emitHead hh s nl prev c1).2 (.nextHead c1)
        (s.lists c1).nextHead c2 f f2 (fun m => by rw [(e3 m).1, hlv])
        (Path.congr (fun m hm => (e5 m (hpne m (Or.inl (List.mem_cons_of_mem _ hm)))).symm)
          (fun _ _ h => h) (fun h => h) hl1.2.2)
        (Path.congr (fun m hm => (e5 m (hpne m (Or.inr hm))).symm) (fun _ _ h => h) (fun h => h)
          hl2)
        (hd1.tail.of_level_eq (fun m => (e3 m).1)) (hd2.of_level_eq (fun m => (e3 m).1))
        (fun c hc => by cases hc; exact ⟨hd1.head_not_mem, hc1y⟩)
        (fun _ h => by cases h) (by omega) (by omega)
      refine ⟨s', nl', ?_, ?_⟩
      · unfold HM_mergeLevelList_construct at hrun ⊢
        rw [hstep]; exact hrun
      · exact ConstructPost.lift lv hh s s _ nl _ prev c1 (c1 :: xs) (c2 :: ys) xs (c2 :: ys) s' nl'
          hpost hx0 e1 e2
          (fun c hc => ⟨hpx c hc, fun h => (hprev c hc).1 (List.mem_cons_of_mem _ h),
            (hprev c hc).2⟩)
          e3 e4 e5 (fun m hm => List.mem_cons_of_mem _ hm) (fun m hm => hm)
          (Or.inl (List.mem_cons_self _ _)) (mergeHeads_gt lv c1 c2 xs ys hgt)
          (fun t ht => by rw [mergePairs_gt lv c1 c2 xs ys hgt]; exact ht) e6

/-! ## Facts about `mergeHeads` and `mergePairs` -/

theorem mergeHeads_length_le (lv : Ptr → Nat) (xs ys : List Ptr) :
    (mergeHeads lv xs ys).length ≤ xs.length + ys.length := by
  induction xs, ys using mergeHeads.induct lv with
  | case1 ys => rw [mergeHeads_nil_left]; simp
  | case2 x xs => rw [mergeHeads_nil_right]; simp
  | case3 x xs y ys h ih =>
    rw [mergeHeads_gt lv x y xs ys h]
    simp only [List.length_cons] at ih ⊢
    omega
  | case4 x xs y ys h1 h2 ih =>
    rw [mergeHeads_lt lv x y xs ys h2]
    simp only [List.length_cons] at ih ⊢
    omega
  | case5 x xs y ys h1 h2 ih =>
    rw [mergeHeads_eq lv x y xs ys (by omega)]
    simp only [List.length_cons] at ih ⊢
    omega

theorem mem_mergeHeads_left (lv : Ptr → Nat) (xs ys : List Ptr) :
    ∀ z ∈ xs, z ∈ mergeHeads lv xs ys := by
  induction xs, ys using mergeHeads.induct lv with
  | case1 ys => intro z hz; simp at hz
  | case2 x xs => intro z hz; rw [mergeHeads_nil_right]; exact hz
  | case3 x xs y ys h ih =>
    intro z hz
    rw [mergeHeads_gt lv x y xs ys h]
    rcases List.mem_cons.1 hz with rfl | hz
    · exact List.mem_cons_self _ _
    · exact List.mem_cons_of_mem _ (ih z hz)
  | case4 x xs y ys h1 h2 ih =>
    intro z hz
    rw [mergeHeads_lt lv x y xs ys h2]
    exact List.mem_cons_of_mem _ (ih z hz)
  | case5 x xs y ys h1 h2 ih =>
    intro z hz
    rw [mergeHeads_eq lv x y xs ys (by omega)]
    rcases List.mem_cons.1 hz with rfl | hz
    · exact List.mem_cons_self _ _
    · exact List.mem_cons_of_mem _ (ih z hz)

theorem mergePairs_mem (lv : Ptr → Nat) (xs ys : List Ptr) :
    ∀ p ∈ mergePairs lv xs ys, p.1 ∈ xs ∧ p.2 ∈ ys ∧ lv p.1 = lv p.2 := by
  induction xs, ys using mergePairs.induct lv with
  | case1 ys => intro p hp; rw [mergePairs_nil_left] at hp; simp at hp
  | case2 x xs => intro p hp; rw [mergePairs_nil_right] at hp; simp at hp
  | case3 x xs y ys h ih =>
    intro p hp
    rw [mergePairs_gt lv x y xs ys h] at hp
    obtain ⟨a, b, c⟩ := ih p hp
    exact ⟨List.mem_cons_of_mem _ a, b, c⟩
  | case4 x xs y ys h1 h2 ih =>
    intro p hp
    rw [mergePairs_lt lv x y xs ys h2] at hp
    obtain ⟨a, b, c⟩ := ih p hp
    exact ⟨a, List.mem_cons_of_mem _ b, c⟩
  | case5 x xs y ys h1 h2 ih =>
    intro p hp
    rw [mergePairs_eq lv x y xs ys (by omega)] at hp
    rcases List.mem_cons.1 hp with rfl | hp
    · exact ⟨List.mem_cons_self _ _, List.mem_cons_self _ _, by simp only; omega⟩
    · obtain ⟨a, b, c⟩ := ih p hp
      exact ⟨List.mem_cons_of_mem _ a, List.mem_cons_of_mem _ b, c⟩

theorem mem_mergeHeads_right (lv : Ptr → Nat) (xs ys : List Ptr) :
    ∀ z ∈ ys, z ∈ mergeHeads lv xs ys ∨ ∃ x, (x, z) ∈ mergePairs lv xs ys := by
  induction xs, ys using mergeHeads.induct lv with
  | case1 ys => intro z hz; rw [mergeHeads_nil_left]; exact Or.inl hz
  | case2 x xs => intro z hz; simp at hz
  | case3 x xs y ys h ih =>
    intro z hz
    rw [mergeHeads_gt lv x y xs ys h, mergePairs_gt lv x y xs ys h]
    rcases ih z hz with h1 | h1
    · exact Or.inl (List.mem_cons_of_mem _ h1)
    · exact Or.inr h1
  | case4 x xs y ys h1 h2 ih =>
    intro z hz
    rw [mergeHeads_lt lv x y xs ys h2, mergePairs_lt lv x y xs ys h2]
    rcases List.mem_cons.1 hz with rfl | hz
    · exact Or.inl (List.mem_cons_self _ _)
    · rcases ih z hz with h3 | h3
      · exact Or.inl (List.mem_cons_of_mem _ h3)
      · exact Or.inr h3
  | case5 x xs y ys h1 h2 ih =>
    intro z hz
    rw [mergeHeads_eq lv x y xs ys (by omega), mergePairs_eq lv x y xs ys (by omega)]
    rcases List.mem_cons.1 hz with rfl | hz
    · exact Or.inr ⟨x, List.mem_cons_self _ _⟩
    · rcases ih z hz with h3 | ⟨w, h3⟩
      · exact Or.inl (List.mem_cons_of_mem _ h3)
      · exact Or.inr ⟨w, List.mem_cons_of_mem _ h3⟩

/-- A head of the merged list comes from the first list, or from the second list and then
no head of the first list has its level. -/
theorem mergeHeads_mem_cases (lv : Ptr → Nat) (xs ys : List Ptr)
    (hd1 : xs.Pairwise (fun a b => lv b < lv a)) (hd2 : ys.Pairwise (fun a b => lv b < lv a)) :
    ∀ z ∈ mergeHeads lv xs ys, z ∈ xs ∨ (z ∈ ys ∧ ∀ x ∈ xs, lv x ≠ lv z) := by
  induction xs, ys using mergeHeads.induct lv with
  | case1 ys =>
    intro z hz
    rw [mergeHeads_nil_left] at hz
    exact Or.inr ⟨hz, by simp⟩
  | case2 x xs =>
    intro z hz
    rw [mergeHeads_nil_right] at hz
    exact Or.inl hz
  | case3 x xs y ys h ih =>
    intro z hz
    rw [mergeHeads_gt lv x y xs ys h] at hz
    rcases List.mem_cons.1 hz with rfl | hz
    · exact Or.inl (List.mem_cons_self _ _)
    · rcases ih (List.pairwise_cons.1 hd1).2 hd2 z hz with h1 | ⟨h1, h2⟩
      · exact Or.inl (List.mem_cons_of_mem _ h1)
      · refine Or.inr ⟨h1, fun w hw => ?_⟩
        rcases List.mem_cons.1 hw with rfl | hw
        · have : lv z ≤ lv y := by
            rcases List.mem_cons.1 h1 with rfl | h1
            · exact Nat.le_refl _
            · exact Nat.le_of_lt ((List.pairwise_cons.1 hd2).1 z h1)
          omega
        · exact h2 w hw
  | case4 x xs y ys h1 h2 ih =>
    intro z hz
    rw [mergeHeads_lt lv x y xs ys h2] at hz
    have hle : ∀ w ∈ x :: xs, lv w ≤ lv x := by
      intro w hw
      rcases List.mem_cons.1 hw with rfl | hw
      · exact Nat.le_refl _
      · exact Nat.le_of_lt ((List.pairwise_cons.1 hd1).1 w hw)
    rcases List.mem_cons.1 hz with rfl | hz
    · refine Or.inr ⟨List.mem_cons_self _ _, fun w hw => ?_⟩
      have := hle w hw
      omega
    · rcases ih hd1 (List.pairwise_cons.1 hd2).2 z hz with h3 | ⟨h3, h4⟩
      · exact Or.inl h3
      · exact Or.inr ⟨List.mem_cons_of_mem _ h3, h4⟩
  | case5 x xs y ys h1 h2 ih =>
    intro z hz
    rw [mergeHeads_eq lv x y xs ys (by omega)] at hz
    rcases List.mem_cons.1 hz with rfl | hz
    · exact Or.inl (List.mem_cons_self _ _)
    · rcases ih (List.pairwise_cons.1 hd1).2 (List.pairwise_cons.1 hd2).2 z hz with h3 | ⟨h3, h4⟩
      · exact Or.inl (List.mem_cons_of_mem _ h3)
      · refine Or.inr ⟨List.mem_cons_of_mem _ h3, fun w hw => ?_⟩
        rcases List.mem_cons.1 hw with rfl | hw
        · have := (List.pairwise_cons.1 hd2).1 z h3
          omega
        · exact h4 w hw

theorem mergeHeads_mem (lv : Ptr → Nat) (xs ys : List Ptr) :
    ∀ z ∈ mergeHeads lv xs ys, z ∈ xs ∨ z ∈ ys := by
  induction xs, ys using mergeHeads.induct lv with
  | case1 ys => intro z hz; rw [mergeHeads_nil_left] at hz; exact Or.inr hz
  | case2 x xs => intro z hz; rw [mergeHeads_nil_right] at hz; exact Or.inl hz
  | case3 x xs y ys h ih =>
    intro z hz
    rw [mergeHeads_gt lv x y xs ys h] at hz
    rcases List.mem_cons.1 hz with rfl | hz
    · exact Or.inl (List.mem_cons_self _ _)
    · rcases ih z hz with h1 | h1
      · exact Or.inl (List.mem_cons_of_mem _ h1)
      · exact Or.inr h1
  | case4 x xs y ys h1 h2 ih =>
    intro z hz
    rw [mergeHeads_lt lv x y xs ys h2] at hz
    rcases List.mem_cons.1 hz with rfl | hz
    · exact Or.inr (List.mem_cons_self _ _)
    · rcases ih z hz with h3 | h3
      · exact Or.inl h3
      · exact Or.inr (List.mem_cons_of_mem _ h3)
  | case5 x xs y ys h1 h2 ih =>
    intro z hz
    rw [mergeHeads_eq lv x y xs ys (by omega)] at hz
    rcases List.mem_cons.1 hz with rfl | hz
    · exact Or.inl (List.mem_cons_self _ _)
    · rcases ih z hz with h3 | h3
      · exact Or.inl (List.mem_cons_of_mem _ h3)
      · exact Or.inr (List.mem_cons_of_mem _ h3)

theorem mergeHeads_descending (lv : Ptr → Nat) (xs ys : List Ptr)
    (hd1 : xs.Pairwise (fun a b => lv b < lv a)) (hd2 : ys.Pairwise (fun a b => lv b < lv a)) :
    (mergeHeads lv xs ys).Pairwise (fun a b => lv b < lv a) := by
  induction xs, ys using mergeHeads.induct lv with
  | case1 ys => rw [mergeHeads_nil_left]; exact hd2
  | case2 x xs => rw [mergeHeads_nil_right]; exact hd1
  | case3 x xs y ys h ih =>
    rw [mergeHeads_gt lv x y xs ys h]
    refine List.pairwise_cons.2 ⟨fun z hz => ?_, ih (List.pairwise_cons.1 hd1).2 hd2⟩
    rcases mergeHeads_mem lv xs (y :: ys) z hz with h1 | h1
    · exact (List.pairwise_cons.1 hd1).1 z h1
    · rcases List.mem_cons.1 h1 with rfl | h1
      · exact h
      · have := (List.pairwise_cons.1 hd2).1 z h1
        omega
  | case4 x xs y ys h1 h2 ih =>
    rw [mergeHeads_lt lv x y xs ys h2]
    refine List.pairwise_cons.2 ⟨fun z hz => ?_, ih hd1 (List.pairwise_cons.1 hd2).2⟩
    rcases mergeHeads_mem lv (x :: xs) ys z hz with h3 | h3
    · rcases List.mem_cons.1 h3 with rfl | h3
      · exact h2
      · have := (List.pairwise_cons.1 hd1).1 z h3
        omega
    · exact (List.pairwise_cons.1 hd2).1 z h3
  | case5 x xs y ys h1 h2 ih =>
    rw [mergeHeads_eq lv x y xs ys (by omega)]
    refine List.pairwise_cons.2 ⟨fun z hz => ?_,
      ih (List.pairwise_cons.1 hd1).2 (List.pairwise_cons.1 hd2).2⟩
    rcases mergeHeads_mem lv xs ys z hz with h3 | h3
    · exact (List.pairwise_cons.1 hd1).1 z h3
    · have := (List.pairwise_cons.1 hd2).1 z h3
      omega

/-! ## `HM_mergeLevelList` as a whole -/

/-- What `HM_mergeLevelList` does on two strictly descending level lists with heads `xs` and
`ys`: it returns; the output list consists of the heads `mergeHeads` in this order; levels
and `toChunkList` are untouched; `containingHH` is `hh` on the output heads and untouched
elsewhere; `isInToSpace` is cleared on the output heads when `resetToFromSpace` is set and
untouched otherwise; and the chunks and the `firstChunk`, `lastChunk`, `parent` and `size`
fields are those that the calls of `appendChunkList` on the equal-level pairs produce. -/
theorem HM_mergeLevelList_spec (s : State) (a b hh : Ptr) (r : Bool) (xs ys : List Ptr)
    (fuel : Nat) (hl1 : LevelList s a xs) (hl2 : LevelList s b ys) (hd1 : Descending s xs)
    (hd2 : Descending s ys) (hf : xs.length + ys.length < fuel) :
    ∃ s' out t, HM_mergeLevelList fuel s a b hh r = .ok (s', out) ∧
      LevelList s' out (mergeHeads (fun m => (s.lists m).level) xs ys) ∧
      (∀ m, (s'.lists m).level = (s.lists m).level ∧
        (s'.lists m).toChunkList = (s.lists m).toChunkList) ∧
      (∀ m, (s'.lists m).containingHH =
        if m ∈ mergeHeads (fun m => (s.lists m).level) xs ys then hh
        else (s.lists m).containingHH) ∧
      (∀ m, (s'.lists m).isInToSpace =
        if r = true ∧ m ∈ mergeHeads (fun m => (s.lists m).level) xs ys then false
        else (s.lists m).isInToSpace) ∧
      (∀ m, m ∉ xs → m ∉ ys → (s'.lists m).nextHead = (s.lists m).nextHead) ∧
      appendPairs s (mergePairs (fun m => (s.lists m).level) xs ys) = .ok t ∧
      SameChunkLinks t s' := by
  obtain ⟨s1, nl, hrun, p1, p2, p3, p4, p5, t, p6, p7⟩ :=
    HM_mergeLevelList_construct_spec (fun m => (s.lists m).level) hh (xs.length + ys.length)
      xs ys rfl s 0 .var a b fuel fuel (fun _ => rfl) hl1 hl2 hd1 hd2 (fun c hc => by cases hc)
      (fun _ _ => rfl) hf hf
  have hl : LevelList s1 nl (mergeHeads (fun m => (s.lists m).level) xs ys) := p2
  cases r with
  | false =>
    refine ⟨s1, nl, t, ?_, hl, fun m => ⟨(p3 m).1, (p3 m).2.2⟩, p4, fun m => ?_,
      fun m h1 h2 => p5 m h1 h2 (fun h => by cases h), p6, p7⟩
    · unfold HM_mergeLevelList
      rw [hrun]
      rfl
    · simp [(p3 m).2.1]
  | true =>
    have hlen := mergeHeads_length_le (fun m => (s.lists m).level) xs ys
    obtain ⟨s2, hrun2, hch, hlists⟩ := resetToFromSpace_loop_spec _ s1 nl fuel hl (by omega)
    have hnh : ∀ m, (s2.lists m).nextHead = (s1.lists m).nextHead := by
      intro m; rw [hlists m]; split <;> rfl
    refine ⟨s2, nl, t, ?_, ?_, fun m => ?_, fun m => ?_, fun m => ?_, fun m h1 h2 => ?_, p6, ?_⟩
    · unfold HM_mergeLevelList
      rw [hrun]
      simp only [if_true, hrun2]
    · exact Path.congr (fun m _ => (hnh m).symm) (fun _ _ h => h) (fun h => h) hl
    · rw [hlists m]
      split
      · exact ⟨(p3 m).1, (p3 m).2.2⟩
      · exact ⟨(p3 m).1, (p3 m).2.2⟩
    · rw [hlists m, ← p4 m]
      split <;> rfl
    · rw [hlists m]
      by_cases hm : m ∈ mergeHeads (fun m => (s.lists m).level) xs ys
      · simp [hm]
      · simp [hm, (p3 m).2.1]
    · rw [hnh m]
      exact p5 m h1 h2 (fun h => by cases h)
    · refine p7.trans_links ⟨hch, fun m => ?_⟩
      rw [hlists m]
      split <;> exact ⟨rfl, rfl, rfl, rfl⟩

/-! ## Claims on `HM_mergeLevelList`: shape of the output list -/

/-- C1: for two level lists with heads `xs` and `ys`, each strictly descending in level,
`HM_mergeLevelList` returns, the destination list `zs` is strictly descending in level along
`nextHead`, and a level occurs in `zs` exactly when it occurs in `xs` or in `ys`. -/
theorem HM_mergeLevelList_descending (s : State) (a b hh : Ptr) (r : Bool) (xs ys : List Ptr)
    (fuel : Nat) (hl1 : LevelList s a xs) (hl2 : LevelList s b ys) (hd1 : Descending s xs)
    (hd2 : Descending s ys) (hf : xs.length + ys.length < fuel) :
    ∃ s' out zs, HM_mergeLevelList fuel s a b hh r = .ok (s', out) ∧ LevelList s' out zs ∧
      Descending s' zs ∧
      ∀ l, (∃ z ∈ zs, (s'.lists z).level = l) ↔
        ((∃ x ∈ xs, (s.lists x).level = l) ∨ ∃ y ∈ ys, (s.lists y).level = l) := by
  obtain ⟨s', out, t, hrun, hl, hlev, -⟩ :=
    HM_mergeLevelList_spec s a b hh r xs ys fuel hl1 hl2 hd1 hd2 hf
  refine ⟨s', out, _, hrun, hl, ?_, fun l => ⟨?_, ?_⟩⟩
  · refine List.Pairwise.imp (fun {p q} hpq => ?_)
      (mergeHeads_descending (fun m => (s.lists m).level) xs ys hd1 hd2)
    rw [(hlev p).1, (hlev q).1]
    exact hpq
  · rintro ⟨z, hz, rfl⟩
    rw [(hlev z).1]
    rcases mergeHeads_mem _ xs ys z hz with h | h
    · exact Or.inl ⟨z, h, rfl⟩
    · exact Or.inr ⟨z, h, rfl⟩
  · rintro (⟨x, hx, rfl⟩ | ⟨y, hy, rfl⟩)
    · exact ⟨x, mem_mergeHeads_left _ xs ys x hx, (hlev x).1⟩
    · rcases mem_mergeHeads_right (fun m => (s.lists m).level) xs ys y hy with h | ⟨x, h⟩
      · exact ⟨y, h, (hlev y).1⟩
      · obtain ⟨h1, -, h3⟩ := mergePairs_mem _ xs ys _ h
        exact ⟨x, mem_mergeHeads_left _ xs ys x h1, by rw [(hlev x).1]; exact h3⟩

theorem HM_mergeLevelList_descending_witness :
    ∃ s' out zs, HM_mergeLevelList 7 heapS3 11 21 99 true = .ok (s', out) ∧
      LevelList s' out zs ∧ Descending s' zs ∧
      ∀ l, (∃ z ∈ zs, (s'.lists z).level = l) ↔
        ((∃ x ∈ [11, 12, 13], (heapS3.lists x).level = l) ∨
          ∃ y ∈ [21, 22, 23], (heapS3.lists y).level = l) :=
  HM_mergeLevelList_descending heapS3 11 21 99 true [11, 12, 13] [21, 22, 23] 7 (by decide)
    (by decide) (by decide) (by decide) (by decide)

/-- C4: after `HM_mergeLevelList(A, B, hh, resetToFromSpace)` on two strictly descending
level lists, every head of the output list `zs` has `containingHH = hh`; when
`resetToFromSpace` is set every head of `zs` has `isInToSpace = false`, and when it is not
set no node's `isInToSpace` is changed. -/
theorem HM_mergeLevelList_containingHH (s : State) (a b hh : Ptr) (r : Bool)
    (xs ys : List Ptr) (fuel : Nat) (hl1 : LevelList s a xs) (hl2 : LevelList s b ys)
    (hd1 : Descending s xs) (hd2 : Descending s ys) (hf : xs.length + ys.length < fuel) :
    ∃ s' out zs, HM_mergeLevelList fuel s a b hh r = .ok (s', out) ∧ LevelList s' out zs ∧
      (∀ z ∈ zs, (s'.lists z).containingHH = hh) ∧
      (r = true → ∀ z ∈ zs, (s'.lists z).isInToSpace = false) ∧
      (r = false → ∀ m, (s'.lists m).isInToSpace = (s.lists m).isInToSpace) := by
  obtain ⟨s', out, t, hrun, hl, -, hhh, hto, -⟩ :=
    HM_mergeLevelList_spec s a b hh r xs ys fuel hl1 hl2 hd1 hd2 hf
  refine ⟨s', out, _, hrun, hl, fun z hz => ?_, fun hr z hz => ?_, fun hr m => ?_⟩
  · rw [hhh z, if_pos hz]
  · rw [hto z, if_pos ⟨hr, hz⟩]
  · rw [hto m, if_neg (by simp [hr])]

theorem HM_mergeLevelList_containingHH_witness :
    ∃ s' out zs, HM_mergeLevelList 7 heapS3 11 21 99 false = .ok (s', out) ∧
      LevelList s' out zs ∧ (∀ z ∈ zs, (s'.lists z).containingHH = 99) ∧
      (false = true → ∀ z ∈ zs, (s'.lists z).isInToSpace = false) ∧
      (false = false → ∀ m, (s'.lists m).isInToSpace = (heapS3.lists m).isInToSpace) :=
  HM_mergeLevelList_containingHH heapS3 11 21 99 false [11, 12, 13] [21, 22, 23] 7 (by decide)
    (by decide) (by decide) (by decide) (by decide)

/-! ## The calls of `appendChunkList` made by the merge -/

theorem HeadWF.headSeq {s : State} {H : Ptr} {cs : List Ptr} (h : HeadWF s H cs) :
    HeadSeq s H cs := ⟨h.1, h.2.1, h.2.2.2⟩

theorem SameChunkLinks.isLevelHead_links {s s' : State} (h : SameChunkLinks s s') {n : Ptr}
    (hn : isLevelHead s n) : isLevelHead s' n :=
  ⟨hn.1, by rw [(h.2 n).2.2.1]; exact hn.2⟩

theorem SameChunkLinks.resolves_links {s s' : State} (h : SameChunkLinks s s') {c R : Ptr}
    (hr : Resolves s c R) : Resolves s' c R := by
  obtain ⟨hc, path, hp⟩ := hr
  refine ⟨hc, path, ?_⟩
  rw [h.1]
  refine ⟨Path.congr (fun x _ => ((h.2 x).2.2.1).symm) (fun x _ hst => ?_) (fun hst => ?_) hp.1,
    hp.2⟩
  · simpa [isRootOrNull, (h.2 x).2.2.1] using hst
  · simpa [isRootOrNull, (h.2 R).2.2.1] using hst

theorem SameChunkLinks.headSeq_links {s s' : State} (h : SameChunkLinks s s') {H : Ptr}
    {cs : List Ptr} (hw : HeadSeq s H cs) : HeadSeq s' H cs := by
  obtain ⟨h1, h2, h3⟩ := hw
  refine ⟨h.isLevelHead_links h1, ?_, fun c hc => h.resolves_links (h3 c hc)⟩
  rw [(h.2 H).1]
  unfold ChunkSeq at *
  rw [h.1]
  exact h2

/-- A level head other than the two arguments of `appendChunkList` keeps its fields, its
chunk list and the contents of its chunks. -/
theorem appendChunkList_headSeq_other (s s' : State) (dst src : Ptr) (cd cs : List Ptr)
    (hdst : HeadWF s dst cd) (hsrc : HeadWF s src cs) (hne : dst ≠ src)
    (hrun : appendChunkList s dst src = .ok s') (h : Ptr) (ch : List Ptr)
    (hh : HeadSeq s h ch) (hd : h ≠ dst) (hs : h ≠ src) :
    HeadSeq s' h ch ∧ ∀ c ∈ ch, s'.chunks c = s.chunks c := by
  obtain ⟨t, ht, -, -, hother, -⟩ := appendChunkList_ok s dst src hdst.1.1 hsrc.1.1 hne
  rw [hrun] at ht
  cases ht
  have hch : ∀ c ∈ ch, s'.chunks c = s.chunks c := by
    intro c hc
    have hc0 : c ≠ 0 := Path.ne_zero_of_mem hh.2.1 c hc
    refine appendChunkList_chunk_other s s' dst src hrun c (fun e => ?_) (fun e => ?_)
    · by_cases hcd : cd = []
      · rw [hdst.2.2.1, hcd] at e
        exact hc0 e
      · have := lastOf_mem hcd
        rw [← hdst.2.2.1, ← e] at this
        exact hd ((hh.2.2 c hc).unique (hdst.2.2.2 c this))
    · have := hsrc.2.1.first_mem (e ▸ hc0)
      rw [← e] at this
      exact hs ((hh.2.2 c hc).unique (hsrc.2.2.2 c this))
  have hl := hother h hd hs
  refine ⟨⟨⟨hh.1.1, by rw [hl]; exact hh.1.2⟩, ?_, fun c hc => ?_⟩, hch⟩
  · rw [hl]
    exact Path.congr (fun c hc => by rw [hch c hc]) (fun _ _ h => h) (fun h => h) hh.2.1
  · exact appendChunkList_resolves_other s s' dst src hdst.1 hsrc.1 hne hrun c h hs
      (hh.2.2 c hc)

theorem mem_involved_of_mem :
    ∀ (ps : List (Ptr × Ptr)) (p : Ptr × Ptr), p ∈ ps → p.1 ∈ involved ps ∧ p.2 ∈ involved ps
  | [], p, hp => by simp at hp
  | (x, y) :: ps, p, hp => by
    rcases List.mem_cons.1 hp with rfl | hp
    · exact ⟨List.mem_cons_self _ _, List.mem_cons_of_mem _ (List.mem_cons_self _ _)⟩
    · obtain ⟨h1, h2⟩ := mem_involved_of_mem ps p hp
      exact ⟨List.mem_cons_of_mem _ (List.mem_cons_of_mem _ h1),
        List.mem_cons_of_mem _ (List.mem_cons_of_mem _ h2)⟩

theorem mem_involved :
    ∀ (ps : List (Ptr × Ptr)) (n : Ptr), n ∈ involved ps → ∃ p ∈ ps, n = p.1 ∨ n = p.2
  | [], n, hn => by simp [involved] at hn
  | (x, y) :: ps, n, hn => by
    have hn' : n ∈ x :: y :: involved ps := hn
    rcases List.mem_cons.1 hn' with rfl | hn'
    · exact ⟨(n, y), List.mem_cons_self _ _, Or.inl rfl⟩
    rcases List.mem_cons.1 hn' with rfl | hn'
    · exact ⟨(x, n), List.mem_cons_self _ _, Or.inr rfl⟩
    · obtain ⟨p, hp, h⟩ := mem_involved ps n hn'
      exact ⟨p, List.mem_cons_of_mem _ hp, h⟩

theorem appendPairs_spec (G : Ptr → List Ptr) :
    ∀ (ps : List (Ptr × Ptr)) (s : State), (involved ps).Nodup →
      (∀ p ∈ ps, HeadWF s p.1 (G p.1) ∧ HeadWF s p.2 (G p.2)) →
      ∃ t, appendPairs s ps = .ok t ∧
        (∀ p ∈ ps, HeadSeq t p.1 (G p.1 ++ G p.2) ∧ (t.lists p.2).parent = p.1 ∧
          (t.lists p.1).size = ((s.lists p.1).size + (s.lists p.2).size) % W64) ∧
        (∀ n, n ∉ involved ps → t.lists n = s.lists n) ∧
        (∀ h ch, h ∉ involved ps → HeadSeq s h ch →
          HeadSeq t h ch ∧ ∀ c ∈ ch, t.chunks c = s.chunks c)
  | [], s, _, _ =>
    ⟨s, rfl, fun p hp => by simp at hp, fun _ _ => rfl, fun _ _ _ hh => ⟨hh, fun _ _ => rfl⟩⟩
  | (x, y) :: ps, s, hnd, hwf => by
    have hnd' : (x :: y :: involved ps).Nodup := hnd
    obtain ⟨hx, hnd1⟩ := List.nodup_cons.1 hnd'
    obtain ⟨hyi, hnd2⟩ := List.nodup_cons.1 hnd1
    have hxy : x ≠ y := fun e => hx (by rw [e]; exact List.mem_cons_self _ _)
    have hxi : x ∉ involved ps := fun h => hx (List.mem_cons_of_mem _ h)
    obtain ⟨hwx, hwy⟩ := hwf (x, y) (List.mem_cons_self _ _)
    obtain ⟨s1, hrun1, -, -, hother, -⟩ := appendChunkList_ok s x y hwx.1.1 hwy.1.1 hxy
    obtain ⟨hseq, hres, hhead, hsize, hpar⟩ :=
      appendChunkList_chunkSeq s s1 x y (G x) (G y) hwx hwy hxy hrun1
    have hne : ∀ p ∈ ps, (p.1 ≠ x ∧ p.1 ≠ y) ∧ (p.2 ≠ x ∧ p.2 ≠ y) := by
      intro p hp
      obtain ⟨h1, h2⟩ := mem_involved_of_mem ps p hp
      exact ⟨⟨fun e => hxi (e ▸ h1), fun e => hyi (e ▸ h1)⟩,
        ⟨fun e => hxi (e ▸ h2), fun e => hyi (e ▸ h2)⟩⟩
    have hwf1 : ∀ p ∈ ps, HeadWF s1 p.1 (G p.1) ∧ HeadWF s1 p.2 (G p.2) := by
      intro p hp
      obtain ⟨⟨a1, a2⟩, ⟨b1, b2⟩⟩ := hne p hp
      obtain ⟨w1, w2⟩ := hwf p (List.mem_cons_of_mem _ hp)
      exact ⟨(appendChunkList_headWF_other s s1 x y _ _ hwx hwy hxy hrun1 p.1 _ w1 a1 a2).1,
        (appendChunkList_headWF_other s s1 x y _ _ hwx hwy hxy hrun1 p.2 _ w2 b1 b2).1⟩
    obtain ⟨t, hrun, hA, hB, hC⟩ := appendPairs_spec G ps s1 hnd2 hwf1
    refine ⟨t, ?_, fun p hp => ?_, fun n hn => ?_, fun h ch hh hs => ?_⟩
    · rw [appendPairs, hrun1]
      exact hrun
    · rcases List.mem_cons.1 hp with rfl | hp
      · refine ⟨(hC x _ hxi ⟨hhead, hseq, hres⟩).1, ?_, ?_⟩
        · show (t.lists y).parent = x
          rw [hB y hyi]; exact hpar
        · show (t.lists x).size = _
          rw [hB x hxi]; exact hsize
      · obtain ⟨a1, a2, a3⟩ := hA p hp
        obtain ⟨⟨b1, b2⟩, ⟨b3, b4⟩⟩ := hne p hp
        refine ⟨a1, a2, ?_⟩
        rw [a3, hother p.1 b1 b2, hother p.2 b3 b4]
    · have hn' : n ∉ x :: y :: involved ps := hn
      have hnx : n ≠ x := fun e => hn' (by rw [e]; exact List.mem_cons_self _ _)
      have hny : n ≠ y := fun e =>
        hn' (by rw [e]; exact List.mem_cons_of_mem _ (List.mem_cons_self _ _))
      have hni : n ∉ involved ps := fun h =>
        hn' (List.mem_cons_of_mem _ (List.mem_cons_of_mem _ h))
      rw [hB n hni, hother n hnx hny]
    · have hh' : h ∉ x :: y :: involved ps := hh
      have hhx : h ≠ x := fun e => hh' (by rw [e]; exact List.mem_cons_self _ _)
      have hhy : h ≠ y := fun e =>
        hh' (by rw [e]; exact List.mem_cons_of_mem _ (List.mem_cons_self _ _))
      have hhi : h ∉ involved ps := fun h1 =>
        hh' (List.mem_cons_of_mem _ (List.mem_cons_of_mem _ h1))
      obtain ⟨c1, c2⟩ := appendChunkList_headSeq_other s s1 x y _ _ hwx hwy hxy hrun1 h ch hs
        hhx hhy
      obtain ⟨d1, d2⟩ := hC h ch hhi c1
      exact ⟨d1, fun c hc => by rw [d2 c hc, c2 c hc]⟩

/-! ## Chunk lists of the merged heads -/

theorem mergeChunkLists_nil_left (lv : Ptr → Nat) (G : Ptr → List Ptr) (ys : List Ptr) :
    mergeChunkLists lv G [] ys = ys.map G := by
  rw [mergeChunkLists]

theorem mergeChunkLists_nil_right (lv : Ptr → Nat) (G : Ptr → List Ptr) (xs : List Ptr) :
    mergeChunkLists lv G xs [] = xs.map G := by
  cases xs <;> rw [mergeChunkLists]

theorem mergeChunkLists_gt (lv : Ptr → Nat) (G : Ptr → List Ptr) (x y : Ptr) (xs ys : List Ptr)
    (h : lv y < lv x) :
    mergeChunkLists lv G (x :: xs) (y :: ys) = G x :: mergeChunkLists lv G xs (y :: ys) := by
  rw [mergeChunkLists, if_pos h]

theorem mergeChunkLists_lt (lv : Ptr → Nat) (G : Ptr → List Ptr) (x y : Ptr) (xs ys : List Ptr)
    (h : lv x < lv y) :
    mergeChunkLists lv G (x :: xs) (y :: ys) = G y :: mergeChunkLists lv G (x :: xs) ys := by
  rw [mergeChunkLists, if_neg (Nat.lt_asymm h), if_pos h]

theorem mergeChunkLists_eq (lv : Ptr → Nat) (G : Ptr → List Ptr) (x y : Ptr) (xs ys : List Ptr)
    (h : lv x = lv y) :
    mergeChunkLists lv G (x :: xs) (y :: ys) = (G x ++ G y) :: mergeChunkLists lv G xs ys := by
  rw [mergeChunkLists, if_neg (by omega), if_neg (by omega)]

/-- The chunks of the merged heads are those of the two lists, as multisets. -/
theorem mergeChunkLists_perm (lv : Ptr → Nat) (G : Ptr → List Ptr) (xs ys : List Ptr) :
    (mergeChunkLists lv G xs ys).flatten.Perm (xs.flatMap G ++ ys.flatMap G) := by
  induction xs, ys using mergeHeads.induct lv with
  | case1 ys =>
    rw [mergeChunkLists_nil_left]
    simp [List.flatMap]
  | case2 x xs =>
    rw [mergeChunkLists_nil_right]
    simp [List.flatMap]
  | case3 x xs y ys h ih =>
    rw [mergeChunkLists_gt lv G x y xs ys h]
    simp only [List.flatten_cons, List.flatMap_cons, List.append_assoc] at ih ⊢
    exact List.Perm.append_left _ ih
  | case4 x xs y ys h1 h2 ih =>
    rw [mergeChunkLists_lt lv G x y xs ys h2]
    simp only [List.flatten_cons, List.flatMap_cons, List.append_assoc] at ih ⊢
    refine (List.Perm.append_left (G y) ih).trans ?_
    exact (List.perm_append_comm_assoc _ _ _).trans
      (List.Perm.append_left _ (List.perm_append_comm_assoc _ _ _))
  | case5 x xs y ys h1 h2 ih =>
    rw [mergeChunkLists_eq lv G x y xs ys (by omega)]
    simp only [List.flatten_cons, List.flatMap_cons, List.append_assoc] at ih ⊢
    refine List.Perm.append_left _ ?_
    refine (List.Perm.append_left (G y) ih).trans ?_
    exact List.perm_append_comm_assoc _ _ _

theorem involved_mergePairs_mem (lv : Ptr → Nat) (xs ys : List Ptr) (n : Ptr)
    (hn : n ∈ involved (mergePairs lv xs ys)) : n ∈ xs ∨ n ∈ ys := by
  obtain ⟨p, hp, h⟩ := mem_involved _ n hn
  obtain ⟨h1, h2, -⟩ := mergePairs_mem lv xs ys p hp
  rcases h with rfl | rfl
  · exact Or.inl h1
  · exact Or.inr h2

theorem involved_mergePairs_nodup (lv : Ptr → Nat) (xs ys : List Ptr)
    (hd1 : xs.Pairwise (fun a b => lv b < lv a)) (hd2 : ys.Pairwise (fun a b => lv b < lv a))
    (hdisj : ∀ x ∈ xs, x ∉ ys) : (involved (mergePairs lv xs ys)).Nodup := by
  induction xs, ys using mergePairs.induct lv with
  | case1 ys => rw [mergePairs_nil_left]; exact List.nodup_nil
  | case2 x xs => rw [mergePairs_nil_right]; exact List.nodup_nil
  | case3 x xs y ys h ih =>
    rw [mergePairs_gt lv x y xs ys h]
    exact ih (List.pairwise_cons.1 hd1).2 hd2 (fun z hz => hdisj z (List.mem_cons_of_mem _ hz))
  | case4 x xs y ys h1 h2 ih =>
    rw [mergePairs_lt lv x y xs ys h2]
    exact ih hd1 (List.pairwise_cons.1 hd2).2
      (fun z hz hzy => hdisj z hz (List.mem_cons_of_mem _ hzy))
  | case5 x xs y ys h1 h2 ih =>
    rw [mergePairs_eq lv x y xs ys (by omega)]
    have hxx : x ∉ xs := fun h => Nat.lt_irrefl _ ((List.pairwise_cons.1 hd1).1 x h)
    have hyy : y ∉ ys := fun h => Nat.lt_irrefl _ ((List.pairwise_cons.1 hd2).1 y h)
    have hxy : x ∉ y :: ys := hdisj x (List.mem_cons_self _ _)
    have hyx : y ∉ xs := fun h => hdisj y (List.mem_cons_of_mem _ h) (List.mem_cons_self _ _)
    show (x :: y :: involved (mergePairs lv xs ys)).Nodup
    refine List.nodup_cons.2 ⟨fun h => ?_, List.nodup_cons.2 ⟨fun h => ?_, ?_⟩⟩
    · rcases List.mem_cons.1 h with e | h
      · exact hxy (by rw [e]; exact List.mem_cons_self _ _)
      · rcases involved_mergePairs_mem lv xs ys x h with h3 | h3
        · exact hxx h3
        · exact hxy (List.mem_cons_of_mem _ h3)
    · rcases involved_mergePairs_mem lv xs ys y h with h3 | h3
      · exact hyx h3
      · exact hyy h3
    · exact ih (List.pairwise_cons.1 hd1).2 (List.pairwise_cons.1 hd2).2
        (fun z hz hzy => hdisj z (List.mem_cons_of_mem _ hz) (List.mem_cons_of_mem _ hzy))

theorem mem_mergePairs (lv : Ptr → Nat) (xs ys : List Ptr)
    (hd1 : xs.Pairwise (fun a b => lv b < lv a)) (hd2 : ys.Pairwise (fun a b => lv b < lv a)) :
    ∀ x ∈ xs, ∀ y ∈ ys, lv x = lv y → (x, y) ∈ mergePairs lv xs ys := by
  induction xs, ys using mergePairs.induct lv with
  | case1 ys => intro x hx; simp at hx
  | case2 x xs => intro a _ b hb; simp at hb
  | case3 x xs y ys h ih =>
    intro a ha b hb hab
    rw [mergePairs_gt lv x y xs ys h]
    have hb' : lv b ≤ lv y := by
      rcases List.mem_cons.1 hb with rfl | hb
      · exact Nat.le_refl _
      · exact Nat.le_of_lt ((List.pairwise_cons.1 hd2).1 b hb)
    rcases List.mem_cons.1 ha with rfl | ha
    · omega
    · exact ih (List.pairwise_cons.1 hd1).2 hd2 a ha b hb hab
  | case4 x xs y ys h1 h2 ih =>
    intro a ha b hb hab
    rw [mergePairs_lt lv x y xs ys h2]
    have ha' : lv a ≤ lv x := by
      rcases List.mem_cons.1 ha with rfl | ha
      · exact Nat.le_refl _
      · exact Nat.le_of_lt ((List.pairwise_cons.1 hd1).1 a ha)
    rcases List.mem_cons.1 hb with rfl | hb
    · omega
    · exact ih hd1 (List.pairwise_cons.1 hd2).2 a ha b hb hab
  | case5 x xs y ys h1 h2 ih =>
    intro a ha b hb hab
    rw [mergePairs_eq lv x y xs ys (by omega)]
    rcases List.mem_cons.1 ha with rfl | ha <;> rcases List.mem_cons.1 hb with rfl | hb
    · exact List.mem_cons_self _ _
    · have := (List.pairwise_cons.1 hd2).1 b hb
      omega
    · have := (List.pairwise_cons.1 hd1).1 a ha
      omega
    · exact List.mem_cons_of_mem _
        (ih (List.pairwise_cons.1 hd1).2 (List.pairwise_cons.1 hd2).2 a ha b hb hab)

theorem forall₂_map_of_forall {Q : Ptr → List Ptr → Prop} (G : Ptr → List Ptr) :
    ∀ (hs : List Ptr), (∀ h ∈ hs, Q h (G h)) → List.Forall₂ Q hs (hs.map G)
  | [], _ => List.Forall₂.nil
  | a :: hs, h => List.Forall₂.cons (h a (List.mem_cons_self _ _))
      (forall₂_map_of_forall G hs (fun b hb => h b (List.mem_cons_of_mem _ hb)))

/-- If `Q` holds of each merged pair with the concatenated chunk lists and of each head
that is in no pair with its own chunk list, it holds along the merged list. -/
theorem mergeChunkLists_forall₂ (lv : Ptr → Nat) (G : Ptr → List Ptr)
    (Q : Ptr → List Ptr → Prop) (xs ys : List Ptr)
    (hd1 : xs.Pairwise (fun a b => lv b < lv a)) (hd2 : ys.Pairwise (fun a b => lv b < lv a))
    (hdisj : ∀ x ∈ xs, x ∉ ys)
    (hpair : ∀ p ∈ mergePairs lv xs ys, Q p.1 (G p.1 ++ G p.2))
    (hsingle : ∀ h, (h ∈ xs ∨ h ∈ ys) → h ∉ involved (mergePairs lv xs ys) → Q h (G h)) :
    List.Forall₂ Q (mergeHeads lv xs ys) (mergeChunkLists lv G xs ys) := by
  induction xs, ys using mergeHeads.induct lv with
  | case1 ys =>
    rw [mergeHeads_nil_left, mergeChunkLists_nil_left]
    refine forall₂_map_of_forall G ys (fun h hh => hsingle h (Or.inr hh) ?_)
    rw [mergePairs_nil_left]; simp [involved]
  | case2 x xs =>
    rw [mergeHeads_nil_right, mergeChunkLists_nil_right]
    refine forall₂_map_of_forall G (x :: xs) (fun h hh => hsingle h (Or.inl hh) ?_)
    rw [mergePairs_nil_right]; simp [involved]
  | case3 x xs y ys h ih =>
    have hxx : x ∉ xs := fun h => Nat.lt_irrefl _ ((List.pairwise_cons.1 hd1).1 x h)
    rw [mergeHeads_gt lv x y xs ys h, mergeChunkLists_gt lv G x y xs ys h]
    rw [mergePairs_gt lv x y xs ys h] at hpair hsingle
    refine List.Forall₂.cons (hsingle x (Or.inl (List.mem_cons_self _ _)) (fun hi => ?_))
      (ih (List.pairwise_cons.1 hd1).2 hd2 (fun z hz => hdisj z (List.mem_cons_of_mem _ hz))
        hpair (fun h hh hi => hsingle h ?_ hi))
    · rcases involved_mergePairs_mem lv xs (y :: ys) x hi with h3 | h3
      · exact hxx h3
      · exact hdisj x (List.mem_cons_self _ _) h3
    · rcases hh with hh | hh
      · exact Or.inl (List.mem_cons_of_mem _ hh)
      · exact Or.inr hh
  | case4 x xs y ys h1 h2 ih =>
    have hyy : y ∉ ys := fun h => Nat.lt_irrefl _ ((List.pairwise_cons.1 hd2).1 y h)
    rw [mergeHeads_lt lv x y xs ys h2, mergeChunkLists_lt lv G x y xs ys h2]
    rw [mergePairs_lt lv x y xs ys h2] at hpair hsingle
    refine List.Forall₂.cons (hsingle y (Or.inr (List.mem_cons_self _ _)) (fun hi => ?_))
      (ih hd1 (List.pairwise_cons.1 hd2).2
        (fun z hz hzy => hdisj z hz (List.mem_cons_of_mem _ hzy))
        hpair (fun h hh hi => hsingle h ?_ hi))
    · rcases involved_mergePairs_mem lv (x :: xs) ys y hi with h3 | h3
      · exact hdisj y h3 (List.mem_cons_self _ _)
      · exact hyy h3
    · rcases hh with hh | hh
      · exact Or.inl hh
      · exact Or.inr (List.mem_cons_of_mem _ hh)
  | case5 x xs y ys h1 h2 ih =>
    have hxx : x ∉ xs := fun h => Nat.lt_irrefl _ ((List.pairwise_cons.1 hd1).1 x h)
    have hyy : y ∉ ys := fun h => Nat.lt_irrefl _ ((List.pairwise_cons.1 hd2).1 y h)
    have hxy : x ∉ y :: ys := hdisj x (List.mem_cons_self _ _)
    have hyx : y ∉ xs := fun h => hdisj y (List.mem_cons_of_mem _ h) (List.mem_cons_self _ _)
    rw [mergeHeads_eq lv x y xs ys (by omega), mergeChunkLists_eq lv G x y xs ys (by omega)]
    rw [mergePairs_eq lv x y xs ys (by omega)] at hpair hsingle
    refine List.Forall₂.cons (hpair (x, y) (List.mem_cons_self _ _))
      (ih (List.pairwise_cons.1 hd1).2 (List.pairwise_cons.1 hd2).2
        (fun z hz hzy => hdisj z (List.mem_cons_of_mem _ hz) (List.mem_cons_of_mem _ hzy))
        (fun p hp => hpair p (List.mem_cons_of_mem _ hp)) (fun h hh hi => hsingle h ?_ ?_))
    · rcases hh with hh | hh
      · exact Or.inl (List.mem_cons_of_mem _ hh)
      · exact Or.inr (List.mem_cons_of_mem _ hh)
    · intro hmem
      have hmem' : h ∈ x :: y :: involved (mergePairs lv xs ys) := hmem
      rcases List.mem_cons.1 hmem' with e | hmem'
      · rcases hh with hh | hh
        · exact hxx (e ▸ hh)
        · exact hxy (List.mem_cons_of_mem _ (e ▸ hh))
      rcases List.mem_cons.1 hmem' with e | hmem'
      · rcases hh with hh | hh
        · exact hyx (e ▸ hh)
        · exact hyy (e ▸ hh)
      · exact hi hmem'

/-! ## Claims on `HM_mergeLevelList`: chunks and union-find -/

theorem pairwise_lt_injective (lv : Ptr → Nat) :
    ∀ (zs : List Ptr), zs.Pairwise (fun a b => lv b < lv a) →
      ∀ a ∈ zs, ∀ b ∈ zs, lv a = lv b → a = b
  | [], _, a, ha, _, _, _ => by simp at ha
  | z :: zs, hd, a, ha, b, hb, hab => by
    obtain ⟨h1, h2⟩ := List.pairwise_cons.1 hd
    rcases List.mem_cons.1 ha with ea | ha' <;> rcases List.mem_cons.1 hb with eb | hb'
    · rw [ea, eb]
    · have := h1 b hb'
      rw [ea] at hab
      omega
    · have := h1 a ha'
      rw [eb] at hab
      omega
    · exact pairwise_lt_injective lv zs h2 a ha' b hb' hab

/-- The chunk lists after `HM_mergeLevelList` on two disjoint lists of well-formed heads:
each pair of equal-level heads is merged into the head of the first list, all other heads
keep their chunk lists. -/
theorem HM_mergeLevelList_chunks (s : State) (a b hh : Ptr) (r : Bool) (xs ys : List Ptr)
    (G : Ptr → List Ptr) (fuel : Nat) (hl1 : LevelList s a xs) (hl2 : LevelList s b ys)
    (hd1 : Descending s xs) (hd2 : Descending s ys) (hdisj : ∀ x ∈ xs, x ∉ ys)
    (hwf : ∀ h, h ∈ xs ∨ h ∈ ys → HeadWF s h (G h)) (hf : xs.length + ys.length < fuel) :
    ∃ s' out, HM_mergeLevelList fuel s a b hh r = .ok (s', out) ∧
      LevelList s' out (mergeHeads (fun m => (s.lists m).level) xs ys) ∧
      (∀ m, (s'.lists m).level = (s.lists m).level) ∧
      (∀ p ∈ mergePairs (fun m => (s.lists m).level) xs ys,
        HeadSeq s' p.1 (G p.1 ++ G p.2) ∧ (s'.lists p.2).parent = p.1 ∧
          (s'.lists p.1).size = ((s.lists p.1).size + (s.lists p.2).size) % W64) ∧
      (∀ h, h ∈ xs ∨ h ∈ ys → h ∉ involved (mergePairs (fun m => (s.lists m).level) xs ys) →
        HeadSeq s' h (G h) ∧ (s'.lists h).size = (s.lists h).size) := by
  obtain ⟨s', out, t, hrun, hl, hlev, -, -, -, hpairs, hlinks⟩ :=
    HM_mergeLevelList_spec s a b hh r xs ys fuel hl1 hl2 hd1 hd2 hf
  obtain ⟨t', ht', hA, hB, hC⟩ := appendPairs_spec G _ s
    (involved_mergePairs_nodup (fun m => (s.lists m).level) xs ys hd1 hd2 hdisj)
    (fun p hp => by
      obtain ⟨h1, h2, -⟩ := mergePairs_mem _ xs ys p hp
      exact ⟨hwf _ (Or.inl h1), hwf _ (Or.inr h2)⟩)
  rw [hpairs] at ht'
  cases ht'
  refine ⟨s', out, hrun, hl, fun m => (hlev m).1, fun p hp => ?_, fun h hh hi => ?_⟩
  · obtain ⟨a1, a2, a3⟩ := hA p hp
    exact ⟨hlinks.headSeq_links a1, by rw [(hlinks.2 p.2).2.2.1, a2], by rw [(hlinks.2 p.1).2.2.2, a3]⟩
  · exact ⟨hlinks.headSeq_links (hC h _ hi (hwf h hh).headSeq).1, by rw [(hlinks.2 h).2.2.2, hB h hi]⟩

/-- C3: in `HM_mergeLevelList(A, B, hh, r)` on two disjoint, strictly descending lists of
well-formed heads, where `G` gives the chunk list of each head, whenever `x` in `A` and `y`
in `B` have the same level, `x` is in the output list and is its only head of that level;
`y` has `parent = x` and is not in the output list; and the chunk sequence of `x` is the
chunks of `x` followed by the chunks of `y`, with size the sum of the two sizes (computed in
64 bits). -/
theorem HM_mergeLevelList_equal_level (s : State) (a b hh : Ptr) (r : Bool) (xs ys : List Ptr)
    (G : Ptr → List Ptr) (fuel : Nat) (hl1 : LevelList s a xs) (hl2 : LevelList s b ys)
    (hd1 : Descending s xs) (hd2 : Descending s ys) (hdisj : ∀ x ∈ xs, x ∉ ys)
    (hwf : ∀ h, h ∈ xs ∨ h ∈ ys → HeadWF s h (G h)) (hf : xs.length + ys.length < fuel)
    (x y : Ptr) (hx : x ∈ xs) (hy : y ∈ ys) (hxy : (s.lists x).level = (s.lists y).level) :
    ∃ s' out zs, HM_mergeLevelList fuel s a b hh r = .ok (s', out) ∧ LevelList s' out zs ∧
      x ∈ zs ∧ (s'.lists x).level = (s.lists x).level ∧
      (∀ z ∈ zs, (s'.lists z).level = (s.lists x).level → z = x) ∧
      y ∉ zs ∧ (s'.lists y).parent = x ∧ isLevelHead s' x ∧
      ChunkSeq s' (s'.lists x).firstChunk (G x ++ G y) ∧
      (s'.lists x).size = ((s.lists x).size + (s.lists y).size) % W64 ∧
      ((s.lists x).size + (s.lists y).size < W64 →
        (s'.lists x).size = (s.lists x).size + (s.lists y).size) := by
  obtain ⟨s', out, hrun, hl, hlev, hA, -⟩ :=
    HM_mergeLevelList_chunks s a b hh r xs ys G fuel hl1 hl2 hd1 hd2 hdisj hwf hf
  have hp := mem_mergePairs (fun m => (s.lists m).level) xs ys hd1 hd2 x hx y hy hxy
  obtain ⟨a1, a2, a3⟩ := hA (x, y) hp
  have hdz := mergeHeads_descending (fun m => (s.lists m).level) xs ys hd1 hd2
  have hxz := mem_mergeHeads_left (fun m => (s.lists m).level) xs ys x hx
  refine ⟨s', out, _, hrun, hl, hxz, hlev x, fun z hz hzl => ?_, fun hyz => ?_, a2, a1.1, a1.2.1,
    a3, fun hlt => ?_⟩
  · rw [hlev z] at hzl
    exact pairwise_lt_injective _ _ hdz z hz x hxz hzl
  · rcases mergeHeads_mem_cases (fun m => (s.lists m).level) xs ys hd1 hd2 y hyz with h | ⟨-, h⟩
    · exact hdisj y h hy
    · exact h x hx hxy
  · rw [a3]
    exact Nat.mod_eq_of_lt hlt

theorem heapS3_wf :
    ∀ h, h ∈ [11, 12, 13] ∨ h ∈ [21, 22, 23] → HeadWF heapS3 h (heapS3_chunks h) := by
  intro h hh
  simp only [List.mem_cons, List.mem_singleton, List.not_mem_nil, or_false] at hh
  rcases hh with (rfl | rfl | rfl) | (rfl | rfl | rfl)
  all_goals
    refine ⟨by decide, by decide, by decide, fun c hc => ?_⟩
    simp only [heapS3_chunks] at hc
    obtain rfl := List.mem_singleton.1 hc
    exact ⟨by decide, [], by decide⟩

theorem HM_mergeLevelList_equal_level_witness :
    ∃ s' out zs, HM_mergeLevelList 7 heapS3 11 21 99 true = .ok (s', out) ∧
      LevelList s' out zs ∧ 13 ∈ zs ∧ (s'.lists 13).level = (heapS3.lists 13).level ∧
      (∀ z ∈ zs, (s'.lists z).level = (heapS3.lists 13).level → z = 13) ∧
      23 ∉ zs ∧ (s'.lists 23).parent = 13 ∧ isLevelHead s' 13 ∧
      ChunkSeq s' (s'.lists 13).firstChunk (heapS3_chunks 13 ++ heapS3_chunks 23) ∧
      (s'.lists 13).size = ((heapS3.lists 13).size + (heapS3.lists 23).size) % W64 ∧
      ((heapS3.lists 13).size + (heapS3.lists 23).size < W64 →
        (s'.lists 13).size = (heapS3.lists 13).size + (heapS3.lists 23).size) :=
  HM_mergeLevelList_equal_level heapS3 11 21 99 true [11, 12, 13] [21, 22, 23] heapS3_chunks 7
    (by decide) (by decide) (by decide) (by decide) (by decide) heapS3_wf (by decide)
    13 23 (by decide) (by decide) (by decide)

theorem forall₂_mem_flatten {Q : Ptr → List Ptr → Prop} :
    ∀ {zs : List Ptr} {css : List (List Ptr)}, List.Forall₂ Q zs css →
      ∀ c ∈ css.flatten, ∃ z ∈ zs, ∃ cz, Q z cz ∧ c ∈ cz
  | _, _, .nil, c, hc => by simp at hc
  | _, _, .cons (a := z) (b := cz) h hrest, c, hc => by
    rw [List.flatten_cons] at hc
    rcases List.mem_append.1 hc with hc | hc
    · exact ⟨z, List.mem_cons_self _ _, cz, h, hc⟩
    · obtain ⟨z', hz', cz', h', hc'⟩ := forall₂_mem_flatten hrest c hc
      exact ⟨z', List.mem_cons_of_mem _ hz', cz', h', hc'⟩

/-- C2: for two disjoint, strictly descending lists of well-formed heads, where `G` gives
the chunk list of each head, after `HM_mergeLevelList` the chunk sequences `css` of the heads
`zs` of the output list hold, as a multiset, exactly the chunks of the two input lists; and
for every such chunk `HM_getLevelHead` and `HM_getLevelHeadPathCompress` return a head that
is in the output list, the latter leaving `chunk.levelHead` equal to that head. -/
theorem HM_mergeLevelList_chunk_multiset (s : State) (a b hh : Ptr) (r : Bool)
    (xs ys : List Ptr) (G : Ptr → List Ptr) (fuel : Nat) (hl1 : LevelList s a xs)
    (hl2 : LevelList s b ys) (hd1 : Descending s xs) (hd2 : Descending s ys)
    (hdisj : ∀ x ∈ xs, x ∉ ys) (hwf : ∀ h, h ∈ xs ∨ h ∈ ys → HeadWF s h (G h))
    (hf : xs.length + ys.length < fuel) :
    ∃ s' out zs css, HM_mergeLevelList fuel s a b hh r = .ok (s', out) ∧
      LevelList s' out zs ∧
      List.Forall₂ (fun z cz => ChunkSeq s' (s'.lists z).firstChunk cz) zs css ∧
      css.flatten.Perm (xs.flatMap G ++ ys.flatMap G) ∧
      ∀ c ∈ xs.flatMap G ++ ys.flatMap G, ∃ z ∈ zs, ∃ n, ∀ k, n ≤ k →
        HM_getLevelHead k s' c = .ok z ∧
        ∃ s'', HM_getLevelHeadPathCompress k s' c = .ok (s'', z) ∧
          (s''.chunks c).levelHead = z := by
  obtain ⟨s', out, hrun, hl, -, hA, hC⟩ :=
    HM_mergeLevelList_chunks s a b hh r xs ys G fuel hl1 hl2 hd1 hd2 hdisj hwf hf
  have hall := mergeChunkLists_forall₂ (fun m => (s.lists m).level) G (HeadSeq s') xs ys hd1 hd2
    hdisj (fun p hp => (hA p hp).1) (fun h hh hi => (hC h hh hi).1)
  have hperm := mergeChunkLists_perm (fun m => (s.lists m).level) G xs ys
  refine ⟨s', out, _, _, hrun, hl, List.Forall₂.imp (fun z cz h => h.2.1) hall, hperm,
    fun c hc => ?_⟩
  obtain ⟨z, hz, cz, hq, hcz⟩ := forall₂_mem_flatten hall c (hperm.symm.subset hc)
  obtain ⟨hc0, path, hpath⟩ := hq.2.2 c hcz
  refine ⟨z, hz, path.length + 1, fun k hk => ?_⟩
  obtain ⟨s'', h1, h2, -⟩ := HM_getLevelHeadPathCompress_spec s' c z path k hc0 hpath (by omega)
  refine ⟨HM_getLevelHead_of_resolves s' c z path k hc0 hpath (by omega), s'', h1, ?_⟩
  rw [h2]; simp

theorem HM_mergeLevelList_chunk_multiset_witness :
    ∃ s' out zs css, HM_mergeLevelList 7 heapS3 11 21 99 false = .ok (s', out) ∧
      LevelList s' out zs ∧
      List.Forall₂ (fun z cz => ChunkSeq s' (s'.lists z).firstChunk cz) zs css ∧
      css.flatten.Perm
        ([11, 12, 13].flatMap heapS3_chunks ++ [21, 22, 23].flatMap heapS3_chunks) ∧
      ∀ c ∈ [11, 12, 13].flatMap heapS3_chunks ++ [21, 22, 23].flatMap heapS3_chunks,
        ∃ z ∈ zs, ∃ n, ∀ k, n ≤ k →
          HM_getLevelHead k s' c = .ok z ∧
          ∃ s'', HM_getLevelHeadPathCompress k s' c = .ok (s'', z) ∧
            (s''.chunks c).levelHead = z :=
  HM_mergeLevelList_chunk_multiset heapS3 11 21 99 false [11, 12, 13] [21, 22, 23]
    heapS3_chunks 7 (by decide) (by decide) (by decide) (by decide) (by decide) heapS3_wf
    (by decide)

/-! ## The size invariant -/

theorem HM_getChunkSize_congr {s s' : State} {c : Ptr}
    (h : (s'.chunks c).limit = (s.chunks c).limit) :
    HM_getChunkSize s' c = HM_getChunkSize s c := by
  unfold HM_getChunkSize
  rw [h]

theorem Path.splice {next next' : Ptr → Ptr} {stop : Ptr → Prop} :
    ∀ (xs : List Ptr) {l p e : Ptr} {rest ys : List Ptr} {q : Ptr},
      Path next stop p (xs ++ l :: rest) e → (∀ x ∈ xs, next' x = next x) →
      Path next' stop (next' l) ys q → Path next' stop p (xs ++ l :: ys) q
  | [], _, _, _, _, _, _, h, _, h2 => ⟨h.1, h.2.1, h2⟩
  | x :: xs, _, _, _, _, _, _, h, hn, h2 => by
    refine ⟨h.1, h.2.1, ?_⟩
    rw [hn x (List.mem_cons_self _ _)]
    exact Path.splice xs h.2.2 (fun y hy => hn y (List.mem_cons_of_mem _ hy)) h2

/-! ### `appendChunkList` -/

theorem nextChunk_setLevelHead (s : State) (p v d : Ptr) :
    ((s.setLevelHead p v).chunks d).nextChunk = (s.chunks d).nextChunk := by
  unfold State.setLevelHead
  by_cases h : d = p <;> simp [h]

theorem prevChunk_setLevelHead (s : State) (p v d : Ptr) :
    ((s.setLevelHead p v).chunks d).prevChunk = (s.chunks d).prevChunk := by
  unfold State.setLevelHead
  by_cases h : d = p <;> simp [h]

theorem limit_setLevelHead (s : State) (p v d : Ptr) :
    ((s.setLevelHead p v).chunks d).limit = (s.chunks d).limit := by
  unfold State.setLevelHead
  by_cases h : d = p <;> simp [h]

theorem levelHead_setLevelHead (s : State) (p v d : Ptr) :
    ((s.setLevelHead p v).chunks d).levelHead = if d = p then v else (s.chunks d).levelHead := by
  unfold State.setLevelHead
  by_cases h : d = p <;> simp [h]

theorem nextAdjacent_setLevelHead (s : State) (p v d : Ptr) :
    ((s.setLevelHead p v).chunks d).nextAdjacent = (s.chunks d).nextAdjacent := by
  unfold State.setLevelHead
  by_cases h : d = p <;> simp [h]

theorem prevAdjacent_setLevelHead (s : State) (p v d : Ptr) :
    ((s.setLevelHead p v).chunks d).prevAdjacent = (s.chunks d).prevAdjacent := by
  unfold State.setLevelHead
  by_cases h : d = p <;> simp [h]

theorem lists_setLevelHead (s : State) (p v : Ptr) : (s.setLevelHead p v).lists = s.lists := rfl

theorem nextChunk_setNextChunk (s : State) (p v d : Ptr) :
    ((s.setNextChunk p v).chunks d).nextChunk = if d = p then v else (s.chunks d).nextChunk := by
  unfold State.setNextChunk
  by_cases h : d = p <;> simp [h]

theorem prevChunk_setNextChunk (s : State) (p v d : Ptr) :
    ((s.setNextChunk p v).chunks d).prevChunk = (s.chunks d).prevChunk := by
  unfold State.setNextChunk
  by_cases h : d = p <;> simp [h]

theorem limit_setNextChunk (s : State) (p v d : Ptr) :
    ((s.setNextChunk p v).chunks d).limit = (s.chunks d).limit := by
  unfold State.setNextChunk
  by_cases h : d = p <;> simp [h]

theorem levelHead_setNextChunk (s : State) (p v d : Ptr) :
    ((s.setNextChunk p v).chunks d).levelHead = (s.chunks d).levelHead := by
  unfold State.setNextChunk
  by_cases h : d = p <;> simp [h]

theorem nextAdjacent_setNextChunk (s : State) (p v d : Ptr) :
    ((s.setNextChunk p v).chunks d).nextAdjacent = (s.chunks d).nextAdjacent := by
  unfold State.setNextChunk
  by_cases h : d = p <;> simp [h]

theorem prevAdjacent_setNextChunk (s : State) (p v d : Ptr) :
    ((s.setNextChunk p v).chunks d).prevAdjacent = (s.chunks d).prevAdjacent := by
  unfold State.setNextChunk
  by_cases h : d = p <;> simp [h]

theorem lists_setNextChunk (s : State) (p v : Ptr) : (s.setNextChunk p v).lists = s.lists := rfl

theorem nextChunk_setPrevChunk (s : State) (p v d : Ptr) :
    ((s.setPrevChunk p v).chunks d).nextChunk = (s.chunks d).nextChunk := by
  unfold State.setPrevChunk
  by_cases h : d = p <;> simp [h]

theorem prevChunk_setPrevChunk (s : State) (p v d : Ptr) :
    ((s.setPrevChunk p v).chunks d).prevChunk = if d = p then v else (s.chunks d).prevChunk := by
  unfold State.setPrevChunk
  by_cases h : d = p <;> simp [h]

theorem limit_setPrevChunk (s : State) (p v d : Ptr) :
    ((s.setPrevChunk p v).chunks d).limit = (s.chunks d).limit := by
  unfold State.setPrevChunk
  by_cases h : d = p <;> simp [h]

theorem levelHead_setPrevChunk (s : State) (p v d : Ptr) :
    ((s.setPrevChunk p v).chunks d).levelHead = (s.chunks d).levelHead := by
  unfold State.setPrevChunk
  by_cases h : d = p <;> simp [h]

theorem nextAdjacent_setPrevChunk (s : State) (p v d : Ptr) :
    ((s.setPrevChunk p v).chunks d).nextAdjacent = (s.chunks d).nextAdjacent := by
  unfold State.setPrevChunk
  by_cases h : d = p <;> simp [h]

theorem prevAdjacent_setPrevChunk (s : State) (p v d : Ptr) :
    ((s.setPrevChunk p v).chunks d).prevAdjacent = (s.chunks d).prevAdjacent := by
  unfold State.setPrevChunk
  by_cases h : d = p <;> simp [h]

theorem lists_setPrevChunk (s : State) (p v : Ptr) : (s.setPrevChunk p v).lists = s.lists := rfl

theorem nextChunk_setLimit (s : State) (p v d : Ptr) :
    ((s.setLimit p v).chunks d).nextChunk = (s.chunks d).nextChunk := by
  unfold State.setLimit
  by_cases h : d = p <;> simp [h]

theorem prevChunk_setLimit (s : State) (p v d : Ptr) :
    ((s.setLimit p v).chunks d).prevChunk = (s.chunks d).prevChunk := by
  unfold State.setLimit
  by_cases h : d = p <;> simp [h]

theorem limit_setLimit (s : State) (p v d : Ptr) :
    ((s.setLimit p v).chunks d).limit = if d = p then v else (s.chunks d).limit := by
  unfold State.setLimit
  by_cases h : d = p <;> simp [h]

theorem levelHead_setLimit (s : State) (p v d : Ptr) :
    ((s.setLimit p v).chunks d).levelHead = (s.chunks d).levelHead := by
  unfold State.setLimit
  by_cases h : d = p <;> simp [h]

theorem nextAdjacent_setLimit (s : State) (p v d : Ptr) :
    ((s.setLimit p v).chunks d).nextAdjacent = (s.chunks d).nextAdjacent := by
  unfold State.setLimit
  by_cases h : d = p <;> simp [h]

theorem prevAdjacent_setLimit (s : State) (p v d : Ptr) :
    ((s.setLimit p v).chunks d).prevAdjacent = (s.chunks d).prevAdjacent := by
  unfold State.setLimit
  by_cases h : d = p <;> simp [h]

theorem lists_setLimit (s : State) (p v : Ptr) : (s.setLimit p v).lists = s.lists := rfl

theorem nextChunk_setNextAdjacent (s : State) (p v d : Ptr) :
    ((s.setNextAdjacent p v).chunks d).nextChunk = (s.chunks d).nextChunk := by
  unfold State.setNextAdjacent
  by_cases h : d = p <;> simp [h]

theorem prevChunk_setNextAdjacent (s : State) (p v d : Ptr) :
    ((s.setNextAdjacent p v).chunks d).prevChunk = (s.chunks d).prevChunk := by
  unfold State.setNextAdjacent
  by_cases h : d = p <;> simp [h]

theorem limit_setNextAdjacent (s : State) (p v d : Ptr) :
    ((s.setNextAdjacent p v).chunks d).limit = (s.chunks d).limit := by
  unfold State.setNextAdjacent
  by_cases h : d = p <;> simp [h]

theorem levelHead_setNextAdjacent (s : State) (p v d : Ptr) :
    ((s.setNextAdjacent p v).chunks d).levelHead = (s.chunks d).levelHead := by
  unfold State.setNextAdjacent
  by_cases h : d = p <;> simp [h]

theorem nextAdjacent_setNextAdjacent (s : State) (p v d : Ptr) :
    ((s.setNextAdjacent p v).chunks d).nextAdjacent = if d = p then v else (s.chunks d).nextAdjacent := by
  unfold State.setNextAdjacent
  by_cases h : d = p <;> simp [h]

theorem prevAdjacent_setNextAdjacent (s : State) (p v d : Ptr) :
    ((s.setNextAdjacent p v).chunks d).prevAdjacent = (s.chunks d).prevAdjacent := by
  unfold State.setNextAdjacent
  by_cases h : d = p <;> simp [h]

theorem lists_setNextAdjacent (s : State) (p v : Ptr) : (s.setNextAdjacent p v).lists = s.lists := rfl

theorem nextChunk_setPrevAdjacent (s : State) (p v d : Ptr) :
    ((s.setPrevAdjacent p v).chunks d).nextChunk = (s.chunks d).nextChunk := by
  unfold State.setPrevAdjacent
  by_cases h : d = p <;> simp [h]

theorem prevChunk_setPrevAdjacent (s : State) (p v d : Ptr) :
    ((s.setPrevAdjacent p v).chunks d).prevChunk = (s.chunks d).prevChunk := by
  unfold State.setPrevAdjacent
  by_cases h : d = p <;> simp [h]

theorem limit_setPrevAdjacent (s : State) (p v d : Ptr) :
    ((s.setPrevAdjacent p v).chunks d).limit = (s.chunks d).limit := by
  unfold State.setPrevAdjacent
  by_cases h : d = p <;> simp [h]

theorem levelHead_setPrevAdjacent (s : State) (p v d : Ptr) :
    ((s.setPrevAdjacent p v).chunks d).levelHead = (s.chunks d).levelHead := by
  unfold State.setPrevAdjacent
  by_cases h : d = p <;> simp [h]

theorem nextAdjacent_setPrevAdjacent (s : State) (p v d : Ptr) :
    ((s.setPrevAdjacent p v).chunks d).nextAdjacent = (s.chunks d).nextAdjacent := by
  unfold State.setPrevAdjacent
  by_cases h : d = p <;> simp [h]

theorem prevAdjacent_setPrevAdjacent (s : State) (p v d : Ptr) :
    ((s.setPrevAdjacent p v).chunks d).prevAdjacent = if d = p then v else (s.chunks d).prevAdjacent := by
  unfold State.setPrevAdjacent
  by_cases h : d = p <;> simp [h]

theorem lists_setPrevAdjacent (s : State) (p v : Ptr) : (s.setPrevAdjacent p v).lists = s.lists := rfl

theorem firstChunk_setFirstChunk (s : State) (n v m : Nat) :
    ((s.setFirstChunk n v).lists m).firstChunk = if m = n then v else (s.lists m).firstChunk := by
  unfold State.setFirstChunk
  by_cases h : m = n <;> simp [h]

theorem lastChunk_setFirstChunk (s : State) (n v m : Nat) :
    ((s.setFirstChunk n v).lists m).lastChunk = (s.lists m).lastChunk := by
  unfold State.setFirstChunk
  by_cases h : m = n <;> simp [h]

theorem size_setFirstChunk (s : State) (n v m : Nat) :
    ((s.setFirstChunk n v).lists m).size = (s.lists m).size := by
  unfold State.setFirstChunk
  by_cases h : m = n <;> simp [h]

theorem parent_setFirstChunk (s : State) (n v m : Nat) :
    ((s.setFirstChunk n v).lists m).parent = (s.lists m).parent := by
  unfold State.setFirstChunk
  by_cases h : m = n <;> simp [h]

theorem chunks_setFirstChunk (s : State) (n v : Nat) : (s.setFirstChunk n v).chunks = s.chunks := rfl

theorem lists_setFirstChunk_ne (s : State) (n v m : Nat) (h : m ≠ n) :
    (s.setFirstChunk n v).lists m = s.lists m := by
  unfold State.setFirstChunk
  simp [h]

theorem firstChunk_setLastChunk (s : State) (n v m : Nat) :
    ((s.setLastChunk n v).lists m).firstChunk = (s.lists m).firstChunk := by
  unfold State.setLastChunk
  by_cases h : m = n <;> simp [h]

theorem lastChunk_setLastChunk (s : State) (n v m : Nat) :
    ((s.setLastChunk n v).lists m).lastChunk = if m = n then v else (s.lists m).lastChunk := by
  unfold State.setLastChunk
  by_cases h : m = n <;> simp [h]

theorem size_setLastChunk (s : State) (n v m : Nat) :
    ((s.setLastChunk n v).lists m).size = (s.lists m).size := by
  unfold State.setLastChunk
  by_cases h : m = n <;> simp [h]

theorem parent_setLastChunk (s : State) (n v m : Nat) :
    ((s.setLastChunk n v).lists m).parent = (s.lists m).parent := by
  unfold State.setLastChunk
  by_cases h : m = n <;> simp [h]

theorem chunks_setLastChunk (s : State) (n v : Nat) : (s.setLastChunk n v).chunks = s.chunks := rfl

theorem lists_setLastChunk_ne (s : State) (n v m : Nat) (h : m ≠ n) :
    (s.setLastChunk n v).lists m = s.lists m := by
  unfold State.setLastChunk
  simp [h]

theorem firstChunk_setSize (s : State) (n v m : Nat) :
    ((s.setSize n v).lists m).firstChunk = (s.lists m).firstChunk := by
  unfold State.setSize
  by_cases h : m = n <;> simp [h]

theorem lastChunk_setSize (s : State) (n v m : Nat) :
    ((s.setSize n v).lists m).lastChunk = (s.lists m).lastChunk := by
  unfold State.setSize
  by_cases h : m = n <;> simp [h]

theorem size_setSize (s : State) (n v m : Nat) :
    ((s.setSize n v).lists m).size = if m = n then v else (s.lists m).size := by
  unfold State.setSize
  by_cases h : m = n <;> simp [h]

theorem parent_setSize (s : State) (n v m : Nat) :
    ((s.setSize n v).lists m).parent = (s.lists m).parent := by
  unfold State.setSize
  by_cases h : m = n <;> simp [h]

theorem chunks_setSize (s : State) (n v : Nat) : (s.setSize n v).chunks = s.chunks := rfl

theorem lists_setSize_ne (s : State) (n v m : Nat) (h : m ≠ n) :
    (s.setSize n v).lists m = s.lists m := by
  unfold State.setSize
  simp [h]

theorem chunks_ite (c : Prop) [Decidable c] (a b : State) :
    (if c then a else b).chunks = if c then a.chunks else b.chunks := by
  split <;> rfl

theorem lists_ite (c : Prop) [Decidable c] (a b : State) :
    (if c then a else b).lists = if c then a.lists else b.lists := by
  split <;> rfl

/-! ### `HM_unlinkChunk` -/

theorem HM_unlinkChunk_effect (fuel : Nat) (s s0 : State) (c H : Ptr)
    (hcomp : HM_getLevelHeadPathCompress fuel s c = .ok (s0, H)) (hH : H ≠ 0) :
    ∃ s', HM_unlinkChunk fuel s c = .ok s' ∧
      (∀ d, (s'.chunks d).nextChunk =
        if d = c then 0
        else if (s0.chunks c).prevChunk ≠ 0 ∧ d = (s0.chunks c).prevChunk then (s0.chunks c).nextChunk
        else (s0.chunks d).nextChunk) ∧
      (∀ d, (s'.chunks d).prevChunk =
        if d = c then 0
        else if (s0.chunks c).nextChunk ≠ 0 ∧ d = (s0.chunks c).nextChunk then (s0.chunks c).prevChunk
        else (s0.chunks d).prevChunk) ∧
      (∀ d, (s'.chunks d).levelHead = if d = c then 0 else (s0.chunks d).levelHead) ∧
      (∀ d, (s'.chunks d).limit = (s0.chunks d).limit) ∧
      (∀ n, (s'.lists n).parent = (s0.lists n).parent) ∧
      (∀ n, n ≠ H → s'.lists n = s0.lists n) ∧
      (s'.lists H).firstChunk =
        (if (s0.chunks c).prevChunk = 0 then (s0.chunks c).nextChunk
         else (s0.lists H).firstChunk) ∧
      (s'.lists H).lastChunk =
        (if (s0.chunks c).nextChunk = 0 then (s0.chunks c).prevChunk
         else (s0.lists H).lastChunk) ∧
      (s'.lists H).size = ((s0.lists H).size + W64 - HM_getChunkSize s0 c) % W64 := by
  refine ⟨_, by unfold HM_unlinkChunk; rw [hcomp]; exact if_neg hH, ?_, ?_, ?_, ?_, ?_, ?_, ?_, ?_, ?_⟩
  · intro d
    by_cases hp : (s0.chunks c).prevChunk = 0 <;> by_cases hn : (s0.chunks c).nextChunk = 0 <;>
      by_cases hd : d = c <;>
      simp [nextChunk_setNextChunk, nextChunk_setPrevChunk, nextChunk_setLevelHead,
        chunks_setFirstChunk, chunks_setLastChunk, chunks_setSize, hp, hn, hd]
  · intro d
    by_cases hp : (s0.chunks c).prevChunk = 0 <;> by_cases hn : (s0.chunks c).nextChunk = 0 <;>
      by_cases hd : d = c <;>
      simp [prevChunk_setNextChunk, prevChunk_setPrevChunk, prevChunk_setLevelHead,
        nextChunk_setNextChunk,
        chunks_setFirstChunk, chunks_setLastChunk, chunks_setSize, hp, hn, hd]
  · intro d
    by_cases hp : (s0.chunks c).prevChunk = 0 <;> by_cases hn : (s0.chunks c).nextChunk = 0 <;>
      by_cases hd : d = c <;>
      simp [levelHead_setNextChunk, levelHead_setPrevChunk, levelHead_setLevelHead,
        nextChunk_setNextChunk,
        chunks_setFirstChunk, chunks_setLastChunk, chunks_setSize, hp, hn, hd]
  · intro d
    by_cases hp : (s0.chunks c).prevChunk = 0 <;> by_cases hn : (s0.chunks c).nextChunk = 0 <;>
      simp [limit_setNextChunk, limit_setPrevChunk, limit_setLevelHead,
        nextChunk_setNextChunk,
        chunks_setFirstChunk, chunks_setLastChunk, chunks_setSize, hp, hn]
  · intro n
    by_cases hp : (s0.chunks c).prevChunk = 0 <;> by_cases hn : (s0.chunks c).nextChunk = 0 <;>
      simp [lists_setNextChunk, lists_setPrevChunk, lists_setLevelHead, parent_setFirstChunk,
        parent_setLastChunk, parent_setSize, nextChunk_setNextChunk,
        chunks_setFirstChunk, chunks_setLastChunk, chunks_setSize, hp, hn]
  · intro n hne
    by_cases hp : (s0.chunks c).prevChunk = 0 <;> by_cases hn : (s0.chunks c).nextChunk = 0 <;>
      simp [lists_setNextChunk, lists_setPrevChunk, lists_setLevelHead, lists_setFirstChunk_ne,
        lists_setLastChunk_ne, lists_setSize_ne, nextChunk_setNextChunk,
        chunks_setFirstChunk, chunks_setLastChunk, chunks_setSize, hp, hn, hne]
  · by_cases hp : (s0.chunks c).prevChunk = 0 <;> by_cases hn : (s0.chunks c).nextChunk = 0 <;>
      simp [lists_setNextChunk, lists_setPrevChunk, lists_setLevelHead, firstChunk_setFirstChunk,
        firstChunk_setLastChunk, firstChunk_setSize, nextChunk_setNextChunk,
        chunks_setFirstChunk, chunks_setLastChunk, chunks_setSize, hp, hn]
  · by_cases hp : (s0.chunks c).prevChunk = 0 <;> by_cases hn : (s0.chunks c).nextChunk = 0 <;>
      simp [lists_setNextChunk, lists_setPrevChunk, lists_setLevelHead, lastChunk_setFirstChunk,
        lastChunk_setLastChunk, lastChunk_setSize, nextChunk_setNextChunk, prevChunk_setNextChunk,
        chunks_setFirstChunk, chunks_setLastChunk, chunks_setSize, hp, hn]
  · by_cases hp : (s0.chunks c).prevChunk = 0 <;> by_cases hn : (s0.chunks c).nextChunk = 0 <;>
      simp [lists_setNextChunk, lists_setPrevChunk, lists_setLevelHead, size_setFirstChunk,
        size_setLastChunk, size_setSize, nextChunk_setNextChunk, limit_setNextChunk,
        limit_setPrevChunk, HM_getChunkSize,
        chunks_setFirstChunk, chunks_setLastChunk, chunks_setSize, hp, hn]

theorem PrevLinks.prev_of_append {s : State} :
    ∀ (pre : List Ptr) {p c : Ptr} {post : List Ptr}, PrevLinks s p (pre ++ c :: post) →
      (s.chunks c).prevChunk = pre.getLast?.getD p
  | [], _, _, _, h => h.1
  | [x], _, _, _, h => h.2.1
  | x :: y :: pre, _, _, _, h => by
    have := PrevLinks.prev_of_append (y :: pre) h.2
    rw [this, List.getLast?_cons_cons]
    cases h : (y :: pre).getLast? with
    | none => simp at h
    | some v => rfl

/-- Removing the chunk `c` from a chunk sequence: when the predecessor of `c` now points to the
successor of `c` and the other links are kept, the sequence without `c` remains. -/
theorem ChunkSeq.remove {s s' : State} {first c : Ptr} {pre post : List Ptr}
    (h : ChunkSeq s first (pre ++ c :: post))
    (hn : ∀ d ∈ pre ++ post, (s'.chunks d).nextChunk =
      if d = lastOf pre then (s.chunks c).nextChunk else (s.chunks d).nextChunk) :
    ChunkSeq s' (if pre = [] then (s.chunks c).nextChunk else first) (pre ++ post) := by
  have hnd := Path.nodup h
  have hnz := Path.ne_zero_of_mem h
  have hsuf : ChunkSeq s (s.chunks c).nextChunk post := (Path.suffix pre h).2.2
  rcases List.eq_nil_or_concat pre with rfl | ⟨pre', l, rfl⟩
  · rw [if_pos rfl]
    refine Path.congr (fun d hd => ?_) (fun _ _ h => h) (fun h => h) hsuf
    have hd0 : d ≠ 0 := hnz d (by simp at hd; simp [hd])
    have := hn d hd
    rw [this, if_neg (by simpa [lastOf] using hd0)]
  · rw [if_neg (by simp)]
    rw [List.concat_eq_append] at h hnd hn ⊢
    rw [List.append_assoc, List.singleton_append] at h hnd ⊢
    rw [lastOf_snoc] at hn
    have hl : (s'.chunks l).nextChunk = (s.chunks c).nextChunk := by
      rw [hn l (by simp), if_pos rfl]
    refine Path.splice pre' h (fun x hx => ?_) ?_
    · have hxl : x ≠ l := by
        rintro rfl
        exact (List.nodup_append.1 hnd).2.2 hx (List.mem_cons_self _ _)
      show (s'.chunks x).nextChunk = (s.chunks x).nextChunk
      rw [hn x (by simp [hx]), if_neg hxl]
    · show ChunkSeq s' (s'.chunks l).nextChunk post
      rw [hl]
      refine Path.congr (fun d hd => ?_) (fun _ _ h => h) (fun h => h) hsuf
      have hdl : d ≠ l := by
        rintro rfl
        have := (List.nodup_cons.1 (List.nodup_append.1 hnd).2.1).1
        exact this (List.mem_cons_of_mem _ hd)
      show (s.chunks d).nextChunk = (s'.chunks d).nextChunk
      rw [hn d (by simp [hd]), if_neg hdl]
theorem splitChunkAt_effect (k : Consts) (fuel : Nat) (s s0 : State) (c H p : Ptr)
    (hcomp : HM_getLevelHeadPathCompress fuel s c = .ok (s0, H)) (hH : H ≠ 0) (hp : p ≠ 0)
    (hpc : p ≠ c) :
    ∃ s', splitChunkAt k fuel s c p = .ok (s', p) ∧
      (∀ d, (s'.chunks d).nextChunk =
        if d = c then p else if d = p then (s0.chunks c).nextChunk
        else (s0.chunks d).nextChunk) ∧
      (∀ d, (s'.chunks d).prevChunk =
        if d = p then c
        else if (s0.chunks c).nextChunk ≠ 0 ∧ d = (s0.chunks c).nextChunk then p
        else (s0.chunks d).prevChunk) ∧
      (∀ d, (s'.chunks d).levelHead = if d = p then H else (s0.chunks d).levelHead) ∧
      (∀ d, (s'.chunks d).limit =
        if d = p then (s0.chunks c).limit else if d = c then p else (s0.chunks d).limit) ∧
      (∀ n, (s'.lists n).parent = (s0.lists n).parent) ∧
      (∀ n, n ≠ H → s'.lists n = s0.lists n) ∧
      (s'.lists H).firstChunk = (s0.lists H).firstChunk ∧
      (s'.lists H).lastChunk =
        (if (s0.chunks c).nextChunk = 0 then p else (s0.lists H).lastChunk) ∧
      (s'.lists H).size = (s0.lists H).size := by
  have hcp : c ≠ p := fun e => hpc e.symm
  have hrun : ∃ s', splitChunkAt k fuel s c p = .ok (s', p) := by
    unfold splitChunkAt
    rw [hcomp]
    simp only [HM_initializeChunk, if_neg hp]
    rw [if_neg (fun h => hH h.2)]
    exact ⟨_, rfl⟩
  obtain ⟨s', hs'⟩ := hrun
  refine ⟨s', hs', ?_⟩
  unfold splitChunkAt at hs'
  rw [hcomp] at hs'
  simp only [HM_initializeChunk, if_neg hp] at hs'
  rw [if_neg (fun h => hH h.2)] at hs'
  injection hs' with hs'
  injection hs' with hs' _
  subst hs'
  refine ⟨?_, ?_, ?_, ?_, ?_, ?_, ?_, ?_, ?_⟩
  · intro d
    by_cases hn : (s0.chunks c).nextChunk = 0 <;> by_cases ha : (s0.chunks c).nextAdjacent = 0 <;>
      by_cases hd : d = c <;> by_cases hdp : d = p <;>
      simp [nextChunk_setLevelHead, nextChunk_setNextChunk, nextChunk_setPrevChunk, nextChunk_setLimit, nextChunk_setNextAdjacent, nextChunk_setPrevAdjacent,
        nextAdjacent_setLevelHead, nextAdjacent_setNextChunk, nextAdjacent_setPrevChunk, nextAdjacent_setLimit, nextAdjacent_setNextAdjacent, nextAdjacent_setPrevAdjacent,
        chunks_setFirstChunk, chunks_setLastChunk, chunks_setSize, hn, ha, hd, hdp, hcp, hpc]
  · intro d
    by_cases hn : (s0.chunks c).nextChunk = 0 <;> by_cases ha : (s0.chunks c).nextAdjacent = 0 <;>
      by_cases hd : d = c <;> by_cases hdp : d = p <;>
      simp [prevChunk_setLevelHead, prevChunk_setNextChunk, prevChunk_setPrevChunk, prevChunk_setLimit, prevChunk_setNextAdjacent, prevChunk_setPrevAdjacent,
        nextChunk_setLevelHead, nextChunk_setNextChunk, nextChunk_setPrevChunk, nextChunk_setLimit, nextChunk_setNextAdjacent, nextChunk_setPrevAdjacent,
        nextAdjacent_setLevelHead, nextAdjacent_setNextChunk, nextAdjacent_setPrevChunk, nextAdjacent_setLimit, nextAdjacent_setNextAdjacent, nextAdjacent_setPrevAdjacent,
        chunks_setFirstChunk, chunks_setLastChunk, chunks_setSize, hn, ha, hd, hdp, hcp, hpc]
  · intro d
    by_cases hn : (s0.chunks c).nextChunk = 0 <;> by_cases ha : (s0.chunks c).nextAdjacent = 0 <;>
      by_cases hd : d = c <;> by_cases hdp : d = p <;>
      simp [levelHead_setLevelHead, levelHead_setNextChunk, levelHead_setPrevChunk, levelHead_setLimit, levelHead_setNextAdjacent, levelHead_setPrevAdjacent,
        nextChunk_setLevelHead, nextChunk_setNextChunk, nextChunk_setPrevChunk, nextChunk_setLimit, nextChunk_setNextAdjacent, nextChunk_setPrevAdjacent,
        nextAdjacent_setLevelHead, nextAdjacent_setNextChunk, nextAdjacent_setPrevChunk, nextAdjacent_setLimit, nextAdjacent_setNextAdjacent, nextAdjacent_setPrevAdjacent,
        chunks_setFirstChunk, chunks_setLastChunk, chunks_setSize, hn, ha, hd, hdp, hcp, hpc]
  · intro d
    by_cases hn : (s0.chunks c).nextChunk = 0 <;> by_cases ha : (s0.chunks c).nextAdjacent = 0 <;>
      by_cases hd : d = c <;> by_cases hdp : d = p <;>
      simp [limit_setLevelHead, limit_setNextChunk, limit_setPrevChunk, limit_setLimit, limit_setNextAdjacent, limit_setPrevAdjacent,
        nextChunk_setLevelHead, nextChunk_setNextChunk, nextChunk_setPrevChunk, nextChunk_setLimit, nextChunk_setNextAdjacent, nextChunk_setPrevAdjacent,
        nextAdjacent_setLevelHead, nextAdjacent_setNextChunk, nextAdjacent_setPrevChunk, nextAdjacent_setLimit, nextAdjacent_setNextAdjacent, nextAdjacent_setPrevAdjacent,
        chunks_setFirstChunk, chunks_setLastChunk, chunks_setSize, hn, ha, hd, hdp, hcp, hpc]
  · intro n
    by_cases hn : (s0.chunks c).nextChunk = 0 <;> by_cases ha : (s0.chunks c).nextAdjacent = 0 <;>
      simp [parent_setFirstChunk, parent_setLastChunk, parent_setSize, lists_setLevelHead, lists_setNextChunk, lists_setPrevChunk, lists_setLimit, lists_setNextAdjacent, lists_setPrevAdjacent,
        nextChunk_setLevelHead, nextChunk_setNextChunk, nextChunk_setPrevChunk, nextChunk_setLimit, nextChunk_setNextAdjacent, nextChunk_setPrevAdjacent,
        nextAdjacent_setLevelHead, nextAdjacent_setNextChunk, nextAdjacent_setPrevChunk, nextAdjacent_setLimit, nextAdjacent_setNextAdjacent, nextAdjacent_setPrevAdjacent,
        chunks_setFirstChunk, chunks_setLastChunk, chunks_setSize, hn, ha, hcp, hpc]
  · intro n hne
    by_cases hn : (s0.chunks c).nextChunk = 0 <;> by_cases ha : (s0.chunks c).nextAdjacent = 0 <;>
      simp [lists_setFirstChunk_ne, lists_setLastChunk_ne, lists_setSize_ne, lists_setLevelHead, lists_setNextChunk, lists_setPrevChunk, lists_setLimit, lists_setNextAdjacent, lists_setPrevAdjacent,
        nextChunk_setLevelHead, nextChunk_setNextChunk, nextChunk_setPrevChunk, nextChunk_setLimit, nextChunk_setNextAdjacent, nextChunk_setPrevAdjacent,
        nextAdjacent_setLevelHead, nextAdjacent_setNextChunk, nextAdjacent_setPrevChunk, nextAdjacent_setLimit, nextAdjacent_setNextAdjacent, nextAdjacent_setPrevAdjacent,
        chunks_setFirstChunk, chunks_setLastChunk, chunks_setSize, hn, ha, hcp, hpc, hne]
  · by_cases hn : (s0.chunks c).nextChunk = 0 <;> by_cases ha : (s0.chunks c).nextAdjacent = 0 <;>
      simp [firstChunk_setFirstChunk, firstChunk_setLastChunk, firstChunk_setSize, lists_setLevelHead, lists_setNextChunk, lists_setPrevChunk, lists_setLimit, lists_setNextAdjacent, lists_setPrevAdjacent,
        nextChunk_setLevelHead, nextChunk_setNextChunk, nextChunk_setPrevChunk, nextChunk_setLimit, nextChunk_setNextAdjacent, nextChunk_setPrevAdjacent,
        nextAdjacent_setLevelHead, nextAdjacent_setNextChunk, nextAdjacent_setPrevChunk, nextAdjacent_setLimit, nextAdjacent_setNextAdjacent, nextAdjacent_setPrevAdjacent,
        chunks_setFirstChunk, chunks_setLastChunk, chunks_setSize, hn, ha, hcp, hpc]
  · by_cases hn : (s0.chunks c).nextChunk = 0 <;> by_cases ha : (s0.chunks c).nextAdjacent = 0 <;>
      simp [lastChunk_setFirstChunk, lastChunk_setLastChunk, lastChunk_setSize, lists_setLevelHead, lists_setNextChunk, lists_setPrevChunk, lists_setLimit, lists_setNextAdjacent, lists_setPrevAdjacent,
        nextChunk_setLevelHead, nextChunk_setNextChunk, nextChunk_setPrevChunk, nextChunk_setLimit, nextChunk_setNextAdjacent, nextChunk_setPrevAdjacent,
        nextAdjacent_setLevelHead, nextAdjacent_setNextChunk, nextAdjacent_setPrevChunk, nextAdjacent_setLimit, nextAdjacent_setNextAdjacent, nextAdjacent_setPrevAdjacent,
        chunks_setFirstChunk, chunks_setLastChunk, chunks_setSize, hn, ha, hcp, hpc]
  · by_cases hn : (s0.chunks c).nextChunk = 0 <;> by_cases ha : (s0.chunks c).nextAdjacent = 0 <;>
      simp [size_setFirstChunk, size_setLastChunk, size_setSize, lists_setLevelHead, lists_setNextChunk, lists_setPrevChunk, lists_setLimit, lists_setNextAdjacent, lists_setPrevAdjacent,
        nextChunk_setLevelHead, nextChunk_setNextChunk, nextChunk_setPrevChunk, nextChunk_setLimit, nextChunk_setNextAdjacent, nextChunk_setPrevAdjacent,
        nextAdjacent_setLevelHead, nextAdjacent_setNextChunk, nextAdjacent_setPrevChunk, nextAdjacent_setLimit, nextAdjacent_setNextAdjacent, nextAdjacent_setPrevAdjacent,
        chunks_setFirstChunk, chunks_setLastChunk, chunks_setSize, hn, ha, hcp, hpc]

/-- Inserting the chunk `p` after `c` in a chunk sequence. -/
theorem ChunkSeq.insert_after {s s' : State} {first c p : Ptr} {pre post : List Ptr}
    (h : ChunkSeq s first (pre ++ c :: post)) (hp : p ≠ 0)
    (hp1 : p ∉ pre ++ c :: post)
    (hn : ∀ d, (s'.chunks d).nextChunk =
      if d = c then p else if d = p then (s.chunks c).nextChunk else (s.chunks d).nextChunk) :
    ChunkSeq s' first (pre ++ c :: p :: post) := by
  have hnd := Path.nodup h
  have hcpre : c ∉ pre := fun h => (List.nodup_append.1 hnd).2.2 h (List.mem_cons_self _ _)
  have hcpost : c ∉ post := (List.nodup_cons.1 (List.nodup_append.1 hnd).2.1).1
  have hsuf : ChunkSeq s (s.chunks c).nextChunk post := (Path.suffix pre h).2.2
  refine Path.splice pre h (fun x hx => ?_) ?_
  · show (s'.chunks x).nextChunk = (s.chunks x).nextChunk
    rw [hn x, if_neg (ne_of_mem_of_not_mem hx hcpre),
      if_neg (ne_of_mem_of_not_mem (List.mem_append_left _ hx) hp1)]
  · show ChunkSeq s' (s'.chunks c).nextChunk (p :: post)
    rw [hn c, if_pos rfl]
    refine ⟨rfl, hp, ?_⟩
    show ChunkSeq s' (s'.chunks p).nextChunk post
    rw [hn p, if_neg (ne_of_mem_of_not_mem (show c ∈ pre ++ c :: post by simp) hp1).symm, if_pos rfl]
    refine Path.congr (fun d hd => ?_) (fun _ _ h => h) (fun h => h) hsuf
    show (s.chunks d).nextChunk = (s'.chunks d).nextChunk
    rw [hn d, if_neg (ne_of_mem_of_not_mem hd hcpost),
      if_neg (ne_of_mem_of_not_mem (List.mem_append_right _ (List.mem_cons_of_mem _ hd)) hp1)]

/-- A chunk whose `levelHead` is `NULL` is in no well-formed chunk list. -/
theorem not_mem_of_levelHead_null {s : State} {c : Ptr} (h : (s.chunks c).levelHead = 0)
    (H : Ptr) (cs : List Ptr) (hH : HeadWF s H cs) : c ∉ cs := by
  intro hc
  obtain ⟨-, path, hpath, hR⟩ := hH.2.2.2 c hc
  rw [h] at hpath
  cases path with
  | nil => exact hR hpath.1.symm
  | cons x xs => exact hpath.2.1 (Or.inl hpath.1.symm)

theorem frontier_setLevelHead (s : State) (p : Ptr) (v : Ptr) (d : Ptr) :
    ((s.setLevelHead p v).chunks d).frontier = (s.chunks d).frontier := by
  unfold State.setLevelHead
  by_cases h : d = p <;> simp [h]

theorem mightContainMultipleObjects_setLevelHead (s : State) (p : Ptr) (v : Ptr) (d : Ptr) :
    ((s.setLevelHead p v).chunks d).mightContainMultipleObjects = (s.chunks d).mightContainMultipleObjects := by
  unfold State.setLevelHead
  by_cases h : d = p <;> simp [h]

theorem frontier_setNextChunk (s : State) (p : Ptr) (v : Ptr) (d : Ptr) :
    ((s.setNextChunk p v).chunks d).frontier = (s.chunks d).frontier := by
  unfold State.setNextChunk
  by_cases h : d = p <;> simp [h]

theorem mightContainMultipleObjects_setNextChunk (s : State) (p : Ptr) (v : Ptr) (d : Ptr) :
    ((s.setNextChunk p v).chunks d).mightContainMultipleObjects = (s.chunks d).mightContainMultipleObjects := by
  unfold State.setNextChunk
  by_cases h : d = p <;> simp [h]

theorem frontier_setPrevChunk (s : State) (p : Ptr) (v : Ptr) (d : Ptr) :
    ((s.setPrevChunk p v).chunks d).frontier = (s.chunks d).frontier := by
  unfold State.setPrevChunk
  by_cases h : d = p <;> simp [h]

theorem mightContainMultipleObjects_setPrevChunk (s : State) (p : Ptr) (v : Ptr) (d : Ptr) :
    ((s.setPrevChunk p v).chunks d).mightContainMultipleObjects = (s.chunks d).mightContainMultipleObjects := by
  unfold State.setPrevChunk
  by_cases h : d = p <;> simp [h]

theorem frontier_setLimit (s : State) (p : Ptr) (v : Ptr) (d : Ptr) :
    ((s.setLimit p v).chunks d).frontier = (s.chunks d).frontier := by
  unfold State.setLimit
  by_cases h : d = p <;> simp [h]

theorem mightContainMultipleObjects_setLimit (s : State) (p : Ptr) (v : Ptr) (d : Ptr) :
    ((s.setLimit p v).chunks d).mightContainMultipleObjects = (s.chunks d).mightContainMultipleObjects := by
  unfold State.setLimit
  by_cases h : d = p <;> simp [h]

theorem frontier_setNextAdjacent (s : State) (p : Ptr) (v : Ptr) (d : Ptr) :
    ((s.setNextAdjacent p v).chunks d).frontier = (s.chunks d).frontier := by
  unfold State.setNextAdjacent
  by_cases h : d = p <;> simp [h]

theorem mightContainMultipleObjects_setNextAdjacent (s : State) (p : Ptr) (v : Ptr) (d : Ptr) :
    ((s.setNextAdjacent p v).chunks d).mightContainMultipleObjects = (s.chunks d).mightContainMultipleObjects := by
  unfold State.setNextAdjacent
  by_cases h : d = p <;> simp [h]

theorem frontier_setPrevAdjacent (s : State) (p : Ptr) (v : Ptr) (d : Ptr) :
    ((s.setPrevAdjacent p v).chunks d).frontier = (s.chunks d).frontier := by
  unfold State.setPrevAdjacent
  by_cases h : d = p <;> simp [h]

theorem mightContainMultipleObjects_setPrevAdjacent (s : State) (p : Ptr) (v : Ptr) (d : Ptr) :
    ((s.setPrevAdjacent p v).chunks d).mightContainMultipleObjects = (s.chunks d).mightContainMultipleObjects := by
  unfold State.setPrevAdjacent
  by_cases h : d = p <;> simp [h]

theorem nextChunk_setFrontier (s : State) (p : Ptr) (v : Ptr) (d : Ptr) :
    ((s.setFrontier p v).chunks d).nextChunk = (s.chunks d).nextChunk := by
  unfold State.setFrontier
  by_cases h : d = p <;> simp [h]

theorem prevChunk_setFrontier (s : State) (p : Ptr) (v : Ptr) (d : Ptr) :
    ((s.setFrontier p v).chunks d).prevChunk = (s.chunks d).prevChunk := by
  unfold State.setFrontier
  by_cases h : d = p <;> simp [h]

theorem limit_setFrontier (s : State) (p : Ptr) (v : Ptr) (d : Ptr) :
    ((s.setFrontier p v).chunks d).limit = (s.chunks d).limit := by
  unfold State.setFrontier
  by_cases h : d = p <;> simp [h]

theorem levelHead_setFrontier (s : State) (p : Ptr) (v : Ptr) (d : Ptr) :
    ((s.setFrontier p v).chunks d).levelHead = (s.chunks d).levelHead := by
  unfold State.setFrontier
  by_cases h : d = p <;> simp [h]

theorem nextAdjacent_setFrontier (s : State) (p : Ptr) (v : Ptr) (d : Ptr) :
    ((s.setFrontier p v).chunks d).nextAdjacent = (s.chunks d).nextAdjacent := by
  unfold State.setFrontier
  by_cases h : d = p <;> simp [h]

theorem prevAdjacent_setFrontier (s : State) (p : Ptr) (v : Ptr) (d : Ptr) :
    ((s.setFrontier p v).chunks d).prevAdjacent = (s.chunks d).prevAdjacent := by
  unfold State.setFrontier
  by_cases h : d = p <;> simp [h]

theorem frontier_setFrontier (s : State) (p : Ptr) (v : Ptr) (d : Ptr) :
    ((s.setFrontier p v).chunks d).frontier = if d = p then v else (s.chunks d).frontier := by
  unfold State.setFrontier
  by_cases h : d = p <;> simp [h]

theorem mightContainMultipleObjects_setFrontier (s : State) (p : Ptr) (v : Ptr) (d : Ptr) :
    ((s.setFrontier p v).chunks d).mightContainMultipleObjects = (s.chunks d).mightContainMultipleObjects := by
  unfold State.setFrontier
  by_cases h : d = p <;> simp [h]

theorem lists_setFrontier (s : State) (p : Ptr) (v : Ptr) : (s.setFrontier p v).lists = s.lists := rfl

theorem nextChunk_setMightContainMultipleObjects (s : State) (p : Ptr) (v : Bool) (d : Ptr) :
    ((s.setMightContainMultipleObjects p v).chunks d).nextChunk = (s.chunks d).nextChunk := by
  unfold State.setMightContainMultipleObjects
  by_cases h : d = p <;> simp [h]

theorem prevChunk_setMightContainMultipleObjects (s : State) (p : Ptr) (v : Bool) (d : Ptr) :
    ((s.setMightContainMultipleObjects p v).chunks d).prevChunk = (s.chunks d).prevChunk := by
  unfold State.setMightContainMultipleObjects
  by_cases h : d = p <;> simp [h]

theorem limit_setMightContainMultipleObjects (s : State) (p : Ptr) (v : Bool) (d : Ptr) :
    ((s.setMightContainMultipleObjects p v).chunks d).limit = (s.chunks d).limit := by
  unfold State.setMightContainMultipleObjects
  by_cases h : d = p <;> simp [h]

theorem levelHead_setMightContainMultipleObjects (s : State) (p : Ptr) (v : Bool) (d : Ptr) :
    ((s.setMightContainMultipleObjects p v).chunks d).levelHead = (s.chunks d).levelHead := by
  unfold State.setMightContainMultipleObjects
  by_cases h : d = p <;> simp [h]

theorem nextAdjacent_setMightContainMultipleObjects (s : State) (p : Ptr) (v : Bool) (d : Ptr) :
    ((s.setMightContainMultipleObjects p v).chunks d).nextAdjacent = (s.chunks d).nextAdjacent := by
  unfold State.setMightContainMultipleObjects
  by_cases h : d = p <;> simp [h]

theorem prevAdjacent_setMightContainMultipleObjects (s : State) (p : Ptr) (v : Bool) (d : Ptr) :
    ((s.setMightContainMultipleObjects p v).chunks d).prevAdjacent = (s.chunks d).prevAdjacent := by
  unfold State.setMightContainMultipleObjects
  by_cases h : d = p <;> simp [h]

theorem frontier_setMightContainMultipleObjects (s : State) (p : Ptr) (v : Bool) (d : Ptr) :
    ((s.setMightContainMultipleObjects p v).chunks d).frontier = (s.chunks d).frontier := by
  unfold State.setMightContainMultipleObjects
  by_cases h : d = p <;> simp [h]

theorem mightContainMultipleObjects_setMightContainMultipleObjects (s : State) (p : Ptr) (v : Bool) (d : Ptr) :
    ((s.setMightContainMultipleObjects p v).chunks d).mightContainMultipleObjects = if d = p then v else (s.chunks d).mightContainMultipleObjects := by
  unfold State.setMightContainMultipleObjects
  by_cases h : d = p <;> simp [h]

theorem lists_setMightContainMultipleObjects (s : State) (p : Ptr) (v : Bool) : (s.setMightContainMultipleObjects p v).lists = s.lists := rfl

theorem nextHead_setFirstChunk (s : State) (n v m : Nat) :
    ((s.setFirstChunk n v).lists m).nextHead = (s.lists m).nextHead := by
  unfold State.setFirstChunk
  by_cases h : m = n <;> simp [h]

theorem level_setFirstChunk (s : State) (n v m : Nat) :
    ((s.setFirstChunk n v).lists m).level = (s.lists m).level := by
  unfold State.setFirstChunk
  by_cases h : m = n <;> simp [h]

theorem containingHH_setFirstChunk (s : State) (n v m : Nat) :
    ((s.setFirstChunk n v).lists m).containingHH = (s.lists m).containingHH := by
  unfold State.setFirstChunk
  by_cases h : m = n <;> simp [h]

theorem toChunkList_setFirstChunk (s : State) (n v m : Nat) :
    ((s.setFirstChunk n v).lists m).toChunkList = (s.lists m).toChunkList := by
  unfold State.setFirstChunk
  by_cases h : m = n <;> simp [h]

theorem isInToSpace_setFirstChunk (s : State) (n v m : Nat) :
    ((s.setFirstChunk n v).lists m).isInToSpace = (s.lists m).isInToSpace := by
  unfold State.setFirstChunk
  by_cases h : m = n <;> simp [h]

theorem nextHead_setLastChunk (s : State) (n v m : Nat) :
    ((s.setLastChunk n v).lists m).nextHead = (s.lists m).nextHead := by
  unfold State.setLastChunk
  by_cases h : m = n <;> simp [h]

theorem level_setLastChunk (s : State) (n v m : Nat) :
    ((s.setLastChunk n v).lists m).level = (s.lists m).level := by
  unfold State.setLastChunk
  by_cases h : m = n <;> simp [h]

theorem containingHH_setLastChunk (s : State) (n v m : Nat) :
    ((s.setLastChunk n v).lists m).containingHH = (s.lists m).containingHH := by
  unfold State.setLastChunk
  by_cases h : m = n <;> simp [h]

theorem toChunkList_setLastChunk (s : State) (n v m : Nat) :
    ((s.setLastChunk n v).lists m).toChunkList = (s.lists m).toChunkList := by
  unfold State.setLastChunk
  by_cases h : m = n <;> simp [h]

theorem isInToSpace_setLastChunk (s : State) (n v m : Nat) :
    ((s.setLastChunk n v).lists m).isInToSpace = (s.lists m).isInToSpace := by
  unfold State.setLastChunk
  by_cases h : m = n <;> simp [h]

theorem nextHead_setSize (s : State) (n v m : Nat) :
    ((s.setSize n v).lists m).nextHead = (s.lists m).nextHead := by
  unfold State.setSize
  by_cases h : m = n <;> simp [h]

theorem level_setSize (s : State) (n v m : Nat) :
    ((s.setSize n v).lists m).level = (s.lists m).level := by
  unfold State.setSize
  by_cases h : m = n <;> simp [h]

theorem containingHH_setSize (s : State) (n v m : Nat) :
    ((s.setSize n v).lists m).containingHH = (s.lists m).containingHH := by
  unfold State.setSize
  by_cases h : m = n <;> simp [h]

theorem toChunkList_setSize (s : State) (n v m : Nat) :
    ((s.setSize n v).lists m).toChunkList = (s.lists m).toChunkList := by
  unfold State.setSize
  by_cases h : m = n <;> simp [h]

theorem isInToSpace_setSize (s : State) (n v m : Nat) :
    ((s.setSize n v).lists m).isInToSpace = (s.lists m).isInToSpace := by
  unfold State.setSize
  by_cases h : m = n <;> simp [h]


/-! ## Path compression keeps what every chunk resolves to -/

theorem HM_getLevelHeadPathCompress_compressed (s : State) (c R : Ptr) (path : List Ptr)
    (fuel : Nat) (hc : c ≠ 0) (h : ParentPath s (s.chunks c).levelHead path R)
    (hf : path.length < fuel) :
    ∃ s0, HM_getLevelHeadPathCompress fuel s c = .ok (s0, R) ∧ Compressed s s0 c R path := by
  obtain ⟨s0, hrun, h1, h2, h3⟩ := HM_getLevelHeadPathCompress_spec s c R path fuel hc h hf
  exact ⟨s0, hrun, h, h1, h2, h3⟩

theorem Compressed.parent_of_mem {s s0 : State} {c R : Ptr} {path : List Ptr}
    (h : Compressed s s0 c R path) {x : Ptr} (hx : x ∈ path) : (s0.lists x).parent = R := by
  rw [h.2.2.1 x hx]

theorem Compressed.parent_of_not_mem {s s0 : State} {c R : Ptr} {path : List Ptr}
    (h : Compressed s s0 c R path) {x : Ptr} (hx : x ∉ path) :
    (s0.lists x).parent = (s.lists x).parent := by
  rw [h.2.2.2 x hx]

/-- A node that stops the walk in `s` is not on the compressed path, and stops it in `s0`. -/
theorem Compressed.stop {s s0 : State} {c R : Ptr} {path : List Ptr}
    (h : Compressed s s0 c R path) {e : Ptr} (he : isRootOrNull s e) : isRootOrNull s0 e := by
  have hne : e ∉ path := fun hm => Path.not_stop_of_mem h.1.1 e hm he
  rcases he with he | he
  · exact Or.inl he
  · exact Or.inr (by rw [h.parent_of_not_mem hne]; exact he)

theorem Compressed.root {s s0 : State} {c R : Ptr} {path : List Ptr}
    (h : Compressed s s0 c R path) : isLevelHead s0 R ∧ isLevelHead s R := by
  have hst := Path.stop_end h.1.1
  have hR : (s.lists R).parent = R := by
    rcases hst with h0 | h0
    · exact absurd h0 h.1.2
    · exact h0
  refine ⟨⟨h.1.2, ?_⟩, ⟨h.1.2, hR⟩⟩
  rw [h.parent_of_not_mem (Path.end_not_mem h.1.1)]
  exact hR

theorem Compressed.isLevelHead_iff {s s0 : State} {c R : Ptr} {path : List Ptr}
    (h : Compressed s s0 c R path) (n : Ptr) : isLevelHead s0 n ↔ isLevelHead s n := by
  by_cases hn : n ∈ path
  · have hns : ¬ isRootOrNull s n := Path.not_stop_of_mem h.1.1 n hn
    have hnR : n ≠ R := fun e => Path.end_not_mem h.1.1 (e ▸ hn)
    constructor
    · rintro ⟨-, hp⟩
      rw [h.parent_of_mem hn] at hp
      exact absurd hp.symm hnR
    · rintro ⟨-, hp⟩
      exact absurd (Or.inr hp) hns
  · unfold isLevelHead
    rw [h.parent_of_not_mem hn]

/-- Every walk of `s` has a walk of `s0`, no longer, from the same node to the same end. -/
theorem Compressed.chain {s s0 : State} {c R : Ptr} {path : List Ptr}
    (h : Compressed s s0 c R path) :
    ∀ (q : List Ptr) (n e : Ptr),
      Path (fun x => (s.lists x).parent) (isRootOrNull s) n q e →
      ∃ q', Path (fun x => (s0.lists x).parent) (isRootOrNull s0) n q' e ∧
        q'.length ≤ q.length
  | [], n, e, hq => ⟨[], ⟨hq.1, h.stop hq.2⟩, le_refl _⟩
  | x :: xs, n, e, hq => by
    obtain ⟨hnx, hns, hrest⟩ := hq
    have hx0 : x ≠ 0 := fun e0 => hns (Or.inl e0)
    by_cases hx : x ∈ path
    · obtain ⟨as, bs, rfl⟩ := List.append_of_mem hx
      have h1 := Path.suffix as h.1.1
      have h2 : Path (fun x => (s.lists x).parent) (isRootOrNull s) x (x :: xs) e :=
        ⟨rfl, hns, hrest⟩
      obtain ⟨-, hRe⟩ := Path.det h1 h2
      subst hRe
      have hxR : x ≠ R := fun e0 => Path.end_not_mem h.1.1 (e0 ▸ hx)
      refine ⟨[x], ⟨hnx, ?_, ?_, ?_⟩, by simp⟩
      · rintro (h0 | h0)
        · exact hx0 h0
        · rw [h.parent_of_mem hx] at h0
          exact hxR h0.symm
      · exact h.parent_of_mem hx
      · exact Or.inr h.root.1.2
    · obtain ⟨q', hq', hlen⟩ := Compressed.chain h xs _ e hrest
      refine ⟨x :: q', ⟨hnx, ?_, ?_⟩, by simpa using hlen⟩
      · rintro (h0 | h0)
        · exact hx0 h0
        · rw [h.parent_of_not_mem hx] at h0
          exact hns (Or.inr h0)
      · show Path _ _ (s0.lists x).parent q' e
        rw [h.parent_of_not_mem hx]
        exact hq'

theorem Compressed.levelHead_self {s s0 : State} {c R : Ptr} {path : List Ptr}
    (h : Compressed s s0 c R path) : (s0.chunks c).levelHead = R := by
  rw [h.2.1 c, if_pos rfl]

theorem Compressed.chunk_ne {s s0 : State} {c R : Ptr} {path : List Ptr}
    (h : Compressed s s0 c R path) {d : Ptr} (hd : d ≠ c) : s0.chunks d = s.chunks d := by
  rw [h.2.1 d, if_neg hd]

/-- The compressed chunk resolves to `R` in one step. -/
theorem Compressed.resolves_self {s s0 : State} {c R : Ptr} {path : List Ptr}
    (h : Compressed s s0 c R path) : ParentPath s0 (s0.chunks c).levelHead [] R := by
  rw [h.levelHead_self]
  exact ⟨⟨rfl, Or.inr h.root.1.2⟩, h.1.2⟩

/-- What a chunk resolves to in `s`, it resolves to in `s0`. -/
theorem Compressed.resolves_fwd {s s0 : State} {c R : Ptr} {path : List Ptr}
    (h : Compressed s s0 c R path) {d R' : Ptr} (hr : Resolves s d R') : Resolves s0 d R' := by
  obtain ⟨hd, q, hq, hR'⟩ := hr
  by_cases hdc : d = c
  · subst hdc
    obtain ⟨-, e⟩ := Path.det hq h.1.1
    subst e
    exact ⟨hd, [], h.resolves_self⟩
  · obtain ⟨q', hq', -⟩ := h.chain q _ R' hq
    refine ⟨hd, q', ?_, hR'⟩
    rw [h.chunk_ne hdc]
    exact hq'

/-- What a chunk resolves to in `s0`, it resolves to in `s`, when its chain in `s` ends. -/
theorem Compressed.resolves_back {s s0 : State} {c R : Ptr} {path : List Ptr}
    (h : Compressed s s0 c R path) {d R' : Ptr} (hr : Resolves s0 d R')
    (hend : ∃ q e, Path (fun x => (s.lists x).parent) (isRootOrNull s) (s.chunks d).levelHead q e) :
    Resolves s d R' := by
  obtain ⟨hd, q0, hq0, hR'⟩ := hr
  by_cases hdc : d = c
  · subst hdc
    obtain ⟨-, e⟩ := Path.det hq0 (h.resolves_self).1
    subst e
    exact ⟨hd, path, h.1⟩
  · obtain ⟨q, e, hq⟩ := hend
    obtain ⟨q', hq', -⟩ := h.chain q _ e hq
    rw [h.chunk_ne hdc] at hq0
    obtain ⟨-, e'⟩ := Path.det hq0 hq'
    subst e'
    exact ⟨hd, q, hq, hR'⟩

theorem Compressed.chunkSeq_keep {s s0 : State} {c R : Ptr} {path : List Ptr}
    (h : Compressed s s0 c R path) {p : Ptr} {cs : List Ptr} (hc : ChunkSeq s p cs) :
    ChunkSeq s0 p cs := by
  refine Path.congr (fun d _ => ?_) (fun _ _ h => h) (fun h => h) hc
  show (s.chunks d).nextChunk = (s0.chunks d).nextChunk
  rw [h.2.1 d]
  by_cases hd : d = c
  · subst hd; simp
  · simp [hd]

theorem Compressed.list_fields {s s0 : State} {c R : Ptr} {path : List Ptr}
    (h : Compressed s s0 c R path) (n : Ptr) :
    (s0.lists n).firstChunk = (s.lists n).firstChunk ∧
      (s0.lists n).lastChunk = (s.lists n).lastChunk ∧
      (s0.lists n).size = (s.lists n).size ∧
      (s0.lists n).nextHead = (s.lists n).nextHead ∧
      (s0.lists n).level = (s.lists n).level ∧
      (s0.lists n).containingHH = (s.lists n).containingHH ∧
      (s0.lists n).isInToSpace = (s.lists n).isInToSpace := by
  by_cases hn : n ∈ path
  · rw [h.2.2.1 n hn]; exact ⟨rfl, rfl, rfl, rfl, rfl, rfl, rfl⟩
  · rw [h.2.2.2 n hn]; exact ⟨rfl, rfl, rfl, rfl, rfl, rfl, rfl⟩

theorem Compressed.chunk_fields {s s0 : State} {c R : Ptr} {path : List Ptr}
    (h : Compressed s s0 c R path) (d : Ptr) :
    (s0.chunks d).nextChunk = (s.chunks d).nextChunk ∧
      (s0.chunks d).prevChunk = (s.chunks d).prevChunk ∧
      (s0.chunks d).limit = (s.chunks d).limit ∧
      (s0.chunks d).frontier = (s.chunks d).frontier ∧
      (s0.chunks d).nextAdjacent = (s.chunks d).nextAdjacent ∧
      (s0.chunks d).prevAdjacent = (s.chunks d).prevAdjacent ∧
      (s0.chunks d).mightContainMultipleObjects = (s.chunks d).mightContainMultipleObjects := by
  rw [h.2.1 d]
  by_cases hd : d = c
  · subst hd; simp
  · simp [hd]

theorem Compressed.headWF_keep {s s0 : State} {c R : Ptr} {path : List Ptr}
    (h : Compressed s s0 c R path) {H : Ptr} {cs : List Ptr} (hw : HeadWF s H cs) :
    HeadWF s0 H cs := by
  obtain ⟨h1, h2, h3, h4⟩ := hw
  refine ⟨(h.isLevelHead_iff H).2 h1, ?_, ?_, fun d hd => h.resolves_fwd (h4 d hd)⟩
  · rw [(h.list_fields H).1]; exact h.chunkSeq_keep h2
  · rw [(h.list_fields H).2.1]; exact h3

theorem PrevLinks.congr_prev {s s' : State} :
    ∀ {cs : List Ptr} {p : Ptr}, (∀ d ∈ cs, (s'.chunks d).prevChunk = (s.chunks d).prevChunk) →
      PrevLinks s p cs → PrevLinks s' p cs
  | [], _, _, _ => trivial
  | c :: _, _, hc, h =>
    ⟨(hc c (List.mem_cons_self _ _)).trans h.1,
      PrevLinks.congr_prev (fun d hd => hc d (List.mem_cons_of_mem _ hd)) h.2⟩

theorem Compressed.prevLinks {s s0 : State} {c R : Ptr} {path : List Ptr}
    (h : Compressed s s0 c R path) {p : Ptr} {cs : List Ptr} (hp : PrevLinks s p cs) :
    PrevLinks s0 p cs :=
  PrevLinks.congr_prev (fun d _ => (h.chunk_fields d).2.1) hp

/-! ## Field-level effects of the chunk-list operations -/

attribute [simp] nextChunk_setLevelHead prevChunk_setLevelHead limit_setLevelHead
  levelHead_setLevelHead nextAdjacent_setLevelHead prevAdjacent_setLevelHead lists_setLevelHead
  nextChunk_setNextChunk prevChunk_setNextChunk limit_setNextChunk levelHead_setNextChunk
  nextAdjacent_setNextChunk prevAdjacent_setNextChunk lists_setNextChunk nextChunk_setPrevChunk
  prevChunk_setPrevChunk limit_setPrevChunk levelHead_setPrevChunk nextAdjacent_setPrevChunk
  prevAdjacent_setPrevChunk lists_setPrevChunk nextChunk_setLimit prevChunk_setLimit
  limit_setLimit levelHead_setLimit nextAdjacent_setLimit prevAdjacent_setLimit lists_setLimit
  nextChunk_setNextAdjacent prevChunk_setNextAdjacent limit_setNextAdjacent
  levelHead_setNextAdjacent nextAdjacent_setNextAdjacent prevAdjacent_setNextAdjacent
  lists_setNextAdjacent nextChunk_setPrevAdjacent prevChunk_setPrevAdjacent
  limit_setPrevAdjacent levelHead_setPrevAdjacent nextAdjacent_setPrevAdjacent
  prevAdjacent_setPrevAdjacent lists_setPrevAdjacent firstChunk_setFirstChunk
  lastChunk_setFirstChunk size_setFirstChunk parent_setFirstChunk chunks_setFirstChunk
  firstChunk_setLastChunk lastChunk_setLastChunk size_setLastChunk parent_setLastChunk
  chunks_setLastChunk firstChunk_setSize lastChunk_setSize size_setSize parent_setSize
  chunks_setSize frontier_setLevelHead mightContainMultipleObjects_setLevelHead
  frontier_setNextChunk mightContainMultipleObjects_setNextChunk frontier_setPrevChunk
  mightContainMultipleObjects_setPrevChunk frontier_setLimit
  mightContainMultipleObjects_setLimit frontier_setNextAdjacent
  mightContainMultipleObjects_setNextAdjacent frontier_setPrevAdjacent
  mightContainMultipleObjects_setPrevAdjacent nextChunk_setFrontier prevChunk_setFrontier
  limit_setFrontier levelHead_setFrontier nextAdjacent_setFrontier prevAdjacent_setFrontier
  frontier_setFrontier mightContainMultipleObjects_setFrontier lists_setFrontier
  nextChunk_setMightContainMultipleObjects prevChunk_setMightContainMultipleObjects
  limit_setMightContainMultipleObjects levelHead_setMightContainMultipleObjects
  nextAdjacent_setMightContainMultipleObjects prevAdjacent_setMightContainMultipleObjects
  frontier_setMightContainMultipleObjects
  mightContainMultipleObjects_setMightContainMultipleObjects
  lists_setMightContainMultipleObjects nextHead_setFirstChunk level_setFirstChunk
  containingHH_setFirstChunk toChunkList_setFirstChunk isInToSpace_setFirstChunk
  nextHead_setLastChunk level_setLastChunk containingHH_setLastChunk toChunkList_setLastChunk
  isInToSpace_setLastChunk nextHead_setSize level_setSize containingHH_setSize
  toChunkList_setSize isInToSpace_setSize

/-- The fields `HM_unlinkChunk` does not write. -/
theorem HM_unlinkChunk_frame (fuel : Nat) (s s0 : State) (c H : Ptr)
    (hcomp : HM_getLevelHeadPathCompress fuel s c = .ok (s0, H)) (hH : H ≠ 0) :
    ∃ s', HM_unlinkChunk fuel s c = .ok s' ∧
      (∀ d, (s'.chunks d).frontier = (s0.chunks d).frontier ∧
        (s'.chunks d).nextAdjacent = (s0.chunks d).nextAdjacent ∧
        (s'.chunks d).prevAdjacent = (s0.chunks d).prevAdjacent ∧
        (s'.chunks d).mightContainMultipleObjects =
          (s0.chunks d).mightContainMultipleObjects) ∧
      (∀ n, (s'.lists n).nextHead = (s0.lists n).nextHead ∧
        (s'.lists n).level = (s0.lists n).level ∧
        (s'.lists n).containingHH = (s0.lists n).containingHH ∧
        (s'.lists n).isInToSpace = (s0.lists n).isInToSpace) := by
  refine ⟨_, by unfold HM_unlinkChunk; rw [hcomp]; exact if_neg hH, ?_, ?_⟩
  · intro d
    by_cases hp : (s0.chunks c).prevChunk = 0 <;> by_cases hn : (s0.chunks c).nextChunk = 0 <;>
      simp [hp, hn, chunks_setFirstChunk, chunks_setLastChunk, chunks_setSize]
  · intro n
    by_cases hp : (s0.chunks c).prevChunk = 0 <;> by_cases hn : (s0.chunks c).nextChunk = 0 <;>
      simp [hp, hn, chunks_setFirstChunk, chunks_setLastChunk, chunks_setSize,
        lists_setNextChunk, lists_setPrevChunk, lists_setLevelHead]

/-- `HM_prependChunk` in terms of single-field stores. -/
theorem HM_prependChunk_eq (s : State) (H c : Ptr) (hH : H ≠ 0) (hc : c ≠ 0) :
    HM_prependChunk s H c = .ok
      (let s1 := s.setLevelHead c H
       let s2 := s1.setNextChunk c (s1.lists H).firstChunk
       let s3 :=
         if (s2.lists H).firstChunk ≠ 0 then s2.setPrevChunk (s2.lists H).firstChunk c else s2
       let s4 := if (s3.lists H).lastChunk = 0 then s3.setLastChunk H c else s3
       let s5 := s4.setFirstChunk H c
       s5.setSize H (((s5.lists H).size + HM_getChunkSize s5 c) % W64)) := by
  unfold HM_prependChunk
  rw [if_neg hc, if_neg hH]
  rfl

/-- `HM_appendChunk` in terms of single-field stores. -/
theorem HM_appendChunk_eq (s : State) (H c : Ptr) (hH : H ≠ 0) (hc : c ≠ 0) :
    HM_appendChunk s H c = .ok
      (let s1 := s.setLevelHead c H
       let s2 := s1.setPrevChunk c (s1.lists H).lastChunk
       let s3 :=
         if (s2.lists H).lastChunk ≠ 0 then s2.setNextChunk (s2.lists H).lastChunk c else s2
       let s4 := if (s3.lists H).firstChunk = 0 then s3.setFirstChunk H c else s3
       let s5 := s4.setLastChunk H c
       s5.setSize H (((s5.lists H).size + HM_getChunkSize s5 c) % W64)) := by
  unfold HM_appendChunk
  rw [if_neg hc, if_neg hH]
  rfl

/-- All fields after `HM_prependChunk`. -/
theorem HM_prependChunk_fields (s : State) (H c : Ptr) (hH : H ≠ 0) (hc : c ≠ 0) :
    ∃ s', HM_prependChunk s H c = .ok s' ∧
      (∀ d, (s'.chunks d).nextChunk =
        if d = c then (s.lists H).firstChunk else (s.chunks d).nextChunk) ∧
      (∀ d, (s'.chunks d).prevChunk =
        if (s.lists H).firstChunk ≠ 0 ∧ d = (s.lists H).firstChunk then c
        else (s.chunks d).prevChunk) ∧
      (∀ d, (s'.chunks d).levelHead = if d = c then H else (s.chunks d).levelHead) ∧
      (∀ d, (s'.chunks d).limit = (s.chunks d).limit ∧
        (s'.chunks d).frontier = (s.chunks d).frontier ∧
        (s'.chunks d).nextAdjacent = (s.chunks d).nextAdjacent ∧
        (s'.chunks d).prevAdjacent = (s.chunks d).prevAdjacent ∧
        (s'.chunks d).mightContainMultipleObjects =
          (s.chunks d).mightContainMultipleObjects) ∧
      (∀ n, (s'.lists n).parent = (s.lists n).parent ∧
        (s'.lists n).nextHead = (s.lists n).nextHead ∧
        (s'.lists n).level = (s.lists n).level ∧
        (s'.lists n).containingHH = (s.lists n).containingHH ∧
        (s'.lists n).isInToSpace = (s.lists n).isInToSpace) ∧
      (∀ n, n ≠ H → s'.lists n = s.lists n) ∧
      (s'.lists H).firstChunk = c ∧
      (s'.lists H).lastChunk = (if (s.lists H).lastChunk = 0 then c else (s.lists H).lastChunk) ∧
      (s'.lists H).size = ((s.lists H).size + HM_getChunkSize s c) % W64 := by
  refine ⟨_, HM_prependChunk_eq s H c hH hc, ?_, ?_, ?_, ?_, ?_, ?_, ?_, ?_, ?_⟩
  · intro d
    by_cases hf : (s.lists H).firstChunk = 0 <;> by_cases hl : (s.lists H).lastChunk = 0 <;>
      by_cases hd : d = c <;>
      simp [hf, hl, hd, lists_setLevelHead, lists_setNextChunk, lists_setPrevChunk,
        chunks_setFirstChunk, chunks_setLastChunk, chunks_setSize]
  · intro d
    by_cases hf : (s.lists H).firstChunk = 0 <;> by_cases hl : (s.lists H).lastChunk = 0 <;>
      simp [hf, hl, lists_setLevelHead, lists_setNextChunk, lists_setPrevChunk,
        chunks_setFirstChunk, chunks_setLastChunk, chunks_setSize]
  · intro d
    by_cases hf : (s.lists H).firstChunk = 0 <;> by_cases hl : (s.lists H).lastChunk = 0 <;>
      simp [hf, hl, lists_setLevelHead, lists_setNextChunk, lists_setPrevChunk,
        chunks_setFirstChunk, chunks_setLastChunk, chunks_setSize]
  · intro d
    by_cases hf : (s.lists H).firstChunk = 0 <;> by_cases hl : (s.lists H).lastChunk = 0 <;>
      simp [hf, hl, lists_setLevelHead, lists_setNextChunk, lists_setPrevChunk,
        chunks_setFirstChunk, chunks_setLastChunk, chunks_setSize]
  · intro n
    by_cases hf : (s.lists H).firstChunk = 0 <;> by_cases hl : (s.lists H).lastChunk = 0 <;>
      simp [hf, hl, lists_setLevelHead, lists_setNextChunk, lists_setPrevChunk,
        chunks_setFirstChunk, chunks_setLastChunk, chunks_setSize]
  · intro n hn
    by_cases hf : (s.lists H).firstChunk = 0 <;> by_cases hl : (s.lists H).lastChunk = 0 <;>
      simp [hf, hl, hn, lists_setLevelHead, lists_setNextChunk, lists_setPrevChunk,
        lists_setFirstChunk_ne, lists_setLastChunk_ne, lists_setSize_ne]
  · by_cases hf : (s.lists H).firstChunk = 0 <;> by_cases hl : (s.lists H).lastChunk = 0 <;>
      simp [hf, hl, lists_setLevelHead, lists_setNextChunk, lists_setPrevChunk]
  · by_cases hf : (s.lists H).firstChunk = 0 <;> by_cases hl : (s.lists H).lastChunk = 0 <;>
      simp [hf, hl, lists_setLevelHead, lists_setNextChunk, lists_setPrevChunk]
  · by_cases hf : (s.lists H).firstChunk = 0 <;> by_cases hl : (s.lists H).lastChunk = 0 <;>
      simp [hf, hl, lists_setLevelHead, lists_setNextChunk, lists_setPrevChunk,
        chunks_setFirstChunk, chunks_setLastChunk, HM_getChunkSize]

/-- All fields after `HM_appendChunk`. -/
theorem HM_appendChunk_fields (s : State) (H c : Ptr) (hH : H ≠ 0) (hc : c ≠ 0) :
    ∃ s', HM_appendChunk s H c = .ok s' ∧
      (∀ d, (s'.chunks d).nextChunk =
        if (s.lists H).lastChunk ≠ 0 ∧ d = (s.lists H).lastChunk then c
        else (s.chunks d).nextChunk) ∧
      (∀ d, (s'.chunks d).prevChunk =
        if d = c then (s.lists H).lastChunk else (s.chunks d).prevChunk) ∧
      (∀ d, (s'.chunks d).levelHead = if d = c then H else (s.chunks d).levelHead) ∧
      (∀ d, (s'.chunks d).limit = (s.chunks d).limit ∧
        (s'.chunks d).frontier = (s.chunks d).frontier ∧
        (s'.chunks d).nextAdjacent = (s.chunks d).nextAdjacent ∧
        (s'.chunks d).prevAdjacent = (s.chunks d).prevAdjacent ∧
        (s'.chunks d).mightContainMultipleObjects =
          (s.chunks d).mightContainMultipleObjects) ∧
      (∀ n, (s'.lists n).parent = (s.lists n).parent ∧
        (s'.lists n).nextHead = (s.lists n).nextHead ∧
        (s'.lists n).level = (s.lists n).level ∧
        (s'.lists n).containingHH = (s.lists n).containingHH ∧
        (s'.lists n).isInToSpace = (s.lists n).isInToSpace) ∧
      (∀ n, n ≠ H → s'.lists n = s.lists n) ∧
      (s'.lists H).firstChunk =
        (if (s.lists H).firstChunk = 0 then c else (s.lists H).firstChunk) ∧
      (s'.lists H).lastChunk = c ∧
      (s'.lists H).size = ((s.lists H).size + HM_getChunkSize s c) % W64 := by
  refine ⟨_, HM_appendChunk_eq s H c hH hc, ?_, ?_, ?_, ?_, ?_, ?_, ?_, ?_, ?_⟩
  · intro d
    by_cases hf : (s.lists H).firstChunk = 0 <;> by_cases hl : (s.lists H).lastChunk = 0 <;>
      simp [hf, hl, lists_setLevelHead, lists_setNextChunk, lists_setPrevChunk,
        chunks_setFirstChunk, chunks_setLastChunk, chunks_setSize]
  · intro d
    by_cases hf : (s.lists H).firstChunk = 0 <;> by_cases hl : (s.lists H).lastChunk = 0 <;>
      by_cases hd : d = c <;>
      simp [hf, hl, hd, lists_setLevelHead, lists_setNextChunk, lists_setPrevChunk,
        chunks_setFirstChunk, chunks_setLastChunk, chunks_setSize]
  · intro d
    by_cases hf : (s.lists H).firstChunk = 0 <;> by_cases hl : (s.lists H).lastChunk = 0 <;>
      simp [hf, hl, lists_setLevelHead, lists_setNextChunk, lists_setPrevChunk,
        chunks_setFirstChunk, chunks_setLastChunk, chunks_setSize]
  · intro d
    by_cases hf : (s.lists H).firstChunk = 0 <;> by_cases hl : (s.lists H).lastChunk = 0 <;>
      simp [hf, hl, lists_setLevelHead, lists_setNextChunk, lists_setPrevChunk,
        chunks_setFirstChunk, chunks_setLastChunk, chunks_setSize]
  · intro n
    by_cases hf : (s.lists H).firstChunk = 0 <;> by_cases hl : (s.lists H).lastChunk = 0 <;>
      simp [hf, hl, lists_setLevelHead, lists_setNextChunk, lists_setPrevChunk,
        chunks_setFirstChunk, chunks_setLastChunk, chunks_setSize]
  · intro n hn
    by_cases hf : (s.lists H).firstChunk = 0 <;> by_cases hl : (s.lists H).lastChunk = 0 <;>
      simp [hf, hl, hn, lists_setLevelHead, lists_setNextChunk, lists_setPrevChunk,
        lists_setFirstChunk_ne, lists_setLastChunk_ne, lists_setSize_ne]
  · by_cases hf : (s.lists H).firstChunk = 0 <;> by_cases hl : (s.lists H).lastChunk = 0 <;>
      simp [hf, hl, lists_setLevelHead, lists_setNextChunk, lists_setPrevChunk]
  · by_cases hf : (s.lists H).firstChunk = 0 <;> by_cases hl : (s.lists H).lastChunk = 0 <;>
      simp [hf, hl, lists_setLevelHead, lists_setNextChunk, lists_setPrevChunk]
  · by_cases hf : (s.lists H).firstChunk = 0 <;> by_cases hl : (s.lists H).lastChunk = 0 <;>
      simp [hf, hl, lists_setLevelHead, lists_setNextChunk, lists_setPrevChunk,
        chunks_setFirstChunk, chunks_setLastChunk, HM_getChunkSize]

/-- The fields of `splitChunkAt` that are not chunk-list links. -/
theorem splitChunkAt_frame (k : Consts) (fuel : Nat) (s s0 : State) (c H p : Ptr)
    (hcomp : HM_getLevelHeadPathCompress fuel s c = .ok (s0, H)) (hH : H ≠ 0) (hp : p ≠ 0)
    (hpc : p ≠ c) :
    ∃ s', splitChunkAt k fuel s c p = .ok (s', p) ∧
      (∀ d, (s'.chunks d).frontier =
        if d = p then p + k.sizeofChunk else (s0.chunks d).frontier) ∧
      (∀ d, (s'.chunks d).mightContainMultipleObjects =
        if d = p then true else (s0.chunks d).mightContainMultipleObjects) ∧
      (∀ d, (s'.chunks d).nextAdjacent =
        if d = c then p else if d = p then (s0.chunks c).nextAdjacent
        else (s0.chunks d).nextAdjacent) ∧
      (∀ d, (s'.chunks d).prevAdjacent =
        if d = p then c
        else if (s0.chunks c).nextAdjacent ≠ 0 ∧ d = (s0.chunks c).nextAdjacent then p
        else (s0.chunks d).prevAdjacent) ∧
      (∀ n, (s'.lists n).nextHead = (s0.lists n).nextHead ∧
        (s'.lists n).level = (s0.lists n).level ∧
        (s'.lists n).containingHH = (s0.lists n).containingHH ∧
        (s'.lists n).isInToSpace = (s0.lists n).isInToSpace) := by
  have hcp : c ≠ p := fun e => hpc e.symm
  have hrun : ∃ s', splitChunkAt k fuel s c p = .ok (s', p) := by
    unfold splitChunkAt
    rw [hcomp]
    simp only [HM_initializeChunk, if_neg hp]
    rw [if_neg (fun h => hH h.2)]
    exact ⟨_, rfl⟩
  obtain ⟨s', hs'⟩ := hrun
  refine ⟨s', hs', ?_⟩
  unfold splitChunkAt at hs'
  rw [hcomp] at hs'
  simp only [HM_initializeChunk, if_neg hp] at hs'
  rw [if_neg (fun h => hH h.2)] at hs'
  injection hs' with hs'
  injection hs' with hs' _
  subst hs'
  refine ⟨?_, ?_, ?_, ?_, ?_⟩
  · intro d
    by_cases hn : (s0.chunks c).nextChunk = 0 <;> by_cases ha : (s0.chunks c).nextAdjacent = 0 <;>
      by_cases hd : d = c <;> by_cases hdp : d = p <;>
      simp [hn, ha, hd, hdp, hcp, hpc, chunks_setFirstChunk, chunks_setLastChunk, chunks_setSize]
  · intro d
    by_cases hn : (s0.chunks c).nextChunk = 0 <;> by_cases ha : (s0.chunks c).nextAdjacent = 0 <;>
      by_cases hd : d = c <;> by_cases hdp : d = p <;>
      simp [hn, ha, hd, hdp, hcp, hpc, chunks_setFirstChunk, chunks_setLastChunk, chunks_setSize]
  · intro d
    by_cases hn : (s0.chunks c).nextChunk = 0 <;> by_cases ha : (s0.chunks c).nextAdjacent = 0 <;>
      by_cases hd : d = c <;> by_cases hdp : d = p <;>
      simp [hn, ha, hd, hdp, hcp, hpc, chunks_setFirstChunk, chunks_setLastChunk, chunks_setSize]
  · intro d
    by_cases hn : (s0.chunks c).nextChunk = 0 <;> by_cases ha : (s0.chunks c).nextAdjacent = 0 <;>
      by_cases hd : d = c <;> by_cases hdp : d = p <;>
      simp [hn, ha, hd, hdp, hcp, hpc, chunks_setFirstChunk, chunks_setLastChunk, chunks_setSize]
  · intro n
    by_cases hn : (s0.chunks c).nextChunk = 0 <;> by_cases ha : (s0.chunks c).nextAdjacent = 0 <;>
      simp [hn, ha, hcp, hpc, chunks_setFirstChunk, chunks_setLastChunk, chunks_setSize,
        lists_setNextChunk, lists_setPrevChunk, lists_setLevelHead, lists_setLimit,
        lists_setNextAdjacent, lists_setPrevAdjacent]

theorem HM_coalesceChunks_eq (s : State) (l r : Ptr) (hl : l ≠ 0) (hr : r ≠ 0) :
    HM_coalesceChunks s l r = .ok
      (if (s.chunks r).nextAdjacent ≠ 0 then
        ((s.setLimit l (s.chunks r).limit).setNextAdjacent l
          (s.chunks r).nextAdjacent).setPrevAdjacent (s.chunks r).nextAdjacent l
      else (s.setLimit l (s.chunks r).limit).setNextAdjacent l (s.chunks r).nextAdjacent) := by
  unfold HM_coalesceChunks
  rw [if_neg (by simp [hl, hr])]
  by_cases hlr : r = l
  · subst hlr
    by_cases hx : (s.chunks r).nextAdjacent = 0 <;> simp [hx]
  · by_cases hx : (s.chunks r).nextAdjacent = 0 <;> simp [hx, hlr]

/-- All fields after `HM_coalesceChunks`. -/
theorem HM_coalesceChunks_fields (s : State) (l r : Ptr) (hl : l ≠ 0) (hr : r ≠ 0) :
    ∃ s', HM_coalesceChunks s l r = .ok s' ∧ s'.lists = s.lists ∧
      (∀ d, (s'.chunks d).limit = if d = l then (s.chunks r).limit else (s.chunks d).limit) ∧
      (∀ d, (s'.chunks d).nextAdjacent =
        if d = l then (s.chunks r).nextAdjacent else (s.chunks d).nextAdjacent) ∧
      (∀ d, (s'.chunks d).prevAdjacent =
        if (s.chunks r).nextAdjacent ≠ 0 ∧ d = (s.chunks r).nextAdjacent then l
        else (s.chunks d).prevAdjacent) ∧
      (∀ d, (s'.chunks d).nextChunk = (s.chunks d).nextChunk ∧
        (s'.chunks d).prevChunk = (s.chunks d).prevChunk ∧
        (s'.chunks d).levelHead = (s.chunks d).levelHead ∧
        (s'.chunks d).frontier = (s.chunks d).frontier ∧
        (s'.chunks d).mightContainMultipleObjects =
          (s.chunks d).mightContainMultipleObjects) := by
  refine ⟨_, HM_coalesceChunks_eq s l r hl hr, ?_, ?_, ?_, ?_, ?_⟩ <;>
    by_cases hx : (s.chunks r).nextAdjacent = 0 <;>
    simp [hx, lists_setLimit, lists_setNextAdjacent, lists_setPrevAdjacent]

/-! ## `HM_unlinkChunk` on a well-formed chunk list -/

theorem Resolves.congr_fields {s s' : State} {d R : Ptr}
    (hl : (s'.chunks d).levelHead = (s.chunks d).levelHead)
    (hp : ∀ n, (s'.lists n).parent = (s.lists n).parent) (h : Resolves s d R) :
    Resolves s' d R := by
  obtain ⟨hd, q, hq, hR⟩ := h
  refine ⟨hd, q, ?_, hR⟩
  rw [hl]
  refine Path.congr (fun x _ => (hp x).symm) (fun x _ hst => ?_) (fun hst => ?_) hq
  · simpa [isRootOrNull, hp x] using hst
  · simpa [isRootOrNull, hp R] using hst

theorem lastOf_append_of_ne_nil (pre : List Ptr) {post : List Ptr} (h : post ≠ []) :
    lastOf (pre ++ post) = lastOf post := by
  rcases List.eq_nil_or_concat post with rfl | ⟨xs, l, rfl⟩
  · exact absurd rfl h
  · rw [List.concat_eq_append, ← List.append_assoc, lastOf_snoc, lastOf_snoc]

theorem lastOf_nil : lastOf [] = 0 := rfl

theorem getLast?_getD_cons (a p0 : Ptr) (pre : List Ptr) :
    (a :: pre).getLast?.getD p0 = pre.getLast?.getD a := by
  cases pre with
  | nil => rfl
  | cons y ys =>
    rw [List.getLast?_cons_cons]
    cases h : (y :: ys).getLast? with
    | none => simp at h
    | some v => rfl

/-- The `prevChunk` links of a chunk sequence from which one chunk is taken out. -/
theorem PrevLinks.remove_mid {s s' : State} :
    ∀ (pre : List Ptr) {p0 c : Ptr} {post : List Ptr}, PrevLinks s p0 (pre ++ c :: post) →
      (∀ d ∈ pre, (s'.chunks d).prevChunk = (s.chunks d).prevChunk) →
      (∀ d ∈ post.tail, (s'.chunks d).prevChunk = (s.chunks d).prevChunk) →
      (∀ x, post.head? = some x → (s'.chunks x).prevChunk = pre.getLast?.getD p0) →
      PrevLinks s' p0 (pre ++ post)
  | [], p0, c, [], _, _, _, _ => trivial
  | [], p0, c, x :: xs, h, _, h2, h3 =>
    ⟨h3 x rfl, PrevLinks.congr_prev h2 h.2.2⟩
  | a :: pre, p0, c, post, h, h1, h2, h3 => by
    refine ⟨(h1 a (List.mem_cons_self _ _)).trans h.1, ?_⟩
    refine PrevLinks.remove_mid pre h.2 (fun d hd => h1 d (List.mem_cons_of_mem _ hd)) h2
      (fun x hx => ?_)
    rw [h3 x hx, getLast?_getD_cons]

theorem ChunkSeq.next_eq {s : State} {c : Ptr} {post : List Ptr}
    (h : ChunkSeq s (s.chunks c).nextChunk post) :
    (s.chunks c).nextChunk = post.head?.getD 0 := by
  cases post with
  | nil => exact h.1
  | cons x xs => exact h.1

/-- `HM_unlinkChunk` of a chunk `c` of the well-formed, doubly-linked chunk list
`pre ++ c :: post` of `H`. -/
theorem HM_unlinkChunk_spec (s : State) (H c : Ptr) (pre post path : List Ptr) (fuel : Nat)
    (hH : HeadWF s H (pre ++ c :: post)) (hprev : PrevLinks s 0 (pre ++ c :: post))
    (hpath : ParentPath s (s.chunks c).levelHead path H) (hf : path.length < fuel) :
    ∃ s0 s', Compressed s s0 c H path ∧ HM_unlinkChunk fuel s c = .ok s' ∧
      HeadWF s' H (pre ++ post) ∧ PrevLinks s' 0 (pre ++ post) ∧
      ((s'.chunks c).nextChunk = 0 ∧ (s'.chunks c).prevChunk = 0 ∧
        (s'.chunks c).levelHead = 0) ∧
      (s'.lists H).size = ((s.lists H).size + W64 - HM_getChunkSize s c) % W64 ∧
      (∀ d, d ∉ pre ++ c :: post → (s'.chunks d).nextChunk = (s.chunks d).nextChunk ∧
        (s'.chunks d).prevChunk = (s.chunks d).prevChunk) ∧
      (∀ d, d ≠ c → (s'.chunks d).levelHead = (s.chunks d).levelHead) ∧
      (∀ d, (s'.chunks d).limit = (s.chunks d).limit ∧
        (s'.chunks d).frontier = (s.chunks d).frontier ∧
        (s'.chunks d).nextAdjacent = (s.chunks d).nextAdjacent ∧
        (s'.chunks d).prevAdjacent = (s.chunks d).prevAdjacent ∧
        (s'.chunks d).mightContainMultipleObjects =
          (s.chunks d).mightContainMultipleObjects) ∧
      (∀ n, (s'.lists n).parent = (s0.lists n).parent ∧
        (s'.lists n).nextHead = (s.lists n).nextHead ∧
        (s'.lists n).level = (s.lists n).level ∧
        (s'.lists n).containingHH = (s.lists n).containingHH ∧
        (s'.lists n).isInToSpace = (s.lists n).isInToSpace) ∧
      (∀ n, n ≠ H → (s'.lists n).firstChunk = (s.lists n).firstChunk ∧
        (s'.lists n).lastChunk = (s.lists n).lastChunk ∧
        (s'.lists n).size = (s.lists n).size) := by
  have hcmem : c ∈ pre ++ c :: post := by simp
  have hc0 : c ≠ 0 := Path.ne_zero_of_mem hH.2.1 c hcmem
  obtain ⟨s0, hcomp, hC⟩ :=
    HM_getLevelHeadPathCompress_compressed s c H path fuel hc0 hpath hf
  obtain ⟨s', hrun, hnext, hprv, hlh, hlim, hpar, hother, hfirst, hlast, hsize⟩ :=
    HM_unlinkChunk_effect fuel s s0 c H hcomp hH.1.1
  obtain ⟨s'', hrun2, hfr, hmeta⟩ := HM_unlinkChunk_frame fuel s s0 c H hcomp hH.1.1
  obtain rfl : s' = s'' := by
    rw [hrun] at hrun2
    injection hrun2
  have hnd := Path.nodup hH.2.1
  have hnz := Path.ne_zero_of_mem hH.2.1
  have hcpre : c ∉ pre := fun h => (List.nodup_append.1 hnd).2.2 h (List.mem_cons_self _ _)
  have hcpost : c ∉ post := (List.nodup_cons.1 (List.nodup_append.1 hnd).2.1).1
  have hpostnd : post.Nodup := (List.nodup_cons.1 (List.nodup_append.1 hnd).2.1).2
  have hdisj : ∀ d, d ∈ pre → d ∉ post := fun d h1 h2 =>
    (List.nodup_append.1 hnd).2.2 h1 (List.mem_cons_of_mem _ h2)
  have hpc : (s.chunks c).prevChunk = lastOf pre := PrevLinks.prev_of_append pre hprev
  have hsuf : ChunkSeq s (s.chunks c).nextChunk post := (Path.suffix pre hH.2.1).2.2
  have hnc := ChunkSeq.next_eq hsuf
  have f0 := hC.chunk_fields
  have hlastmem : lastOf pre ≠ 0 → lastOf pre ∈ pre := fun h =>
    lastOf_mem (fun e => h (by rw [e]; rfl))
  -- the neighbours of `c`
  have hnext0 : (s.chunks c).nextChunk ≠ 0 → (s.chunks c).nextChunk ∈ post := by
    intro h
    cases post with
    | nil => exact absurd hsuf.1 h
    | cons x xs => rw [hsuf.1]; exact List.mem_cons_self _ _
  refine ⟨s0, s', hC, hrun, ⟨?_, ?_, ?_, ?_⟩, ?_, ⟨?_, ?_, ?_⟩, ?_, ?_, ?_, ?_, ?_, ?_⟩
  · exact ⟨hH.1.1, by rw [hpar H]; exact hC.root.1.2⟩
  · -- chunk sequence
    have hrem : ChunkSeq s' (if pre = [] then (s.chunks c).nextChunk
        else (s.lists H).firstChunk) (pre ++ post) := ChunkSeq.remove hH.2.1 (fun d hd => by
      have hdc : d ≠ c := by
        rintro rfl
        rcases List.mem_append.1 hd with h | h
        · exact hcpre h
        · exact hcpost h
      have hd0 : d ≠ 0 := hnz d (by
        rcases List.mem_append.1 hd with h | h
        · exact List.mem_append_left _ h
        · exact List.mem_append_right _ (List.mem_cons_of_mem _ h))
      rw [hnext d, if_neg hdc, (f0 c).2.1, (f0 c).1, (f0 d).1, hpc]
      by_cases hdl : d = lastOf pre
      · rw [if_pos ⟨hdl ▸ hd0, hdl⟩, if_pos hdl]
      · rw [if_neg (fun h => hdl h.2), if_neg hdl])
    have hfirst' : (s'.lists H).firstChunk =
        if pre = [] then (s.chunks c).nextChunk else (s.lists H).firstChunk := by
      rw [hfirst, (f0 c).2.1, (f0 c).1, (hC.list_fields H).1, hpc]
      cases pre with
      | nil => simp [lastOf]
      | cons a as =>
        have : lastOf (a :: as) ≠ 0 :=
          hnz _ (List.mem_append_left _ (lastOf_mem (List.cons_ne_nil a as)))
        rw [if_neg this, if_neg (by simp)]
    rw [hfirst']
    exact hrem
  · -- lastChunk
    rw [hlast, (f0 c).1, (f0 c).2.1, (hC.list_fields H).2.1, hH.2.2.1, hpc]
    cases post with
    | nil =>
      rw [if_pos hsuf.1]
      simp
    | cons x xs =>
      have hx0 : x ≠ 0 := hnz x (by simp)
      have e1 : lastOf (pre ++ c :: x :: xs) = lastOf (x :: xs) := by
        rw [show pre ++ c :: x :: xs = (pre ++ [c]) ++ (x :: xs) by simp]
        exact lastOf_append_of_ne_nil _ (by simp)
      rw [if_neg (by rw [hsuf.1]; exact hx0), e1, lastOf_append_of_ne_nil pre (by simp)]
  · -- resolution
    intro d hd
    have hdc : d ≠ c := by
      rintro rfl
      rcases List.mem_append.1 hd with h | h
      · exact hcpre h
      · exact hcpost h
    have hdm : d ∈ pre ++ c :: post := by
      rcases List.mem_append.1 hd with h | h
      · exact List.mem_append_left _ h
      · exact List.mem_append_right _ (List.mem_cons_of_mem _ h)
    exact Resolves.congr_fields (by rw [hlh d, if_neg hdc]) hpar (hC.resolves_fwd (hH.2.2.2 d hdm))
  · -- prevChunk links
    refine PrevLinks.remove_mid pre hprev (fun d hd => ?_) (fun d hd => ?_) (fun x hx => ?_)
    · have hdc : d ≠ c := ne_of_mem_of_not_mem hd hcpre
      rw [hprv d, if_neg hdc, (f0 d).2.1, if_neg]
      rintro ⟨hn0, hdn⟩
      rw [(f0 c).1] at hn0 hdn
      exact hdisj d hd (hdn ▸ hnext0 hn0)
    · have hdpost : d ∈ post := List.mem_of_mem_tail hd
      have hdc : d ≠ c := ne_of_mem_of_not_mem hdpost hcpost
      rw [hprv d, if_neg hdc, (f0 d).2.1, if_neg]
      rintro ⟨-, hdn⟩
      rw [(f0 c).1, hnc] at hdn
      cases post with
      | nil => simp at hd
      | cons x xs =>
        simp only [List.head?_cons, Option.getD_some, List.tail_cons] at hdn hd
        exact (List.nodup_cons.1 hpostnd).1 (hdn ▸ hd)
    · have hxpost : x ∈ post := List.mem_of_mem_head? hx
      have hxc : x ≠ c := ne_of_mem_of_not_mem hxpost hcpost
      have hx0 : x ≠ 0 := hnz x (List.mem_append_right _ (List.mem_cons_of_mem _ hxpost))
      have hxn : x = (s.chunks c).nextChunk := by rw [hnc, hx]; rfl
      rw [hprv x, if_neg hxc, (f0 c).1, (f0 c).2.1, if_pos ⟨hxn ▸ hx0, hxn⟩, hpc]
      rfl
  · rw [hnext c, if_pos rfl]
  · rw [hprv c, if_pos rfl]
  · rw [hlh c, if_pos rfl]
  · rw [hsize, (hC.list_fields H).2.2.1, HM_getChunkSize_congr (f0 c).2.2.1]
  · intro d hd
    have hdc : d ≠ c := fun e => hd (e ▸ hcmem)
    constructor
    · rw [hnext d, if_neg hdc, (f0 d).1, if_neg]
      rintro ⟨hp0, hdp⟩
      rw [(f0 c).2.1, hpc] at hp0 hdp
      exact hd (List.mem_append_left _ (hdp ▸ hlastmem hp0))
    · rw [hprv d, if_neg hdc, (f0 d).2.1, if_neg]
      rintro ⟨hn0, hdn⟩
      rw [(f0 c).1] at hn0 hdn
      exact hd (List.mem_append_right _ (List.mem_cons_of_mem _ (hdn ▸ hnext0 hn0)))
  · intro d hd
    rw [hlh d, if_neg hd, hC.chunk_ne hd]
  · intro d
    obtain ⟨a1, a2, a3, a4⟩ := hfr d
    obtain ⟨-, -, b3, b4, b5, b6, b7⟩ := f0 d
    exact ⟨(hlim d).trans b3, a1.trans b4, a2.trans b5, a3.trans b6, a4.trans b7⟩
  · intro n
    obtain ⟨a1, a2, a3, a4⟩ := hmeta n
    obtain ⟨-, -, -, b4, b5, b6, b7⟩ := hC.list_fields n
    exact ⟨hpar n, a1.trans b4, a2.trans b5, a3.trans b6, a4.trans b7⟩
  · intro n hn
    rw [hother n hn]
    obtain ⟨b1, b2, b3, -⟩ := hC.list_fields n
    exact ⟨b1, b2, b3⟩

/-! ## Claims on unlinking, prepending and appending a chunk -/

theorem ChunkSeq.first_eq {s : State} {p : Ptr} {cs : List Ptr} (h : ChunkSeq s p cs) :
    p = cs.head?.getD 0 := by
  cases cs with
  | nil => exact h.1
  | cons x xs => exact h.1

theorem sub_exact_W64 (a b : Nat) (ha : a < W64) (hb : b ≤ a) :
    (a + W64 - b) % W64 = a - b := by
  unfold W64 at *; omega

theorem ptr_diff_exact (l c : Nat) (h1 : c ≤ l) (h2 : l < W64) :
    (l + W64 - c % W64) % W64 = l - c := by
  unfold W64 at *; omega

theorem HM_getChunkSize_exact (s : State) (c : Ptr) (h1 : c ≤ (s.chunks c).limit)
    (h2 : (s.chunks c).limit < W64) : HM_getChunkSize s c = (s.chunks c).limit - c :=
  ptr_diff_exact _ _ h1 h2

/-- C11: for a chunk `c` of the well-formed, doubly-linked chunk list `pre ++ c :: post` of
the level head `H`, `HM_unlinkChunk(c)` returns; afterwards `c.nextChunk`, `c.prevChunk` and
`c.levelHead` are `NULL`; the chunk list of `H` is `pre ++ post`, well-formed and
doubly-linked, with `firstChunk` and `lastChunk` its first and last chunk (both `NULL` when
`c` was the only chunk); and `H.size` is the old size minus `HM_getChunkSize(c)` in `Word64`
arithmetic, which is the old size minus `limit(c) - base(c)` when `base(c) <= limit(c) < 2^64`
and the old size is a `Word64` not smaller than that. -/
theorem HM_unlinkChunk_removes (s : State) (H c : Ptr) (pre post : List Ptr)
    (hH : HeadWF s H (pre ++ c :: post)) (hprev : PrevLinks s 0 (pre ++ c :: post)) :
    ∃ n, ∀ fuel, n ≤ fuel → ∃ s', HM_unlinkChunk fuel s c = .ok s' ∧
      ((s'.chunks c).nextChunk = 0 ∧ (s'.chunks c).prevChunk = 0 ∧
        (s'.chunks c).levelHead = 0) ∧
      HeadWF s' H (pre ++ post) ∧ PrevLinks s' 0 (pre ++ post) ∧
      (s'.lists H).firstChunk = (pre ++ post).head?.getD 0 ∧
      (s'.lists H).lastChunk = lastOf (pre ++ post) ∧
      (pre = [] → post = [] → (s'.lists H).firstChunk = 0 ∧ (s'.lists H).lastChunk = 0) ∧
      (s'.lists H).size = ((s.lists H).size + W64 - HM_getChunkSize s c) % W64 ∧
      (c ≤ (s.chunks c).limit → (s.chunks c).limit < W64 → (s.lists H).size < W64 →
        (s.chunks c).limit - c ≤ (s.lists H).size →
        (s'.lists H).size = (s.lists H).size - ((s.chunks c).limit - c)) := by
  obtain ⟨-, path, hpath⟩ := hH.2.2.2 c (by simp)
  refine ⟨path.length + 1, fun fuel hfuel => ?_⟩
  obtain ⟨s0, s', -, hrun, hwf, hpl, hnull, hsize, -⟩ :=
    HM_unlinkChunk_spec s H c pre post path fuel hH hprev hpath (by omega)
  refine ⟨s', hrun, hnull, hwf, hpl, ChunkSeq.first_eq hwf.2.1, hwf.2.2.1, ?_, hsize, ?_⟩
  · rintro rfl rfl
    exact ⟨ChunkSeq.first_eq hwf.2.1, hwf.2.2.1⟩
  · intro h1 h2 h3 h4
    rw [hsize, HM_getChunkSize_exact s c h1 h2]
    exact sub_exact_W64 _ _ h3 h4

theorem HM_unlinkChunk_removes_witness :
    ∃ n, ∀ fuel, n ≤ fuel → ∃ s', HM_unlinkChunk fuel threeHeads 12288 = .ok s' ∧
      ((s'.chunks 12288).nextChunk = 0 ∧ (s'.chunks 12288).prevChunk = 0 ∧
        (s'.chunks 12288).levelHead = 0) ∧
      HeadWF s' 3 ([] ++ [16384]) ∧ PrevLinks s' 0 ([] ++ [16384]) ∧
      (s'.lists 3).firstChunk = ([] ++ [16384]).head?.getD 0 ∧
      (s'.lists 3).lastChunk = lastOf ([] ++ [16384]) ∧
      (([] : List Ptr) = [] → [16384] = [] →
        (s'.lists 3).firstChunk = 0 ∧ (s'.lists 3).lastChunk = 0) ∧
      (s'.lists 3).size =
        ((threeHeads.lists 3).size + W64 - HM_getChunkSize threeHeads 12288) % W64 ∧
      (12288 ≤ (threeHeads.chunks 12288).limit → (threeHeads.chunks 12288).limit < W64 →
        (threeHeads.lists 3).size < W64 →
        (threeHeads.chunks 12288).limit - 12288 ≤ (threeHeads.lists 3).size →
        (s'.lists 3).size =
          (threeHeads.lists 3).size - ((threeHeads.chunks 12288).limit - 12288)) :=
  HM_unlinkChunk_removes threeHeads 3 12288 [] [16384] threeHeads_wf3 (by decide)

/-! ## `HM_prependChunk` and `HM_appendChunk` on a well-formed chunk list -/

theorem PrevLinks.snoc {s s' : State} :
    ∀ (cs : List Ptr) {p0 c : Ptr}, PrevLinks s p0 cs →
      (∀ d ∈ cs, (s'.chunks d).prevChunk = (s.chunks d).prevChunk) →
      (s'.chunks c).prevChunk = cs.getLast?.getD p0 → PrevLinks s' p0 (cs ++ [c])
  | [], _, _, _, _, h3 => ⟨h3, trivial⟩
  | a :: cs, p0, c, h1, h2, h3 => by
    refine ⟨(h2 a (List.mem_cons_self _ _)).trans h1.1, ?_⟩
    refine PrevLinks.snoc cs h1.2 (fun d hd => h2 d (List.mem_cons_of_mem _ hd)) ?_
    rw [h3, getLast?_getD_cons]

theorem lastOf_cons_of_ne_nil (c : Ptr) {cs : List Ptr} (h : cs ≠ []) :
    lastOf (c :: cs) = lastOf cs :=
  lastOf_append_of_ne_nil [c] h

/-- `HM_prependChunk` of a chunk that is not in the well-formed chunk list `cs` of `H`. -/
theorem HM_prependChunk_spec (s : State) (H c : Ptr) (cs : List Ptr) (hH : HeadWF s H cs)
    (hprev : PrevLinks s 0 cs) (hc : c ≠ 0) (hcs : c ∉ cs)
    (hun : (s.chunks c).prevChunk = 0) :
    ∃ s', HM_prependChunk s H c = .ok s' ∧
      HeadWF s' H (c :: cs) ∧ PrevLinks s' 0 (c :: cs) ∧
      (s'.chunks c).levelHead = H ∧
      (s'.lists H).size = ((s.lists H).size + HM_getChunkSize s c) % W64 ∧
      (∀ d, d ≠ c → (s'.chunks d).nextChunk = (s.chunks d).nextChunk ∧
        (s'.chunks d).levelHead = (s.chunks d).levelHead) ∧
      (∀ d, d ∉ cs → (s'.chunks d).prevChunk = (s.chunks d).prevChunk) ∧
      (∀ d, (s'.chunks d).limit = (s.chunks d).limit ∧
        (s'.chunks d).frontier = (s.chunks d).frontier ∧
        (s'.chunks d).nextAdjacent = (s.chunks d).nextAdjacent ∧
        (s'.chunks d).prevAdjacent = (s.chunks d).prevAdjacent ∧
        (s'.chunks d).mightContainMultipleObjects =
          (s.chunks d).mightContainMultipleObjects) ∧
      (∀ n, (s'.lists n).parent = (s.lists n).parent ∧
        (s'.lists n).nextHead = (s.lists n).nextHead ∧
        (s'.lists n).level = (s.lists n).level ∧
        (s'.lists n).containingHH = (s.lists n).containingHH ∧
        (s'.lists n).isInToSpace = (s.lists n).isInToSpace) ∧
      (∀ n, n ≠ H → s'.lists n = s.lists n) := by
  obtain ⟨s', hrun, hnext, hprv, hlh, hattr, hmeta, hother, hfirst, hlast, hsize⟩ :=
    HM_prependChunk_fields s H c hH.1.1 hc
  have hnz := Path.ne_zero_of_mem hH.2.1
  have hnd := Path.nodup hH.2.1
  have hfmem : (s.lists H).firstChunk ≠ 0 → (s.lists H).firstChunk ∈ cs :=
    fun h => ChunkSeq.first_mem hH.2.1 h
  have hcf : ¬ ((s.lists H).firstChunk ≠ 0 ∧ c = (s.lists H).firstChunk) :=
    fun h => hcs (h.2 ▸ hfmem h.1)
  have hpar : ∀ n, (s'.lists n).parent = (s.lists n).parent := fun n => (hmeta n).1
  refine ⟨s', hrun, ⟨?_, ?_, ?_, ?_⟩, ⟨?_, ?_⟩, ?_, hsize, ?_, ?_, hattr, hmeta, hother⟩
  · exact ⟨hH.1.1, by rw [hpar H]; exact hH.1.2⟩
  · rw [hfirst]
    refine ⟨rfl, hc, ?_⟩
    show ChunkSeq s' (s'.chunks c).nextChunk cs
    rw [hnext c, if_pos rfl]
    refine Path.congr (fun d hd => ?_) (fun _ _ h => h) (fun h => h) hH.2.1
    show (s.chunks d).nextChunk = (s'.chunks d).nextChunk
    rw [hnext d, if_neg (ne_of_mem_of_not_mem hd hcs)]
  · rw [hlast, hH.2.2.1]
    by_cases hnil : cs = []
    · subst hnil
      simp [lastOf]
    · rw [if_neg (hnz _ (lastOf_mem hnil)), lastOf_cons_of_ne_nil c hnil]
  · intro d hd
    rcases List.mem_cons.1 hd with rfl | hd
    · refine ⟨hc, [], ?_, hH.1.1⟩
      rw [hlh d, if_pos rfl]
      exact ⟨rfl, Or.inr (by rw [hpar H]; exact hH.1.2)⟩
    · exact Resolves.congr_fields (by rw [hlh d, if_neg (ne_of_mem_of_not_mem hd hcs)]) hpar
        (hH.2.2.2 d hd)
  · rw [hprv c, if_neg hcf, hun]
  · cases cs with
    | nil => trivial
    | cons x xs =>
      have hfx : (s.lists H).firstChunk = x := hH.2.1.1
      have hx0 : x ≠ 0 := hnz x (List.mem_cons_self _ _)
      refine ⟨by rw [hprv x, if_pos ⟨hfx ▸ hx0, hfx.symm⟩], ?_⟩
      refine PrevLinks.congr_prev (fun d hd => ?_) hprev.2
      rw [hprv d, if_neg]
      rintro ⟨-, e⟩
      rw [hfx] at e
      exact (List.nodup_cons.1 hnd).1 (e ▸ hd)
  · rw [hlh c, if_pos rfl]
  · intro d hd
    exact ⟨by rw [hnext d, if_neg hd], by rw [hlh d, if_neg hd]⟩
  · intro d hd
    rw [hprv d, if_neg]
    rintro ⟨h0, e⟩
    exact hd (e ▸ hfmem h0)

/-- `HM_appendChunk` of a chunk that is not in the well-formed chunk list `cs` of `H`. -/
theorem HM_appendChunk_spec (s : State) (H c : Ptr) (cs : List Ptr) (hH : HeadWF s H cs)
    (hprev : PrevLinks s 0 cs) (hc : c ≠ 0) (hcs : c ∉ cs)
    (hun : (s.chunks c).nextChunk = 0) :
    ∃ s', HM_appendChunk s H c = .ok s' ∧
      HeadWF s' H (cs ++ [c]) ∧ PrevLinks s' 0 (cs ++ [c]) ∧
      (s'.chunks c).levelHead = H ∧
      (s'.lists H).size = ((s.lists H).size + HM_getChunkSize s c) % W64 ∧
      (∀ d, d ≠ c → (s'.chunks d).prevChunk = (s.chunks d).prevChunk ∧
        (s'.chunks d).levelHead = (s.chunks d).levelHead) ∧
      (∀ d, d ∉ cs → (s'.chunks d).nextChunk = (s.chunks d).nextChunk) ∧
      (∀ d, (s'.chunks d).limit = (s.chunks d).limit ∧
        (s'.chunks d).frontier = (s.chunks d).frontier ∧
        (s'.chunks d).nextAdjacent = (s.chunks d).nextAdjacent ∧
        (s'.chunks d).prevAdjacent = (s.chunks d).prevAdjacent ∧
        (s'.chunks d).mightContainMultipleObjects =
          (s.chunks d).mightContainMultipleObjects) ∧
      (∀ n, (s'.lists n).parent = (s.lists n).parent ∧
        (s'.lists n).nextHead = (s.lists n).nextHead ∧
        (s'.lists n).level = (s.lists n).level ∧
        (s'.lists n).containingHH = (s.lists n).containingHH ∧
        (s'.lists n).isInToSpace = (s.lists n).isInToSpace) ∧
      (∀ n, n ≠ H → s'.lists n = s.lists n) := by
  obtain ⟨s', hrun, hnext, hprv, hlh, hattr, hmeta, hother, hfirst, hlast, hsize⟩ :=
    HM_appendChunk_fields s H c hH.1.1 hc
  have hnz := Path.ne_zero_of_mem hH.2.1
  have hnd := Path.nodup hH.2.1
  have hlmem : (s.lists H).lastChunk ≠ 0 → (s.lists H).lastChunk ∈ cs := by
    intro h
    rw [hH.2.2.1] at h ⊢
    exact lastOf_mem (fun e => h (by rw [e]; rfl))
  have hcl : ¬ ((s.lists H).lastChunk ≠ 0 ∧ c = (s.lists H).lastChunk) :=
    fun h => hcs (h.2 ▸ hlmem h.1)
  have hpar : ∀ n, (s'.lists n).parent = (s.lists n).parent := fun n => (hmeta n).1
  have hcnext : (s'.chunks c).nextChunk = 0 := by rw [hnext c, if_neg hcl, hun]
  refine ⟨s', hrun, ⟨?_, ?_, ?_, ?_⟩, ?_, ?_, hsize, ?_, ?_, hattr, hmeta, hother⟩
  · exact ⟨hH.1.1, by rw [hpar H]; exact hH.1.2⟩
  · rcases List.eq_nil_or_concat cs with rfl | ⟨xs, l, rfl⟩
    · have hf0 : (s.lists H).firstChunk = 0 := hH.2.1.1
      rw [hfirst, if_pos hf0]
      exact ⟨rfl, hc, hcnext, rfl⟩
    · rw [List.concat_eq_append] at hH hnd hnz hlmem hcs ⊢
      have hlast' : (s.lists H).lastChunk = l := by rw [hH.2.2.1, lastOf_snoc]
      have hl0 : l ≠ 0 := hnz l (by simp)
      have hlxs : l ∉ xs := fun h => by
        have := List.disjoint_of_nodup_append hnd h
        simp at this
      have hf0 : (s.lists H).firstChunk ≠ 0 := by
        cases xs with
        | nil => rw [hH.2.1.1]; exact hl0
        | cons a xs => rw [hH.2.1.1]; exact hH.2.1.2.1
      rw [hfirst, if_neg hf0, List.append_assoc, List.singleton_append]
      refine Path.append_chain xs hH.2.1 (fun x hx => ?_) ?_
      · show (s'.chunks x).nextChunk = (s.chunks x).nextChunk
        rw [hnext x, if_neg]
        rintro ⟨-, e⟩
        exact hlxs (by rw [← hlast', ← e]; exact hx)
      · have e : (s'.chunks l).nextChunk = c := by rw [hnext l, if_pos ⟨hlast' ▸ hl0, hlast'.symm⟩]
        show Path _ _ (s'.chunks l).nextChunk [c] 0
        rw [e]
        exact ⟨rfl, hc, hcnext, rfl⟩
  · rw [hlast, lastOf_snoc]
  · intro d hd
    rcases List.mem_append.1 hd with hd | hd
    · exact Resolves.congr_fields (by rw [hlh d, if_neg (ne_of_mem_of_not_mem hd hcs)]) hpar
        (hH.2.2.2 d hd)
    · obtain rfl : d = c := by simpa using hd
      refine ⟨hc, [], ?_, hH.1.1⟩
      rw [hlh d, if_pos rfl]
      exact ⟨rfl, Or.inr (by rw [hpar H]; exact hH.1.2)⟩
  · refine PrevLinks.snoc cs hprev (fun d hd => ?_) ?_
    · rw [hprv d, if_neg (ne_of_mem_of_not_mem hd hcs)]
    · rw [hprv c, if_pos rfl, hH.2.2.1]
      rfl
  · rw [hlh c, if_pos rfl]
  · intro d hd
    exact ⟨by rw [hprv d, if_neg hd], by rw [hlh d, if_neg hd]⟩
  · intro d hd
    rw [hnext d, if_neg]
    rintro ⟨h0, e⟩
    exact hd (e ▸ hlmem h0)

/-- C12: for a level head `H` with the well-formed, doubly-linked chunk list `cs` and an
unlinked chunk `c` (its `prevChunk` and `nextChunk` are `NULL` and it is not a chunk of
`cs`), `HM_prependChunk(H, c)` makes the chunk list of `H` `c :: cs` and
`HM_appendChunk(H, c)` makes it `cs ++ [c]`; in both cases the list is well-formed and
doubly-linked, `c.levelHead = H`, `firstChunk` and `lastChunk` are the first and last chunk
of the new list, and `H.size` is the old size plus `HM_getChunkSize(c)` in `Word64`
arithmetic, which is the old size plus `limit(c) - base(c)` when
`base(c) <= limit(c) < 2^64` and that sum is below `2^64`. -/
theorem HM_prependChunk_appendChunk_link (s : State) (H c : Ptr) (cs : List Ptr)
    (hH : HeadWF s H cs) (hprev : PrevLinks s 0 cs) (hc : c ≠ 0) (hun : HM_isUnlinked s c)
    (hcs : c ∉ cs) :
    (∃ s', HM_prependChunk s H c = .ok s' ∧
      HeadWF s' H (c :: cs) ∧ PrevLinks s' 0 (c :: cs) ∧ (s'.chunks c).levelHead = H ∧
      (s'.lists H).firstChunk = c ∧ (s'.lists H).lastChunk = lastOf (c :: cs) ∧
      (s'.lists H).size = ((s.lists H).size + HM_getChunkSize s c) % W64 ∧
      (c ≤ (s.chunks c).limit → (s.chunks c).limit < W64 →
        (s.lists H).size + ((s.chunks c).limit - c) < W64 →
        (s'.lists H).size = (s.lists H).size + ((s.chunks c).limit - c))) ∧
    (∃ s', HM_appendChunk s H c = .ok s' ∧
      HeadWF s' H (cs ++ [c]) ∧ PrevLinks s' 0 (cs ++ [c]) ∧ (s'.chunks c).levelHead = H ∧
      (s'.lists H).firstChunk = (cs ++ [c]).head?.getD 0 ∧ (s'.lists H).lastChunk = c ∧
      (s'.lists H).size = ((s.lists H).size + HM_getChunkSize s c) % W64 ∧
      (c ≤ (s.chunks c).limit → (s.chunks c).limit < W64 →
        (s.lists H).size + ((s.chunks c).limit - c) < W64 →
        (s'.lists H).size = (s.lists H).size + ((s.chunks c).limit - c))) := by
  have hexact : ∀ sz : Nat, c ≤ (s.chunks c).limit → (s.chunks c).limit < W64 →
      (s.lists H).size + ((s.chunks c).limit - c) < W64 →
      sz = ((s.lists H).size + HM_getChunkSize s c) % W64 →
      sz = (s.lists H).size + ((s.chunks c).limit - c) := by
    intro sz h1 h3 h2 e
    rw [e, HM_getChunkSize_exact s c h1 h3]
    exact Nat.mod_eq_of_lt h2
  constructor
  · obtain ⟨s', hrun, hwf, hpl, hlh, hsize, -⟩ :=
      HM_prependChunk_spec s H c cs hH hprev hc hcs hun.1
    exact ⟨s', hrun, hwf, hpl, hlh, (ChunkSeq.first_eq hwf.2.1).trans rfl, hwf.2.2.1, hsize,
      fun h1 h2 h3 => hexact _ h1 h2 h3 hsize⟩
  · obtain ⟨s', hrun, hwf, hpl, hlh, hsize, -⟩ :=
      HM_appendChunk_spec s H c cs hH hprev hc hcs hun.2
    refine ⟨s', hrun, hwf, hpl, hlh, ChunkSeq.first_eq hwf.2.1, ?_, hsize,
      fun h1 h2 h3 => hexact _ h1 h2 h3 hsize⟩
    rw [hwf.2.2.1, lastOf_snoc]
theorem HM_prependChunk_appendChunk_link_witness :
    (∃ s', HM_prependChunk threeHeads 3 20480 = .ok s' ∧
      HeadWF s' 3 (20480 :: [12288, 16384]) ∧ PrevLinks s' 0 (20480 :: [12288, 16384]) ∧
      (s'.chunks 20480).levelHead = 3 ∧
      (s'.lists 3).firstChunk = 20480 ∧ (s'.lists 3).lastChunk = lastOf (20480 :: [12288, 16384]) ∧
      (s'.lists 3).size = ((threeHeads.lists 3).size + HM_getChunkSize threeHeads 20480) % W64 ∧
      (20480 ≤ (threeHeads.chunks 20480).limit → (threeHeads.chunks 20480).limit < W64 →
        (threeHeads.lists 3).size + ((threeHeads.chunks 20480).limit - 20480) < W64 →
        (s'.lists 3).size =
          (threeHeads.lists 3).size + ((threeHeads.chunks 20480).limit - 20480))) ∧
    (∃ s', HM_appendChunk threeHeads 3 20480 = .ok s' ∧
      HeadWF s' 3 ([12288, 16384] ++ [20480]) ∧ PrevLinks s' 0 ([12288, 16384] ++ [20480]) ∧
      (s'.chunks 20480).levelHead = 3 ∧
      (s'.lists 3).firstChunk = ([12288, 16384] ++ [20480]).head?.getD 0 ∧
      (s'.lists 3).lastChunk = 20480 ∧
      (s'.lists 3).size = ((threeHeads.lists 3).size + HM_getChunkSize threeHeads 20480) % W64 ∧
      (20480 ≤ (threeHeads.chunks 20480).limit → (threeHeads.chunks 20480).limit < W64 →
        (threeHeads.lists 3).size + ((threeHeads.chunks 20480).limit - 20480) < W64 →
        (s'.lists 3).size =
          (threeHeads.lists 3).size + ((threeHeads.chunks 20480).limit - 20480))) :=
  HM_prependChunk_appendChunk_link threeHeads 3 20480 [12288, 16384] threeHeads_wf3 (by decide)
    (by decide) (by decide) (by decide)

/-! ## `splitChunkAt` on a well-formed chunk list -/

/-- The `prevChunk` links of a chunk sequence into which `p` is put after `c`. -/
theorem PrevLinks.insert_mid {s s' : State} {p : Ptr} :
    ∀ (pre : List Ptr) {p0 c : Ptr} {post : List Ptr}, PrevLinks s p0 (pre ++ c :: post) →
      (∀ d ∈ pre, (s'.chunks d).prevChunk = (s.chunks d).prevChunk) →
      (s'.chunks c).prevChunk = (s.chunks c).prevChunk →
      (s'.chunks p).prevChunk = c →
      (∀ x, post.head? = some x → (s'.chunks x).prevChunk = p) →
      (∀ d ∈ post.tail, (s'.chunks d).prevChunk = (s.chunks d).prevChunk) →
      PrevLinks s' p0 (pre ++ c :: p :: post)
  | [], _, _, [], h, _, h2, h3, _, _ => ⟨h2.trans h.1, h3, trivial⟩
  | [], _, _, x :: _, h, _, h2, h3, h4, h5 =>
    ⟨h2.trans h.1, h3, h4 x rfl, PrevLinks.congr_prev h5 h.2.2⟩
  | a :: pre, _, _, _, h, h1, h2, h3, h4, h5 =>
    ⟨(h1 a (List.mem_cons_self _ _)).trans h.1,
      PrevLinks.insert_mid pre h.2 (fun d hd => h1 d (List.mem_cons_of_mem _ hd)) h2 h3 h4 h5⟩

/-- `splitChunkAt` of a chunk `c` of the well-formed chunk list `pre ++ c :: post` of `H` at
a point `p` that is not a chunk of the list. -/
theorem splitChunkAt_spec (k : Consts) (s : State) (H c p : Ptr) (pre post path : List Ptr)
    (fuel : Nat) (hH : HeadWF s H (pre ++ c :: post))
    (hpath : ParentPath s (s.chunks c).levelHead path H) (hf : path.length < fuel)
    (hp : p ≠ 0) (hpcs : p ∉ pre ++ c :: post) :
    ∃ s0 s', Compressed s s0 c H path ∧ splitChunkAt k fuel s c p = .ok (s', p) ∧
      HeadWF s' H (pre ++ c :: p :: post) ∧
      (PrevLinks s 0 (pre ++ c :: post) → PrevLinks s' 0 (pre ++ c :: p :: post)) ∧
      ((s'.chunks c).limit = p ∧ (s'.chunks p).limit = (s.chunks c).limit ∧
        (s'.chunks p).frontier = p + k.sizeofChunk ∧
        (s'.chunks p).mightContainMultipleObjects = true ∧
        (s'.chunks p).levelHead = H ∧ (s'.chunks c).levelHead = H) ∧
      ((s'.lists H).firstChunk = (s.lists H).firstChunk ∧
        (s'.lists H).size = (s.lists H).size) ∧
      (∀ d, d ≠ c → d ≠ p → (s'.chunks d).nextChunk = (s.chunks d).nextChunk ∧
        (s'.chunks d).levelHead = (s.chunks d).levelHead ∧
        (s'.chunks d).limit = (s.chunks d).limit) ∧
      (∀ d, d ≠ p → d ∉ post → (s'.chunks d).prevChunk = (s.chunks d).prevChunk) ∧
      (∀ d, d ≠ p → (s'.chunks d).frontier = (s.chunks d).frontier ∧
        (s'.chunks d).mightContainMultipleObjects =
          (s.chunks d).mightContainMultipleObjects) ∧
      (∀ d, (s'.chunks d).nextAdjacent =
        if d = c then p else if d = p then (s.chunks c).nextAdjacent
        else (s.chunks d).nextAdjacent) ∧
      (∀ d, (s'.chunks d).prevAdjacent =
        if d = p then c
        else if (s.chunks c).nextAdjacent ≠ 0 ∧ d = (s.chunks c).nextAdjacent then p
        else (s.chunks d).prevAdjacent) ∧
      (∀ n, (s'.lists n).parent = (s0.lists n).parent ∧
        (s'.lists n).nextHead = (s.lists n).nextHead ∧
        (s'.lists n).level = (s.lists n).level ∧
        (s'.lists n).containingHH = (s.lists n).containingHH ∧
        (s'.lists n).isInToSpace = (s.lists n).isInToSpace) ∧
      (∀ n, n ≠ H → (s'.lists n).firstChunk = (s.lists n).firstChunk ∧
        (s'.lists n).lastChunk = (s.lists n).lastChunk ∧
        (s'.lists n).size = (s.lists n).size) := by
  have hcmem : c ∈ pre ++ c :: post := by simp
  have hc0 : c ≠ 0 := Path.ne_zero_of_mem hH.2.1 c hcmem
  have hpc : p ≠ c := fun e => hpcs (e ▸ hcmem)
  obtain ⟨s0, hcomp, hC⟩ :=
    HM_getLevelHeadPathCompress_compressed s c H path fuel hc0 hpath hf
  obtain ⟨s', hrun, hnext, hprv, hlh, hlim, hpar, hother, hfirst, hlast, hsize⟩ :=
    splitChunkAt_effect k fuel s s0 c H p hcomp hH.1.1 hp hpc
  obtain ⟨s'', hrun2, hfro, hflag, hna, hpa, hmeta⟩ :=
    splitChunkAt_frame k fuel s s0 c H p hcomp hH.1.1 hp hpc
  obtain rfl : s' = s'' := by
    rw [hrun] at hrun2
    injection hrun2 with e
    injection e
  have hnd := Path.nodup hH.2.1
  have hnz := Path.ne_zero_of_mem hH.2.1
  have hcpre : c ∉ pre := fun h => (List.nodup_append.1 hnd).2.2 h (List.mem_cons_self _ _)
  have hcpost : c ∉ post := (List.nodup_cons.1 (List.nodup_append.1 hnd).2.1).1
  have hpostnd : post.Nodup := (List.nodup_cons.1 (List.nodup_append.1 hnd).2.1).2
  have hdisj : ∀ d, d ∈ pre → d ∉ post := fun d h1 h2 =>
    (List.nodup_append.1 hnd).2.2 h1 (List.mem_cons_of_mem _ h2)
  have hppre : p ∉ pre := fun h => hpcs (List.mem_append_left _ h)
  have hppost : p ∉ post := fun h => hpcs (List.mem_append_right _ (List.mem_cons_of_mem _ h))
  have hsuf : ChunkSeq s (s.chunks c).nextChunk post := (Path.suffix pre hH.2.1).2.2
  have hnc := ChunkSeq.next_eq hsuf
  have f0 := hC.chunk_fields
  have hnext0 : (s.chunks c).nextChunk ≠ 0 → (s.chunks c).nextChunk ∈ post := by
    intro h
    cases post with
    | nil => exact absurd hsuf.1 h
    | cons x xs => rw [hsuf.1]; exact List.mem_cons_self _ _
  have hRp : Resolves s' p H := by
    refine ⟨hp, [], ?_, hH.1.1⟩
    rw [hlh p, if_pos rfl]
    exact ⟨rfl, Or.inr (by rw [hpar H]; exact hC.root.1.2)⟩
  refine ⟨s0, s', hC, hrun, ⟨?_, ?_, ?_, ?_⟩, ?_, ⟨?_, ?_, ?_, ?_, ?_, ?_⟩, ⟨?_, ?_⟩, ?_, ?_, ?_,
    ?_, ?_, ?_, ?_⟩
  · exact ⟨hH.1.1, by rw [hpar H]; exact hC.root.1.2⟩
  · rw [hfirst, (hC.list_fields H).1]
    exact ChunkSeq.insert_after hH.2.1 hp hpcs (fun d => by
      rw [hnext d, (f0 c).1, (f0 d).1])
  · rw [hlast, (f0 c).1, (hC.list_fields H).2.1, hH.2.2.1]
    cases post with
    | nil =>
      rw [if_pos hsuf.1, show pre ++ [c, p] = (pre ++ [c]) ++ [p] by simp, lastOf_snoc]
    | cons x xs =>
      have hx0 : x ≠ 0 := hnz x (by simp)
      have e1 : lastOf (pre ++ c :: x :: xs) = lastOf (x :: xs) := by
        rw [show pre ++ c :: x :: xs = (pre ++ [c]) ++ (x :: xs) by simp]
        exact lastOf_append_of_ne_nil _ (by simp)
      have e2 : lastOf (pre ++ c :: p :: x :: xs) = lastOf (x :: xs) := by
        rw [show pre ++ c :: p :: x :: xs = (pre ++ [c, p]) ++ (x :: xs) by simp]
        exact lastOf_append_of_ne_nil _ (by simp)
      rw [if_neg (by rw [hsuf.1]; exact hx0), e1, e2]
  · intro d hd
    by_cases hdp : d = p
    · rw [hdp]; exact hRp
    · have hdm : d ∈ pre ++ c :: post := by
        simp only [List.mem_append, List.mem_cons] at hd ⊢
        rcases hd with h | h | h | h
        · exact Or.inl h
        · exact Or.inr (Or.inl h)
        · exact absurd h hdp
        · exact Or.inr (Or.inr h)
      exact Resolves.congr_fields (by rw [hlh d, if_neg hdp]) hpar (hC.resolves_fwd (hH.2.2.2 d hdm))
  · intro hprev
    refine PrevLinks.insert_mid pre hprev (fun d hd => ?_) ?_ ?_ (fun x hx => ?_)
      (fun d hd => ?_)
    · rw [hprv d, if_neg (ne_of_mem_of_not_mem hd hppre).symm.symm, (f0 d).2.1, if_neg]
      rintro ⟨hn0, hdn⟩
      rw [(f0 c).1] at hn0 hdn
      exact hdisj d hd (hdn ▸ hnext0 hn0)
    · rw [hprv c, if_neg (fun e => hpc e.symm), (f0 c).2.1, if_neg]
      rintro ⟨hn0, hdn⟩
      rw [(f0 c).1] at hn0 hdn
      exact hcpost (hdn ▸ hnext0 hn0)
    · rw [hprv p, if_pos rfl]
    · have hxpost : x ∈ post := List.mem_of_mem_head? hx
      have hxp : x ≠ p := ne_of_mem_of_not_mem hxpost hppost
      have hx0 : x ≠ 0 := hnz x (List.mem_append_right _ (List.mem_cons_of_mem _ hxpost))
      have hxn : x = (s.chunks c).nextChunk := by rw [hnc, hx]; rfl
      rw [hprv x, if_neg hxp, (f0 c).1, if_pos ⟨hxn ▸ hx0, hxn⟩]
    · have hdpost : d ∈ post := List.mem_of_mem_tail hd
      have hdp : d ≠ p := ne_of_mem_of_not_mem hdpost hppost
      rw [hprv d, if_neg hdp, (f0 d).2.1, if_neg]
      rintro ⟨-, hdn⟩
      rw [(f0 c).1, hnc] at hdn
      cases post with
      | nil => simp at hd
      | cons x xs =>
        simp only [List.head?_cons, Option.getD_some, List.tail_cons] at hdn hd
        exact (List.nodup_cons.1 hpostnd).1 (hdn ▸ hd)
  · rw [hlim c, if_neg (fun e => hpc e.symm), if_pos rfl]
  · rw [hlim p, if_pos rfl, (f0 c).2.2.1]
  · rw [hfro p, if_pos rfl]
  · rw [hflag p, if_pos rfl]
  · rw [hlh p, if_pos rfl]
  · rw [hlh c, if_neg (fun e => hpc e.symm), hC.levelHead_self]
  · rw [hfirst, (hC.list_fields H).1]
  · rw [hsize, (hC.list_fields H).2.2.1]
  · intro d hdc hdp
    refine ⟨?_, ?_, ?_⟩
    · rw [hnext d, if_neg hdc, if_neg hdp, (f0 d).1]
    · rw [hlh d, if_neg hdp, hC.chunk_ne hdc]
    · rw [hlim d, if_neg hdp, if_neg hdc, (f0 d).2.2.1]
  · intro d hdp hd
    rw [hprv d, if_neg hdp, (f0 d).2.1, if_neg]
    rintro ⟨hn0, hdn⟩
    rw [(f0 c).1] at hn0 hdn
    exact hd (hdn ▸ hnext0 hn0)
  · intro d hdp
    exact ⟨by rw [hfro d, if_neg hdp, (f0 d).2.2.2.1],
      by rw [hflag d, if_neg hdp, (f0 d).2.2.2.2.2.2]⟩
  · intro d
    rw [hna d, (f0 c).2.2.2.2.1, (f0 d).2.2.2.2.1]
  · intro d
    rw [hpa d, (f0 c).2.2.2.2.1, (f0 d).2.2.2.2.2.1]
  · intro n
    obtain ⟨a1, a2, a3, a4⟩ := hmeta n
    obtain ⟨-, -, -, b4, b5, b6, b7⟩ := hC.list_fields n
    exact ⟨hpar n, a1.trans b4, a2.trans b5, a3.trans b6, a4.trans b7⟩
  · intro n hn
    rw [hother n hn]
    obtain ⟨b1, b2, b3, -⟩ := hC.list_fields n
    exact ⟨b1, b2, b3⟩

/-! ## Claims on `splitChunkAt` and `HM_coalesceChunks` -/

/-- C18: for a chunk `c` of the well-formed chunk list `pre ++ c :: post` of the level head
`H` and a split point `p` that is not `NULL` and not itself a chunk of that list (as holds
for a point inside the extent of `c`), `splitChunkAt(c, p)` returns the chunk at `p`; it sets
`c.limit = p`; the new chunk has the old limit of `c` as its limit and `p + sizeof(struct
HM_chunk)` as its frontier; it resolves to `H`; the chunk list of `H` is
`pre ++ c :: p :: post`, well-formed (so the new chunk is `H.lastChunk` when `c` was last)
and doubly-linked when it was before, with the other chunks in their old order. -/
theorem splitChunkAt_places (k : Consts) (s : State) (H c p : Ptr) (pre post : List Ptr)
    (hH : HeadWF s H (pre ++ c :: post)) (hp : p ≠ 0) (hpcs : p ∉ pre ++ c :: post) :
    ∃ n, ∀ fuel, n ≤ fuel → ∃ s', splitChunkAt k fuel s c p = .ok (s', p) ∧
      (s'.chunks c).limit = p ∧ (s'.chunks p).limit = (s.chunks c).limit ∧
      (s'.chunks p).frontier = p + k.sizeofChunk ∧
      Resolves s' p H ∧ HeadWF s' H (pre ++ c :: p :: post) ∧
      (post = [] → (s'.lists H).lastChunk = p) ∧
      (PrevLinks s 0 (pre ++ c :: post) → PrevLinks s' 0 (pre ++ c :: p :: post)) := by
  obtain ⟨-, path, hpath⟩ := hH.2.2.2 c (by simp)
  refine ⟨path.length + 1, fun fuel hfuel => ?_⟩
  obtain ⟨s0, s', -, hrun, hwf, hpl, ⟨h1, h2, h3, -, -, -⟩, -⟩ :=
    splitChunkAt_spec k s H c p pre post path fuel hH hpath (by omega) hp hpcs
  refine ⟨s', hrun, h1, h2, h3, hwf.2.2.2 p (by simp), hwf, ?_, hpl⟩
  rintro rfl
  rw [hwf.2.2.1, show pre ++ [c, p] = (pre ++ [c]) ++ [p] by simp, lastOf_snoc]

theorem splitChunkAt_places_witness :
    ∃ n, ∀ fuel, n ≤ fuel →
      ∃ s', splitChunkAt ⟨64, 99⟩ fuel threeHeads 12288 14336 = .ok (s', 14336) ∧
      (s'.chunks 12288).limit = 14336 ∧
      (s'.chunks 14336).limit = (threeHeads.chunks 12288).limit ∧
      (s'.chunks 14336).frontier = 14336 + (⟨64, 99⟩ : Consts).sizeofChunk ∧
      Resolves s' 14336 3 ∧ HeadWF s' 3 ([] ++ 12288 :: 14336 :: [16384]) ∧
      ([16384] = [] → (s'.lists 3).lastChunk = 14336) ∧
      (PrevLinks threeHeads 0 ([] ++ 12288 :: [16384]) →
        PrevLinks s' 0 ([] ++ 12288 :: 14336 :: [16384])) :=
  splitChunkAt_places ⟨64, 99⟩ threeHeads 3 12288 14336 [] [16384] threeHeads_wf3 (by decide)
    (by decide)

/-! ## The spatial-adjacency invariant -/

/-- The adjacency invariant after a split of the chunk `c` at the new chunk `p`. -/
theorem AdjInv.split {live : Ptr → Prop} {s s' : State} {c p : Ptr} (h : AdjInv live s)
    (hc : live c) (hp : ¬ live p) (hp0 : p ≠ 0)
    (hlim : ∀ d, (s'.chunks d).limit =
      if d = p then (s.chunks c).limit else if d = c then p else (s.chunks d).limit)
    (hna : ∀ d, (s'.chunks d).nextAdjacent =
      if d = c then p else if d = p then (s.chunks c).nextAdjacent
      else (s.chunks d).nextAdjacent)
    (hpa : ∀ d, (s'.chunks d).prevAdjacent =
      if d = p then c
      else if (s.chunks c).nextAdjacent ≠ 0 ∧ d = (s.chunks c).nextAdjacent then p
      else (s.chunks d).prevAdjacent) :
    AdjInv (fun a => live a ∨ a = p) s' := by
  have hcp : c ≠ p := fun e => hp (e ▸ hc)
  obtain ⟨hc0, hcn, hcpv⟩ := h c hc
  have hne : ∀ b, live b → b ≠ p := fun b hb e => hp (e ▸ hb)
  intro a ha
  by_cases hap : a = p
  · subst hap
    refine ⟨hp0, fun hx => ?_, fun _ => ?_⟩
    · rw [hna a, if_neg hcp.symm, if_pos rfl] at hx ⊢
      obtain ⟨h1, h2, h3⟩ := hcn hx
      refine ⟨Or.inl h1, ?_, ?_⟩
      · rw [hlim a, if_pos rfl, h2]
      · rw [hpa _, if_neg (hne _ h1), if_pos ⟨hx, rfl⟩]
    · rw [hpa a, if_pos rfl]
      refine ⟨Or.inl hc, ?_, ?_⟩
      · rw [hlim c, if_neg hcp, if_pos rfl]
      · rw [hna c, if_pos rfl]
  · have hla : live a := ha.resolve_right hap
    obtain ⟨ha0, han, hapv⟩ := h a hla
    by_cases hac : a = c
    · subst hac
      refine ⟨ha0, fun _ => ?_, fun hx => ?_⟩
      · rw [hna a, if_pos rfl]
        refine ⟨Or.inr rfl, ?_, ?_⟩
        · rw [hlim a, if_neg hap, if_pos rfl]
        · rw [hpa p, if_pos rfl]
      · by_cases hxa : (s.chunks a).nextAdjacent ≠ 0 ∧ a = (s.chunks a).nextAdjacent
        · rw [hpa a, if_neg hap, if_pos hxa]
          obtain ⟨h1, h2, h3⟩ := hcn hxa.1
          refine ⟨Or.inr rfl, ?_, ?_⟩
          · rw [hlim p, if_pos rfl, h2]; exact hxa.2.symm
          · rw [hna p, if_neg hcp.symm, if_pos rfl]; exact hxa.2.symm
        · rw [hpa a, if_neg hap, if_neg hxa] at hx ⊢
          obtain ⟨h1, h2, h3⟩ := hapv hx
          have hba : (s.chunks a).prevAdjacent ≠ a := by
            intro e
            rw [e] at h3
            exact hxa ⟨by rw [h3]; exact ha0, h3.symm⟩
          refine ⟨Or.inl h1, ?_, ?_⟩
          · rw [hlim _, if_neg (hne _ h1), if_neg hba]; exact h2
          · rw [hna _, if_neg hba, if_neg (hne _ h1)]; exact h3
    · refine ⟨ha0, fun hx => ?_, fun hx => ?_⟩
      · rw [hna a, if_neg hac, if_neg hap] at hx ⊢
        obtain ⟨h1, h2, h3⟩ := han hx
        refine ⟨Or.inl h1, ?_, ?_⟩
        · rw [hlim a, if_neg hap, if_neg hac]; exact h2
        · rw [hpa _, if_neg (hne _ h1), if_neg]
          · exact h3
          · rintro ⟨hx0, e⟩
            have := (hcn hx0).2.2
            rw [← e, h3] at this
            exact hac this
      · by_cases hxa : (s.chunks c).nextAdjacent ≠ 0 ∧ a = (s.chunks c).nextAdjacent
        · rw [hpa a, if_neg hap, if_pos hxa]
          obtain ⟨h1, h2, h3⟩ := hcn hxa.1
          refine ⟨Or.inr rfl, ?_, ?_⟩
          · rw [hlim p, if_pos rfl, h2]; exact hxa.2.symm
          · rw [hna p, if_neg hcp.symm, if_pos rfl]; exact hxa.2.symm
        · rw [hpa a, if_neg hap, if_neg hxa] at hx ⊢
          obtain ⟨h1, h2, h3⟩ := hapv hx
          have hbc : (s.chunks a).prevAdjacent ≠ c := by
            intro e
            rw [e] at h3
            exact hxa ⟨by rw [h3]; exact ha0, h3.symm⟩
          refine ⟨Or.inl h1, ?_, ?_⟩
          · rw [hlim _, if_neg (hne _ h1), if_neg hbc]; exact h2
          · rw [hna _, if_neg hbc, if_neg (hne _ h1)]; exact h3

/-- The adjacency invariant after `l` has swallowed its right neighbour `r`. -/
theorem AdjInv.coalesce {live : Ptr → Prop} {s s' : State} {l r : Ptr} (h : AdjInv live s)
    (hl : live l) (hnr : (s.chunks l).nextAdjacent = r) (hr0 : r ≠ 0)
    (hlim : ∀ d, (s'.chunks d).limit = if d = l then (s.chunks r).limit else (s.chunks d).limit)
    (hna : ∀ d, (s'.chunks d).nextAdjacent =
      if d = l then (s.chunks r).nextAdjacent else (s.chunks d).nextAdjacent)
    (hpa : ∀ d, (s'.chunks d).prevAdjacent =
      if (s.chunks r).nextAdjacent ≠ 0 ∧ d = (s.chunks r).nextAdjacent then l
      else (s.chunks d).prevAdjacent) :
    AdjInv (fun a => live a ∧ a ≠ r) s' := by
  obtain ⟨hl0, hln, -⟩ := h l hl
  obtain ⟨hlr, hlimr, hpr⟩ := hln (by rw [hnr]; exact hr0)
  rw [hnr] at hlr hlimr hpr
  obtain ⟨-, hrn, -⟩ := h r hlr
  rintro a ⟨hla, har⟩
  obtain ⟨ha0, han, hapv⟩ := h a hla
  refine ⟨ha0, fun hx => ?_, fun hx => ?_⟩
  · by_cases hal : a = l
    · subst hal
      rw [hna a, if_pos rfl] at hx ⊢
      obtain ⟨h1, h2, h3⟩ := hrn hx
      refine ⟨⟨h1, ?_⟩, ?_, ?_⟩
      · intro e
        rw [e] at h3
        rw [h3] at hpr
        exact har hpr.symm
      · rw [hlim a, if_pos rfl]; exact h2
      · rw [hpa _, if_pos ⟨hx, rfl⟩]
    · rw [hna a, if_neg hal] at hx ⊢
      obtain ⟨h1, h2, h3⟩ := han hx
      refine ⟨⟨h1, ?_⟩, ?_, ?_⟩
      · intro e
        rw [e, hpr] at h3
        exact hal h3.symm
      · rw [hlim a, if_neg hal]; exact h2
      · rw [hpa _, if_neg]
        · exact h3
        · rintro ⟨hx0, e⟩
          have := (hrn hx0).2.2
          rw [← e, h3] at this
          exact har this
  · by_cases hax : (s.chunks r).nextAdjacent ≠ 0 ∧ a = (s.chunks r).nextAdjacent
    · rw [hpa a, if_pos hax]
      obtain ⟨h1, h2, h3⟩ := hrn hax.1
      refine ⟨⟨hl, ?_⟩, ?_, ?_⟩
      · intro e
        rw [e] at hnr
        rw [hnr] at hax
        exact har hax.2
      · rw [hlim l, if_pos rfl, h2]; exact hax.2.symm
      · rw [hna l, if_pos rfl]; exact hax.2.symm
    · rw [hpa a, if_neg hax] at hx ⊢
      obtain ⟨h1, h2, h3⟩ := hapv hx
      have hbr : (s.chunks a).prevAdjacent ≠ r := by
        intro e
        rw [e] at h3
        exact hax ⟨by rw [h3]; exact ha0, h3.symm⟩
      have hbl : (s.chunks a).prevAdjacent ≠ l := by
        intro e
        rw [e, hnr] at h3
        exact har h3.symm
      refine ⟨⟨h1, hbr⟩, ?_, ?_⟩
      · rw [hlim _, if_neg hbl]; exact h2
      · rw [hna _, if_neg hbl]; exact h3

theorem adjHeads_wf3 : HeadWF adjHeads 3 [12288, 16384] := by
  refine ⟨by decide, by decide, by decide, fun c hc => ?_⟩
  simp only [List.mem_cons, List.mem_singleton, List.not_mem_nil, or_false] at hc
  rcases hc with rfl | rfl
  · exact ⟨by decide, [], by decide⟩
  · exact ⟨by decide, [], by decide⟩

theorem adjHeads_adjInv : AdjInv (fun a => a = 12288 ∨ a = 16384) adjHeads := by
  rintro a (rfl | rfl)
  · exact ⟨by decide, fun _ => ⟨Or.inr (by decide), by decide, by decide⟩,
      fun h => absurd (by decide) h⟩
  · exact ⟨by decide, fun h => absurd (by decide) h,
      fun _ => ⟨Or.inl (by decide), by decide, by decide⟩⟩

/-- C20: the spatial-adjacency invariant over a set `live` of chunks (a chunk with
`nextAdjacent = b` has `limit = base(b)` and `b.prevAdjacent` points back, and symmetrically
for `prevAdjacent`) is kept by `splitChunkAt` and by `HM_coalesceChunks`. When it holds,
`splitChunkAt(c, p)` of a chunk `c` of a well-formed chunk list at a non-null point `p` that
is not yet a chunk returns and the invariant holds over the old chunks and `p`;
`HM_coalesceChunks(left, right)` with `left.nextAdjacent = right` returns, the invariant holds
over the old chunks without `right`, and `left.limit` and `left.nextAdjacent` are the former
`limit` and `nextAdjacent` of `right`. -/
theorem adjacency_preserved (k : Consts) (live : Ptr → Prop) (s : State)
    (hadj : AdjInv live s) :
    (∀ H c p cs, HeadWF s H cs → c ∈ cs → live c → ¬ live p → p ≠ 0 →
      ∃ n, ∀ fuel, n ≤ fuel → ∃ s', splitChunkAt k fuel s c p = .ok (s', p) ∧
        AdjInv (fun a => live a ∨ a = p) s') ∧
    (∀ l r, live l → r ≠ 0 → (s.chunks l).nextAdjacent = r →
      ∃ s', HM_coalesceChunks s l r = .ok s' ∧ AdjInv (fun a => live a ∧ a ≠ r) s' ∧
        (s'.chunks l).limit = (s.chunks r).limit ∧
        (s'.chunks l).nextAdjacent = (s.chunks r).nextAdjacent) := by
  constructor
  · intro H c p cs hH hc hlc hlp hp0
    obtain ⟨hc0, path, hpath⟩ := hH.2.2.2 c hc
    refine ⟨path.length + 1, fun fuel hfuel => ?_⟩
    have hpc : p ≠ c := fun e => hlp (e ▸ hlc)
    obtain ⟨s0, hcomp, hC⟩ :=
      HM_getLevelHeadPathCompress_compressed s c H path fuel hc0 hpath (by omega)
    obtain ⟨s', hrun, -, -, -, hlim, -⟩ :=
      splitChunkAt_effect k fuel s s0 c H p hcomp hH.1.1 hp0 hpc
    obtain ⟨s'', hrun2, -, -, hna, hpa, -⟩ :=
      splitChunkAt_frame k fuel s s0 c H p hcomp hH.1.1 hp0 hpc
    obtain rfl : s' = s'' := by
      rw [hrun] at hrun2
      injection hrun2 with e
      injection e
    have f0 := hC.chunk_fields
    refine ⟨s', hrun, AdjInv.split hadj hlc hlp hp0 (fun d => ?_) (fun d => ?_) (fun d => ?_)⟩
    · rw [hlim d, (f0 c).2.2.1, (f0 d).2.2.1]
    · rw [hna d, (f0 c).2.2.2.2.1, (f0 d).2.2.2.2.1]
    · rw [hpa d, (f0 c).2.2.2.2.1, (f0 d).2.2.2.2.2.1]
  · intro l r hl hr0 hnr
    obtain ⟨s', hrun, -, hlim, hna, hpa, -⟩ :=
      HM_coalesceChunks_fields s l r (hadj l hl).1 hr0
    refine ⟨s', hrun, AdjInv.coalesce hadj hl hnr hr0 hlim hna hpa, ?_, ?_⟩
    · rw [hlim l, if_pos rfl]
    · rw [hna l, if_pos rfl]

theorem adjacency_preserved_witness :
    (∃ n, ∀ fuel, n ≤ fuel →
      ∃ s', splitChunkAt ⟨64, 99⟩ fuel adjHeads 12288 14336 = .ok (s', 14336) ∧
        AdjInv (fun a => (a = 12288 ∨ a = 16384) ∨ a = 14336) s') ∧
    (∃ s', HM_coalesceChunks adjHeads 12288 16384 = .ok s' ∧
      AdjInv (fun a => (a = 12288 ∨ a = 16384) ∧ a ≠ 16384) s' ∧
      (s'.chunks 12288).limit = (adjHeads.chunks 16384).limit ∧
      (s'.chunks 12288).nextAdjacent = (adjHeads.chunks 16384).nextAdjacent) :=
  have h := adjacency_preserved ⟨64, 99⟩ (fun a => a = 12288 ∨ a = 16384) adjHeads
    adjHeads_adjInv
  ⟨h.1 3 12288 14336 [12288, 16384] adjHeads_wf3 (by decide) (Or.inl rfl) (by decide)
      (by decide),
    h.2 12288 16384 (Or.inl rfl) (by decide) (by decide)⟩

/-! ## Splitting and coalescing again -/

theorem lt_split_point (c p l hdr : Nat) (h1 : c + hdr ≤ p) (h2 : p + hdr ≤ l) (h3 : 0 < hdr) :
    c < p ∧ p < l := by omega

/-- The chunk `c` after it has swallowed the piece `p` split off it, when the unlinking in
between has kept the limits, frontiers and adjacency links. -/
theorem HM_coalesceChunks_restores (s s1 s3 : State) (c p : Ptr) (hc0 : c ≠ 0) (hp0 : p ≠ 0)
    (hpc : p ≠ c)
    (hxc : (s.chunks c).nextAdjacent ≠ 0 → c ≠ (s.chunks c).nextAdjacent)
    (h1 : (s1.chunks p).limit = (s.chunks c).limit)
    (h2 : (s1.chunks c).frontier = (s.chunks c).frontier)
    (hna : ∀ d, (s1.chunks d).nextAdjacent =
      if d = c then p else if d = p then (s.chunks c).nextAdjacent
      else (s.chunks d).nextAdjacent)
    (hpa : ∀ d, (s1.chunks d).prevAdjacent =
      if d = p then c
      else if (s.chunks c).nextAdjacent ≠ 0 ∧ d = (s.chunks c).nextAdjacent then p
      else (s.chunks d).prevAdjacent)
    (h31 : ∀ d, (s3.chunks d).limit = (s1.chunks d).limit ∧
      (s3.chunks d).frontier = (s1.chunks d).frontier ∧
      (s3.chunks d).nextAdjacent = (s1.chunks d).nextAdjacent ∧
      (s3.chunks d).prevAdjacent = (s1.chunks d).prevAdjacent) :
    ∃ s4, HM_coalesceChunks s3 c p = .ok s4 ∧
      (s4.chunks c).limit = (s.chunks c).limit ∧
      (s4.chunks c).nextAdjacent = (s.chunks c).nextAdjacent ∧
      ((s.chunks c).nextAdjacent ≠ 0 →
        (s4.chunks (s.chunks c).nextAdjacent).prevAdjacent = c) ∧
      (s4.chunks c).frontier = (s.chunks c).frontier ∧
      (s4.chunks c).prevAdjacent = (s.chunks c).prevAdjacent := by
  obtain ⟨s4, hrun4, -, hlim4, hna4, hpa4, hrest4⟩ := HM_coalesceChunks_fields s3 c p hc0 hp0
  have hnp3 : (s3.chunks p).nextAdjacent = (s.chunks c).nextAdjacent := by
    rw [(h31 p).2.2.1, hna p, if_neg hpc, if_pos rfl]
  refine ⟨s4, hrun4, ?_, ?_, ?_, ?_, ?_⟩
  · rw [hlim4 c, if_pos rfl, (h31 p).1, h1]
  · rw [hna4 c, if_pos rfl, hnp3]
  · intro h
    rw [hpa4 _, hnp3, if_pos ⟨h, rfl⟩]
  · rw [(hrest4 c).2.2.2.1, (h31 c).2.1, h2]
  · rw [hpa4 c, hnp3, if_neg (fun h => hxc h.1 h.2), (h31 c).2.2.2, hpa c,
      if_neg (fun e => hpc e.symm), if_neg (fun h => hxc h.1 h.2)]

/-- C19: for a chunk `c` of the well-formed, doubly-linked chunk list `pre ++ c :: post` of
`H` whose frontier is at its payload start, with limit `l` and `nextAdjacent` `x` (where
`l = x` when `x` is not `NULL`), and a split point `p` with `c.frontier <= p` and
`p + sizeof(struct HM_chunk) <= l` that is not a chunk of the list: `splitChunkAt(c, p)`,
then `HM_unlinkChunk` of both pieces, in either order, then `HM_coalesceChunks(c, p)` all
return; before the coalescing both pieces are unlinked and the chunk list of `H` is
`pre ++ post`; afterwards `c.limit = l`, `c.nextAdjacent = x`, `x.prevAdjacent = c` when `x`
is not `NULL`, and the frontier and the `prevAdjacent` of `c` are as before the split. -/
theorem split_coalesce_roundtrip (k : Consts) (s : State) (H c p : Ptr) (pre post : List Ptr)
    (hH : HeadWF s H (pre ++ c :: post)) (hprev : PrevLinks s 0 (pre ++ c :: post))
    (hpcs : p ∉ pre ++ c :: post) (hk : 0 < k.sizeofChunk)
    (hfro : (s.chunks c).frontier = c + k.sizeofChunk) (hp1 : (s.chunks c).frontier ≤ p)
    (hp2 : p + k.sizeofChunk ≤ (s.chunks c).limit)
    (hx : (s.chunks c).nextAdjacent ≠ 0 → (s.chunks c).limit = (s.chunks c).nextAdjacent) :
    ∃ n, ∀ fuel, n ≤ fuel → ∃ s1, splitChunkAt k fuel s c p = .ok (s1, p) ∧
      ∀ a b, (a = c ∧ b = p) ∨ (a = p ∧ b = c) →
        ∃ s2 s3 s4, HM_unlinkChunk fuel s1 a = .ok s2 ∧ HM_unlinkChunk fuel s2 b = .ok s3 ∧
          HM_isUnlinked s3 c ∧ HM_isUnlinked s3 p ∧ HeadWF s3 H (pre ++ post) ∧
          HM_coalesceChunks s3 c p = .ok s4 ∧
          (s4.chunks c).limit = (s.chunks c).limit ∧
          (s4.chunks c).nextAdjacent = (s.chunks c).nextAdjacent ∧
          ((s.chunks c).nextAdjacent ≠ 0 →
            (s4.chunks (s.chunks c).nextAdjacent).prevAdjacent = c) ∧
          (s4.chunks c).frontier = (s.chunks c).frontier ∧
          (s4.chunks c).prevAdjacent = (s.chunks c).prevAdjacent := by
  have hcmem : c ∈ pre ++ c :: post := by simp
  obtain ⟨hc0, path, hpath⟩ := hH.2.2.2 c hcmem
  refine ⟨path.length + 1, fun fuel hfuel => ?_⟩
  rw [hfro] at hp1
  obtain ⟨hcp, hpl⟩ := lt_split_point c p _ _ hp1 hp2 hk
  have hpc : p ≠ c := Nat.ne_of_gt hcp
  have hp0 : p ≠ 0 := Nat.not_eq_zero_of_lt hcp
  have hxc : (s.chunks c).nextAdjacent ≠ 0 → c ≠ (s.chunks c).nextAdjacent := by
    intro h e
    have := hx h
    rw [← e] at this
    exact absurd this (Nat.ne_of_gt (lt_trans hcp hpl))
  obtain ⟨s0, s1, -, hrun, hwf1, hpl1, ⟨-, hlimp, -, -, hlp1, hlc1⟩, -, -, -, hfr1, hna, hpa,
      -⟩ := splitChunkAt_spec k s H c p pre post path fuel hH hpath (by omega) hp0 hpcs
  have hpl1 := hpl1 hprev
  have hnd1 := Path.nodup hwf1.2.1
  have root_path : ∀ t : State, isLevelHead t H → ∀ d, (t.chunks d).levelHead = H →
      ParentPath t (t.chunks d).levelHead [] H := fun t ht d hd => by
    rw [hd]; exact ⟨⟨rfl, Or.inr ht.2⟩, ht.1⟩
  refine ⟨s1, hrun, fun a b hab => ?_⟩
  rcases hab with ⟨rfl, rfl⟩ | ⟨rfl, rfl⟩
  · -- first `c`, then `p`
    obtain ⟨-, s2, -, hrun2, hwf2, hpl2, hun2, -, -, hl2, hat2, -⟩ :=
      HM_unlinkChunk_spec s1 H a pre (b :: post) [] fuel hwf1 hpl1
        (root_path s1 hwf1.1 a hlc1) (by simp; omega)
    have hlp2 : (s2.chunks b).levelHead = H := by rw [hl2 b hpc, hlp1]
    obtain ⟨-, s3, -, hrun3, hwf3, -, hun3, -, hlk3, -, hat3, -⟩ :=
      HM_unlinkChunk_spec s2 H b pre post [] fuel hwf2 hpl2
        (root_path s2 hwf2.1 b hlp2) (by simp; omega)
    have hanot : a ∉ pre ++ b :: post := by
      have := hnd1
      rw [List.nodup_append] at this
      simp only [List.mem_append, List.mem_cons, not_or]
      refine ⟨fun h => this.2.2 h (List.mem_cons_self _ _), fun e => hpc e.symm, ?_⟩
      exact fun h => (List.nodup_cons.1 this.2.1).1 (List.mem_cons_of_mem _ h)
    obtain ⟨s4, hrun4, hres⟩ := HM_coalesceChunks_restores s s1 s3 a b hc0 hp0 hpc hxc hlimp
      (hfr1 a (fun e => hpc e.symm)).1 hna hpa (fun d => by
        obtain ⟨a1, a2, a3, a4, -⟩ := hat3 d
        obtain ⟨b1, b2, b3, b4, -⟩ := hat2 d
        exact ⟨a1.trans b1, a2.trans b2, a3.trans b3, a4.trans b4⟩)
    refine ⟨s2, s3, s4, hrun2, hrun3, ?_, ⟨hun3.2.1, hun3.1⟩, hwf3, hrun4, hres⟩
    obtain ⟨e1, e2⟩ := hlk3 a hanot
    exact ⟨e2.trans hun2.2.1, e1.trans hun2.1⟩
  · -- first `p`, then `c`
    have hwf1' : HeadWF s1 H ((pre ++ [b]) ++ a :: post) := by simpa using hwf1
    have hpl1' : PrevLinks s1 0 ((pre ++ [b]) ++ a :: post) := by simpa using hpl1
    obtain ⟨-, s2, -, hrun2, hwf2, hpl2, hun2, -, -, hl2, hat2, -⟩ :=
      HM_unlinkChunk_spec s1 H a (pre ++ [b]) post [] fuel hwf1' hpl1'
        (root_path s1 hwf1.1 a hlp1) (by simp; omega)
    have hwf2' : HeadWF s2 H (pre ++ b :: post) := by simpa using hwf2
    have hpl2' : PrevLinks s2 0 (pre ++ b :: post) := by simpa using hpl2
    have hlc2 : (s2.chunks b).levelHead = H := by rw [hl2 b (fun e => hpc e.symm), hlc1]
    obtain ⟨-, s3, -, hrun3, hwf3, -, hun3, -, hlk3, -, hat3, -⟩ :=
      HM_unlinkChunk_spec s2 H b pre post [] fuel hwf2' hpl2'
        (root_path s2 hwf2.1 b hlc2) (by simp; omega)
    obtain ⟨s4, hrun4, hres⟩ := HM_coalesceChunks_restores s s1 s3 b a hc0 hp0 hpc hxc hlimp
      (hfr1 b (fun e => hpc e.symm)).1 hna hpa (fun d => by
        obtain ⟨a1, a2, a3, a4, -⟩ := hat3 d
        obtain ⟨b1, b2, b3, b4, -⟩ := hat2 d
        exact ⟨a1.trans b1, a2.trans b2, a3.trans b3, a4.trans b4⟩)
    refine ⟨s2, s3, s4, hrun2, hrun3, ⟨hun3.2.1, hun3.1⟩, ?_, hwf3, hrun4, hres⟩
    obtain ⟨e1, e2⟩ := hlk3 a hpcs
    exact ⟨e2.trans hun2.2.1, e1.trans hun2.1⟩
theorem split_coalesce_roundtrip_witness :
    ∃ n, ∀ fuel, n ≤ fuel →
      ∃ s1, splitChunkAt ⟨64, 99⟩ fuel adjHeads 12288 14336 = .ok (s1, 14336) ∧
      ∀ a b, (a = 12288 ∧ b = 14336) ∨ (a = 14336 ∧ b = 12288) →
        ∃ s2 s3 s4, HM_unlinkChunk fuel s1 a = .ok s2 ∧ HM_unlinkChunk fuel s2 b = .ok s3 ∧
          HM_isUnlinked s3 12288 ∧ HM_isUnlinked s3 14336 ∧ HeadWF s3 3 ([] ++ [16384]) ∧
          HM_coalesceChunks s3 12288 14336 = .ok s4 ∧
          (s4.chunks 12288).limit = (adjHeads.chunks 12288).limit ∧
          (s4.chunks 12288).nextAdjacent = (adjHeads.chunks 12288).nextAdjacent ∧
          ((adjHeads.chunks 12288).nextAdjacent ≠ 0 →
            (s4.chunks (adjHeads.chunks 12288).nextAdjacent).prevAdjacent = 12288) ∧
          (s4.chunks 12288).frontier = (adjHeads.chunks 12288).frontier ∧
          (s4.chunks 12288).prevAdjacent = (adjHeads.chunks 12288).prevAdjacent :=
  split_coalesce_roundtrip ⟨64, 99⟩ adjHeads 3 12288 14336 [] [16384] adjHeads_wf3 (by decide)
    (by decide) (by decide) (by decide) (by decide) (by decide) (by decide)

/-! ## Claims on the free pool: a failing block mapper -/

/-- C14 fails: when `HM_getFreeChunk` has to map memory (the first chunk of the pool is absent
or too small) and the block mapper returns `NULL`, `mmapNewChunk` returns `NULL`, and
`HM_getFreeChunk` passes it to `HM_prependChunk`, which writes `chunk->levelHead` through the
null pointer: `HM_getFreeChunk`, `HM_allocateChunk` and `HM_allocateLevelHeadChunk` fault
instead of returning `NULL`. -/
theorem HM_getFreeChunk_map_fails (k : Consts) (bs : Nat) (GC_mmapAnon : Nat → Ptr)
    (fuel : Nat) (g : GC_state) (s : State) (n : Nat) (hP : g.freeChunks ≠ 0)
    (hneed : (s.lists g.freeChunks).firstChunk = 0 ∨
      ((s.chunks (s.lists g.freeChunks).firstChunk).limit + W64 -
        (s.chunks (s.lists g.freeChunks).firstChunk).frontier % W64) % W64 < n)
    (hfail : GC_mmapAnon
      ((max (align ((n + k.sizeofChunk) % W64) bs) g.nextChunkAllocSize + bs) % W64) = 0) :
    HM_getFreeChunk k bs GC_mmapAnon fuel g s n = .error .nullDeref ∧
      (∀ levelHead, HM_allocateChunk k bs GC_mmapAnon fuel g s levelHead n
        = .error .nullDeref) ∧
      (∀ copyHH levelList list level hh,
        HM_allocateLevelHeadChunk k bs GC_mmapAnon copyHH fuel g s levelList list n level hh
          = .error .nullDeref) := by
  have h1 : HM_getFreeChunk k bs GC_mmapAnon fuel g s n = .error .nullDeref := by
    unfold HM_getFreeChunk
    rw [if_neg hP, if_pos hneed]
    simp only [mmapNewChunk, hfail, if_true, HM_prependChunk]
  refine ⟨h1, fun levelHead => ?_, fun copyHH levelList list level hh => ?_⟩
  · unfold HM_allocateChunk
    rw [h1]
  · unfold HM_allocateLevelHeadChunk
    rw [h1]

theorem HM_getFreeChunk_map_fails_witness :
    HM_getFreeChunk ⟨64, 99⟩ 4096 mapFail 5 gcS1 poolS1 3000 = .error .nullDeref ∧
      (∀ levelHead, HM_allocateChunk ⟨64, 99⟩ 4096 mapFail 5 gcS1 poolS1 levelHead 3000
        = .error .nullDeref) ∧
      (∀ copyHH levelList list level hh,
        HM_allocateLevelHeadChunk ⟨64, 99⟩ 4096 mapFail copyHH 5 gcS1 poolS1 levelList list
          3000 level hh = .error .nullDeref) :=
  HM_getFreeChunk_map_fails ⟨64, 99⟩ 4096 mapFail 5 gcS1 poolS1 3000 (by decide)
    (Or.inl (by decide)) rfl

/-! ## Rounding up to the block size -/

theorem align_eq (a b : Nat) (h : a + b ≤ W64) (hb : 0 < b) :
    align a b = (a + (b - 1)) - (a + (b - 1)) % b := by
  unfold align
  rw [Nat.mod_eq_of_lt (by omega)]

theorem align_ge (a b : Nat) (h : a + b ≤ W64) (hb : 0 < b) : a ≤ align a b := by
  rw [align_eq a b h hb]
  have := Nat.mod_lt (a + (b - 1)) hb
  omega

theorem align_lt (a b : Nat) (h : a + b ≤ W64) (hb : 0 < b) : align a b < a + b := by
  rw [align_eq a b h hb]
  omega

theorem align_dvd (a b : Nat) (h : a + b ≤ W64) (hb : 0 < b) : b ∣ align a b := by
  rw [align_eq a b h hb]
  exact Nat.dvd_sub_mod _

theorem align_add_left (s0 x b : Nat) (h : s0 + x + b ≤ W64) (hb : 0 < b) (hs : b ∣ s0) :
    align (s0 + x) b = s0 + align x b := by
  rw [align_eq _ b h hb, align_eq x b (by omega) hb]
  obtain ⟨q, rfl⟩ := hs
  have e : (b * q + x + (b - 1)) % b = (x + (b - 1)) % b := by
    rw [Nat.add_assoc, Nat.mul_add_mod]
  rw [e]
  have := Nat.mod_le (x + (b - 1)) b
  omega

theorem align_le_of_dvd (a l b : Nat) (h : a + b ≤ W64) (hb : 0 < b) (hal : a ≤ l)
    (hl : b ∣ l) : align a b ≤ l := by
  have h1 := align_lt a b h hb
  have h2 := align_dvd a b h hb
  obtain ⟨q, rfl⟩ := hl
  obtain ⟨r, hr⟩ := h2
  rw [hr] at h1 ⊢
  by_contra hcon
  push_neg at hcon
  have hq : q < r := lt_of_mul_lt_mul_left hcon (Nat.zero_le b)
  have : b * (q + 1) ≤ b * r := Nat.mul_le_mul_left b hq
  rw [Nat.mul_add, Nat.mul_one] at this
  omega

/-! ## `HM_getFreeChunk`: splitting off the front of a pool chunk -/

theorem root_parentPath {t : State} {H d : Ptr} (ht : isLevelHead t H)
    (hd : (t.chunks d).levelHead = H) : ParentPath t (t.chunks d).levelHead [] H := by
  rw [hd]; exact ⟨⟨rfl, Or.inr ht.2⟩, ht.1⟩

/-- A chunk list is still well-formed in a store that agrees on the `nextChunk` and
`levelHead` of its chunks, on every `parent` and on the endpoints of the head. -/
theorem HeadWF.of_fields {s s' : State} {H : Ptr} {cs : List Ptr} (h : HeadWF s H cs)
    (hn : ∀ d ∈ cs, (s'.chunks d).nextChunk = (s.chunks d).nextChunk ∧
      (s'.chunks d).levelHead = (s.chunks d).levelHead)
    (hp : ∀ n, (s'.lists n).parent = (s.lists n).parent)
    (hf : (s'.lists H).firstChunk = (s.lists H).firstChunk)
    (hl : (s'.lists H).lastChunk = (s.lists H).lastChunk) : HeadWF s' H cs := by
  obtain ⟨h1, h2, h3, h4⟩ := h
  refine ⟨⟨h1.1, by rw [hp H]; exact h1.2⟩, ?_, by rw [hl]; exact h3, fun d hd => ?_⟩
  · rw [hf]
    exact Path.congr (fun d hd => ((hn d hd).1).symm) (fun _ _ h => h) (fun h => h) h2
  · exact Resolves.congr_fields (hn d hd).2 hp (h4 d hd)

/-- The tail of `HM_getFreeChunk` when the front of the first chunk `c` of the pool is the
whole chunk: `c` is unlinked and returned. -/
theorem HM_getFreeChunk_take_whole (k : Consts) (bs fuel : Nat) (g : GC_state) (s : State)
    (P c : Ptr) (rest path : List Ptr) (n : Nat) (hP : HeadWF s P (c :: rest))
    (hprev : PrevLinks s 0 (c :: rest))
    (hpath : ParentPath s (s.chunks c).levelHead path P) (hf : path.length < fuel)
    (hsp : align ((s.chunks c).frontier + n) bs = (s.chunks c).limit) :
    ∃ s0 s', Compressed s s0 c P path ∧
      HM_getFreeChunk_take k bs fuel g s c n = .ok (g, s', c) ∧
      HeadWF s' P rest ∧ PrevLinks s' 0 rest ∧ HM_isUnlinked s' c ∧
      (s'.chunks c).levelHead = 0 ∧
      (s'.lists P).size = ((s.lists P).size + W64 - HM_getChunkSize s c) % W64 ∧
      (∀ d, (s'.chunks d).limit = (s.chunks d).limit ∧
        (s'.chunks d).frontier = (s.chunks d).frontier ∧
        (s'.chunks d).nextAdjacent = (s.chunks d).nextAdjacent ∧
        (s'.chunks d).prevAdjacent = (s.chunks d).prevAdjacent ∧
        (s'.chunks d).mightContainMultipleObjects =
          (s.chunks d).mightContainMultipleObjects) ∧
      (∀ d, d ∉ c :: rest → (s'.chunks d).nextChunk = (s.chunks d).nextChunk ∧
        (s'.chunks d).prevChunk = (s.chunks d).prevChunk) ∧
      (∀ d, d ≠ c → (s'.chunks d).levelHead = (s.chunks d).levelHead) ∧
      (∀ n, (s'.lists n).parent = (s0.lists n).parent ∧
        (s'.lists n).nextHead = (s.lists n).nextHead ∧
        (s'.lists n).level = (s.lists n).level ∧
        (s'.lists n).containingHH = (s.lists n).containingHH ∧
        (s'.lists n).isInToSpace = (s.lists n).isInToSpace) ∧
      (∀ n, n ≠ P → (s'.lists n).firstChunk = (s.lists n).firstChunk ∧
        (s'.lists n).lastChunk = (s.lists n).lastChunk ∧
        (s'.lists n).size = (s.lists n).size) := by
  have hc0 : c ≠ 0 := Path.ne_zero_of_mem hP.2.1 c (List.mem_cons_self _ _)
  obtain ⟨s0, s', hC, hrun, hwf, hpl, hun, hsize, hlk, hlh, hat, hmeta, hoth⟩ :=
    HM_unlinkChunk_spec s P c [] rest path fuel hP hprev hpath hf
  refine ⟨s0, s', hC, ?_, hwf, hpl, ⟨hun.2.1, hun.1⟩, hun.2.2, hsize, hat, hlk, hlh, hmeta,
    hoth⟩
  unfold HM_getFreeChunk_take HM_splitChunkFront
  rw [if_neg hc0, if_pos hsp]
  simp only [hrun]

/-- The tail of `HM_getFreeChunk` when the front of the first chunk `c` of the pool ends at
the split point `sp` inside the chunk: the rest of `c` becomes the chunk `sp`, the first of
the pool, and `c` is unlinked and returned. -/
theorem HM_getFreeChunk_take_front (k : Consts) (bs fuel : Nat) (g : GC_state) (s : State)
    (P c sp : Ptr) (rest path : List Ptr) (n : Nat) (hP : HeadWF s P (c :: rest))
    (hprev : PrevLinks s 0 (c :: rest))
    (hpath : ParentPath s (s.chunks c).levelHead path P) (hf : path.length < fuel)
    (hsp : align ((s.chunks c).frontier + n) bs = sp) (hne : sp ≠ (s.chunks c).limit)
    (hsp0 : sp ≠ 0) (hfresh : sp ∉ c :: rest) :
    ∃ s0 s', Compressed s s0 c P path ∧
      HM_getFreeChunk_take k bs fuel g s c n = .ok (g, s', c) ∧
      HeadWF s' P (sp :: rest) ∧ PrevLinks s' 0 (sp :: rest) ∧ HM_isUnlinked s' c ∧
      (s'.chunks c).levelHead = 0 ∧
      ((s'.chunks c).limit = sp ∧ (s'.chunks sp).limit = (s.chunks c).limit ∧
        (s'.chunks sp).frontier = sp + k.sizeofChunk ∧
        (s'.chunks sp).mightContainMultipleObjects = true) ∧
      (s'.lists P).size =
        ((s.lists P).size + W64 - (sp + W64 - c % W64) % W64) % W64 ∧
      (∀ d, d ≠ sp → (s'.chunks d).frontier = (s.chunks d).frontier ∧
        (s'.chunks d).mightContainMultipleObjects =
          (s.chunks d).mightContainMultipleObjects) ∧
      (∀ d, d ≠ c → d ≠ sp → (s'.chunks d).limit = (s.chunks d).limit) ∧
      (∀ d, (s'.chunks d).nextAdjacent =
        if d = c then sp else if d = sp then (s.chunks c).nextAdjacent
        else (s.chunks d).nextAdjacent) ∧
      (∀ d, (s'.chunks d).prevAdjacent =
        if d = sp then c
        else if (s.chunks c).nextAdjacent ≠ 0 ∧ d = (s.chunks c).nextAdjacent then sp
        else (s.chunks d).prevAdjacent) ∧
      (s'.chunks sp).levelHead = P ∧
      (∀ d, d ∉ c :: sp :: rest → (s'.chunks d).nextChunk = (s.chunks d).nextChunk ∧
        (s'.chunks d).prevChunk = (s.chunks d).prevChunk) ∧
      (∀ d, d ≠ c → d ≠ sp → (s'.chunks d).levelHead = (s.chunks d).levelHead) ∧
      (∀ n, (s'.lists n).parent = (s0.lists n).parent ∧
        (s'.lists n).nextHead = (s.lists n).nextHead ∧
        (s'.lists n).level = (s.lists n).level ∧
        (s'.lists n).containingHH = (s.lists n).containingHH ∧
        (s'.lists n).isInToSpace = (s.lists n).isInToSpace) ∧
      (∀ n, n ≠ P → (s'.lists n).firstChunk = (s.lists n).firstChunk ∧
        (s'.lists n).lastChunk = (s.lists n).lastChunk ∧
        (s'.lists n).size = (s.lists n).size) := by
  have hc0 : c ≠ 0 := Path.ne_zero_of_mem hP.2.1 c (List.mem_cons_self _ _)
  have hspc : sp ≠ c := fun e => hfresh (e ▸ List.mem_cons_self _ _)
  obtain ⟨s0, s1, hC, hrun1, hwf1, hpl1, ⟨hl1, hl2, hl3, hl4, hlsp1, hlc1⟩, ⟨-, hsz1⟩, hfr1,
      hpv1, hat1, hna1, hpa1, hmeta1, hoth1⟩ :=
    splitChunkAt_spec k s P c sp [] rest path fuel hP hpath hf hsp0 hfresh
  have hpl1 := hpl1 hprev
  obtain ⟨s1', s', hC1, hrun2, hwf2, hpl2, hun, hsize, hlk2, hlh2, hat2, hmeta2, hoth2⟩ :=
    HM_unlinkChunk_spec s1 P c [] (sp :: rest) [] fuel hwf1 hpl1
      (root_parentPath hwf1.1 hlc1) (by simp; omega)
  refine ⟨s0, s', hC, ?_, hwf2, hpl2, ⟨hun.2.1, hun.1⟩, hun.2.2, ⟨?_, ?_, ?_, ?_⟩, ?_,
    fun d hd => ?_, fun d hdc hdp => ?_, fun d => ?_, fun d => ?_, ?_, fun d hd => ?_,
    fun d hdc hdp => ?_, fun n => ?_, fun n hn => ?_⟩
  · unfold HM_getFreeChunk_take HM_splitChunkFront
    rw [if_neg hc0, hsp, if_neg hne]
    simp only [hrun1, hrun2]
  · rw [(hat2 c).1, hl1]
  · rw [(hat2 sp).1, hl2]
  · rw [(hat2 sp).2.1, hl3]
  · rw [(hat2 sp).2.2.2.2, hl4]
  · rw [hsize, hsz1]
    unfold HM_getChunkSize
    rw [hl1]
  · exact ⟨((hat2 d).2.1).trans (hat1 d hd).1, ((hat2 d).2.2.2.2).trans (hat1 d hd).2⟩
  · exact ((hat2 d).1).trans (hfr1 d hdc hdp).2.2
  · rw [(hat2 d).2.2.1, hna1 d]
  · rw [(hat2 d).2.2.2.1, hpa1 d]
  · rw [hlh2 sp hspc, hlsp1]
  · have hd' : d ∉ [] ++ c :: sp :: rest := hd
    obtain ⟨e1, e2⟩ := hlk2 d hd'
    have hdc : d ≠ c := fun e => hd (e ▸ List.mem_cons_self _ _)
    have hdp : d ≠ sp := fun e => hd (e ▸ List.mem_cons_of_mem _ (List.mem_cons_self _ _))
    have hdr : d ∉ rest := fun h => hd (List.mem_cons_of_mem _ (List.mem_cons_of_mem _ h))
    exact ⟨e1.trans (hfr1 d hdc hdp).1, e2.trans (hpv1 d hdp hdr)⟩
  · rw [hlh2 d hdc, (hfr1 d hdc hdp).2.1]
  · obtain ⟨a1, a2, a3, a4, a5⟩ := hmeta2 n
    obtain ⟨b1, b2, b3, b4, b5⟩ := hmeta1 n
    refine ⟨?_, a2.trans b2, a3.trans b3, a4.trans b4, a5.trans b5⟩
    rw [a1, hC1.parent_of_not_mem (List.not_mem_nil n), b1]
  · obtain ⟨a1, a2, a3⟩ := hoth2 n hn
    obtain ⟨b1, b2, b3⟩ := hoth1 n hn
    exact ⟨a1.trans b1, a2.trans b2, a3.trans b3⟩

/-! ## `HM_getFreeChunk`: reuse and mapping -/

/-- `HM_getFreeChunk` when the first chunk of the pool is large enough: no memory is mapped. -/
theorem HM_getFreeChunk_reuse_eq (k : Consts) (bs : Nat) (GC_mmapAnon : Nat → Ptr)
    (fuel : Nat) (g : GC_state) (s : State) (n : Nat) (hP : g.freeChunks ≠ 0)
    (hc : (s.lists g.freeChunks).firstChunk ≠ 0)
    (hcap : n ≤ ((s.chunks (s.lists g.freeChunks).firstChunk).limit + W64 -
      (s.chunks (s.lists g.freeChunks).firstChunk).frontier % W64) % W64) :
    HM_getFreeChunk k bs GC_mmapAnon fuel g s n =
      HM_getFreeChunk_take k bs fuel g s (s.lists g.freeChunks).firstChunk n := by
  unfold HM_getFreeChunk
  rw [if_neg hP, if_neg]
  rintro (h | h)
  · exact hc h
  · exact absurd hcap (Nat.not_le.2 h)

/-- `HM_getFreeChunk` when memory is mapped: the new chunk `start` of `A` bytes is initialised
and prepended to the pool, and `HM_getFreeChunk` goes on with it in the store `s2`. -/
theorem HM_getFreeChunk_map_eq (k : Consts) (bs : Nat) (GC_mmapAnon : Nat → Ptr)
    (fuel : Nat) (g : GC_state) (s : State) (P : Ptr) (ps : List Ptr) (n A start : Nat)
    (hP : g.freeChunks = P) (hwf : HeadWF s P ps) (hprev : PrevLinks s 0 ps)
    (hsmall : (s.lists P).firstChunk = 0 ∨
      ((s.chunks (s.lists P).firstChunk).limit + W64 -
        (s.chunks (s.lists P).firstChunk).frontier % W64) % W64 < n)
    (hA : A = max (align ((n + k.sizeofChunk) % W64) bs) g.nextChunkAllocSize)
    (hm : GC_mmapAnon ((A + bs) % W64) ≠ 0)
    (hstart : start = align (GC_mmapAnon ((A + bs) % W64)) bs) (hs0 : start ≠ 0)
    (hfresh : start ∉ ps) :
    ∃ s2, HM_getFreeChunk k bs GC_mmapAnon fuel g s n =
        HM_getFreeChunk_take k bs fuel
          { g with nextChunkAllocSize := (2 * A) % W64 } s2 start n ∧
      HeadWF s2 P (start :: ps) ∧ PrevLinks s2 0 (start :: ps) ∧
      ((s2.chunks start).frontier = start + k.sizeofChunk ∧
        (s2.chunks start).limit = start + A ∧
        (s2.chunks start).nextChunk = (s.lists P).firstChunk ∧
        (s2.chunks start).prevChunk = 0 ∧ (s2.chunks start).nextAdjacent = 0 ∧
        (s2.chunks start).prevAdjacent = 0 ∧ (s2.chunks start).levelHead = P ∧
        (s2.chunks start).mightContainMultipleObjects = true) ∧
      (s2.lists P).size = ((s.lists P).size + (start + A + W64 - start % W64) % W64) % W64 ∧
      (∀ d, d ≠ start → (s2.chunks d).levelHead = (s.chunks d).levelHead ∧
        (s2.chunks d).nextChunk = (s.chunks d).nextChunk ∧
        (s2.chunks d).limit = (s.chunks d).limit ∧
        (s2.chunks d).frontier = (s.chunks d).frontier ∧
        (s2.chunks d).nextAdjacent = (s.chunks d).nextAdjacent ∧
        (s2.chunks d).prevAdjacent = (s.chunks d).prevAdjacent ∧
        (s2.chunks d).mightContainMultipleObjects =
          (s.chunks d).mightContainMultipleObjects) ∧
      (∀ d, d ≠ start → d ∉ ps → (s2.chunks d).prevChunk = (s.chunks d).prevChunk) ∧
      (∀ n, (s2.lists n).parent = (s.lists n).parent ∧
        (s2.lists n).nextHead = (s.lists n).nextHead ∧
        (s2.lists n).level = (s.lists n).level ∧
        (s2.lists n).containingHH = (s.lists n).containingHH ∧
        (s2.lists n).isInToSpace = (s.lists n).isInToSpace) ∧
      (∀ n, n ≠ P → s2.lists n = s.lists n) := by
  subst hP
  have hP0 : g.freeChunks ≠ 0 := hwf.1.1
  -- the store after `HM_initializeChunk`
  obtain ⟨s1, hs1⟩ : ∃ s1, s1 = s.setChunk start
      { frontier := start + k.sizeofChunk, limit := start + A, nextChunk := 0, prevChunk := 0,
        nextAdjacent := 0, prevAdjacent := 0, levelHead := 0,
        mightContainMultipleObjects := true, magic := k.CHUNK_MAGIC } := ⟨_, rfl⟩
  have hmap : mmapNewChunk k bs GC_mmapAnon s A = .ok (s1, start) := by
    unfold mmapNewChunk
    simp only [if_neg hm, ← hstart, HM_initializeChunk, if_neg hs0, hs1]
  have hch1 : ∀ d, d ≠ start → s1.chunks d = s.chunks d := fun d hd => by
    rw [hs1]; simp [hd]
  have hst1 : s1.chunks start =
      { frontier := start + k.sizeofChunk, limit := start + A, nextChunk := 0, prevChunk := 0,
        nextAdjacent := 0, prevAdjacent := 0, levelHead := 0,
        mightContainMultipleObjects := true, magic := k.CHUNK_MAGIC } := by
    rw [hs1]; simp
  have hl1 : s1.lists = s.lists := by rw [hs1]; rfl
  have hwf1 : HeadWF s1 g.freeChunks ps :=
    hwf.of_fields (fun d hd => by rw [hch1 d (ne_of_mem_of_not_mem hd hfresh)]; exact ⟨rfl, rfl⟩)
      (fun n => by rw [hl1]) (by rw [hl1]) (by rw [hl1])
  have hprev1 : PrevLinks s1 0 ps :=
    PrevLinks.congr_prev (fun d hd => by rw [hch1 d (ne_of_mem_of_not_mem hd hfresh)]) hprev
  obtain ⟨s2, hrun2, hwf2, hpl2, hlh2, hsize2, hfr2, hpv2, hat2, hmeta2, hoth2⟩ :=
    HM_prependChunk_spec s1 g.freeChunks start ps hwf1 hprev1 hs0 hfresh (by rw [hst1])
  obtain ⟨s2', hrun2', hnx2, hprv2, -⟩ := HM_prependChunk_fields s1 g.freeChunks start hP0 hs0
  obtain rfl : s2 = s2' := by
    rw [hrun2] at hrun2'
    injection hrun2'
  refine ⟨s2, ?_, hwf2, hpl2, ?_, ?_, fun d hd => ?_, fun d hd hdp => ?_, fun n => ?_,
    fun n hn => ?_⟩
  · unfold HM_getFreeChunk
    rw [if_neg hP0, if_pos hsmall]
    simp only [← hA, hmap, hrun2]
  · have h1 := hnx2 start
    have h3 := hat2 start
    rw [hst1] at h3
    rw [if_pos rfl, hl1] at h1
    obtain ⟨a1, a2, a3, a4, a5⟩ := h3
    exact ⟨a2, a1, h1, hpl2.1, a3, a4, hlh2, a5⟩
  · rw [hsize2, hl1]
    unfold HM_getChunkSize
    rw [hst1]
  · obtain ⟨a1, a2, a3, a4, a5⟩ := hat2 d
    rw [hch1 d hd] at a1 a2 a3 a4 a5
    obtain ⟨b1, b2⟩ := hfr2 d hd
    rw [hch1 d hd] at b1 b2
    exact ⟨b2, b1, a1, a2, a3, a4, a5⟩
  · rw [hpv2 d hdp, hch1 d hd]
  · have := hmeta2 n
    rw [hl1] at this
    exact this
  · rw [hoth2 n hn, hl1]

/-! ## `HM_getFreeChunk`: the returned chunk has room for the request -/

/-- Pointer arithmetic of the capacity test, over plain numbers. -/
theorem cap_exact (l f : Nat) (hfl : f ≤ l) (hl : l < W64) :
    (l + W64 - f % W64) % W64 = l - f := by
  have hf : f % W64 = f := Nat.mod_eq_of_lt (by omega)
  rw [hf, show l + W64 - f = (l - f) + W64 by omega, Nat.add_mod_right,
    Nat.mod_eq_of_lt (by omega)]

/-- The tail of `HM_getFreeChunk` on a first chunk `c` with room for `n` bytes: `c` is returned
unlinked with room for `n` bytes, and what lies behind the block-aligned end of the request,
if anything, stays in the pool as one chunk in the place of `c`. -/
theorem HM_getFreeChunk_take_cap (k : Consts) (bs fuel : Nat) (g : GC_state) (s : State)
    (P : Ptr) (c : Nat) (rest path : List Ptr) (n fr lim : Nat) (hP : HeadWF s P (c :: rest))
    (hprev : PrevLinks s 0 (c :: rest))
    (hpath : ParentPath s (s.chunks c).levelHead path P) (hf : path.length < fuel)
    (hbs : 0 < bs) (hfr : (s.chunks c).frontier = fr) (hlim : (s.chunks c).limit = lim)
    (hcf : c < fr) (hcap : fr + n ≤ lim) (htop : lim + bs ≤ W64) (hdvd : bs ∣ lim)
    (hfresh : ∀ a : Nat, a ∈ rest → a ≤ c ∨ lim ≤ a) :
    ∃ s', HM_getFreeChunk_take k bs fuel g s c n = .ok (g, s', c) ∧
      HM_isUnlinked s' c ∧ (s'.chunks c).levelHead = 0 ∧ (s'.chunks c).frontier = fr ∧
      fr + n ≤ (s'.chunks c).limit ∧
      (((s'.chunks c).limit = lim ∧ HeadWF s' P rest ∧ PrevLinks s' 0 rest ∧
          align (fr + n) bs = lim) ∨
        ((s'.chunks c).limit < lim ∧ HeadWF s' P ((s'.chunks c).limit :: rest) ∧
          PrevLinks s' 0 ((s'.chunks c).limit :: rest) ∧
          (s'.chunks (s'.chunks c).limit).limit = lim ∧
          (s'.chunks (s'.chunks c).limit).frontier = (s'.chunks c).limit + k.sizeofChunk ∧
          (s'.chunks c).limit = align (fr + n) bs)) := by
  have h1 : fr + n ≤ align (fr + n) bs := align_ge _ _ (by omega) hbs
  have h2 : align (fr + n) bs ≤ lim := align_le_of_dvd _ _ _ (by omega) hbs hcap hdvd
  by_cases hsp : align ((s.chunks c).frontier + n) bs = (s.chunks c).limit
  · obtain ⟨s0, s', -, hrun, hwf, hpl, hun, hlh, hsz, hat, -⟩ :=
      HM_getFreeChunk_take_whole k bs fuel g s P c rest path n hP hprev hpath hf hsp
    have hl : (s'.chunks c).limit = lim := by rw [(hat c).1, hlim]
    refine ⟨s', hrun, hun, hlh, by rw [(hat c).2.1, hfr], by rw [hl]; exact hcap,
      Or.inl ⟨hl, hwf, hpl, by rw [← hfr, ← hlim]; exact hsp⟩⟩
  · have hne : align (fr + n) bs ≠ lim := by rw [← hfr, ← hlim]; exact hsp
    have hlt : align (fr + n) bs < lim := lt_of_le_of_ne h2 hne
    have hsp0 : align (fr + n) bs ≠ 0 := by omega
    have hspf : align (fr + n) bs ∉ c :: rest := by
      intro hmem
      rcases List.mem_cons.1 hmem with e | hr
      · omega
      · rcases hfresh _ hr with h | h <;> omega
    obtain ⟨s0, s', -, hrun, hwf, hpl, hun, hlh, ⟨hl1, hl2, hl3, -⟩, -, hfrm, -⟩ :=
      HM_getFreeChunk_take_front k bs fuel g s P c (align (fr + n) bs) rest path n hP hprev
        hpath hf (by rw [hfr]) (by rw [hlim]; exact hne) hsp0 hspf
    have hcsp : c ≠ align (fr + n) bs := fun e => hspf (e ▸ List.mem_cons_self _ _)
    refine ⟨s', hrun, hun, hlh, by rw [(hfrm c hcsp).1, hfr], by rw [hl1]; exact h1,
      Or.inr ⟨by rw [hl1]; exact hlt, by rw [hl1]; exact hwf, by rw [hl1]; exact hpl,
        by rw [hl1, hl2, hlim], by rw [hl1, hl3], hl1⟩⟩

/-! ## `HM_getFreeChunk`: the two cases -/

/-- `HM_getFreeChunk` when it maps memory and no size computation wraps: the new chunk
`start` of `A` bytes is returned unlinked with room for `n` bytes, and what lies behind the
block-aligned end of the request, if anything, is one chunk at the front of the pool. -/
theorem HM_getFreeChunk_map_spec (k : Consts) (bs : Nat) (GC_mmapAnon : Nat → Ptr)
    (fuel : Nat) (g : GC_state) (s : State) (P : Ptr) (ps : List Ptr) (n A m start : Nat)
    (hP : g.freeChunks = P) (hwf : HeadWF s P ps) (hprev : PrevLinks s 0 ps)
    (hsmall : (s.lists P).firstChunk = 0 ∨
      ((s.chunks (s.lists P).firstChunk).limit + W64 -
        (s.chunks (s.lists P).firstChunk).frontier % W64) % W64 < n)
    (hbs : 0 < bs) (hk : 0 < k.sizeofChunk) (hn : n + k.sizeofChunk + bs ≤ W64)
    (hA : A = max (align (n + k.sizeofChunk) bs) g.nextChunkAllocSize)
    (hdvd : bs ∣ g.nextChunkAllocSize)
    (hm : m = GC_mmapAnon ((A + bs) % W64)) (hm0 : m ≠ 0) (hreg : m + A + 2 * bs ≤ W64)
    (hstart : start = align m bs) (hfresh : ∀ a : Nat, a ∈ ps → a < start ∨ start + A ≤ a)
    (hfuel : 0 < fuel) :
    ∃ s', HM_getFreeChunk k bs GC_mmapAnon fuel g s n =
        .ok ({ g with nextChunkAllocSize := (2 * A) % W64 }, s', start) ∧
      HM_isUnlinked s' start ∧ (s'.chunks start).levelHead = 0 ∧
      (s'.chunks start).frontier = start + k.sizeofChunk ∧
      start + k.sizeofChunk + n ≤ (s'.chunks start).limit ∧
      (((s'.chunks start).limit = start + A ∧ HeadWF s' P ps ∧ PrevLinks s' 0 ps ∧
          align (start + k.sizeofChunk + n) bs = start + A) ∨
        ((s'.chunks start).limit < start + A ∧ HeadWF s' P ((s'.chunks start).limit :: ps) ∧
          PrevLinks s' 0 ((s'.chunks start).limit :: ps) ∧
          (s'.chunks (s'.chunks start).limit).limit = start + A ∧
          (s'.chunks (s'.chunks start).limit).frontier =
            (s'.chunks start).limit + k.sizeofChunk ∧
          (s'.chunks start).limit = align (start + k.sizeofChunk + n) bs)) := by
  have hmod : (n + k.sizeofChunk) % W64 = n + k.sizeofChunk := Nat.mod_eq_of_lt (by omega)
  have hneed1 : n + k.sizeofChunk ≤ align (n + k.sizeofChunk) bs :=
    align_ge _ _ (by omega) hbs
  have hneedd : bs ∣ align (n + k.sizeofChunk) bs := align_dvd _ _ (by omega) hbs
  have hAge : align (n + k.sizeofChunk) bs ≤ A := by rw [hA]; exact le_max_left _ _
  have hAd : bs ∣ A := by
    rw [hA]
    rcases max_cases (align (n + k.sizeofChunk) bs) g.nextChunkAllocSize with h | h
    · rw [h.1]; exact hneedd
    · rw [h.1]; exact hdvd
  have hs1 : m ≤ start := by rw [hstart]; exact align_ge _ _ (by omega) hbs
  have hs2 : start < m + bs := by rw [hstart]; exact align_lt _ _ (by omega) hbs
  have hsd : bs ∣ start := by rw [hstart]; exact align_dvd _ _ (by omega) hbs
  have hs0 : start ≠ 0 := by omega
  have hnot : start ∉ ps := fun hmem => by
    rcases hfresh start hmem with h | h <;> omega
  obtain ⟨s2, hrun, hwf2, hpl2, ⟨hf2, hl2, -, -, -, -, hlh2, -⟩, -⟩ :=
    HM_getFreeChunk_map_eq k bs GC_mmapAnon fuel g s P ps n A start hP hwf hprev hsmall
      (by rw [hmod]; exact hA) (by rw [← hm]; exact hm0) (by rw [← hm]; exact hstart) hs0 hnot
  obtain ⟨s', hrun', hun, hlh, hfr, hcap, hres⟩ :=
    HM_getFreeChunk_take_cap k bs fuel { g with nextChunkAllocSize := (2 * A) % W64 } s2 P
      start ps [] n (start + k.sizeofChunk) (start + A) hwf2 hpl2
      (root_parentPath hwf2.1 hlh2) hfuel hbs hf2 hl2 (by omega) (by omega) (by omega)
      (Nat.dvd_add hsd hAd) (fun a ha => by rcases hfresh a ha with h | h <;> omega)
  exact ⟨s', hrun.trans hrun', hun, hlh, hfr, hcap, hres⟩

/-- `HM_getFreeChunk` when the first chunk `c` of the pool has room for `n` bytes: `c` is
returned unlinked, and what lies behind the block-aligned end of the request, if anything,
stays in the pool as one chunk in the place of `c`. -/
theorem HM_getFreeChunk_reuse_spec (k : Consts) (bs : Nat) (GC_mmapAnon : Nat → Ptr)
    (g : GC_state) (s : State) (P : Ptr) (c : Nat) (rest : List Ptr) (n fr lim : Nat)
    (hP : g.freeChunks = P) (hwf : HeadWF s P (c :: rest)) (hprev : PrevLinks s 0 (c :: rest))
    (hbs : 0 < bs) (hfr : (s.chunks c).frontier = fr) (hlim : (s.chunks c).limit = lim)
    (hcf : c < fr) (hcap : fr + n ≤ lim) (htop : lim + bs ≤ W64) (hdvd : bs ∣ lim)
    (hfresh : ∀ a : Nat, a ∈ rest → a ≤ c ∨ lim ≤ a) :
    ∃ N, ∀ fuel, N ≤ fuel →
      ∃ s', HM_getFreeChunk k bs GC_mmapAnon fuel g s n = .ok (g, s', c) ∧
        HM_isUnlinked s' c ∧ (s'.chunks c).levelHead = 0 ∧ (s'.chunks c).frontier = fr ∧
        fr + n ≤ (s'.chunks c).limit ∧
        (((s'.chunks c).limit = lim ∧ HeadWF s' P rest ∧ PrevLinks s' 0 rest ∧
            align (fr + n) bs = lim) ∨
          ((s'.chunks c).limit < lim ∧ HeadWF s' P ((s'.chunks c).limit :: rest) ∧
            PrevLinks s' 0 ((s'.chunks c).limit :: rest) ∧
            (s'.chunks (s'.chunks c).limit).limit = lim ∧
            (s'.chunks (s'.chunks c).limit).frontier =
              (s'.chunks c).limit + k.sizeofChunk ∧
            (s'.chunks c).limit = align (fr + n) bs)) := by
  subst hP
  obtain ⟨-, path, hpath⟩ := hwf.2.2.2 c (List.mem_cons_self _ _)
  have hfc : (s.lists g.freeChunks).firstChunk = c := ChunkSeq.first_eq hwf.2.1
  refine ⟨path.length + 1, fun fuel hfuel => ?_⟩
  obtain ⟨s', hrun, hrest⟩ :=
    HM_getFreeChunk_take_cap k bs fuel g s g.freeChunks c rest path n fr lim hwf hprev hpath
      (by omega) hbs hfr hlim hcf hcap htop hdvd hfresh
  refine ⟨s', ?_, hrest⟩
  rw [HM_getFreeChunk_reuse_eq k bs GC_mmapAnon fuel g s n hwf.1.1
    (by rw [hfc]; exact Path.ne_zero_of_mem hwf.2.1 c (List.mem_cons_self _ _))
    (by rw [hfc, hfr, hlim, cap_exact lim fr (by omega) (by omega)]; omega), hfc]
  exact hrun

/-! ## Claims on `HM_getFreeChunk` -/

theorem poolS1_wf : HeadWF poolS1 9 [] :=
  ⟨by decide, by decide, by decide, fun _ h => absurd h (List.not_mem_nil _)⟩

theorem poolS2_wf : HeadWF poolS2 9 [65536] :=
  ⟨by decide, by decide, by decide, fun c h => by
    rw [List.mem_singleton] at h
    subst h
    exact ⟨by decide, [], by decide⟩⟩

/-- C13 (amended): let the pool `P` be a well-formed head with chunks `ps` and let no size
computation wrap. When the first chunk is absent or too small and the mapper returns a region
for the `A + bs` bytes requested, `HM_getFreeChunk` returns the new chunk `start`, unlinked,
with its frontier behind the header and `limit - frontier ≥ n`. Let `e` be the block-aligned
end `align(frontier + n, bs)` of the request. When `e` is the limit `start + A` of the mapped
chunk, the whole chunk is returned and the pool is as before; otherwise the returned chunk
ends at `e`, and the bytes `e .. start + A` behind it are one chunk, with header at `e`, at the
front of the pool. When the first chunk `c` of the pool has room for `n` bytes, `c` is
returned in the same way: whole when `e` is its limit, and otherwise cut at `e`, the rest
`e .. limit` taking its place in the pool. -/
theorem HM_getFreeChunk_returns (k : Consts) (bs : Nat) (GC_mmapAnon : Nat → Ptr)
    (g : GC_state) (s : State) (P : Ptr) (ps : List Ptr) (n : Nat)
    (hP : g.freeChunks = P) (hwf : HeadWF s P ps) (hprev : PrevLinks s 0 ps)
    (hbs : 0 < bs) (hk : 0 < k.sizeofChunk) :
    (∀ A m start : Nat,
      ((s.lists P).firstChunk = 0 ∨
        ((s.chunks (s.lists P).firstChunk).limit + W64 -
          (s.chunks (s.lists P).firstChunk).frontier % W64) % W64 < n) →
      n + k.sizeofChunk + bs ≤ W64 →
      A = max (align (n + k.sizeofChunk) bs) g.nextChunkAllocSize →
      bs ∣ g.nextChunkAllocSize →
      m = GC_mmapAnon ((A + bs) % W64) → m ≠ 0 → m + A + 2 * bs ≤ W64 →
      start = align m bs → (∀ a : Nat, a ∈ ps → a < start ∨ start + A ≤ a) →
      ∀ fuel, 0 < fuel →
        ∃ g' s', HM_getFreeChunk k bs GC_mmapAnon fuel g s n = .ok (g', s', start) ∧
          HM_isUnlinked s' start ∧
          (s'.chunks start).frontier = start + k.sizeofChunk ∧
          (s'.chunks start).frontier + n ≤ (s'.chunks start).limit ∧
          (((s'.chunks start).limit = start + A ∧ HeadWF s' P ps) ∨
            ((s'.chunks start).limit < start + A ∧
              HeadWF s' P ((s'.chunks start).limit :: ps) ∧
              (s'.chunks (s'.chunks start).limit).limit = start + A)) ∧
          (align (start + k.sizeofChunk + n) bs = start + A →
            (s'.chunks start).limit = start + A ∧ HeadWF s' P ps) ∧
          (align (start + k.sizeofChunk + n) bs ≠ start + A →
            align (start + k.sizeofChunk + n) bs < start + A ∧
            (s'.chunks start).limit = align (start + k.sizeofChunk + n) bs ∧
            HeadWF s' P (align (start + k.sizeofChunk + n) bs :: ps) ∧
            (s'.chunks (align (start + k.sizeofChunk + n) bs)).limit = start + A ∧
            (s'.chunks (align (start + k.sizeofChunk + n) bs)).frontier =
              align (start + k.sizeofChunk + n) bs + k.sizeofChunk)) ∧
    (∀ (c : Nat) (rest : List Ptr) (fr lim : Nat), ps = c :: rest →
      (s.chunks c).frontier = fr → (s.chunks c).limit = lim → c < fr → fr + n ≤ lim →
      lim + bs ≤ W64 → bs ∣ lim → (∀ a : Nat, a ∈ rest → a ≤ c ∨ lim ≤ a) →
      ∃ N, ∀ fuel, N ≤ fuel →
        ∃ s', HM_getFreeChunk k bs GC_mmapAnon fuel g s n = .ok (g, s', c) ∧
          HM_isUnlinked s' c ∧ (s'.chunks c).frontier = fr ∧
          (s'.chunks c).frontier + n ≤ (s'.chunks c).limit ∧
          (((s'.chunks c).limit = lim ∧ HeadWF s' P rest) ∨
            ((s'.chunks c).limit < lim ∧ HeadWF s' P ((s'.chunks c).limit :: rest) ∧
              (s'.chunks (s'.chunks c).limit).limit = lim)) ∧
          (align (fr + n) bs = lim → (s'.chunks c).limit = lim ∧ HeadWF s' P rest) ∧
          (align (fr + n) bs ≠ lim →
            align (fr + n) bs < lim ∧ (s'.chunks c).limit = align (fr + n) bs ∧
            HeadWF s' P (align (fr + n) bs :: rest) ∧
            (s'.chunks (align (fr + n) bs)).limit = lim ∧
            (s'.chunks (align (fr + n) bs)).frontier = align (fr + n) bs + k.sizeofChunk)) := by
  refine ⟨fun A m start hsmall hn hA hdvd hm hm0 hreg hstart hfresh fuel hfuel => ?_,
    fun c rest fr lim hps hfr hlim hcf hcap htop hdvd hfresh => ?_⟩
  · obtain ⟨s', hrun, hun, -, hf, hcap, hres⟩ :=
      HM_getFreeChunk_map_spec k bs GC_mmapAnon fuel g s P ps n A m start hP hwf hprev hsmall
        hbs hk hn hA hdvd hm hm0 hreg hstart hfresh hfuel
    refine ⟨_, s', hrun, hun, hf, by rw [hf]; exact hcap, ?_, ?_, ?_⟩
    · rcases hres with ⟨h1, h2, -⟩ | ⟨h1, h2, -, h3, -⟩
      · exact Or.inl ⟨h1, h2⟩
      · exact Or.inr ⟨h1, h2, h3⟩
    · intro he
      rcases hres with ⟨h1, h2, -⟩ | ⟨h1, -, -, -, -, h6⟩
      · exact ⟨h1, h2⟩
      · rw [h6, he] at h1
        exact absurd h1 (lt_irrefl _)
    · intro hne
      rcases hres with ⟨-, -, -, h4⟩ | ⟨h1, h2, -, h3, h5, h6⟩
      · exact absurd h4 hne
      · rw [h6] at h1 h2 h3 h5
        exact ⟨h1, h6, h2, h3, h5⟩
  · subst hps
    obtain ⟨N, hN⟩ :=
      HM_getFreeChunk_reuse_spec k bs GC_mmapAnon g s P c rest n fr lim hP hwf hprev hbs hfr
        hlim hcf hcap htop hdvd hfresh
    refine ⟨N, fun fuel hfuel => ?_⟩
    obtain ⟨s', hrun, hun, -, hf, hcap, hres⟩ := hN fuel hfuel
    refine ⟨s', hrun, hun, hf, by rw [hf]; exact hcap, ?_, ?_, ?_⟩
    · rcases hres with ⟨h1, h2, -⟩ | ⟨h1, h2, -, h3, -⟩
      · exact Or.inl ⟨h1, h2⟩
      · exact Or.inr ⟨h1, h2, h3⟩
    · intro he
      rcases hres with ⟨h1, h2, -⟩ | ⟨h1, -, -, -, -, h6⟩
      · exact ⟨h1, h2⟩
      · rw [h6, he] at h1
        exact absurd h1 (lt_irrefl _)
    · intro hne
      rcases hres with ⟨-, -, -, h4⟩ | ⟨h1, h2, -, h3, h5, h6⟩
      · exact absurd h4 hne
      · rw [h6] at h1 h2 h3 h5
        exact ⟨h1, h6, h2, h3, h5⟩

/-- C13 on scenario S1 (4 KiB blocks, 64-byte header, `nextChunkAllocSize` 16 KiB, the mapper
returning 65000): `HM_getFreeChunk(3000)` on the empty pool returns the chunk at 65536 with
limit 69632, and the pool holds the one chunk at 69632 with limit 81920, 12 KiB; and
`HM_getFreeChunk(3000)` on the pool whose only chunk is 65536 .. 81920 does the same. -/
theorem HM_getFreeChunk_returns_witness :
    (∃ g' s', HM_getFreeChunk ⟨64, 99⟩ 4096 mapS1 1 gcS1 poolS1 3000 = .ok (g', s', 65536) ∧
      HM_isUnlinked s' 65536 ∧ (s'.chunks 65536).frontier = 65600 ∧
      (s'.chunks 65536).limit = 69632 ∧ HeadWF s' 9 [69632] ∧
      (s'.chunks 69632).limit = 81920 ∧ (s'.chunks 69632).frontier = 69696 ∧
      81920 - 69632 = 12288) ∧
    (∃ N, ∀ fuel, N ≤ fuel →
      ∃ s', HM_getFreeChunk ⟨64, 99⟩ 4096 mapS1 fuel gcS1 poolS2 3000 = .ok (gcS1, s', 65536) ∧
        HM_isUnlinked s' 65536 ∧ (s'.chunks 65536).frontier = 65600 ∧
        (s'.chunks 65536).limit = 69632 ∧ HeadWF s' 9 [69632] ∧
        (s'.chunks 69632).limit = 81920 ∧ (s'.chunks 69632).frontier = 69696) := by
  have e1 : align (65536 + 64 + 3000) 4096 = 69632 := by decide
  have e2 : align (65600 + 3000) 4096 = 69632 := by decide
  constructor
  · obtain ⟨g', s', hrun, hun, hf, -, -, -, h⟩ :=
      (HM_getFreeChunk_returns ⟨64, 99⟩ 4096 mapS1 gcS1 poolS1 9 [] 3000 rfl poolS1_wf trivial
        (by decide) (by decide)).1 16384 65000 65536 (Or.inl (by decide)) (by decide)
        (by decide) (by decide) rfl (by decide) (by decide) (by decide)
        (fun _ h => absurd h (List.not_mem_nil _)) 1 (by decide)
    obtain ⟨-, h2, h3, h4, h5⟩ := h (by decide)
    simp only [e1] at h2 h3 h4 h5
    exact ⟨g', s', hrun, hun, hf, h2, h3, h4, h5, by decide⟩
  · obtain ⟨N, hN⟩ :=
      (HM_getFreeChunk_returns ⟨64, 99⟩ 4096 mapS1 gcS1 poolS2 9 [65536] 3000 rfl poolS2_wf
        (by decide) (by decide) (by decide)).2 65536 [] 65600 81920 rfl rfl rfl (by decide)
        (by decide) (by decide) (by decide) (fun _ h => absurd h (List.not_mem_nil _))
    refine ⟨N, fun fuel hfuel => ?_⟩
    obtain ⟨s', hrun, hun, hf, -, -, -, h⟩ := hN fuel hfuel
    obtain ⟨-, h2, h3, h4, h5⟩ := h (by decide)
    simp only [e2] at h2 h3 h4 h5
    exact ⟨s', hrun, hun, hf, h2, h3, h4, h5⟩

/-- C13, as stated, fails: a request of 16000 bytes on the empty pool of scenario S1 takes the
whole mapped chunk, so that no chunk is left in the pool; and a request of `2^64 - 1`
bytes, whose size computation wraps, returns a chunk with room for 4032 bytes only. -/
theorem HM_getFreeChunk_returns_counterexample :
    (∃ g' s', HM_getFreeChunk ⟨64, 99⟩ 4096 mapS1 5 gcS1 poolS1 16000 = .ok (g', s', 65536) ∧
      (s'.chunks 65536).limit = 65536 + 16384 ∧ (s'.lists 9).firstChunk = 0) ∧
    (∃ g' s', HM_getFreeChunk ⟨64, 99⟩ 4096 mapS1 5 gcS1 poolS1 (W64 - 1)
        = .ok (g', s', 65536) ∧
      (s'.chunks 65536).limit - (s'.chunks 65536).frontier = 4032 ∧
      ((s'.chunks 65536).limit + W64 - (s'.chunks 65536).frontier % W64) % W64 < W64 - 1) :=
  ⟨⟨_, _, rfl, by decide, by decide⟩, ⟨_, _, rfl, by decide, by decide⟩⟩

/-- C15 (amended): when `HM_getFreeChunk` has to map memory, no size computation wraps and
the mapper returns a region, a chunk of `A = max(need, nextChunkAllocSize)` bytes with
`need = align(n + sizeof(struct HM_chunk), bs)` is created at the block-aligned address
`start` inside the `A + bs` bytes asked of the mapper (the returned chunk and the residual
chunk of the pool together span `start .. start + A`), and `nextChunkAllocSize` becomes
`2 * A` modulo `2^64`: double its old value when `need` is not larger than it and double
`need` otherwise. -/
theorem HM_getFreeChunk_maps (k : Consts) (bs : Nat) (GC_mmapAnon : Nat → Ptr)
    (fuel : Nat) (g : GC_state) (s : State) (P : Ptr) (ps : List Ptr) (n A m start : Nat)
    (hP : g.freeChunks = P) (hwf : HeadWF s P ps) (hprev : PrevLinks s 0 ps)
    (hsmall : (s.lists P).firstChunk = 0 ∨
      ((s.chunks (s.lists P).firstChunk).limit + W64 -
        (s.chunks (s.lists P).firstChunk).frontier % W64) % W64 < n)
    (hbs : 0 < bs) (hk : 0 < k.sizeofChunk) (hn : n + k.sizeofChunk + bs ≤ W64)
    (hA : A = max (align (n + k.sizeofChunk) bs) g.nextChunkAllocSize)
    (hdvd : bs ∣ g.nextChunkAllocSize)
    (hm : m = GC_mmapAnon ((A + bs) % W64)) (hm0 : m ≠ 0) (hreg : m + A + 2 * bs ≤ W64)
    (hstart : start = align m bs) (hfresh : ∀ a : Nat, a ∈ ps → a < start ∨ start + A ≤ a)
    (hfuel : 0 < fuel) :
    ∃ g' s', HM_getFreeChunk k bs GC_mmapAnon fuel g s n = .ok (g', s', start) ∧
      g'.freeChunks = g.freeChunks ∧ g'.nextChunkAllocSize = (2 * A) % W64 ∧
      (align (n + k.sizeofChunk) bs ≤ g.nextChunkAllocSize →
        g'.nextChunkAllocSize = (2 * g.nextChunkAllocSize) % W64) ∧
      (g.nextChunkAllocSize < align (n + k.sizeofChunk) bs →
        g'.nextChunkAllocSize = (2 * align (n + k.sizeofChunk) bs) % W64) ∧
      (s'.chunks start).frontier = start + k.sizeofChunk ∧
      ((s'.chunks start).limit = start + A ∨
        ((s'.lists P).firstChunk = (s'.chunks start).limit ∧
          (s'.chunks (s'.chunks start).limit).limit = start + A)) := by
  obtain ⟨s', hrun, -, -, hf, -, hres⟩ :=
    HM_getFreeChunk_map_spec k bs GC_mmapAnon fuel g s P ps n A m start hP hwf hprev hsmall
      hbs hk hn hA hdvd hm hm0 hreg hstart hfresh hfuel
  refine ⟨_, s', hrun, rfl, rfl, fun h => ?_, fun h => ?_, hf, ?_⟩
  · show (2 * A) % W64 = _
    rw [hA, max_eq_right h]
  · show (2 * A) % W64 = _
    rw [hA, max_eq_left (le_of_lt h)]
  · rcases hres with ⟨h1, -⟩ | ⟨-, h2, -, h3, -⟩
    · exact Or.inl h1
    · exact Or.inr ⟨ChunkSeq.first_eq h2.2.1, h3⟩

theorem HM_getFreeChunk_maps_witness :
    ∃ g' s', HM_getFreeChunk ⟨64, 99⟩ 4096 mapS1 1 gcS1 poolS1 20000 = .ok (g', s', 65536) ∧
      g'.freeChunks = gcS1.freeChunks ∧ g'.nextChunkAllocSize = (2 * 20480) % W64 ∧
      (align (20000 + 64) 4096 ≤ gcS1.nextChunkAllocSize →
        g'.nextChunkAllocSize = (2 * gcS1.nextChunkAllocSize) % W64) ∧
      (gcS1.nextChunkAllocSize < align (20000 + 64) 4096 →
        g'.nextChunkAllocSize = (2 * align (20000 + 64) 4096) % W64) ∧
      (s'.chunks 65536).frontier = 65536 + 64 ∧
      ((s'.chunks 65536).limit = 65536 + 20480 ∨
        ((s'.lists 9).firstChunk = (s'.chunks 65536).limit ∧
          (s'.chunks (s'.chunks 65536).limit).limit = 65536 + 20480)) :=
  HM_getFreeChunk_maps ⟨64, 99⟩ 4096 mapS1 1 gcS1 poolS1 9 [] 20000 20480 65000 65536 rfl
    poolS1_wf trivial (Or.inl (by decide)) (by decide) (by decide) (by decide) (by decide)
    (by decide) rfl (by decide) (by decide) (by decide)
    (fun _ h => absurd h (List.not_mem_nil _)) (by decide)

/-- C15, as stated, fails: on the empty pool of scenario S1, where `nextChunkAllocSize` is
16384, a request of 20000 bytes has `need = 20480`, and after the call
`nextChunkAllocSize` is 40960, not 32768. -/
theorem HM_getFreeChunk_maps_counterexample :
    (poolS1.lists gcS1.freeChunks).firstChunk = 0 ∧ gcS1.nextChunkAllocSize = 16384 ∧
      align (20000 + 64) 4096 = 20480 ∧
      ∃ g' s', HM_getFreeChunk ⟨64, 99⟩ 4096 mapS1 5 gcS1 poolS1 20000 = .ok (g', s', 65536) ∧
        g'.nextChunkAllocSize = 40960 ∧ g'.nextChunkAllocSize ≠ 2 * gcS1.nextChunkAllocSize :=
  ⟨by decide, by decide, by decide, _, _, rfl, by decide, by decide⟩

/-! ## Well-formed heaps: basic facts -/

theorem not_resolves_of_levelHead_null {s : State} {c : Ptr} (h : (s.chunks c).levelHead = 0)
    (R : Ptr) : ¬ Resolves s c R := by
  rintro ⟨-, path, hpath, hR⟩
  rw [h] at hpath
  cases path with
  | nil => exact hR hpath.1.symm
  | cons x xs => exact hpath.2.1 (Or.inl hpath.1.symm)

/-- The walk along `parent` depends on the `parent` fields only. -/
theorem chain_congr {s s' : State} (hp : ∀ n, (s'.lists n).parent = (s.lists n).parent)
    {n e : Ptr} {path : List Ptr}
    (h : Path (fun x => (s.lists x).parent) (isRootOrNull s) n path e) :
    Path (fun x => (s'.lists x).parent) (isRootOrNull s') n path e := by
  refine Path.congr (fun x _ => (hp x).symm) (fun x _ hx => ?_) (fun hx => ?_) h
  · rcases hx with hx | hx
    · exact Or.inl hx
    · exact Or.inr (by rw [← hp x]; exact hx)
  · rcases hx with hx | hx
    · exact Or.inl hx
    · exact Or.inr (by rw [hp e]; exact hx)

theorem HeapWF.lists_disjoint {HS : List Ptr} {cl : Ptr → List Ptr} {live : Ptr → Prop} {D : Nat}
    {s : State} (h : HeapWF HS cl live D s) {X Y : Ptr} (hX : X ∈ HS) (hY : Y ∈ HS)
    (hXY : X ≠ Y) {a : Ptr} (ha : a ∈ cl X) : a ∉ cl Y := fun ha' =>
  hXY (Resolves.unique ((h.1 X hX).1.2.2.2 a ha) ((h.1 Y hY).1.2.2.2 a ha'))

theorem HeapWF.pos {HS : List Ptr} {cl : Ptr → List Ptr} {live : Ptr → Prop} {D : Nat}
    {s : State} (h : HeapWF HS cl live D s) {a : Ptr} (ha : live a) : 0 < D := by
  obtain ⟨p, e, -, hlt⟩ := h.2.2.1 a ha
  omega

/-- A live chunk without level head is in no list. -/
theorem HeapWF.not_mem_of_null {HS : List Ptr} {cl : Ptr → List Ptr} {live : Ptr → Prop}
    {D : Nat} {s : State} (h : HeapWF HS cl live D s) {c : Ptr}
    (hc : (s.chunks c).levelHead = 0) {X : Ptr} (hX : X ∈ HS) : c ∉ cl X :=
  not_mem_of_levelHead_null hc X (cl X) (h.1 X hX).1

/-- A store with the same links, limits and adjacency of all chunks and the same `parent`,
`firstChunk` and `lastChunk` of all list nodes is as well formed. -/
theorem HeapWF.congr_heap {HS : List Ptr} {cl : Ptr → List Ptr} {live : Ptr → Prop} {D : Nat}
    {s s' : State} (h : HeapWF HS cl live D s)
    (hc : ∀ d, (s'.chunks d).nextChunk = (s.chunks d).nextChunk ∧
      (s'.chunks d).prevChunk = (s.chunks d).prevChunk ∧
      (s'.chunks d).levelHead = (s.chunks d).levelHead ∧
      (s'.chunks d).limit = (s.chunks d).limit ∧
      (s'.chunks d).nextAdjacent = (s.chunks d).nextAdjacent ∧
      (s'.chunks d).prevAdjacent = (s.chunks d).prevAdjacent)
    (hn : ∀ n, (s'.lists n).parent = (s.lists n).parent ∧
      (s'.lists n).firstChunk = (s.lists n).firstChunk ∧
      (s'.lists n).lastChunk = (s.lists n).lastChunk) :
    HeapWF HS cl live D s' := by
  obtain ⟨h1, h2, h3, h4, h5⟩ := h
  have hn' : ∀ n, (s.lists n).parent = (s'.lists n).parent := fun n => (hn n).1.symm
  refine ⟨fun X hX => ?_, fun X hX a ha hr => ?_, fun a ha => ?_, fun a ha => ?_,
    fun a ha => ?_⟩
  · obtain ⟨a1, a2, a3⟩ := h1 X hX
    exact ⟨a1.of_fields (fun d _ => ⟨(hc d).1, (hc d).2.2.1⟩) (fun n => (hn n).1) (hn X).2.1
      (hn X).2.2, PrevLinks.congr_prev (fun d _ => (hc d).2.1) a2, a3⟩
  · exact h2 X hX a ha (Resolves.congr_fields ((hc a).2.2.1).symm hn' hr)
  · obtain ⟨p, e, hp, hlt⟩ := h3 a ha
    refine ⟨p, e, ?_, hlt⟩
    rw [(hc a).2.2.1]
    exact chain_congr (fun n => (hn n).1) hp
  · obtain ⟨a0, an, ap⟩ := h4 a ha
    refine ⟨a0, ?_, ?_⟩
    · rw [(hc a).2.2.2.2.1, (hc a).2.2.2.1, (hc _).2.2.2.2.2]
      exact an
    · rw [(hc a).2.2.2.2.2, (hc _).2.2.2.1, (hc _).2.2.2.2.1]
      exact ap
  · rw [(hc a).2.2.2.1]
    exact h5 a ha

/-! ## Well-formed heaps: unlinking -/

/-- `HM_unlinkChunk` on a chunk of the list of a head of a well-formed heap. -/
theorem HeapWF.unlink {HS : List Ptr} {cl : Ptr → List Ptr} {live : Ptr → Prop} {D : Nat}
    {s : State} (h : HeapWF HS cl live D s) {X c : Ptr} {pre post : List Ptr} (hX : X ∈ HS)
    (hcl : cl X = pre ++ c :: post) (fuel : Nat) (hf : D ≤ fuel) :
    ∃ s' cl', HM_unlinkChunk fuel s c = .ok s' ∧ HeapWF HS cl' live D s' ∧
      cl' X = pre ++ post ∧ (∀ Y, Y ≠ X → cl' Y = cl Y) ∧ live c ∧
      ((s'.chunks c).nextChunk = 0 ∧ (s'.chunks c).prevChunk = 0 ∧
        (s'.chunks c).levelHead = 0) ∧
      (∀ d, d ∉ cl X → KeepChunk s s' d) ∧
      (∀ d, (s'.chunks d).limit = (s.chunks d).limit ∧
        (s'.chunks d).frontier = (s.chunks d).frontier ∧
        (s'.chunks d).nextAdjacent = (s.chunks d).nextAdjacent ∧
        (s'.chunks d).prevAdjacent = (s.chunks d).prevAdjacent ∧
        (s'.chunks d).mightContainMultipleObjects =
          (s.chunks d).mightContainMultipleObjects) ∧
      KeepNodes s s' X X := by
  obtain ⟨h1, h2, h3, h4, h5⟩ := h
  obtain ⟨hXwf, hXpl, hXlive⟩ := h1 X hX
  rw [hcl] at hXwf hXpl
  have hcmem : c ∈ cl X := by rw [hcl]; simp
  have hclive : live c := hXlive c hcmem
  obtain ⟨-, path, hpath⟩ := hXwf.2.2.2 c (by simp)
  obtain ⟨p0, e0, hp0, hlt0⟩ := h3 c hclive
  have hplen : path.length < D := by
    rw [← (Path.det hp0 hpath.1).1]
    exact hlt0
  obtain ⟨s0, s', hC, hrun, hwf', hpl', hun, -, hlk, hlh, hat, hmeta, hoth⟩ :=
    HM_unlinkChunk_spec s X c pre post path fuel hXwf hXpl hpath (by omega)
  have hpar : ∀ n, (s'.lists n).parent = (s0.lists n).parent := fun n => (hmeta n).1
  have hDpos : 0 < D := by omega
  refine ⟨s', Function.update cl X (pre ++ post), hrun, ⟨fun Y hY => ?_, fun Y hY a ha hr => ?_,
    fun a ha => ?_, fun a ha => ?_, fun a ha => ?_⟩, by simp, fun Y hY => by simp [hY], hclive,
    hun, fun d hd => ?_, hat, ⟨fun n => ⟨(hmeta n).2.1, (hmeta n).2.2.1⟩, fun n hn _ => hoth n hn⟩⟩
  · by_cases hYX : Y = X
    · subst hYX
      simp only [Function.update_same]
      exact ⟨hwf', hpl', fun d hd => hXlive d (by
        rw [hcl]
        rcases List.mem_append.1 hd with hd | hd
        · exact List.mem_append_left _ hd
        · exact List.mem_append_right _ (List.mem_cons_of_mem _ hd))⟩
    · simp only [Function.update_noteq hYX]
      obtain ⟨a1, a2, a3⟩ := h1 Y hY
      have hdis : ∀ d ∈ cl Y, d ∉ pre ++ c :: post := fun d hd hd' =>
        hYX (Resolves.unique (a1.2.2.2 d hd) (hXwf.2.2.2 d hd'))
      have hdc : ∀ d ∈ cl Y, d ≠ c := fun d hd e => hdis d hd (by rw [e]; simp)
      refine ⟨(hC.headWF_keep a1).of_fields (fun d hd => ⟨?_, ?_⟩) hpar ?_ ?_,
        PrevLinks.congr_prev (fun d hd => (hlk d (hdis d hd)).2) a2, a3⟩
      · rw [(hlk d (hdis d hd)).1, (hC.chunk_fields d).1]
      · rw [hlh d (hdc d hd), hC.chunk_ne (hdc d hd)]
      · rw [(hoth Y hYX).1, (hC.list_fields Y).1]
      · rw [(hoth Y hYX).2.1, (hC.list_fields Y).2.1]
  · have hac : a ≠ c := fun e => by
      subst e
      exact not_resolves_of_levelHead_null hun.2.2 Y hr
    have hr0 : Resolves s0 a Y :=
      Resolves.congr_fields (by rw [hlh a hac, hC.chunk_ne hac]) (fun n => (hpar n).symm) hr
    obtain ⟨pa, ea, hpa, -⟩ := h3 a ha
    have hrs : Resolves s a Y := hC.resolves_back hr0 ⟨pa, ea, hpa⟩
    have hmem := h2 Y hY a ha hrs
    by_cases hYX : Y = X
    · subst hYX
      simp only [Function.update_same]
      rw [hcl] at hmem
      rcases List.mem_append.1 hmem with hd | hd
      · exact List.mem_append_left _ hd
      · rcases List.mem_cons.1 hd with hd | hd
        · exact absurd hd hac
        · exact List.mem_append_right _ hd
    · simp only [Function.update_noteq hYX]
      exact hmem
  · by_cases hac : a = c
    · subst hac
      refine ⟨[], 0, ?_, hDpos⟩
      rw [hun.2.2]
      exact ⟨rfl, Or.inl rfl⟩
    · obtain ⟨pa, ea, hpa, hlt⟩ := h3 a ha
      obtain ⟨q, hq, hql⟩ := hC.chain pa _ ea hpa
      refine ⟨q, ea, ?_, by omega⟩
      rw [hlh a hac]
      exact chain_congr hpar hq
  · obtain ⟨a0, an, ap⟩ := h4 a ha
    refine ⟨a0, ?_, ?_⟩
    · rw [(hat a).2.2.1, (hat a).1, (hat _).2.2.2.1]
      exact an
    · rw [(hat a).2.2.2.1, (hat _).1, (hat _).2.2.1]
      exact ap
  · rw [(hat a).1]
    exact h5 a ha
  · rw [hcl] at hd
    have hdc : d ≠ c := fun e => hd (by rw [e]; simp)
    exact ⟨(hlk d hd).1, (hlk d hd).2, hlh d hdc, (hat d).1, (hat d).2.1, (hat d).2.2.1,
      (hat d).2.2.2.2⟩

/-! ## Well-formed heaps: appending and coalescing -/

/-- `HM_appendChunk` of a live chunk `c` without level head to a head of a well-formed
heap. -/
theorem HeapWF.append {HS : List Ptr} {cl : Ptr → List Ptr} {live : Ptr → Prop} {D : Nat}
    {s : State} (h : HeapWF HS cl live D s) {X c : Ptr} (hX : X ∈ HS) (hc : live c)
    (hlh : (s.chunks c).levelHead = 0) (hnx : (s.chunks c).nextChunk = 0) :
    ∃ s' cl', HM_appendChunk s X c = .ok s' ∧ HeapWF HS cl' live D s' ∧
      cl' X = cl X ++ [c] ∧ (∀ Y, Y ≠ X → cl' Y = cl Y) ∧
      (∀ d, d ≠ c → d ∉ cl X → KeepChunk s s' d) ∧
      (∀ d, (s'.chunks d).limit = (s.chunks d).limit ∧
        (s'.chunks d).frontier = (s.chunks d).frontier ∧
        (s'.chunks d).nextAdjacent = (s.chunks d).nextAdjacent ∧
        (s'.chunks d).prevAdjacent = (s.chunks d).prevAdjacent ∧
        (s'.chunks d).mightContainMultipleObjects =
          (s.chunks d).mightContainMultipleObjects) ∧
      KeepNodes s s' X X := by
  have hDpos := h.pos hc
  have hcX : c ∉ cl X := h.not_mem_of_null hlh hX
  obtain ⟨h1, h2, h3, h4, h5⟩ := h
  obtain ⟨hXwf, hXpl, hXlive⟩ := h1 X hX
  have hc0 : c ≠ 0 := (h4 c hc).1
  obtain ⟨s', hrun, hwf', hpl', hlh', -, hfr, hnxt, hat, hmeta, hoth⟩ :=
    HM_appendChunk_spec s X c (cl X) hXwf hXpl hc0 hcX hnx
  have hpar : ∀ n, (s'.lists n).parent = (s.lists n).parent := fun n => (hmeta n).1
  refine ⟨s', Function.update cl X (cl X ++ [c]), hrun, ⟨fun Y hY => ?_,
    fun Y hY a ha hr => ?_, fun a ha => ?_, fun a ha => ?_, fun a ha => ?_⟩, by simp,
    fun Y hY => by simp [hY], fun d hdc hd => ?_, hat,
    ⟨fun n => ⟨(hmeta n).2.1, (hmeta n).2.2.1⟩, fun n hn _ => by rw [hoth n hn]; simp⟩⟩
  · by_cases hYX : Y = X
    · subst hYX
      simp only [Function.update_same]
      refine ⟨hwf', hpl', fun d hd => ?_⟩
      rcases List.mem_append.1 hd with hd | hd
      · exact hXlive d hd
      · rw [List.mem_singleton.1 hd]; exact hc
    · simp only [Function.update_noteq hYX]
      obtain ⟨a1, a2, a3⟩ := h1 Y hY
      have hdis : ∀ d ∈ cl Y, d ∉ cl X := fun d hd hd' =>
        hYX (Resolves.unique (a1.2.2.2 d hd) (hXwf.2.2.2 d hd'))
      have hdc : ∀ d ∈ cl Y, d ≠ c := fun d hd e =>
        not_mem_of_levelHead_null hlh Y (cl Y) a1 (e ▸ hd)
      refine ⟨a1.of_fields (fun d hd => ⟨hnxt d (hdis d hd), (hfr d (hdc d hd)).2⟩) hpar ?_ ?_,
        PrevLinks.congr_prev (fun d hd => (hfr d (hdc d hd)).1) a2, a3⟩
      · rw [hoth Y hYX]
      · rw [hoth Y hYX]
  · by_cases hac : a = c
    · subst hac
      have hrX : Resolves s' a X := hwf'.2.2.2 a (by simp)
      obtain rfl := Resolves.unique hr hrX
      simp
    · have hrs : Resolves s a Y :=
        Resolves.congr_fields ((hfr a hac).2).symm (fun n => (hpar n).symm) hr
      have hmem := h2 Y hY a ha hrs
      by_cases hYX : Y = X
      · subst hYX
        simp only [Function.update_same]
        exact List.mem_append_left _ hmem
      · simp only [Function.update_noteq hYX]
        exact hmem
  · by_cases hac : a = c
    · subst hac
      refine ⟨[], X, ?_, hDpos⟩
      rw [hlh']
      exact ⟨rfl, Or.inr hwf'.1.2⟩
    · obtain ⟨pa, ea, hpa, hlt⟩ := h3 a ha
      refine ⟨pa, ea, ?_, hlt⟩
      rw [(hfr a hac).2]
      exact chain_congr hpar hpa
  · obtain ⟨a0, an, ap⟩ := h4 a ha
    refine ⟨a0, ?_, ?_⟩
    · rw [(hat a).2.2.1, (hat a).1, (hat _).2.2.2.1]
      exact an
    · rw [(hat a).2.2.2.1, (hat _).1, (hat _).2.2.1]
      exact ap
  · rw [(hat a).1]
    exact h5 a ha
  · exact ⟨hnxt d hd, (hfr d hdc).1, (hfr d hdc).2, (hat d).1, (hat d).2.1, (hat d).2.2.1,
      (hat d).2.2.2.2⟩

/-- `HM_coalesceChunks` of a live chunk `l` with the next chunk `r` in memory, both outside all
lists of a well-formed heap: `r` goes out of the live set. -/
theorem HeapWF.coalesce_step {HS : List Ptr} {cl : Ptr → List Ptr} {live : Ptr → Prop} {D : Nat}
    {s : State} (h : HeapWF HS cl live D s) {l r : Ptr} (hl : live l)
    (hnr : (s.chunks l).nextAdjacent = r) (hr0 : r ≠ 0)
    (hrlh : (s.chunks r).levelHead = 0) :
    ∃ s', HM_coalesceChunks s l r = .ok s' ∧
      HeapWF HS cl (fun a => live a ∧ a ≠ r) D s' ∧ l ≠ r ∧ l < r ∧ live r ∧
      (s'.chunks l).limit = (s.chunks r).limit ∧ (s.chunks l).limit = r ∧
      (∀ d, d ≠ l → KeepChunk s s' d) ∧
      (∀ d, (s'.chunks d).nextChunk = (s.chunks d).nextChunk ∧
        (s'.chunks d).prevChunk = (s.chunks d).prevChunk ∧
        (s'.chunks d).levelHead = (s.chunks d).levelHead ∧
        (s'.chunks d).frontier = (s.chunks d).frontier ∧
        (s'.chunks d).mightContainMultipleObjects =
          (s.chunks d).mightContainMultipleObjects) ∧
      s'.lists = s.lists := by
  obtain ⟨h1, h2, h3, h4, h5⟩ := h
  obtain ⟨hl0, hln, -⟩ := h4 l hl
  obtain ⟨hrlive, hlimr, -⟩ := hln (by rw [hnr]; exact hr0)
  rw [hnr] at hrlive hlimr
  have hlt : l < r := by
    have := h5 l hl
    rw [hlimr] at this
    exact this
  have hlr : l ≠ r := Nat.ne_of_lt hlt
  obtain ⟨s', hrun, hlists, hlim, hna, hpa, hrest⟩ := HM_coalesceChunks_fields s l r hl0 hr0
  have hadj := AdjInv.coalesce h4 hl hnr hr0 hlim hna hpa
  have hpar : ∀ n, (s'.lists n).parent = (s.lists n).parent := fun n => by rw [hlists]
  refine ⟨s', hrun, ⟨fun Y hY => ?_, fun Y hY a ha hr => ?_, fun a ha => ?_, hadj,
    fun a ha => ?_⟩, hlr, hlt, hrlive, by rw [hlim l, if_pos rfl], hlimr, fun d hd => ?_, hrest,
    hlists⟩
  · obtain ⟨a1, a2, a3⟩ := h1 Y hY
    refine ⟨a1.of_fields (fun d _ => ⟨(hrest d).1, (hrest d).2.2.1⟩) hpar (by rw [hlists])
      (by rw [hlists]), PrevLinks.congr_prev (fun d _ => (hrest d).2.1) a2, fun d hd => ?_⟩
    exact ⟨a3 d hd, fun e => not_mem_of_levelHead_null hrlh Y (cl Y) a1 (e ▸ hd)⟩
  · exact h2 Y hY a ha.1
      (Resolves.congr_fields ((hrest a).2.2.1).symm (fun n => (hpar n).symm) hr)
  · obtain ⟨pa, ea, hp, hlt'⟩ := h3 a ha.1
    refine ⟨pa, ea, ?_, hlt'⟩
    rw [(hrest a).2.2.1]
    exact chain_congr hpar hp
  · rw [hlim a]
    by_cases hal : a = l
    · rw [if_pos hal, hal]
      exact lt_trans hlt (h5 r hrlive)
    · rw [if_neg hal]
      exact h5 a ha.1
  · exact ⟨(hrest d).1, (hrest d).2.1, (hrest d).2.2.1, by rw [hlim d, if_neg hd],
      (hrest d).2.2.2.1, by rw [hna d, if_neg hd], (hrest d).2.2.2.2⟩

/-! ## Frames, covers and lookups -/

theorem KeepChunk.same (s : State) (a : Ptr) : KeepChunk s s a :=
  ⟨rfl, rfl, rfl, rfl, rfl, rfl, rfl⟩

theorem KeepChunk.step {s s1 s2 : State} {a : Ptr} (h1 : KeepChunk s s1 a)
    (h2 : KeepChunk s1 s2 a) : KeepChunk s s2 a :=
  ⟨h2.1.trans h1.1, h2.2.1.trans h1.2.1, h2.2.2.1.trans h1.2.2.1,
    h2.2.2.2.1.trans h1.2.2.2.1, h2.2.2.2.2.1.trans h1.2.2.2.2.1,
    h2.2.2.2.2.2.1.trans h1.2.2.2.2.2.1, h2.2.2.2.2.2.2.trans h1.2.2.2.2.2.2⟩

theorem KeepNodes.same_nodes (s : State) (X Y : Ptr) : KeepNodes s s X Y :=
  ⟨fun _ => ⟨rfl, rfl⟩, fun _ _ _ => ⟨rfl, rfl, rfl⟩⟩

theorem KeepNodes.step_nodes {s s1 s2 : State} {X Y : Ptr} (h1 : KeepNodes s s1 X Y)
    (h2 : KeepNodes s1 s2 X Y) : KeepNodes s s2 X Y :=
  ⟨fun n => ⟨(h2.1 n).1.trans (h1.1 n).1, (h2.1 n).2.trans (h1.1 n).2⟩,
    fun n hX hY => ⟨(h2.2 n hX hY).1.trans (h1.2 n hX hY).1,
      (h2.2 n hX hY).2.1.trans (h1.2 n hX hY).2.1,
      (h2.2 n hX hY).2.2.trans (h1.2 n hX hY).2.2⟩⟩

theorem KeepNodes.mono {s s' : State} {X Y : Ptr} (h : KeepNodes s s' X X) (Y' : Ptr)
    (hY : Y' = X ∨ Y = X) : KeepNodes s s' Y' Y := by
  refine ⟨h.1, fun n h1 h2 => ?_⟩
  rcases hY with e | e
  · exact h.2 n (e ▸ h1) (e ▸ h1)
  · exact h.2 n (e ▸ h2) (e ▸ h2)

theorem KeepNodes.of_lists {s s' : State} (h : s'.lists = s.lists) (X Y : Ptr) :
    KeepNodes s s' X Y := by
  refine ⟨fun n => ?_, fun n _ _ => ?_⟩ <;> rw [h] <;> simp

theorem Covers.step_cover {s s1 s2 : State} {E E1 E2 : List Ptr} (h1 : Covers s s1 E E1)
    (h2 : Covers s1 s2 E1 E2) : Covers s s2 E E2 := fun d hd => by
  obtain ⟨d1, hd1, hle1, hl1⟩ := h1 d hd
  obtain ⟨d2, hd2, hle2, hl2⟩ := h2 d1 hd1
  exact ⟨d2, hd2, le_trans hle2 hle1, le_trans hl1 hl2⟩

theorem Covers.of_limits {s s' : State} {E E' : List Ptr} (hsub : ∀ d ∈ E, d ∈ E')
    (hl : ∀ d ∈ E, (s'.chunks d).limit = (s.chunks d).limit) : Covers s s' E E' :=
  fun d hd => ⟨d, hsub d hd, le_refl _, by rw [hl d hd]⟩

/-- The lookup `HM_getLevelHead` of a live chunk of a well-formed heap returns, and a chunk for
which it returns a head of `HS` is in the list of that head. -/
theorem HeapWF.getLevelHead {HS : List Ptr} {cl : Ptr → List Ptr} {live : Ptr → Prop}
    {D : Nat} {s : State} (h : HeapWF HS cl live D s) {a : Ptr} (ha : live a) (fuel : Nat)
    (hf : D ≤ fuel) :
    ∃ e, HM_getLevelHead fuel s a = .ok e ∧ ∀ X ∈ HS, e = X → a ∈ cl X := by
  obtain ⟨p, e, hp, hlt⟩ := h.2.2.1 a ha
  have ha0 : a ≠ 0 := (h.2.2.2.1 a ha).1
  refine ⟨e, ?_, fun X hX he => ?_⟩
  · unfold HM_getLevelHead
    rw [if_neg ha0]
    exact HM_getLevelHead_loop_of_path s p _ e fuel hp (by omega)
  · subst he
    exact h.2.1 e hX a ha ⟨ha0, p, hp, (h.1 e hX).1.1.1⟩

/-- Resetting `frontier` and `mightContainMultipleObjects` of a chunk keeps a heap well
formed. -/
theorem HeapWF.reset {HS : List Ptr} {cl : Ptr → List Ptr} {live : Ptr → Prop} {D : Nat}
    {s : State} (h : HeapWF HS cl live D s) (c v : Ptr) :
    HeapWF HS cl live D ((s.setFrontier c v).setMightContainMultipleObjects c true) :=
  h.congr_heap (fun d => by simp) (fun n => by simp [lists_setFrontier,
    lists_setMightContainMultipleObjects])

theorem Grows.same_grow (k : Consts) (s : State) : Grows k s s :=
  fun _ => ⟨le_refl _, Or.inl rfl⟩

theorem Grows.step_grow {k : Consts} {s1 s2 s3 : State} (h1 : Grows k s1 s2)
    (h2 : Grows k s2 s3) : Grows k s1 s3 := fun d => by
  refine ⟨le_trans (h1 d).1 (h2 d).1, ?_⟩
  rcases (h2 d).2 with e2 | e2
  · rcases (h1 d).2 with e1 | e1
    · exact Or.inl (e2.trans e1)
    · exact Or.inr (e2.trans e1)
  · exact Or.inr e2

theorem Grows.of_eq {k : Consts} {s s' : State}
    (hl : ∀ d, (s'.chunks d).limit = (s.chunks d).limit)
    (hf : ∀ d, (s'.chunks d).frontier = (s.chunks d).frontier) : Grows k s s' :=
  fun d => ⟨le_of_eq (hl d).symm, Or.inl (hf d)⟩

/-! ## `HM_freeChunks`: coalescing with the previous chunk -/

/-- The first coalescing step of `HM_freeChunks` on a live chunk `c` outside all lists: when
the chunk before `c` in memory is in the pool `P`, it is taken out of the pool and swallows
`c`. -/
theorem HeapWF.coalescePrev {HS : List Ptr} {cl : Ptr → List Ptr} {live : Ptr → Prop}
    {D : Nat} {s : State} (h : HeapWF HS cl live D s) (k : Consts) {P c : Ptr} (hP : P ∈ HS)
    (hc : live c) (hclh : (s.chunks c).levelHead = 0) (hcn : (s.chunks c).nextChunk = 0)
    (hreset : PoolReset k s (c :: cl P)) (fuel : Nat) (hf : D ≤ fuel) :
    ∃ s' c1 cl' live', HM_freeChunks_coalescePrev fuel s P c = .ok (s', c1) ∧
      HeapWF HS cl' live' D s' ∧ (∀ Y, Y ≠ P → cl' Y = cl Y) ∧ (∀ d ∈ cl' P, d ∈ cl P) ∧
      live' c1 ∧ (s'.chunks c1).levelHead = 0 ∧ (s'.chunks c1).nextChunk = 0 ∧
      PoolReset k s' (c1 :: cl' P) ∧ Covers s s' (c :: cl P) (c1 :: cl' P) ∧
      (c1 = c ∨ c1 ∈ cl P) ∧ (∀ d, d ≠ c → d ∉ cl P → KeepChunk s s' d) ∧
      KeepNodes s s' P P ∧
      Grows k s s' := by
  have hskip : ∃ s' c1 cl' live', (Except.ok (s, c) : Except Fault (State × Ptr)) = .ok (s', c1) ∧
      HeapWF HS cl' live' D s' ∧ (∀ Y, Y ≠ P → cl' Y = cl Y) ∧ (∀ d ∈ cl' P, d ∈ cl P) ∧
      live' c1 ∧ (s'.chunks c1).levelHead = 0 ∧ (s'.chunks c1).nextChunk = 0 ∧
      PoolReset k s' (c1 :: cl' P) ∧ Covers s s' (c :: cl P) (c1 :: cl' P) ∧
      (c1 = c ∨ c1 ∈ cl P) ∧ (∀ d, d ≠ c → d ∉ cl P → KeepChunk s s' d) ∧
      KeepNodes s s' P P ∧
      Grows k s s' :=
    ⟨s, c, cl, live, rfl, h, fun _ _ => rfl, fun _ hd => hd, hc, hclh, hcn, hreset,
      Covers.of_limits (fun _ hd => hd) (fun _ _ => rfl), Or.inl rfl,
      fun d _ _ => KeepChunk.same s d, KeepNodes.same_nodes s P P, Grows.same_grow k s⟩
  unfold HM_freeChunks_coalescePrev
  by_cases hpa : (s.chunks c).prevAdjacent = 0
  · rw [if_pos hpa]
    exact hskip
  rw [if_neg hpa]
  obtain ⟨-, -, hcpv⟩ := h.2.2.2.1 c hc
  obtain ⟨hpalive, hpalim, hpanext⟩ := hcpv hpa
  obtain ⟨e, hget, hmem⟩ := h.getLevelHead hpalive fuel hf
  rw [hget]
  by_cases heP : e = P
  swap
  · simp only [if_neg heP]
    exact hskip
  simp only [if_pos heP]
  have hpaP := hmem P hP heP
  obtain ⟨pre, post, hsplit⟩ := List.append_of_mem hpaP
  have hcP : c ∉ cl P := h.not_mem_of_null hclh hP
  obtain ⟨s1, cl1, hrun1, hwf1, hcl1, hoth1, -, hun1, hkeep1, hat1, hnodes1⟩ :=
    h.unlink hP hsplit fuel hf
  have hkc : KeepChunk s s1 c := hkeep1 c hcP
  have hpa1 : (s1.chunks c).prevAdjacent = (s.chunks c).prevAdjacent := (hat1 c).2.2.2.1
  have hna1 : (s1.chunks (s.chunks c).prevAdjacent).nextAdjacent = c := by
    rw [(hat1 _).2.2.1]; exact hpanext
  obtain ⟨s2, hrun2, hwf2, hne, hlt, -, hlim2, -, hkeep2, hrest2, hlists2⟩ :=
    hwf1.coalesce_step hpalive hna1 (h.2.2.2.1 c hc).1 (by rw [hkc.2.2.1]; exact hclh)
  have hsub : ∀ d ∈ pre ++ post, d ∈ cl P := fun d hd => by
    rw [hsplit]
    rcases List.mem_append.1 hd with hd | hd
    · exact List.mem_append_left _ hd
    · exact List.mem_append_right _ (List.mem_cons_of_mem _ hd)
  refine ⟨s2, (s.chunks c).prevAdjacent, cl1, _, ?_, hwf2, hoth1, ?_, ⟨hpalive, hne⟩, ?_, ?_, ?_,
    ?_, Or.inr hpaP, fun d hdc hd => ?_,
    hnodes1.step_nodes (KeepNodes.of_lists hlists2 P P), fun d => ?_⟩
  · simp only [hrun1, hpa1, hna1, hrun2]
  · rw [hcl1]; exact hsub
  · rw [(hrest2 _).2.2.1]; exact hun1.2.2
  · rw [(hrest2 _).1]; exact hun1.1
  · intro d hd
    have hdP : d ∈ cl P := by
      rcases List.mem_cons.1 hd with e | hd
      · rw [e]; exact hpaP
      · rw [hcl1] at hd; exact hsub d hd
    rw [(hrest2 d).2.2.2.1, (hrest2 d).2.2.2.2, (hat1 d).2.1, (hat1 d).2.2.2.2]
    exact hreset d (List.mem_cons_of_mem _ hdP)
  · intro d hd
    rcases List.mem_cons.1 hd with e | hd
    · subst e
      exact ⟨_, List.mem_cons_self _ _, le_of_lt hlt, by rw [hlim2, (hat1 d).1]⟩
    · by_cases hdpa : d = (s.chunks c).prevAdjacent
      · refine ⟨_, List.mem_cons_self _ _, le_of_eq hdpa.symm, ?_⟩
        rw [hlim2, (hat1 c).1, hdpa, hpalim]
        exact le_of_lt (h.2.2.2.2 c hc)
      · refine ⟨d, List.mem_cons_of_mem _ ?_, le_refl _, ?_⟩
        · rw [hcl1]
          rw [hsplit] at hd
          rcases List.mem_append.1 hd with hd | hd
          · exact List.mem_append_left _ hd
          · rcases List.mem_cons.1 hd with hd | hd
            · exact absurd hd hdpa
            · exact List.mem_append_right _ hd
        · rw [(hkeep2 d hdpa).2.2.2.1, (hat1 d).1]
  · exact (hkeep1 d hd).step (hkeep2 d (fun e => hd (e ▸ hpaP)))
  · refine ⟨?_, Or.inl (by rw [(hrest2 d).2.2.2.1, (hat1 d).2.1])⟩
    by_cases hdpa : d = (s.chunks c).prevAdjacent
    · rw [hdpa, hlim2, (hat1 c).1, hpalim]
      exact le_of_lt (h.2.2.2.2 c hc)
    · rw [(hkeep2 d hdpa).2.2.2.1, (hat1 d).1]

/-! ## `HM_freeChunks`: coalescing with the next chunk -/

/-- The second coalescing step of `HM_freeChunks` on a live chunk `c` outside all lists: when
the chunk after `c` in memory is in the pool `P`, it is taken out of the pool and `c`
swallows it. -/
theorem HeapWF.coalesceNext {HS : List Ptr} {cl : Ptr → List Ptr} {live : Ptr → Prop}
    {D : Nat} {s : State} (h : HeapWF HS cl live D s) (k : Consts) {P c : Ptr} (hP : P ∈ HS)
    (hc : live c) (hclh : (s.chunks c).levelHead = 0) (hcn : (s.chunks c).nextChunk = 0)
    (hreset : PoolReset k s (c :: cl P)) (fuel : Nat) (hf : D ≤ fuel) :
    ∃ s' cl' live', HM_freeChunks_coalesceNext fuel s P c = .ok s' ∧
      HeapWF HS cl' live' D s' ∧ (∀ Y, Y ≠ P → cl' Y = cl Y) ∧ (∀ d ∈ cl' P, d ∈ cl P) ∧
      live' c ∧ (s'.chunks c).levelHead = 0 ∧ (s'.chunks c).nextChunk = 0 ∧
      PoolReset k s' (c :: cl' P) ∧ Covers s s' (c :: cl P) (c :: cl' P) ∧
      (∀ d, d ≠ c → d ∉ cl P → KeepChunk s s' d) ∧ KeepNodes s s' P P ∧
      Grows k s s' := by
  have hskip : ∃ s' cl' live', (Except.ok s : Except Fault State) = .ok s' ∧
      HeapWF HS cl' live' D s' ∧ (∀ Y, Y ≠ P → cl' Y = cl Y) ∧ (∀ d ∈ cl' P, d ∈ cl P) ∧
      live' c ∧ (s'.chunks c).levelHead = 0 ∧ (s'.chunks c).nextChunk = 0 ∧
      PoolReset k s' (c :: cl' P) ∧ Covers s s' (c :: cl P) (c :: cl' P) ∧
      (∀ d, d ≠ c → d ∉ cl P → KeepChunk s s' d) ∧ KeepNodes s s' P P ∧
      Grows k s s' :=
    ⟨s, cl, live, rfl, h, fun _ _ => rfl, fun _ hd => hd, hc, hclh, hcn, hreset,
      Covers.of_limits (fun _ hd => hd) (fun _ _ => rfl),
      fun d _ _ => KeepChunk.same s d, KeepNodes.same_nodes s P P, Grows.same_grow k s⟩
  unfold HM_freeChunks_coalesceNext
  by_cases hna : (s.chunks c).nextAdjacent = 0
  · rw [if_pos hna]
    exact hskip
  rw [if_neg hna]
  obtain ⟨-, hcnx, -⟩ := h.2.2.2.1 c hc
  obtain ⟨hnalive, hclim, -⟩ := hcnx hna
  obtain ⟨e, hget, hmem⟩ := h.getLevelHead hnalive fuel hf
  rw [hget]
  by_cases heP : e = P
  swap
  · simp only [if_neg heP]
    exact hskip
  simp only [if_pos heP]
  have hnaP := hmem P hP heP
  obtain ⟨pre, post, hsplit⟩ := List.append_of_mem hnaP
  have hcP : c ∉ cl P := h.not_mem_of_null hclh hP
  obtain ⟨s1, cl1, hrun1, hwf1, hcl1, hoth1, -, hun1, hkeep1, hat1, hnodes1⟩ :=
    h.unlink hP hsplit fuel hf
  have hkc : KeepChunk s s1 c := hkeep1 c hcP
  have hna1 : (s1.chunks c).nextAdjacent = (s.chunks c).nextAdjacent := (hat1 c).2.2.1
  obtain ⟨s2, hrun2, hwf2, hne, hlt, -, hlim2, -, hkeep2, hrest2, hlists2⟩ :=
    hwf1.coalesce_step hc hna1 hna hun1.2.2
  have hsub : ∀ d ∈ pre ++ post, d ∈ cl P := fun d hd => by
    rw [hsplit]
    rcases List.mem_append.1 hd with hd | hd
    · exact List.mem_append_left _ hd
    · exact List.mem_append_right _ (List.mem_cons_of_mem _ hd)
  refine ⟨s2, cl1, _, ?_, hwf2, hoth1, ?_, ⟨hc, hne⟩, ?_, ?_, ?_, ?_, fun d hdc hd => ?_,
    hnodes1.step_nodes (KeepNodes.of_lists hlists2 P P), fun d => ?_⟩
  · simp only [hrun1, hna1, hrun2]
  · rw [hcl1]; exact hsub
  · rw [(hrest2 _).2.2.1, hkc.2.2.1]; exact hclh
  · rw [(hrest2 _).1, hkc.1]; exact hcn
  · intro d hd
    have hdE : d ∈ c :: cl P := by
      rcases List.mem_cons.1 hd with e | hd
      · rw [e]; exact List.mem_cons_self _ _
      · rw [hcl1] at hd; exact List.mem_cons_of_mem _ (hsub d hd)
    rw [(hrest2 d).2.2.2.1, (hrest2 d).2.2.2.2, (hat1 d).2.1, (hat1 d).2.2.2.2]
    exact hreset d hdE
  · intro d hd
    rcases List.mem_cons.1 hd with e | hd
    · subst e
      refine ⟨_, List.mem_cons_self _ _, le_refl _, ?_⟩
      rw [hlim2, (hat1 _).1, hclim]
      exact le_of_lt (h.2.2.2.2 _ hnalive)
    · by_cases hdna : d = (s.chunks c).nextAdjacent
      · refine ⟨c, List.mem_cons_self _ _, ?_, ?_⟩
        · rw [hdna]; exact le_of_lt hlt
        · rw [hlim2, (hat1 _).1, hdna]
      · have hdc : d ≠ c := fun e => hcP (e ▸ hd)
        refine ⟨d, List.mem_cons_of_mem _ ?_, le_refl _, ?_⟩
        · rw [hcl1]
          rw [hsplit] at hd
          rcases List.mem_append.1 hd with hd | hd
          · exact List.mem_append_left _ hd
          · rcases List.mem_cons.1 hd with hd | hd
            · exact absurd hd hdna
            · exact List.mem_append_right _ hd
        · rw [(hkeep2 d hdc).2.2.2.1, (hat1 d).1]
  · exact (hkeep1 d hd).step (hkeep2 d hdc)
  · refine ⟨?_, Or.inl (by rw [(hrest2 d).2.2.2.1, (hat1 d).2.1])⟩
    by_cases hdc : d = c
    · subst hdc
      rw [hlim2, (hat1 _).1, hclim]
      exact le_of_lt (h.2.2.2.2 _ hnalive)
    · rw [(hkeep2 d hdc).2.2.2.1, (hat1 d).1]

/-! ## `HM_freeChunks`: the loop body -/

theorem reset_fields (s : State) (c v : Ptr) :
    (∀ d, (((s.setFrontier c v).setMightContainMultipleObjects c true).chunks d).nextChunk
        = (s.chunks d).nextChunk ∧
      (((s.setFrontier c v).setMightContainMultipleObjects c true).chunks d).prevChunk
        = (s.chunks d).prevChunk ∧
      (((s.setFrontier c v).setMightContainMultipleObjects c true).chunks d).levelHead
        = (s.chunks d).levelHead ∧
      (((s.setFrontier c v).setMightContainMultipleObjects c true).chunks d).limit
        = (s.chunks d).limit ∧
      (((s.setFrontier c v).setMightContainMultipleObjects c true).chunks d).nextAdjacent
        = (s.chunks d).nextAdjacent ∧
      (((s.setFrontier c v).setMightContainMultipleObjects c true).chunks d).prevAdjacent
        = (s.chunks d).prevAdjacent) ∧
    (((s.setFrontier c v).setMightContainMultipleObjects c true).chunks c).frontier = v ∧
    (((s.setFrontier c v).setMightContainMultipleObjects c true).chunks
      c).mightContainMultipleObjects = true ∧
    (∀ d, d ≠ c →
      (((s.setFrontier c v).setMightContainMultipleObjects c true).chunks d).frontier
        = (s.chunks d).frontier ∧
      (((s.setFrontier c v).setMightContainMultipleObjects c true).chunks
        d).mightContainMultipleObjects = (s.chunks d).mightContainMultipleObjects) ∧
    ((s.setFrontier c v).setMightContainMultipleObjects c true).lists = s.lists := by
  refine ⟨fun d => by simp, by simp, by simp, fun d hd => by simp [hd], ?_⟩
  rw [lists_setMightContainMultipleObjects, lists_setFrontier]


/-- One iteration of the inner loop of `HM_freeChunks` on the first chunk `c` of the head `H`
of a well-formed heap with pool `P`: `c` leaves the list of `H`, and the pool, possibly
after losing the chunks next to `c` in memory, gains a chunk that covers `c` and them. -/
theorem HeapWF.freeBody {HS : List Ptr} {cl : Ptr → List Ptr} {live : Ptr → Prop} {D : Nat}
    {s : State} (h : HeapWF HS cl live D s) (k : Consts) {H P c : Ptr} {rest : List Ptr}
    (hH : H ∈ HS) (hP : P ∈ HS) (hHP : H ≠ P) (hcl : cl H = c :: rest)
    (hreset : PoolReset k s (cl P)) (coalesce : Bool) (fuel : Nat) (hf : D ≤ fuel) :
    ∃ s' cl' live', HM_freeChunks_body k fuel s P coalesce c = .ok s' ∧
      HeapWF HS cl' live' D s' ∧ cl' H = rest ∧ (∀ Y, Y ≠ H → Y ≠ P → cl' Y = cl Y) ∧
      PoolReset k s' (cl' P) ∧ Covers s s' (c :: cl P) (cl' P) ∧
      (∀ d ∈ cl' P, d = c ∨ d ∈ cl P) ∧
      (∀ d, d ∉ cl H → d ∉ cl P → KeepChunk s s' d) ∧
      (∀ d, d ≠ c → d ∉ cl P → (s'.chunks d).limit = (s.chunks d).limit) ∧
      KeepNodes s s' H P ∧
      (coalesce = false →
        (∀ d, (s'.chunks d).prevAdjacent = (s.chunks d).prevAdjacent) ∧
          cl' P = cl P ++ [c]) ∧
      Grows k s s' := by
  have hcH : c ∈ cl H := by rw [hcl]; exact List.mem_cons_self _ _
  obtain ⟨s1, cl1, hrun1, hwf1, hcl1, hoth1, hclive, hun1, hkeep1, hat1, hnodes1⟩ :=
    h.unlink hH (show cl H = [] ++ c :: rest from hcl) fuel hf
  have hcl1P : cl1 P = cl P := hoth1 P (Ne.symm hHP)
  obtain ⟨hf3, hfr3, hfl3, hoth3, hlists3⟩ := reset_fields s1 c (HM_getChunkStart k c)
  have hwf3 := hwf1.reset c (HM_getChunkStart k c)
  obtain ⟨s3, hs3⟩ : ∃ s3, s3 =
      (s1.setFrontier c (HM_getChunkStart k c)).setMightContainMultipleObjects c true :=
    ⟨_, rfl⟩
  rw [← hs3] at hf3 hfr3 hfl3 hoth3 hlists3 hwf3
  have hc1P : c ∉ cl1 P := hwf1.not_mem_of_null hun1.2.2 hP
  have hcP : c ∉ cl P := hcl1P ▸ hc1P
  have hlh3 : (s3.chunks c).levelHead = 0 := by rw [(hf3 c).2.2.1]; exact hun1.2.2
  have hnx3 : (s3.chunks c).nextChunk = 0 := by rw [(hf3 c).1]; exact hun1.1
  have hreset3 : PoolReset k s3 (c :: cl1 P) := fun d hd => by
    rcases List.mem_cons.1 hd with e | hd
    · rw [e]; exact ⟨hfr3, hfl3⟩
    · have hdc : d ≠ c := fun e => hc1P (e ▸ hd)
      rw [(hoth3 d hdc).1, (hoth3 d hdc).2, (hat1 d).2.1, (hat1 d).2.2.2.2]
      exact hreset d (hcl1P ▸ hd)
  have hkeep13 : ∀ d, d ≠ c → KeepChunk s1 s3 d := fun d hdc =>
    ⟨(hf3 d).1, (hf3 d).2.1, (hf3 d).2.2.1, (hf3 d).2.2.2.1, (hoth3 d hdc).1,
      (hf3 d).2.2.2.2.1, (hoth3 d hdc).2⟩
  have hlim03 : ∀ d, (s3.chunks d).limit = (s.chunks d).limit := fun d => by
    rw [(hf3 d).2.2.2.1, (hat1 d).1]
  have hcov03 : Covers s s3 (c :: cl P) (c :: cl1 P) :=
    Covers.of_limits (fun d hd => by rw [hcl1P]; exact hd) (fun d _ => hlim03 d)
  have hnodes03 : KeepNodes s s3 H P :=
    (hnodes1.mono H (Or.inl rfl)).step_nodes (KeepNodes.of_lists hlists3 H P)
  have hg03 : Grows k s s3 := fun d => by
    refine ⟨le_of_eq (hlim03 d).symm, ?_⟩
    by_cases hdc : d = c
    · rw [hdc]; exact Or.inr hfr3
    · exact Or.inl (by rw [(hoth3 d hdc).1, (hat1 d).2.1])
  cases coalesce with
  | false =>
    obtain ⟨s6, cl6, hrun6, hwf6, hcl6, hoth6, hkeep6, hat6, hnodes6⟩ :=
      hwf3.append hP hclive hlh3 hnx3
    refine ⟨s6, cl6, live, ?_, hwf6, ?_, fun Y hYH hYP => ?_, fun d hd => ?_, ?_,
      fun d hd => ?_, fun d hdH hdP => ?_, fun d hdc hdP => ?_,
      hnodes03.step_nodes (hnodes6.mono H (Or.inr rfl)),
      fun _ => ⟨fun d => ?_, by rw [hcl6, hcl1P]⟩,
      hg03.step_grow (Grows.of_eq (fun d => (hat6 d).1) (fun d => (hat6 d).2.1))⟩
    · unfold HM_freeChunks_body
      simp only [hrun1, ← hs3, hrun6]
      rfl
    · rw [hoth6 H hHP, hcl1]; rfl
    · rw [hoth6 Y hYP, hoth1 Y hYH]
    · rw [(hat6 d).2.1, (hat6 d).2.2.2.2]
      refine hreset3 d ?_
      rw [hcl6] at hd
      rcases List.mem_append.1 hd with hd | hd
      · exact List.mem_cons_of_mem _ hd
      · rw [List.mem_singleton.1 hd]; exact List.mem_cons_self _ _
    · refine hcov03.step_cover (Covers.of_limits (fun d hd => ?_) (fun d _ => (hat6 d).1))
      rw [hcl6]
      rcases List.mem_cons.1 hd with e | hd
      · rw [e]; simp
      · exact List.mem_append_left _ hd
    · rw [hcl6, hcl1P] at hd
      rcases List.mem_append.1 hd with hd | hd
      · exact Or.inr hd
      · exact Or.inl (List.mem_singleton.1 hd)
    · have hdc : d ≠ c := fun e => hdH (e ▸ hcH)
      exact ((hkeep1 d hdH).step (hkeep13 d hdc)).step (hkeep6 d hdc (hcl1P ▸ hdP))
    · rw [(hat6 d).1, hlim03 d]
    · rw [(hat6 d).2.2.2.1, (hf3 d).2.2.2.2.2, (hat1 d).2.2.2.1]
  | true =>
    obtain ⟨s4, c1, cl4, live4, hrun4, hwf4, hoth4, hsub4, hlive4, hlh4, hnx4, hreset4, hcov4,
        hc1, hkeep4, hnodes4, hgrow4⟩ :=
      hwf3.coalescePrev k hP hclive hlh3 hnx3 hreset3 fuel hf
    obtain ⟨s5, cl5, live5, hrun5, hwf5, hoth5, hsub5, hlive5, hlh5, hnx5, hreset5, hcov5,
        hkeep5, hnodes5, hgrow5⟩ :=
      hwf4.coalesceNext k hP hlive4 hlh4 hnx4 hreset4 fuel hf
    obtain ⟨s6, cl6, hrun6, hwf6, hcl6, hoth6, hkeep6, hat6, hnodes6⟩ :=
      hwf5.append hP hlive5 hlh5 hnx5
    have hsub5P : ∀ d ∈ cl5 P, d ∈ cl P := fun d hd => hcl1P ▸ hsub4 d (hsub5 d hd)
    have hc1' : c1 = c ∨ c1 ∈ cl P := hcl1P ▸ hc1
    have hchain : ∀ d, d ≠ c → d ∉ cl P → KeepChunk s1 s6 d := fun d hdc hdP => by
      have hdc1 : d ≠ c1 := fun e => by
        rcases hc1' with e' | e'
        · exact hdc (e.trans e')
        · exact hdP (e ▸ e')
      exact (((hkeep13 d hdc).step (hkeep4 d hdc (hcl1P ▸ hdP))).step
        (hkeep5 d hdc1 (fun hd => hdP (hcl1P ▸ hsub4 d hd)))).step
        (hkeep6 d hdc1 (fun hd => hdP (hsub5P d hd)))
    refine ⟨s6, cl6, live5, ?_, hwf6, ?_, fun Y hYH hYP => ?_, fun d hd => ?_, ?_,
      fun d hd => ?_, fun d hdH hdP => ?_, fun d hdc hdP => ?_,
      ((hnodes03.step_nodes (hnodes4.mono H (Or.inr rfl))).step_nodes
        (hnodes5.mono H (Or.inr rfl))).step_nodes (hnodes6.mono H (Or.inr rfl)),
      fun hfalse => (by cases hfalse),
      ((hg03.step_grow hgrow4).step_grow hgrow5).step_grow
        (Grows.of_eq (fun d => (hat6 d).1) (fun d => (hat6 d).2.1))⟩
    · unfold HM_freeChunks_body
      simp only [hrun1, ← hs3, hrun4, hrun5, hrun6]
      rfl
    · rw [hoth6 H hHP, hoth5 H hHP, hoth4 H hHP, hcl1]; rfl
    · rw [hoth6 Y hYP, hoth5 Y hYP, hoth4 Y hYP, hoth1 Y hYH]
    · rw [(hat6 d).2.1, (hat6 d).2.2.2.2]
      refine hreset5 d ?_
      rw [hcl6] at hd
      rcases List.mem_append.1 hd with hd | hd
      · exact List.mem_cons_of_mem _ hd
      · rw [List.mem_singleton.1 hd]; exact List.mem_cons_self _ _
    · refine ((hcov03.step_cover hcov4).step_cover hcov5).step_cover
        (Covers.of_limits (fun d hd => ?_) (fun d _ => (hat6 d).1))
      rw [hcl6]
      rcases List.mem_cons.1 hd with e | hd
      · rw [e]; simp
      · exact List.mem_append_left _ hd
    · rw [hcl6] at hd
      rcases List.mem_append.1 hd with hd | hd
      · exact Or.inr (hsub5P d hd)
      · rw [List.mem_singleton.1 hd]; exact hc1'
    · have hdc : d ≠ c := fun e => hdH (e ▸ hcH)
      exact (hkeep1 d hdH).step (hchain d hdc hdP)
    · rw [(hchain d hdc hdP).2.2.2.1, (hat1 d).1]

/-! ## `HM_freeChunks`: the inner loop -/

/-- The inner loop of `HM_freeChunks` on the head `H` of a well-formed heap with pool `P`:
the list of `H` becomes empty and the pool covers its chunks. -/
theorem HeapWF.freeChunks_chunks {HS : List Ptr} {D : Nat} (k : Consts) {H P : Ptr}
    (hH : H ∈ HS) (hP : P ∈ HS) (hHP : H ≠ P) (coalesce : Bool) (fuel : Nat) (hf : D ≤ fuel) :
    ∀ (cs : List Ptr) (cl : Ptr → List Ptr) (live : Ptr → Prop) (s : State) (n : Nat),
      HeapWF HS cl live D s → cl H = cs → PoolReset k s (cl P) → cs.length < n →
      ∃ s' cl' live', HM_freeChunks_chunks k fuel n s P coalesce (cs.head?.getD 0) = .ok s' ∧
        HeapWF HS cl' live' D s' ∧ cl' H = [] ∧ (∀ Y, Y ≠ H → Y ≠ P → cl' Y = cl Y) ∧
        PoolReset k s' (cl' P) ∧ Covers s s' (cs ++ cl P) (cl' P) ∧
        (∀ d ∈ cl' P, d ∈ cs ∨ d ∈ cl P) ∧
        (∀ d, d ∉ cs → d ∉ cl P → KeepChunk s s' d) ∧ KeepNodes s s' H P ∧
        (coalesce = false →
          (∀ d, (s'.chunks d).prevAdjacent = (s.chunks d).prevAdjacent) ∧
            cl' P = cl P ++ cs) ∧
        Grows k s s'
  | [], cl, live, s, n, h, hcl, hreset, hn => by
    obtain ⟨m, rfl⟩ : ∃ m, n = m + 1 := ⟨n - 1, by simp at hn; omega⟩
    refine ⟨s, cl, live, ?_, h, hcl, fun _ _ _ => rfl, hreset,
      Covers.of_limits (fun d hd => by simpa using hd) (fun _ _ => rfl),
      fun d hd => Or.inr hd, fun d _ _ => KeepChunk.same s d, KeepNodes.same_nodes s H P,
      fun _ => ⟨fun _ => rfl, by simp⟩, Grows.same_grow k s⟩
    simp [HM_freeChunks_chunks]
  | c :: rest, cl, live, s, n, h, hcl, hreset, hn => by
    obtain ⟨m, rfl⟩ : ∃ m, n = m + 1 := ⟨n - 1, by simp at hn; omega⟩
    have hseq : ChunkSeq s (s.lists H).firstChunk (c :: rest) := by
      rw [← hcl]; exact (h.1 H hH).1.2.1
    have hc0 : c ≠ 0 := Path.ne_zero_of_mem hseq c (List.mem_cons_self _ _)
    have hnext : (s.chunks c).nextChunk = rest.head?.getD 0 := ChunkSeq.first_eq hseq.2.2
    have hnd : (c :: rest).Nodup := Path.nodup hseq
    obtain ⟨s1, cl1, live1, hrun1, hwf1, hcl1, hoth1, hreset1, hcov1, hsub1, hkeep1, hlim1,
        hnodes1, hfalse1, hgrow1⟩ :=
      h.freeBody k hH hP hHP hcl hreset coalesce fuel hf
    obtain ⟨s', cl', live', hrun', hwf', hcl', hoth', hreset', hcov', hsub', hkeep', hnodes',
        hfalse', hgrow'⟩ :=
      HeapWF.freeChunks_chunks k hH hP hHP coalesce fuel hf rest cl1 live1 s1 m hwf1 hcl1 hreset1
        (by simp at hn; omega)
    have hdisj : ∀ d ∈ cl H, d ∉ cl P := fun d hd => h.lists_disjoint hH hP hHP hd
    refine ⟨s', cl', live', ?_, hwf', hcl', fun Y hYH hYP => ?_, hreset', fun d hd => ?_,
      fun d hd => ?_, fun d hdc hdP => ?_, hnodes1.step_nodes hnodes', fun hfalse => ⟨fun d => ?_, ?_⟩,
      hgrow1.step_grow hgrow'⟩
    · simp only [HM_freeChunks_chunks, List.head?_cons, Option.getD_some, ne_eq, hc0,
        not_false_eq_true, if_true, hrun1, hnext]
      exact hrun'
    · rw [hoth' Y hYH hYP, hoth1 Y hYH hYP]
    · have hvia : ∀ d1 ∈ cl1 P, ∃ d' ∈ cl' P, d' ≤ d1 ∧ (s1.chunks d1).limit ≤ (s'.chunks d').limit :=
        fun d1 hd1 => hcov' d1 (List.mem_append_right _ hd1)
      have hfirst : ∀ d ∈ c :: cl P, ∃ d' ∈ cl' P, d' ≤ d ∧
          (s.chunks d).limit ≤ (s'.chunks d').limit := fun d hd => by
        obtain ⟨d1, hd1, hle1, hl1⟩ := hcov1 d hd
        obtain ⟨d2, hd2, hle2, hl2⟩ := hvia d1 hd1
        exact ⟨d2, hd2, le_trans hle2 hle1, le_trans hl1 hl2⟩
      rcases List.mem_append.1 hd with hd | hd
      · rcases List.mem_cons.1 hd with e | hd
        · exact hfirst d (e ▸ List.mem_cons_self _ _)
        · have hdc : d ≠ c := fun e => (List.nodup_cons.1 hnd).1 (e ▸ hd)
          have hdP : d ∉ cl P := hdisj d (by rw [hcl]; exact List.mem_cons_of_mem _ hd)
          obtain ⟨d', hd', hle, hl⟩ := hcov' d (List.mem_append_left _ hd)
          exact ⟨d', hd', hle, by rw [← hlim1 d hdc hdP]; exact hl⟩
      · exact hfirst d (List.mem_cons_of_mem _ hd)
    · rcases hsub' d hd with hd | hd
      · exact Or.inl (List.mem_cons_of_mem _ hd)
      · rcases hsub1 d hd with e | hd
        · exact Or.inl (e ▸ List.mem_cons_self _ _)
        · exact Or.inr hd
    · have hdH : d ∉ cl H := by rw [hcl]; exact hdc
      have hdr : d ∉ rest := fun hd => hdc (List.mem_cons_of_mem _ hd)
      have hd1P : d ∉ cl1 P := fun hd => by
        rcases hsub1 d hd with e | hd
        · exact hdc (e ▸ List.mem_cons_self _ _)
        · exact hdP hd
      exact (hkeep1 d hdH hdP).step (hkeep' d hdr hd1P)
    · rw [(hfalse' hfalse).1 d, (hfalse1 hfalse).1 d]
    · rw [(hfalse' hfalse).2, (hfalse1 hfalse).2]
      simp

/-! ## `HM_freeChunks`: the outer loop -/

theorem LevelList.head_eq {s : State} {p : Ptr} {hs : List Ptr} (h : LevelList s p hs) :
    p = hs.head?.getD 0 := by
  cases hs with
  | nil => exact h.1
  | cons x xs => exact h.1

/-- The outer loop of `HM_freeChunks` on a level list whose first heads `det` have a level
of at least `minLevel` and whose next head, if any, has a lower level: the lists of `det`
become empty and the pool covers their chunks. -/
theorem HeapWF.freeChunks_lists {HS : List Ptr} {D : Nat} (k : Consts) {P : Ptr}
    (hP : P ∈ HS) (minLevel : Nat) (coalesce : Bool) (fuel : Nat) (hf : D ≤ fuel)
    (kept : List Ptr) :
    ∀ (det : List Ptr) (cl : Ptr → List Ptr) (live : Ptr → Prop) (s : State) (n : Nat)
      (L : Ptr),
      HeapWF HS cl live D s → LevelList s L (det ++ kept) →
      (∀ h ∈ det, h ∈ HS ∧ h ≠ P ∧ minLevel ≤ (s.lists h).level ∧ (cl h).length < fuel) →
      (∀ h, kept.head? = some h → (s.lists h).level < minLevel) →
      PoolReset k s (cl P) → det.length < n →
      ∃ s' cl' live',
        HM_freeChunks_lists k fuel n s P minLevel coalesce L = .ok (s', kept.head?.getD 0) ∧
        HeapWF HS cl' live' D s' ∧ (∀ h ∈ det, cl' h = []) ∧
        (∀ Y, Y ∉ det → Y ≠ P → cl' Y = cl Y) ∧ PoolReset k s' (cl' P) ∧
        Covers s s' (det.flatMap cl ++ cl P) (cl' P) ∧
        (∀ d ∈ cl' P, d ∈ det.flatMap cl ∨ d ∈ cl P) ∧
        (∀ d, d ∉ det.flatMap cl → d ∉ cl P → KeepChunk s s' d) ∧
        (∀ m, (s'.lists m).nextHead = (s.lists m).nextHead ∧
          (s'.lists m).level = (s.lists m).level) ∧
        (∀ m, m ∉ det → m ≠ P → (s'.lists m).firstChunk = (s.lists m).firstChunk ∧
          (s'.lists m).lastChunk = (s.lists m).lastChunk ∧
          (s'.lists m).size = (s.lists m).size) ∧
        (coalesce = false →
          (∀ d, (s'.chunks d).prevAdjacent = (s.chunks d).prevAdjacent) ∧
            cl' P = cl P ++ det.flatMap cl) ∧
        Grows k s s'
  | [], cl, live, s, n, L, h, hL, hdet, hkept, hreset, hn => by
    obtain ⟨m, rfl⟩ : ∃ m, n = m + 1 := ⟨n - 1, by simp at hn; omega⟩
    have hLe : L = kept.head?.getD 0 := LevelList.head_eq hL
    refine ⟨s, cl, live, ?_, h, fun _ hh => absurd hh (List.not_mem_nil _), fun _ _ _ => rfl,
      hreset, Covers.of_limits (fun d hd => by simpa using hd) (fun _ _ => rfl),
      fun d hd => Or.inr hd, fun d _ _ => KeepChunk.same s d, fun _ => ⟨rfl, rfl⟩,
      fun _ _ _ => ⟨rfl, rfl, rfl⟩, fun _ => ⟨fun _ => rfl, by simp⟩, Grows.same_grow k s⟩
    have hcond : ¬ (L ≠ 0 ∧ (s.lists L).level ≥ minLevel) := by
      rintro ⟨h0, hlv⟩
      cases hk : kept with
      | nil => rw [hk] at hLe; exact h0 hLe
      | cons x xs =>
        rw [hk] at hLe
        have hx : L = x := hLe
        have := hkept x (by rw [hk]; rfl)
        rw [hx] at hlv
        omega
    rw [HM_freeChunks_lists, if_neg hcond, hLe]
  | h1 :: det, cl, live, s, n, L, h, hL, hdet, hkept, hreset, hn => by
    obtain ⟨m, rfl⟩ : ∃ m, n = m + 1 := ⟨n - 1, by simp at hn; omega⟩
    have hL1 : L = h1 := hL.1
    subst hL1
    have hL0 : L ≠ 0 := hL.2.1
    obtain ⟨hLHS, hLP, hLlv, hLlen⟩ := hdet L (List.mem_cons_self _ _)
    have hnd : (L :: (det ++ kept)).Nodup := Path.nodup hL
    have hLdet : L ∉ det := fun hm =>
      (List.nodup_cons.1 hnd).1 (List.mem_append_left _ hm)
    have hfirst : (s.lists L).firstChunk = (cl L).head?.getD 0 :=
      ChunkSeq.first_eq (h.1 L hLHS).1.2.1
    obtain ⟨s1, cl1, live1, hrun1, hwf1, hcl1, hoth1, hreset1, hcov1, hsub1, hkeep1, hnodes1,
        hfalse1, hgrow1⟩ :=
      HeapWF.freeChunks_chunks k hLHS hP hLP coalesce fuel hf (cl L) cl live s fuel h rfl hreset
        hLlen
    have hcl1eq : ∀ x ∈ det, cl1 x = cl x := fun x hx =>
      hoth1 x (fun e => hLdet (e ▸ hx)) (hdet x (List.mem_cons_of_mem _ hx)).2.1
    have hL' : LevelList s1 (s1.lists L).nextHead (det ++ kept) := by
      rw [(hnodes1.1 L).1]
      exact Path.congr (fun x _ => ((hnodes1.1 x).1).symm) (fun _ _ hx => hx) (fun hx => hx)
        hL.2.2
    obtain ⟨s', cl', live', hrun', hwf', hcl', hoth', hreset', hcov', hsub', hkeep', hnh',
        hfl', hfalse', hgrow'⟩ :=
      HeapWF.freeChunks_lists k hP minLevel coalesce fuel hf kept det cl1 live1 s1 m
        (s1.lists L).nextHead hwf1 hL'
        (fun x hx => by
          obtain ⟨a1, a2, a3, a4⟩ := hdet x (List.mem_cons_of_mem _ hx)
          exact ⟨a1, a2, by rw [(hnodes1.1 x).2]; exact a3, by rw [hcl1eq x hx]; exact a4⟩)
        (fun x hx => by rw [(hnodes1.1 x).2]; exact hkept x hx) hreset1
        (by simp at hn; omega)
    have hfm1 : det.flatMap cl1 = det.flatMap cl := by
      simp only [List.flatMap, List.map_congr_left hcl1eq]
    have hdisj : ∀ x ∈ det, ∀ d ∈ cl x, d ∉ cl L ∧ d ∉ cl P := fun x hx d hd => by
      obtain ⟨a1, a2, -, -⟩ := hdet x (List.mem_cons_of_mem _ hx)
      exact ⟨h.lists_disjoint a1 hLHS (fun e => hLdet (e ▸ hx)) hd, h.lists_disjoint a1 hP a2 hd⟩
    refine ⟨s', cl', live', ?_, hwf', fun x hx => ?_, fun Y hY hYP => ?_, hreset',
      fun d hd => ?_, fun d hd => ?_, fun d hdc hdP => ?_,
      fun x => ⟨(hnh' x).1.trans (hnodes1.1 x).1, (hnh' x).2.trans (hnodes1.1 x).2⟩,
      fun x hx hxP => ?_, fun hfalse => ⟨fun d => ?_, ?_⟩,
      hgrow1.step_grow hgrow'⟩
    · rw [HM_freeChunks_lists, if_pos ⟨hL0, hLlv⟩, hfirst]
      simp only [hrun1]
      exact hrun'
    · rcases List.mem_cons.1 hx with e | hx
      · rw [e, hoth' L hLdet hLP, hcl1]
      · exact hcl' x hx
    · have hYL : Y ≠ L := fun e => hY (e ▸ List.mem_cons_self _ _)
      rw [hoth' Y (fun hm => hY (List.mem_cons_of_mem _ hm)) hYP, hoth1 Y hYL hYP]
    · have hvia : ∀ d1 ∈ cl1 P, ∃ d' ∈ cl' P, d' ≤ d1 ∧
          (s1.chunks d1).limit ≤ (s'.chunks d').limit :=
        fun d1 hd1 => hcov' d1 (List.mem_append_right _ hd1)
      have hfirst' : ∀ d ∈ cl L ++ cl P, ∃ d' ∈ cl' P, d' ≤ d ∧
          (s.chunks d).limit ≤ (s'.chunks d').limit := fun d hd => by
        obtain ⟨d1, hd1, hle1, hl1⟩ := hcov1 d hd
        obtain ⟨d2, hd2, hle2, hl2⟩ := hvia d1 hd1
        exact ⟨d2, hd2, le_trans hle2 hle1, le_trans hl1 hl2⟩
      rw [List.flatMap_cons] at hd
      rcases List.mem_append.1 hd with hd | hd
      · rcases List.mem_append.1 hd with hd | hd
        · exact hfirst' d (List.mem_append_left _ hd)
        · obtain ⟨x, hx, hdx⟩ := List.mem_flatMap.1 hd
          obtain ⟨b1, b2⟩ := hdisj x hx d hdx
          obtain ⟨d', hd', hle, hl⟩ :=
            hcov' d (List.mem_append_left _ (by rw [hfm1]; exact hd))
          exact ⟨d', hd', hle, by rw [← (hkeep1 d b1 b2).2.2.2.1]; exact hl⟩
      · exact hfirst' d (List.mem_append_right _ hd)
    · rw [List.flatMap_cons]
      rcases hsub' d hd with hd | hd
      · rw [hfm1] at hd
        exact Or.inl (List.mem_append_right _ hd)
      · rcases hsub1 d hd with hd | hd
        · exact Or.inl (List.mem_append_left _ hd)
        · exact Or.inr hd
    · rw [List.flatMap_cons, List.mem_append, not_or] at hdc
      have hd1P : d ∉ cl1 P := fun hd => by
        rcases hsub1 d hd with hd | hd
        · exact hdc.1 hd
        · exact hdP hd
      exact (hkeep1 d hdc.1 hdP).step (hkeep' d (by rw [hfm1]; exact hdc.2) hd1P)
    · have hxL : x ≠ L := fun e => hx (e ▸ List.mem_cons_self _ _)
      have hxd : x ∉ det := fun hm => hx (List.mem_cons_of_mem _ hm)
      obtain ⟨a1, a2, a3⟩ := hfl' x hxd hxP
      obtain ⟨b1, b2, b3⟩ := hnodes1.2 x hxL hxP
      exact ⟨a1.trans b1, a2.trans b2, a3.trans b3⟩
    · rw [(hfalse' hfalse).1 d, (hfalse1 hfalse).1 d]
    · rw [(hfalse' hfalse).2, (hfalse1 hfalse).2, hfm1, List.flatMap_cons]
      simp

/-! ## `HM_freeChunks`: specification -/

/-- A strictly descending list of heads splits into the heads of level at least `minLevel`
and, behind them, the heads of a lower level. -/
theorem Descending.split_at (s : State) (minLevel : Nat) :
    ∀ (hs : List Ptr), Descending s hs →
      ∃ det kept, hs = det ++ kept ∧ (∀ h ∈ det, minLevel ≤ (s.lists h).level) ∧
        (∀ h ∈ kept, (s.lists h).level < minLevel) ∧
        kept = hs.filter (fun h => decide ((s.lists h).level < minLevel)) ∧
        det = hs.filter (fun h => decide (minLevel ≤ (s.lists h).level))
  | [], _ => ⟨[], [], rfl, fun _ h => absurd h (List.not_mem_nil _),
      fun _ h => absurd h (List.not_mem_nil _), rfl, rfl⟩
  | x :: xs, hd => by
    by_cases hx : (s.lists x).level < minLevel
    · have hall : ∀ h ∈ x :: xs, (s.lists h).level < minLevel := fun h hh => by
        rcases List.mem_cons.1 hh with e | hh
        · rw [e]; exact hx
        · exact lt_trans ((List.pairwise_cons.1 hd).1 h hh) hx
      refine ⟨[], x :: xs, rfl, fun _ h => absurd h (List.not_mem_nil _), hall, ?_, ?_⟩
      · exact (List.filter_eq_self.2 (fun h hh => by simpa using hall h hh)).symm
      · exact (List.filter_eq_nil_iff.2 (fun h hh => by
          have := hall h hh
          simp only [decide_eq_true_eq, not_le]
          exact this)).symm
    · obtain ⟨det, kept, he, h1, h2, h3, h4⟩ := Descending.split_at s minLevel xs
        (List.pairwise_cons.1 hd).2
      refine ⟨x :: det, kept, by rw [he]; rfl, fun h hh => ?_, h2, ?_, ?_⟩
      · rcases List.mem_cons.1 hh with e | hh
        · rw [e]; omega
        · exact h1 h hh
      · rw [List.filter_cons_of_neg (by simpa using hx)]
        exact h3
      · rw [List.filter_cons_of_pos (by simp; omega), ← h4]


theorem exists_length_bound (cl : Ptr → List Ptr) :
    ∀ (hs : List Ptr), ∃ M, ∀ h ∈ hs, (cl h).length < M
  | [] => ⟨0, fun _ h => absurd h (List.not_mem_nil _)⟩
  | x :: xs => by
    obtain ⟨M, hM⟩ := exists_length_bound cl xs
    refine ⟨M + (cl x).length + 1, fun h hh => ?_⟩
    rcases List.mem_cons.1 hh with e | hh
    · rw [e]; omega
    · have := hM h hh
      omega

/-- `HM_freeChunks` on a strictly descending level list `hs` of a well-formed heap with pool
`P`, all of whose chunks have been reset: with enough fuel it returns; the list pointer
becomes the first head of a level below `minLevel`, and the heads of a level below `minLevel`
are the level list, with their chunk lists and, the field `prevAdjacent` apart, their chunks
as before; the other heads are empty, and each of their chunks lies within a reset chunk of
the pool. Every chunk of the pool was in the pool or in a list of the level list, no limit
shrinks and a frontier stays or is reset. Without coalescing no `prevAdjacent` changes and
the freed chunks are appended to the pool in order. -/
theorem HM_freeChunks_spec (k : Consts) (s : State) (L P : Ptr) (hs : List Ptr)
    (cl : Ptr → List Ptr) (live : Ptr → Prop) (D minLevel : Nat) (coalesce : Bool)
    (hwf : HeapWF (P :: hs) cl live D s) (hL : LevelList s L hs) (hdesc : Descending s hs)
    (hPhs : P ∉ hs) (hreset : PoolReset k s (cl P)) :
    ∃ N, ∀ fuel, N ≤ fuel → ∃ s' ps',
      HM_freeChunks k fuel s L P minLevel coalesce = .ok (s',
        (hs.filter (fun h => decide ((s.lists h).level < minLevel))).head?.getD 0) ∧
      LevelList s' ((hs.filter (fun h => decide ((s.lists h).level < minLevel))).head?.getD 0)
        (hs.filter (fun h => decide ((s.lists h).level < minLevel))) ∧
      (∀ h ∈ hs, (s.lists h).level < minLevel →
        HeadWF s' h (cl h) ∧ PrevLinks s' 0 (cl h) ∧
        (s'.lists h).level = (s.lists h).level ∧ (s'.lists h).size = (s.lists h).size ∧
        ∀ c ∈ cl h, KeepChunk s s' c) ∧
      HeadWF s' P ps' ∧ PrevLinks s' 0 ps' ∧ PoolReset k s' ps' ∧
      (∀ h ∈ hs, minLevel ≤ (s.lists h).level →
        HeadWF s' h [] ∧
        ∀ c ∈ cl h, ∃ d ∈ ps', d ≤ c ∧ (s.chunks c).limit ≤ (s'.chunks d).limit) ∧
      Covers s s' (cl P) ps' ∧
      (coalesce = false →
        (∀ d, (s'.chunks d).prevAdjacent = (s.chunks d).prevAdjacent) ∧
          ps' = cl P ++
            (hs.filter (fun h => decide (minLevel ≤ (s.lists h).level))).flatMap cl) ∧
      (∀ d ∈ ps', d ∈ cl P ∨ ∃ h ∈ hs, d ∈ cl h) ∧
      Grows k s s' := by
  obtain ⟨det, kept, hsplit, hdet, hkept, hkeptf, hdetf⟩ :=
    Descending.split_at s minLevel hs hdesc
  obtain ⟨M, hM⟩ := exists_length_bound cl hs
  rw [← hkeptf, ← hdetf]
  have hPmem : P ∈ P :: hs := List.mem_cons_self _ _
  have hmemHS : ∀ h ∈ hs, h ∈ P :: hs := fun h hh => List.mem_cons_of_mem _ hh
  have hneP : ∀ h ∈ hs, h ≠ P := fun h hh e => hPhs (e ▸ hh)
  have hdetsub : ∀ h ∈ det, h ∈ hs := fun h hh => by
    rw [hsplit]; exact List.mem_append_left _ hh
  have hkeptsub : ∀ h ∈ kept, h ∈ hs := fun h hh => by
    rw [hsplit]; exact List.mem_append_right _ hh
  have hnd : (det ++ kept).Nodup := hsplit ▸ Path.nodup hL
  have hdk : ∀ h ∈ kept, h ∉ det := fun h hk hd =>
    (List.nodup_append.1 hnd).2.2 hd hk
  refine ⟨D + M + hs.length + 1, fun fuel hfuel => ?_⟩
  obtain ⟨s', cl', live', hrun, hwf', hcl', hoth', hreset', hcov', hsub', hkeep', hnh', hfl',
      hfalse', hgrow'⟩ :=
    HeapWF.freeChunks_lists k hPmem minLevel coalesce fuel (by omega) kept det cl live s fuel L hwf
      (hsplit ▸ hL)
      (fun h hh => ⟨hmemHS h (hdetsub h hh), hneP h (hdetsub h hh), hdet h hh, by
        have := hM h (hdetsub h hh)
        omega⟩)
      (fun h hh => hkept h (List.mem_of_mem_head? hh)) hreset (by
        have : det.length ≤ hs.length := by rw [hsplit]; simp
        omega)
  have hP0 : P ≠ 0 := (hwf.1 P hPmem).1.1.1
  obtain ⟨hPwf, hPpl, -⟩ := hwf'.1 P hPmem
  refine ⟨s', cl' P, ?_, ?_, fun h hh hlv => ?_, hPwf, hPpl, hreset', fun h hh hlv => ?_,
    fun d hd => hcov' d (List.mem_append_right _ hd), hfalse', fun d hd => ?_, hgrow'⟩
  · unfold HM_freeChunks
    simp only [hrun, if_neg hP0]
  · obtain ⟨m, hm⟩ := Path.tail_path det (hsplit ▸ hL)
    have hm' : LevelList s m kept := hm
    rw [← LevelList.head_eq hm']
    exact Path.congr (fun x _ => ((hnh' x).1).symm) (fun _ _ hx => hx) (fun hx => hx) hm
  · have hk : h ∈ kept := by
      rw [hsplit] at hh
      rcases List.mem_append.1 hh with hd | hk
      · exact absurd hlv (Nat.not_lt.2 (hdet h hd))
      · exact hk
    have hcle : cl' h = cl h := hoth' h (hdk h hk) (hneP h hh)
    obtain ⟨a1, a2, -⟩ := hwf'.1 h (hmemHS h hh)
    rw [hcle] at a1 a2
    refine ⟨a1, a2, (hnh' h).2, (hfl' h (hdk h hk) (hneP h hh)).2.2, fun c hc => ?_⟩
    refine hkeep' c (fun hm => ?_) (hwf.lists_disjoint (hmemHS h hh) hPmem (hneP h hh) hc)
    obtain ⟨x, hx, hcx⟩ := List.mem_flatMap.1 hm
    exact hwf.lists_disjoint (hmemHS h hh) (hmemHS x (hdetsub x hx))
      (fun e => hdk h hk (e ▸ hx)) hc hcx
  · have hd : h ∈ det := by
      rw [hsplit] at hh
      rcases List.mem_append.1 hh with hd | hk
      · exact hd
      · exact absurd (hkept h hk) (Nat.not_lt.2 hlv)
    obtain ⟨a1, -, -⟩ := hwf'.1 h (hmemHS h hh)
    rw [hcl' h hd] at a1
    exact ⟨a1, fun c hc =>
      hcov' c (List.mem_append_left _ (List.mem_flatMap.2 ⟨h, hd, hc⟩))⟩
  · rcases hsub' d hd with hd | hd
    · obtain ⟨x, hx, hdx⟩ := List.mem_flatMap.1 hd
      exact Or.inr ⟨x, hdetsub x hx, hdx⟩
    · exact Or.inl hd

/-! ## Claims on `HM_freeChunks` -/

theorem heapS4_resolves : ∀ h ∈ [9, 5, 6], ∀ c ∈ heapS4_chunks h, Resolves heapS4 c h := by
  intro h hh c hc
  simp only [List.mem_cons, List.mem_singleton, List.not_mem_nil, or_false] at hh
  rcases hh with rfl | rfl | rfl
  · simp only [heapS4_chunks, if_true, List.mem_singleton] at hc
    subst hc
    exact ⟨by decide, [], by decide⟩
  · have hc' : c = 65536 ∨ c = 69632 := by simpa [heapS4_chunks] using hc
    rcases hc' with rfl | rfl <;> exact ⟨by decide, [], by decide⟩
  · have hc' : c = 73728 := by simpa [heapS4_chunks] using hc
    subst hc'
    exact ⟨by decide, [], by decide⟩

theorem heapS4_wf :
    HeapWF [9, 5, 6] heapS4_chunks (fun a => a ∈ [61440, 65536, 69632, 73728]) 1 heapS4 := by
  have hlive : ∀ a, a ∈ [61440, 65536, 69632, 73728] →
      a = 61440 ∨ a = 65536 ∨ a = 69632 ∨ a = 73728 := fun a ha => by simpa using ha
  refine ⟨fun h hh => ?_, fun h hh a ha hr => ?_, fun a ha => ?_, fun a ha => ?_,
    fun a ha => ?_⟩
  · refine ⟨⟨?_, ?_, ?_, heapS4_resolves h hh⟩, ?_, ?_⟩ <;>
      · simp only [List.mem_cons, List.mem_singleton, List.not_mem_nil, or_false] at hh
        rcases hh with rfl | rfl | rfl <;> decide
  · have key : ∀ h' ∈ [9, 5, 6], a ∈ heapS4_chunks h' → a ∈ heapS4_chunks h :=
      fun h' hh' ha' => by
        rw [← Resolves.unique (heapS4_resolves h' hh' a ha') hr]
        exact ha'
    rcases hlive a ha with rfl | rfl | rfl | rfl
    · exact key 9 (by decide) (by decide)
    · exact key 5 (by decide) (by decide)
    · exact key 5 (by decide) (by decide)
    · exact key 6 (by decide) (by decide)
  · rcases hlive a ha with rfl | rfl | rfl | rfl
    · exact ⟨[], 9, by decide, by decide⟩
    · exact ⟨[], 5, by decide, by decide⟩
    · exact ⟨[], 5, by decide, by decide⟩
    · exact ⟨[], 6, by decide, by decide⟩
  · rcases hlive a ha with rfl | rfl | rfl | rfl <;> decide
  · rcases hlive a ha with rfl | rfl | rfl | rfl <;> decide

/-- C16 (amended): on a well-formed heap with a strictly descending level list `hs` and a
free pool `P` of reset chunks, `HM_freeChunks(levelList, P, minLevel, coalesce)` with enough
fuel returns; the list pointer becomes the first head of a level below `minLevel` (`NULL` if
there is none), the level list is then exactly the heads of a level below `minLevel`, whose
chunk lists are as before and whose chunks keep every field except `prevAdjacent` (which
changes only under `coalesce`); and every chunk of a detached head lies within a chunk of the
pool that has its frontier at the payload start and `mightContainMultipleObjects` set. -/
theorem HM_freeChunks_frees (k : Consts) (s : State) (L P : Ptr) (hs : List Ptr)
    (cl : Ptr → List Ptr) (live : Ptr → Prop) (D minLevel : Nat) (coalesce : Bool)
    (hwf : HeapWF (P :: hs) cl live D s) (hL : LevelList s L hs) (hdesc : Descending s hs)
    (hPhs : P ∉ hs) (hreset : PoolReset k s (cl P)) :
    ∃ N, ∀ fuel, N ≤ fuel → ∃ s' ps',
      HM_freeChunks k fuel s L P minLevel coalesce = .ok (s',
        (hs.filter (fun h => decide ((s.lists h).level < minLevel))).head?.getD 0) ∧
      LevelList s' ((hs.filter (fun h => decide ((s.lists h).level < minLevel))).head?.getD 0)
        (hs.filter (fun h => decide ((s.lists h).level < minLevel))) ∧
      (∀ h ∈ hs, (s.lists h).level < minLevel →
        HeadWF s' h (cl h) ∧ (s'.lists h).level = (s.lists h).level ∧
        ∀ c ∈ cl h, KeepChunk s s' c ∧
          (coalesce = false → (s'.chunks c).prevAdjacent = (s.chunks c).prevAdjacent)) ∧
      HeadWF s' P ps' ∧
      (∀ h ∈ hs, minLevel ≤ (s.lists h).level →
        HeadWF s' h [] ∧
        ∀ c ∈ cl h, ∃ d ∈ ps', d ≤ c ∧ (s.chunks c).limit ≤ (s'.chunks d).limit ∧
          (s'.chunks d).frontier = HM_getChunkStart k d ∧
          (s'.chunks d).mightContainMultipleObjects = true) := by
  obtain ⟨N, hN⟩ := HM_freeChunks_spec k s L P hs cl live D minLevel coalesce hwf hL hdesc hPhs
    hreset
  refine ⟨N, fun fuel hfuel => ?_⟩
  obtain ⟨s', ps', hrun, hlist, hkept, hPwf, -, hres, hdet, -, hfalse, -, -⟩ := hN fuel hfuel
  refine ⟨s', ps', hrun, hlist, fun h hh hlv => ?_, hPwf, fun h hh hlv => ?_⟩
  · obtain ⟨a1, -, a3, -, a5⟩ := hkept h hh hlv
    exact ⟨a1, a3, fun c hc => ⟨a5 c hc, fun hf => (hfalse hf).1 c⟩⟩
  · obtain ⟨a1, a2⟩ := hdet h hh hlv
    refine ⟨a1, fun c hc => ?_⟩
    obtain ⟨d, hd, hle, hlim⟩ := a2 c hc
    exact ⟨d, hd, hle, hlim, hres d hd⟩

theorem HM_freeChunks_frees_witness :
    ∃ N, ∀ fuel, N ≤ fuel → ∃ s' ps',
      HM_freeChunks ⟨64, 99⟩ fuel heapS4 5 9 2 true = .ok (s',
        ([5, 6].filter (fun h => decide ((heapS4.lists h).level < 2))).head?.getD 0) ∧
      LevelList s' (([5, 6].filter (fun h => decide ((heapS4.lists h).level < 2))).head?.getD 0)
        ([5, 6].filter (fun h => decide ((heapS4.lists h).level < 2))) ∧
      (∀ h ∈ [5, 6], (heapS4.lists h).level < 2 →
        HeadWF s' h (heapS4_chunks h) ∧ (s'.lists h).level = (heapS4.lists h).level ∧
        ∀ c ∈ heapS4_chunks h, KeepChunk heapS4 s' c ∧
          (true = false → (s'.chunks c).prevAdjacent = (heapS4.chunks c).prevAdjacent)) ∧
      HeadWF s' 9 ps' ∧
      (∀ h ∈ [5, 6], 2 ≤ (heapS4.lists h).level →
        HeadWF s' h [] ∧
        ∀ c ∈ heapS4_chunks h, ∃ d ∈ ps', d ≤ c ∧
          (heapS4.chunks c).limit ≤ (s'.chunks d).limit ∧
          (s'.chunks d).frontier = HM_getChunkStart ⟨64, 99⟩ d ∧
          (s'.chunks d).mightContainMultipleObjects = true) :=
  HM_freeChunks_frees ⟨64, 99⟩ heapS4 5 9 [5, 6] heapS4_chunks
    (fun a => a ∈ [61440, 65536, 69632, 73728]) 1 2 true heapS4_wf (by decide) (by decide)
    (by decide) (fun d hd => by
      have hd' : d = 61440 := by simpa [heapS4_chunks] using hd
      subst hd'
      decide)

/-- C16, as stated, fails: in `heapS4` the chunks `65536` and `69632` of the head `5` of
level 2 are freed with coalescing into the pool chunk `61440` before them, and the chunk
`73728` of the retained head `6` of level 1 gets a new `prevAdjacent`. -/
theorem HM_freeChunks_frees_counterexample :
    LevelList heapS4 5 [5, 6] ∧ Descending heapS4 [5, 6] ∧ (heapS4.lists 6).level < 2 ∧
      73728 ∈ heapS4_chunks 6 ∧
      ∃ s', HM_freeChunks ⟨64, 99⟩ 5 heapS4 5 9 2 true = .ok (s', 6) ∧
        (heapS4.chunks 73728).prevAdjacent = 69632 ∧ (s'.chunks 73728).prevAdjacent = 61440 ∧
        s'.chunks 73728 ≠ heapS4.chunks 73728 :=
  ⟨by decide, by decide, by decide, by decide, _, rfl, by decide, by decide,
    fun e => absurd (congrArg HM_chunk.prevAdjacent e) (by decide)⟩

/-! ## `HM_freeChunks`: freeing the front piece of a split chunk -/

/-- The lookup `HM_getLevelHead_loop` reads the `parent` fields only. -/
theorem HM_getLevelHead_loop_congr {s s' : State}
    (hp : ∀ n, (s'.lists n).parent = (s.lists n).parent) :
    ∀ (fuel : Nat) (n : Ptr), HM_getLevelHead_loop fuel s' n = HM_getLevelHead_loop fuel s n
  | 0, _ => rfl
  | fuel + 1, n => by
    simp only [HM_getLevelHead_loop, hp n]
    by_cases h : n ≠ 0 ∧ (s.lists n).parent ≠ n
    · rw [if_pos h, if_pos h]
      exact HM_getLevelHead_loop_congr hp fuel _
    · rw [if_neg h, if_neg h]

theorem HM_getLevelHead_congr {s s' : State} {a : Ptr}
    (hl : (s'.chunks a).levelHead = (s.chunks a).levelHead)
    (hp : ∀ n, (s'.lists n).parent = (s.lists n).parent) (fuel : Nat) :
    HM_getLevelHead fuel s' a = HM_getLevelHead fuel s a := by
  unfold HM_getLevelHead
  rw [hl, HM_getLevelHead_loop_congr hp]

/-- A path compression from a chunk whose `levelHead` is a root changes no list node. -/
theorem Compressed.lists_of_nil {s s0 : State} {c R : Ptr} (h : Compressed s s0 c R []) :
    ∀ n, s0.lists n = s.lists n := fun n => h.2.2.2 n (List.not_mem_nil _)

/-- The free pool `P` with the single chunk `sp` stays as it is when the single chunk `c` of
another head `L` is unlinked and reset. -/
theorem HM_freeChunks_single_unlink (fuel : Nat) (t : State) (L P c sp : Ptr)
    (hL : HeadWF t L [c]) (hLp : PrevLinks t 0 [c]) (hLc : (t.chunks c).levelHead = L)
    (hP : HeadWF t P [sp]) (hPp : PrevLinks t 0 [sp]) (hLP : L ≠ P) (hcsp : c ≠ sp)
    (hf : 0 < fuel) :
    ∃ t1, HM_unlinkChunk fuel t c = .ok t1 ∧
      HeadWF t1 L [] ∧ HeadWF t1 P [sp] ∧ PrevLinks t1 0 [sp] ∧
      ((t1.chunks c).nextChunk = 0 ∧ (t1.chunks c).prevChunk = 0 ∧
        (t1.chunks c).levelHead = 0) ∧
      (∀ d, d ≠ c → (t1.chunks d).levelHead = (t.chunks d).levelHead) ∧
      (∀ d, (t1.chunks d).limit = (t.chunks d).limit ∧
        (t1.chunks d).frontier = (t.chunks d).frontier ∧
        (t1.chunks d).nextAdjacent = (t.chunks d).nextAdjacent ∧
        (t1.chunks d).prevAdjacent = (t.chunks d).prevAdjacent ∧
        (t1.chunks d).mightContainMultipleObjects =
          (t.chunks d).mightContainMultipleObjects) ∧
      (∀ n, (t1.lists n).parent = (t.lists n).parent ∧
        (t1.lists n).nextHead = (t.lists n).nextHead ∧
        (t1.lists n).level = (t.lists n).level) ∧
      (t1.lists P).size = (t.lists P).size ∧
      (t1.lists L).size = ((t.lists L).size + W64 - HM_getChunkSize t c) % W64 := by
  obtain ⟨t0, t1, hC, hrun, hwf, -, hun, hsz, hlk, hlh, hat, hmeta, hoth⟩ :=
    HM_unlinkChunk_spec t L c [] [] [] fuel hL hLp (root_parentPath hL.1 hLc) hf
  have hl0 := hC.lists_of_nil
  have hpar : ∀ n, (t1.lists n).parent = (t.lists n).parent := fun n => by
    rw [(hmeta n).1, hl0 n]
  have hspc : sp ∉ ([] : List Ptr) ++ c :: [] := by
    simp only [List.nil_append, List.mem_singleton]
    exact fun e => hcsp e.symm
  refine ⟨t1, hrun, hwf, ?_, ?_, hun, hlh, hat, fun n => ⟨hpar n, (hmeta n).2.1, (hmeta n).2.2.1⟩,
    (hoth P (Ne.symm hLP)).2.2, hsz⟩
  · refine hP.of_fields (fun d hd => ?_) hpar (hoth P (Ne.symm hLP)).1
      (hoth P (Ne.symm hLP)).2.1
    rw [List.mem_singleton.1 hd]
    exact ⟨(hlk sp hspc).1, hlh sp (Ne.symm hcsp)⟩
  · exact PrevLinks.congr_prev (fun d hd => by
      rw [List.mem_singleton.1 hd]; exact (hlk sp hspc).2) hPp


/-- The body of the inner loop of `HM_freeChunks` with coalescing on the single chunk `c` of
the head `L`, when the chunk `sp` after `c` in memory is the single chunk of the pool `P` and
the chunk before `c` in memory, if any, is not in the pool: `c` swallows `sp` and becomes the
single chunk of the pool. -/
theorem HM_freeChunks_body_single (k : Consts) (fuel : Nat) (t : State) (L P c sp : Ptr)
    (hL : HeadWF t L [c]) (hLp : PrevLinks t 0 [c]) (hLc : (t.chunks c).levelHead = L)
    (hP : HeadWF t P [sp]) (hPp : PrevLinks t 0 [sp]) (hPs : (t.chunks sp).levelHead = P)
    (hLP : L ≠ P) (hcsp : c ≠ sp) (hnx : (t.chunks c).nextAdjacent = sp)
    (hsn : (t.chunks sp).nextAdjacent ≠ c)
    (hpa : (t.chunks c).prevAdjacent = 0 ∨ ((t.chunks c).prevAdjacent ≠ c ∧
      ∃ e, HM_getLevelHead fuel t (t.chunks c).prevAdjacent = .ok e ∧ e ≠ P))
    (hf : 0 < fuel) :
    ∃ t', HM_freeChunks_body k fuel t P true c = .ok t' ∧
      HeadWF t' P [c] ∧ PrevLinks t' 0 [c] ∧ HeadWF t' L [] ∧
      (t'.chunks c).limit = (t.chunks sp).limit ∧
      (t'.chunks c).frontier = HM_getChunkStart k c ∧
      (t'.chunks c).mightContainMultipleObjects = true ∧
      (t'.chunks c).nextAdjacent = (t.chunks sp).nextAdjacent ∧
      (t'.chunks c).prevAdjacent = (t.chunks c).prevAdjacent ∧
      (t'.lists P).size = (((t.lists P).size + W64 - HM_getChunkSize t sp) % W64 +
        ((t.chunks sp).limit + W64 - c % W64) % W64) % W64 ∧
      (t'.lists L).size = ((t.lists L).size + W64 - HM_getChunkSize t c) % W64 ∧
      (∀ n, (t'.lists n).nextHead = (t.lists n).nextHead ∧
        (t'.lists n).level = (t.lists n).level) := by
  have hc0 : c ≠ 0 := Path.ne_zero_of_mem hL.2.1 c (List.mem_singleton.2 rfl)
  have hsp0 : sp ≠ 0 := Path.ne_zero_of_mem hP.2.1 sp (List.mem_singleton.2 rfl)
  obtain ⟨t1, hrun1, hL1, hP1, hPp1, hun1, hlh1, hat1, hmeta1, hszP1, hszL1⟩ :=
    HM_freeChunks_single_unlink fuel t L P c sp hL hLp hLc hP hPp hLP hcsp hf
  obtain ⟨hf3, hfr3, hfl3, hoth3, hlists3⟩ := reset_fields t1 c (HM_getChunkStart k c)
  obtain ⟨t3, ht3⟩ : ∃ t3, t3 =
      (t1.setFrontier c (HM_getChunkStart k c)).setMightContainMultipleObjects c true :=
    ⟨_, rfl⟩
  rw [← ht3] at hf3 hfr3 hfl3 hoth3 hlists3
  have hpar3 : ∀ n, (t3.lists n).parent = (t.lists n).parent := fun n => by
    rw [hlists3]; exact (hmeta1 n).1
  have hL3 : HeadWF t3 L [] :=
    hL1.of_fields (fun d hd => absurd hd (List.not_mem_nil _)) (fun n => by rw [hlists3])
      (by rw [hlists3]) (by rw [hlists3])
  have hP3 : HeadWF t3 P [sp] :=
    hP1.of_fields (fun d _ => ⟨(hf3 d).1, (hf3 d).2.2.1⟩) (fun n => by rw [hlists3])
      (by rw [hlists3]) (by rw [hlists3])
  have hPp3 : PrevLinks t3 0 [sp] := PrevLinks.congr_prev (fun d _ => (hf3 d).2.1) hPp1
  have hPs3 : (t3.chunks sp).levelHead = P := by
    rw [(hf3 sp).2.2.1, hlh1 sp (Ne.symm hcsp)]; exact hPs
  have hpa3 : (t3.chunks c).prevAdjacent = (t.chunks c).prevAdjacent := by
    rw [(hf3 c).2.2.2.2.2, (hat1 c).2.2.2.1]
  have hna3 : (t3.chunks c).nextAdjacent = sp := by
    rw [(hf3 c).2.2.2.2.1, (hat1 c).2.2.1]; exact hnx
  -- the chunk before `c` in memory is not in the pool
  have hprevrun : HM_freeChunks_coalescePrev fuel t3 P c = .ok (t3, c) := by
    unfold HM_freeChunks_coalescePrev
    rw [hpa3]
    rcases hpa with h0 | ⟨hne, e, hget, heP⟩
    · rw [if_pos h0]
    · by_cases h0 : (t.chunks c).prevAdjacent = 0
      · rw [if_pos h0]
      · rw [if_neg h0, HM_getLevelHead_congr (by rw [(hf3 _).2.2.1, hlh1 _ hne]) hpar3, hget]
        simp only [if_neg heP]
  -- the chunk after `c` in memory is the chunk `sp` of the pool
  obtain ⟨t0, t4, hC4, hrun4, hP4, -, hun4, hsz4, hlk4, hlh4, hat4, hmeta4, hoth4⟩ :=
    HM_unlinkChunk_spec t3 P sp [] [] [] fuel hP3 hPp3 (root_parentPath hP3.1 hPs3) hf
  have hl04 := hC4.lists_of_nil
  have hna4 : (t4.chunks c).nextAdjacent = sp := by rw [(hat4 c).2.2.1]; exact hna3
  obtain ⟨t5, hrun5, hlists5, hlim5, hnad5, hpad5, hrest5⟩ :=
    HM_coalesceChunks_fields t4 c sp hc0 hsp0
  have hnextrun : HM_freeChunks_coalesceNext fuel t3 P c = .ok t5 := by
    unfold HM_freeChunks_coalesceNext
    rw [hna3, if_neg hsp0,
      HM_getLevelHead_of_resolves t3 sp P [] fuel hsp0 (root_parentPath hP3.1 hPs3) hf]
    simp only [if_true, hrun4, hna4]
    exact hrun5
  have hP5 : HeadWF t5 P [] :=
    hP4.of_fields (fun d hd => absurd hd (List.not_mem_nil _)) (fun n => by rw [hlists5])
      (by rw [hlists5]) (by rw [hlists5])
  have hnc5 : (t5.chunks c).nextChunk = 0 := by
    rw [(hrest5 c).1, (hlk4 c (by simpa using hcsp)).1, (hf3 c).1]; exact hun1.1
  obtain ⟨t6, hrun6, hP6, hPp6, -, hsz6, -, -, hat6, hmeta6, hoth6⟩ :=
    HM_appendChunk_spec t5 P c [] hP5 trivial hc0 (List.not_mem_nil _) hnc5
  have hlimsp : (t4.chunks sp).limit = (t.chunks sp).limit := by
    rw [(hat4 sp).1, (hf3 sp).2.2.2.1, (hat1 sp).1]
  have hnasp : (t4.chunks sp).nextAdjacent = (t.chunks sp).nextAdjacent := by
    rw [(hat4 sp).2.2.1, (hf3 sp).2.2.2.2.1, (hat1 sp).2.2.1]
  refine ⟨t6, ?_, hP6, hPp6, ?_, ?_, ?_, ?_, ?_, ?_, ?_, ?_, fun n => ?_⟩
  · unfold HM_freeChunks_body
    simp only [hrun1, ← ht3, hprevrun, hnextrun, if_true]
    exact hrun6
  · refine hL3.of_fields (fun d hd => absurd hd (List.not_mem_nil _)) (fun n => ?_) ?_ ?_
    · rw [(hmeta6 n).1, hlists5, (hmeta4 n).1, hl04 n]
    · rw [hoth6 L hLP, hlists5, (hoth4 L hLP).1]
    · rw [hoth6 L hLP, hlists5, (hoth4 L hLP).2.1]
  · rw [(hat6 c).1, hlim5 c, if_pos rfl, hlimsp]
  · rw [(hat6 c).2.1, (hrest5 c).2.2.2.1, (hat4 c).2.1]; exact hfr3
  · rw [(hat6 c).2.2.2.2, (hrest5 c).2.2.2.2, (hat4 c).2.2.2.2]; exact hfl3
  · rw [(hat6 c).2.2.1, hnad5 c, if_pos rfl, hnasp]
  · rw [(hat6 c).2.2.2.1, hpad5 c, hnasp, if_neg (fun h => hsn h.2.symm), (hat4 c).2.2.2.1,
      hpa3]
  · rw [hsz6, hlists5, hsz4, hlists3, hszP1]
    unfold HM_getChunkSize
    rw [hlim5 c, if_pos rfl, hlimsp, (hf3 sp).2.2.2.1, (hat1 sp).1]
  · rw [hoth6 L hLP, hlists5, (hoth4 L hLP).2.2, hlists3, hszL1]
  · rw [(hmeta6 n).2.1, (hmeta6 n).2.2.1, hlists5, (hmeta4 n).2.1, (hmeta4 n).2.2.1, hlists3]
    exact ⟨(hmeta1 n).2.1, (hmeta1 n).2.2⟩


/-- `HM_freeChunks` with coalescing on a level list whose first head `L` has the single chunk
`c` and is the only head to free, when the chunk `sp` after `c` in memory is the single
chunk of the pool `P`: afterwards `c`, extended over `sp`, is the single chunk of the pool. -/
theorem HM_freeChunks_single (k : Consts) (fuel : Nat) (t : State) (L P c sp : Ptr)
    (minLevel : Nat)
    (hL : HeadWF t L [c]) (hLp : PrevLinks t 0 [c]) (hLc : (t.chunks c).levelHead = L)
    (hP : HeadWF t P [sp]) (hPp : PrevLinks t 0 [sp]) (hPs : (t.chunks sp).levelHead = P)
    (hLP : L ≠ P) (hcsp : c ≠ sp) (hnx : (t.chunks c).nextAdjacent = sp)
    (hsn : (t.chunks sp).nextAdjacent ≠ c)
    (hpa : (t.chunks c).prevAdjacent = 0 ∨ ((t.chunks c).prevAdjacent ≠ c ∧
      ∃ e, HM_getLevelHead fuel t (t.chunks c).prevAdjacent = .ok e ∧ e ≠ P))
    (hlev : minLevel ≤ (t.lists L).level)
    (hnext : (t.lists L).nextHead = 0 ∨ (t.lists (t.lists L).nextHead).level < minLevel)
    (hf : 2 ≤ fuel) :
    ∃ t', HM_freeChunks k fuel t L P minLevel true = .ok (t', (t.lists L).nextHead) ∧
      HeadWF t' P [c] ∧ PrevLinks t' 0 [c] ∧ HeadWF t' L [] ∧
      (t'.chunks c).limit = (t.chunks sp).limit ∧
      (t'.chunks c).frontier = HM_getChunkStart k c ∧
      (t'.chunks c).mightContainMultipleObjects = true ∧
      (t'.chunks c).nextAdjacent = (t.chunks sp).nextAdjacent ∧
      (t'.chunks c).prevAdjacent = (t.chunks c).prevAdjacent ∧
      (t'.lists P).size = (((t.lists P).size + W64 - HM_getChunkSize t sp) % W64 +
        ((t.chunks sp).limit + W64 - c % W64) % W64) % W64 ∧
      (t'.lists L).size = ((t.lists L).size + W64 - HM_getChunkSize t c) % W64 := by
  obtain ⟨t', hrun, hP', hPp', hL', h1, h2, h3, h4, h5, h6, h7, hnodes⟩ :=
    HM_freeChunks_body_single k fuel t L P c sp hL hLp hLc hP hPp hPs hLP hcsp hnx hsn hpa
      (by omega)
  refine ⟨t', ?_, hP', hPp', hL', h1, h2, h3, h4, h5, h6, h7⟩
  obtain ⟨f, rfl⟩ : ∃ f, fuel = f + 2 := ⟨fuel - 2, by omega⟩
  have hc0 : c ≠ 0 := Path.ne_zero_of_mem hL.2.1 c (List.mem_singleton.2 rfl)
  have hfirst : (t.lists L).firstChunk = c := ChunkSeq.first_eq hL.2.1
  have hnc : (t.chunks c).nextChunk = 0 := ChunkSeq.first_eq hL.2.1.2.2
  have hinner : HM_freeChunks_chunks k (f + 2) (f + 2) t P true c = .ok t' := by
    rw [HM_freeChunks_chunks, if_pos hc0]
    simp only [hrun, hnc]
    rw [HM_freeChunks_chunks, if_neg (by simp)]
  have hcond : ¬ ((t.lists L).nextHead ≠ 0 ∧
      (t'.lists (t.lists L).nextHead).level ≥ minLevel) := by
    rintro ⟨h0, hlv⟩
    rw [(hnodes _).2] at hlv
    rcases hnext with h | h
    · exact h0 h
    · omega
  have hP0 : P ≠ 0 := hP.1.1
  unfold HM_freeChunks
  rw [HM_freeChunks_lists, if_pos ⟨hL.1.1, hlev⟩, hfirst]
  simp only [hinner, (hnodes L).1]
  rw [HM_freeChunks_lists, if_neg hcond]
  simp only [if_neg hP0]

/-! ## Allocate, link, free -/

theorem HeadWF.nil_of {s : State} {L : Ptr} (h : isLevelHead s L)
    (hf : (s.lists L).firstChunk = 0) (hl : (s.lists L).lastChunk = 0) : HeadWF s L [] :=
  ⟨h, ⟨hf, rfl⟩, hl, fun _ hd => absurd hd (List.not_mem_nil _)⟩

theorem roundtrip_size (c sp lim : Nat) (_h1 : c < sp) (_h2 : sp < lim) (h3 : lim < W64) :
    ((((lim - c) + W64 - (sp + W64 - c % W64) % W64) % W64 + W64 -
      (lim + W64 - sp % W64) % W64) % W64 + (lim + W64 - c % W64) % W64) % W64 = lim - c := by
  unfold W64 at *; omega

/-- Allocate, link, free: the first chunk `c` of the pool `P`, its only chunk, is split at
`sp` by the tail of `HM_getFreeChunk`; the front piece is appended to the empty head `L`,
the only head that `HM_freeChunks` with coalescing then frees. Afterwards `c` with its old
limit is again the only chunk of the pool. -/
theorem take_link_free (k : Consts) (bs fuel : Nat) (g : GC_state) (s : State) (P L : Ptr)
    (c sp lim : Nat) (path : List Ptr) (n minLevel : Nat)
    (hP : HeadWF s P [c]) (hprev : PrevLinks s 0 [c])
    (hpath : ParentPath s (s.chunks c).levelHead path P) (hf : path.length < fuel)
    (hf2 : 2 ≤ fuel) (hL : isLevelHead s L) (hLP : L ≠ P)
    (hLf : (s.lists L).firstChunk = 0) (hLl : (s.lists L).lastChunk = 0)
    (hlev : minLevel ≤ (s.lists L).level)
    (hnext : (s.lists L).nextHead = 0 ∨ (s.lists (s.lists L).nextHead).level < minLevel)
    (hsp : align ((s.chunks c).frontier + n) bs = sp) (hlim : (s.chunks c).limit = lim)
    (hcsp : c < sp) (hspl : sp < lim) (hlimW : lim < W64)
    (hsize : (s.lists P).size = lim - c)
    (hna : (s.chunks c).nextAdjacent = 0 ∨ (s.chunks c).nextAdjacent = lim)
    (hpa : (s.chunks c).prevAdjacent = 0 ∨ ((s.chunks c).prevAdjacent < c ∧
      ∃ q e, Path (fun x => (s.lists x).parent) (isRootOrNull s)
        (s.chunks (s.chunks c).prevAdjacent).levelHead q e ∧ e ≠ P ∧ q.length < fuel)) :
    ∃ s1 s2 s3, HM_getFreeChunk_take k bs fuel g s c n = .ok (g, s1, c) ∧
      HM_appendChunk s1 L c = .ok s2 ∧
      HeadWF s2 P [sp] ∧ HeadWF s2 L [c] ∧ (s2.chunks c).limit = sp ∧
      (s2.chunks sp).limit = lim ∧
      HM_freeChunks k fuel s2 L P minLevel true = .ok (s3, (s.lists L).nextHead) ∧
      HeadWF s3 P [c] ∧ PrevLinks s3 0 [c] ∧ HeadWF s3 L [] ∧ (s3.chunks c).limit = lim ∧
      (s3.chunks c).frontier = HM_getChunkStart k c ∧
      (s3.chunks c).mightContainMultipleObjects = true ∧
      (s3.chunks c).nextAdjacent = (s.chunks c).nextAdjacent ∧
      (s3.chunks c).prevAdjacent = (s.chunks c).prevAdjacent ∧
      (s3.lists P).size = lim - c ∧ (s3.lists L).size = (s.lists L).size % W64 := by
  have hc0 : (c : Ptr) ≠ 0 := Path.ne_zero_of_mem hP.2.1 c (List.mem_singleton.2 rfl)
  have hcsp' : (c : Ptr) ≠ sp := Nat.ne_of_lt hcsp
  have hsp0 : (sp : Ptr) ≠ 0 := Nat.pos_iff_ne_zero.1 (Nat.lt_of_le_of_lt (Nat.zero_le c) hcsp)
  obtain ⟨s0, s1, hC, hrun1, hP1, hPp1, hun1, hlh1, ⟨hl1, hl2, -, -⟩, hsz1, -, -, hna1, hpa1,
      hlhsp1, hlk1, hlhf1, hmeta1, hoth1⟩ :=
    HM_getFreeChunk_take_front k bs fuel g s P c sp [] path n hP hprev hpath hf hsp
      (by rw [hlim]; exact Nat.ne_of_lt hspl) hsp0
      (by rw [List.mem_singleton]; exact Nat.ne_of_gt hcsp)
  have hL0 : isLevelHead s0 L := (hC.isLevelHead_iff L).2 hL
  have hL1 : HeadWF s1 L [] :=
    HeadWF.nil_of ⟨hL.1, by rw [(hmeta1 L).1]; exact hL0.2⟩
      (by rw [(hoth1 L hLP).1]; exact hLf) (by rw [(hoth1 L hLP).2.1]; exact hLl)
  obtain ⟨s2, hrun2, hL2, hLp2, hLc2, hszL2, hfr2, hnxt2, hat2, hmeta2, hoth2⟩ :=
    HM_appendChunk_spec s1 L c [] hL1 trivial hc0 (List.not_mem_nil _) hun1.2
  have hpar2 : ∀ m, (s2.lists m).parent = (s0.lists m).parent := fun m => by
    rw [(hmeta2 m).1, (hmeta1 m).1]
  have hP2 : HeadWF s2 P [sp] :=
    hP1.of_fields (fun d hd => by
        rw [List.mem_singleton.1 hd]
        exact ⟨hnxt2 sp (List.not_mem_nil _), (hfr2 sp (Ne.symm hcsp')).2⟩)
      (fun m => (hmeta2 m).1) (by rw [hoth2 P (Ne.symm hLP)]) (by rw [hoth2 P (Ne.symm hLP)])
  have hPp2 : PrevLinks s2 0 [sp] := PrevLinks.congr_prev (fun d hd => by
    rw [List.mem_singleton.1 hd]; exact (hfr2 sp (Ne.symm hcsp')).1) hPp1
  have hnac : (s.chunks c).nextAdjacent ≠ c ∧ (s.chunks c).nextAdjacent ≠ sp := by
    rcases hna with h | h
    · rw [h]; exact ⟨Ne.symm hc0, Ne.symm hsp0⟩
    · rw [h]; exact ⟨Nat.ne_of_gt (lt_trans hcsp hspl), Nat.ne_of_gt hspl⟩
  have hnx2 : (s2.chunks c).nextAdjacent = sp := by
    rw [(hat2 c).2.2.1, hna1 c, if_pos rfl]
  have hnsp2 : (s2.chunks sp).nextAdjacent = (s.chunks c).nextAdjacent := by
    rw [(hat2 sp).2.2.1, hna1 sp, if_neg (Ne.symm hcsp'), if_pos rfl]
  have hpa2 : (s2.chunks c).prevAdjacent = (s.chunks c).prevAdjacent := by
    rw [(hat2 c).2.2.2.1, hpa1 c, if_neg hcsp', if_neg (fun h => hnac.1 h.2.symm)]
  have hlimsp2 : (s2.chunks sp).limit = lim := by rw [(hat2 sp).1, hl2, hlim]
  have hlimc2 : (s2.chunks c).limit = sp := by rw [(hat2 c).1, hl1]
  have hpa' : (s2.chunks c).prevAdjacent = 0 ∨ ((s2.chunks c).prevAdjacent ≠ c ∧
      ∃ e, HM_getLevelHead fuel s2 (s2.chunks c).prevAdjacent = .ok e ∧ e ≠ P) := by
    rw [hpa2]
    rcases hpa with h | ⟨hlt, q, e, hq, heP, hql⟩
    · exact Or.inl h
    · by_cases h0 : (s.chunks c).prevAdjacent = 0
      · exact Or.inl h0
      · have hpc : (s.chunks c).prevAdjacent ≠ c := Nat.ne_of_lt hlt
        have hps : (s.chunks c).prevAdjacent ≠ sp := by
          have : (s.chunks c).prevAdjacent < sp := lt_trans hlt hcsp
          exact Nat.ne_of_lt this
        obtain ⟨q', hq', hle⟩ := hC.chain q _ e hq
        refine Or.inr ⟨hpc, e, ?_, heP⟩
        unfold HM_getLevelHead
        rw [if_neg h0, (hfr2 _ hpc).2, hlhf1 _ hpc hps, HM_getLevelHead_loop_congr hpar2]
        exact HM_getLevelHead_loop_of_path s0 q' _ e fuel hq' (by omega)
  obtain ⟨s3, hrun3, hP3, hPp3, hL3, h1, h2, h3, h4, h5, h6, h7⟩ :=
    HM_freeChunks_single k fuel s2 L P c sp minLevel hL2 hLp2 hLc2 hP2 hPp2
      (by rw [(hfr2 sp (Ne.symm hcsp')).2]; exact hlhsp1) hLP hcsp' hnx2
      (by rw [hnsp2]; exact hnac.1) hpa'
      (by rw [(hmeta2 L).2.2.1, (hmeta1 L).2.2.1]; exact hlev)
      (by
        rw [(hmeta2 L).2.1, (hmeta1 L).2.1, (hmeta2 _).2.2.1, (hmeta1 _).2.2.1]
        exact hnext) hf2
  refine ⟨s1, s2, s3, hrun1, hrun2, hP2, hL2, hlimc2, hlimsp2, ?_, hP3, hPp3, hL3, ?_, h2, h3,
    ?_, ?_, ?_, ?_⟩
  · rw [hrun3, (hmeta2 L).2.1, (hmeta1 L).2.1]
  · rw [h1, hlimsp2]
  · rw [h4, hnsp2]
  · rw [h5, hpa2]
  · rw [h6, hlimsp2, hoth2 P (Ne.symm hLP), hsz1, hsize]
    unfold HM_getChunkSize
    rw [hlimsp2]
    exact roundtrip_size c sp lim hcsp hspl hlimW
  · rw [h7, hszL2, (hoth1 L hLP).2.2]
    unfold HM_getChunkSize
    rw [hlimc2, hl1]
    have hx : (sp + W64 - c % W64) % W64 < W64 := Nat.mod_lt _ (by unfold W64; omega)
    generalize (sp + W64 - c % W64) % W64 = x at hx
    generalize (s.lists L).size = a
    unfold W64 at *
    omega

/-! ## Claim: allocate-split-free round trip -/

theorem map_size (start A : Nat) (h : start + A < W64) :
    (0 + (start + A + W64 - start % W64) % W64) % W64 = start + A - start := by
  unfold W64 at *; omega

/-- C17: allocate-split-free round trip. Let the head `L` be empty and the only head of
level at least `minLevel` at the front of its level list. (1) When the pool `P` has the single
chunk `c` up to `lim`, of size `lim - c` recorded in the size field of the pool, with room for
`n` bytes and no neighbour before it in memory that is in the pool, and `HM_allocateChunk`
splits it at `sp`, then the front piece `c` is in `L` and the residual piece `sp` in the pool;
`HM_freeChunks` with coalescing on `L` then leaves the pool with the single chunk `c` up to
`lim`, of size `lim - c`, and with the size field `lim - c`. (2) The same holds when the pool
is empty and the chunk `start` of `A` bytes is mapped first. -/
theorem allocate_free_roundtrip (k : Consts) (bs : Nat) (GC_mmapAnon : Nat → Ptr)
    (g : GC_state) (s : State) (P L : Ptr) (n minLevel : Nat)
    (hP : g.freeChunks = P) (hL : isLevelHead s L) (hLP : L ≠ P)
    (hLf : (s.lists L).firstChunk = 0) (hLl : (s.lists L).lastChunk = 0)
    (hlev : minLevel ≤ (s.lists L).level)
    (hnext : (s.lists L).nextHead = 0 ∨ (s.lists (s.lists L).nextHead).level < minLevel) :
    (∀ c sp lim : Nat, HeadWF s P [c] → PrevLinks s 0 [c] →
      n ≤ ((s.chunks c).limit + W64 - (s.chunks c).frontier % W64) % W64 →
      align ((s.chunks c).frontier + n) bs = sp → (s.chunks c).limit = lim →
      c < sp → sp < lim → lim < W64 → (s.lists P).size = lim - c →
      ((s.chunks c).nextAdjacent = 0 ∨ (s.chunks c).nextAdjacent = lim) →
      ((s.chunks c).prevAdjacent = 0 ∨ ((s.chunks c).prevAdjacent < c ∧
        ∃ q e, Path (fun x => (s.lists x).parent) (isRootOrNull s)
          (s.chunks (s.chunks c).prevAdjacent).levelHead q e ∧ e ≠ P)) →
      ∃ N, ∀ fuel, N ≤ fuel → ∃ g1 s2 s3,
        HM_allocateChunk k bs GC_mmapAnon fuel g s L n = .ok (g1, s2, c) ∧
        HeadWF s2 P [sp] ∧ HeadWF s2 L [c] ∧ (s2.chunks c).limit = sp ∧
        (s2.chunks sp).limit = lim ∧
        HM_freeChunks k fuel s2 L P minLevel true = .ok (s3, (s.lists L).nextHead) ∧
        HeadWF s3 P [c] ∧ HeadWF s3 L [] ∧ (s3.chunks c).limit = lim ∧
        HM_getChunkSize s3 c = lim - c ∧ (s3.lists P).size = lim - c) ∧
    (∀ A m start sp : Nat, HeadWF s P [] → (s.lists P).size = 0 →
      A = max (align ((n + k.sizeofChunk) % W64) bs) g.nextChunkAllocSize →
      m = GC_mmapAnon ((A + bs) % W64) → m ≠ 0 → start = align m bs → start ≠ 0 →
      align (start + k.sizeofChunk + n) bs = sp → start < sp → sp < start + A →
      start + A < W64 →
      ∃ N, ∀ fuel, N ≤ fuel → ∃ g1 s2 s3,
        HM_allocateChunk k bs GC_mmapAnon fuel g s L n = .ok (g1, s2, start) ∧
        HeadWF s2 P [sp] ∧ HeadWF s2 L [start] ∧ (s2.chunks start).limit = sp ∧
        (s2.chunks sp).limit = start + A ∧
        HM_freeChunks k fuel s2 L P minLevel true = .ok (s3, (s.lists L).nextHead) ∧
        HeadWF s3 P [start] ∧ HeadWF s3 L [] ∧ (s3.chunks start).limit = start + A ∧
        HM_getChunkSize s3 start = A ∧ (s3.lists P).size = A) := by
  subst hP
  refine ⟨fun c sp lim hwf hprev hcap hsp hlim hcsp hspl hlimW hsize hna hpa => ?_,
    fun A m start sp hwf hsz hA hm hm0 hstart hs0 hsp hssp hspl hlimW => ?_⟩
  · obtain ⟨-, path, hpath⟩ := hwf.2.2.2 c (List.mem_singleton.2 rfl)
    have hc0 : (c : Ptr) ≠ 0 := Path.ne_zero_of_mem hwf.2.1 c (List.mem_singleton.2 rfl)
    have hfc : (s.lists g.freeChunks).firstChunk = c := ChunkSeq.first_eq hwf.2.1
    obtain ⟨Q, hQ⟩ : ∃ Q : Nat, (s.chunks c).prevAdjacent = 0 ∨
        ((s.chunks c).prevAdjacent < c ∧
          ∃ q e, Path (fun x => (s.lists x).parent) (isRootOrNull s)
            (s.chunks (s.chunks c).prevAdjacent).levelHead q e ∧ e ≠ g.freeChunks ∧
              q.length < Q) := by
      rcases hpa with h | ⟨h1, q, e, hq, he⟩
      · exact ⟨0, Or.inl h⟩
      · exact ⟨q.length + 1, Or.inr ⟨h1, q, e, hq, he, Nat.lt_succ_self _⟩⟩
    refine ⟨path.length + Q + 2, fun fuel hfuel => ?_⟩
    obtain ⟨s1, s2, s3, hrun1, hrun2, hP2, hL2, h1, h2, hrun3, hP3, -, hL3, h3, -, -, -, -, h4,
        -⟩ :=
      take_link_free k bs fuel g s g.freeChunks L c sp lim path n minLevel hwf hprev hpath
        (by omega) (by omega) hL hLP hLf hLl hlev hnext hsp hlim hcsp hspl hlimW hsize hna
        (by
          rcases hQ with h | ⟨a1, q, e, hq, he, hlt⟩
          · exact Or.inl h
          · exact Or.inr ⟨a1, q, e, hq, he, by omega⟩)
    refine ⟨g, s2, s3, ?_, hP2, hL2, h1, h2, hrun3, hP3, hL3, h3, ?_, h4⟩
    · unfold HM_allocateChunk
      rw [HM_getFreeChunk_reuse_eq k bs GC_mmapAnon fuel g s n hwf.1.1 (by rw [hfc]; exact hc0)
        (by rw [hfc]; exact hcap), hfc, hrun1]
      simp only [if_neg hc0, hrun2]
    · unfold HM_getChunkSize
      rw [h3]
      exact ptr_diff_exact lim c (by omega) hlimW
  · have hfirst : (s.lists g.freeChunks).firstChunk = 0 := hwf.2.1.1
    refine ⟨2, fun fuel hfuel => ?_⟩
    obtain ⟨t, hrun, hwft, hplt, ⟨hf2, hl2, -, -, hna2, hpa2, hlh2, -⟩, hszt, -, -, hmeta,
        hoth⟩ :=
      HM_getFreeChunk_map_eq k bs GC_mmapAnon fuel g s g.freeChunks [] n A start rfl hwf trivial
        (Or.inl hfirst) hA (by rw [← hm]; exact hm0) (by rw [← hm]; exact hstart) hs0
        (List.not_mem_nil _)
    have hPL : g.freeChunks ≠ L := Ne.symm hLP
    obtain ⟨s1, s2, s3, hrun1, hrun2, hP2, hL2, h1, h2, hrun3, hP3, -, hL3, h3, -, -, -, -, h4,
        -⟩ :=
      take_link_free k bs fuel { g with nextChunkAllocSize := (2 * A) % W64 } t g.freeChunks L
        start sp (start + A) [] n minLevel hwft hplt (root_parentPath hwft.1 hlh2)
        (by simp; omega) hfuel
        ⟨hL.1, by rw [(hmeta L).1]; exact hL.2⟩ hLP
        (by rw [hoth L hLP]; exact hLf) (by rw [hoth L hLP]; exact hLl)
        (by rw [(hmeta L).2.2.1]; exact hlev)
        (by rw [(hmeta L).2.1, (hmeta _).2.2.1]; exact hnext)
        (by rw [hf2]; exact hsp) hl2 hssp hspl hlimW
        (by rw [hszt, hsz]; exact map_size start A hlimW) (Or.inl hna2) (Or.inl hpa2)
    refine ⟨{ g with nextChunkAllocSize := (2 * A) % W64 }, s2, s3, ?_, hP2, hL2, h1, h2, ?_,
      hP3, hL3, h3, ?_, ?_⟩
    · unfold HM_allocateChunk
      rw [hrun, hrun1]
      simp only [if_neg hs0, hrun2]
    · rw [hrun3, (hmeta L).2.1]
    · unfold HM_getChunkSize
      rw [h3, ptr_diff_exact (start + A) start (by omega) hlimW]
      omega
    · rw [h4]; omega


theorem allocate_free_roundtrip_witness :
    (∃ N, ∀ fuel, N ≤ fuel → ∃ g1 s2 s3,
      HM_allocateChunk ⟨64, 99⟩ 4096 mapS1 fuel gcS1 poolS2 5 3000 = .ok (g1, s2, 65536) ∧
      HeadWF s2 9 [69632] ∧ HeadWF s2 5 [65536] ∧ (s2.chunks 65536).limit = 69632 ∧
      (s2.chunks 69632).limit = 81920 ∧
      HM_freeChunks ⟨64, 99⟩ fuel s2 5 9 2 true = .ok (s3, (poolS2.lists 5).nextHead) ∧
      HeadWF s3 9 [65536] ∧ HeadWF s3 5 [] ∧ (s3.chunks 65536).limit = 81920 ∧
      HM_getChunkSize s3 65536 = 81920 - 65536 ∧ (s3.lists 9).size = 81920 - 65536) ∧
    (∃ N, ∀ fuel, N ≤ fuel → ∃ g1 s2 s3,
      HM_allocateChunk ⟨64, 99⟩ 4096 mapS1 fuel gcS1 poolS1 5 3000 = .ok (g1, s2, 65536) ∧
      HeadWF s2 9 [69632] ∧ HeadWF s2 5 [65536] ∧ (s2.chunks 65536).limit = 69632 ∧
      (s2.chunks 69632).limit = 65536 + 16384 ∧
      HM_freeChunks ⟨64, 99⟩ fuel s2 5 9 2 true = .ok (s3, (poolS1.lists 5).nextHead) ∧
      HeadWF s3 9 [65536] ∧ HeadWF s3 5 [] ∧ (s3.chunks 65536).limit = 65536 + 16384 ∧
      HM_getChunkSize s3 65536 = 16384 ∧ (s3.lists 9).size = 16384) :=
  ⟨(allocate_free_roundtrip ⟨64, 99⟩ 4096 mapS1 gcS1 poolS2 9 5 3000 2 rfl (by decide)
      (by decide) (by decide) (by decide) (by decide) (Or.inl (by decide))).1
      65536 69632 81920 poolS2_wf (by decide) (by decide) (by decide) (by decide) (by decide)
      (by decide) (by decide) (by decide) (Or.inl (by decide)) (Or.inl (by decide)),
    (allocate_free_roundtrip ⟨64, 99⟩ 4096 mapS1 gcS1 poolS1 9 5 3000 2 rfl (by decide)
      (by decide) (by decide) (by decide) (by decide) (Or.inl (by decide))).2
      16384 65000 65536 69632 poolS1_wf (by decide) (by decide) rfl (by decide) (by decide)
      (by decide) (by decide) (by decide) (by decide) (by decide)⟩

/-! ## Claims on `HM_splitChunk` and `HM_splitChunkFront` -/

/-- C22: `HM_splitChunkFront(c, n)` on a chunk `c` of a well-formed head, with block-aligned
limit `lim`, frontier `fr` behind the header and `fr + n ≤ lim`. The split point
`p = align(fr + n, bs)` satisfies `p ≤ lim`, `fr + n ≤ p` and is block-aligned, and when
`p ≠ lim` also `p + sizeof(struct HM_chunk) ≤ lim`. When `p = lim` the call returns `NULL`
and the store is unchanged; otherwise, with enough fuel, it returns the non-null chunk `p`,
`c` ends at `p` and keeps its frontier, and `p` ends at `lim` and follows `c` in the list. -/
theorem HM_splitChunkFront_splits (k : Consts) (bs : Nat) (s : State) (H : Ptr) (c : Nat)
    (pre post : List Ptr) (n fr lim : Nat) (hH : HeadWF s H (pre ++ c :: post))
    (hbs : 0 < bs) (hk : k.sizeofChunk ≤ bs) (hfr : (s.chunks c).frontier = fr)
    (hlim : (s.chunks c).limit = lim) (hcf : c < fr) (hcap : fr + n ≤ lim)
    (htop : lim + bs ≤ W64) (hdvd : bs ∣ lim)
    (hfresh : ∀ a : Nat, a ∈ pre ++ post → a ≤ c ∨ lim ≤ a) :
    align (fr + n) bs ≤ lim ∧ fr + n ≤ align (fr + n) bs ∧ bs ∣ align (fr + n) bs ∧
      (align (fr + n) bs ≠ lim → align (fr + n) bs + k.sizeofChunk ≤ lim) ∧
      (align (fr + n) bs = lim → ∀ fuel, HM_splitChunkFront k bs fuel s c n = .ok (s, 0)) ∧
      (align (fr + n) bs ≠ lim → ∃ N, ∀ fuel, N ≤ fuel →
        ∃ s', HM_splitChunkFront k bs fuel s c n = .ok (s', align (fr + n) bs) ∧
          align (fr + n) bs ≠ 0 ∧ (s'.chunks c).limit = align (fr + n) bs ∧
          (s'.chunks c).frontier = fr ∧
          (s'.chunks (align (fr + n) bs)).limit = lim ∧
          (s'.chunks (align (fr + n) bs)).frontier = align (fr + n) bs + k.sizeofChunk ∧
          HeadWF s' H (pre ++ c :: align (fr + n) bs :: post)) := by
  have h1 : fr + n ≤ align (fr + n) bs := align_ge _ _ (by omega) hbs
  have h2 : align (fr + n) bs ≤ lim := align_le_of_dvd _ _ _ (by omega) hbs hcap hdvd
  have h3 : bs ∣ align (fr + n) bs := align_dvd _ _ (by omega) hbs
  have hcmem : (c : Ptr) ∈ pre ++ c :: post := by simp
  have hc0 : (c : Ptr) ≠ 0 := Path.ne_zero_of_mem hH.2.1 c hcmem
  have h4 : align (fr + n) bs ≠ lim → align (fr + n) bs + bs ≤ lim := fun hne => by
    obtain ⟨q, hq⟩ := h3
    obtain ⟨r, hr⟩ := hdvd
    rw [hq, hr] at hne h2 ⊢
    have hqr : q < r := by
      rcases Nat.lt_or_ge q r with h | h
      · exact h
      · exact absurd (Nat.le_antisymm h2 (Nat.mul_le_mul_left bs h)) hne
    calc bs * q + bs = bs * (q + 1) := by rw [Nat.mul_add, Nat.mul_one]
      _ ≤ bs * r := Nat.mul_le_mul_left bs hqr
  refine ⟨h2, h1, h3, fun hne => by have := h4 hne; omega, fun he fuel => ?_, fun hne => ?_⟩
  · unfold HM_splitChunkFront
    rw [if_neg hc0, hfr, hlim, if_pos he]
  · obtain ⟨-, path, hpath⟩ := hH.2.2.2 c hcmem
    have hsp0 : (align (fr + n) bs : Ptr) ≠ 0 :=
      Nat.pos_iff_ne_zero.1 (by omega)
    have hspf : (align (fr + n) bs : Ptr) ∉ pre ++ c :: post := by
      intro hmem
      rcases List.mem_append.1 hmem with hm | hm
      · rcases hfresh _ (List.mem_append_left _ hm) with h | h <;> omega
      · rcases List.mem_cons.1 hm with e | hm
        · have e' : align (fr + n) bs = c := e
          omega
        · rcases hfresh _ (List.mem_append_right _ hm) with h | h <;> omega
    refine ⟨path.length + 1, fun fuel hfuel => ?_⟩
    obtain ⟨s0, s', -, hrun, hwf, -, ⟨hl1, hl2, hl3, -, -, -⟩, -, -, -, hfrm, -⟩ :=
      splitChunkAt_spec k s H c (align (fr + n) bs) pre post path fuel hH hpath (by omega) hsp0
        hspf
    have hcp : (c : Ptr) ≠ align (fr + n) bs := fun e => hspf (e ▸ hcmem)
    refine ⟨s', ?_, hsp0, hl1, by rw [(hfrm c hcp).1, hfr], by rw [hl2, hlim], hl3, hwf⟩
    unfold HM_splitChunkFront
    rw [if_neg hc0, hfr, hlim, if_neg hne]
    exact hrun


theorem HM_splitChunkFront_splits_witness :
    align (65600 + 3000) 4096 ≤ 81920 ∧ 65600 + 3000 ≤ align (65600 + 3000) 4096 ∧
      4096 ∣ align (65600 + 3000) 4096 ∧
      (align (65600 + 3000) 4096 ≠ 81920 → align (65600 + 3000) 4096 + 64 ≤ 81920) ∧
      (align (65600 + 3000) 4096 = 81920 →
        ∀ fuel, HM_splitChunkFront ⟨64, 99⟩ 4096 fuel poolS2 65536 3000 = .ok (poolS2, 0)) ∧
      (align (65600 + 3000) 4096 ≠ 81920 → ∃ N, ∀ fuel, N ≤ fuel →
        ∃ s', HM_splitChunkFront ⟨64, 99⟩ 4096 fuel poolS2 65536 3000
            = .ok (s', align (65600 + 3000) 4096) ∧
          align (65600 + 3000) 4096 ≠ 0 ∧
          (s'.chunks 65536).limit = align (65600 + 3000) 4096 ∧
          (s'.chunks 65536).frontier = 65600 ∧
          (s'.chunks (align (65600 + 3000) 4096)).limit = 81920 ∧
          (s'.chunks (align (65600 + 3000) 4096)).frontier
            = align (65600 + 3000) 4096 + 64 ∧
          HeadWF s' 9 ([] ++ 65536 :: align (65600 + 3000) 4096 :: [])) :=
  HM_splitChunkFront_splits ⟨64, 99⟩ 4096 poolS2 9 65536 [] [] 3000 65600 81920 poolS2_wf
    (by decide) (by decide) rfl rfl (by decide) (by decide) (by decide) (by decide)
    (fun _ h => absurd h (List.not_mem_nil _))

theorem sub_ptr_exact (lim t : Nat) (h1 : t ≤ lim) (h2 : lim < W64) :
    (lim + W64 - t % W64) % W64 = lim - t := by
  unfold W64 at *; omega

/-- C21: `HM_splitChunk(c, n)` on a chunk `c` of a well-formed head, with block-aligned base
and limit `lim`, a frontier `fr` behind the header and `fr + n ≤ lim`; let
`t = align(n + sizeof(struct HM_chunk), bs)`. Then `t ≤ lim - c`, so `lim - t` is not below
the base `c`. When `lim - t < fr` the call returns `NULL` and the store is unchanged;
otherwise, with enough fuel, it returns the chunk `lim - t`, which ends at `lim`, has its
frontier behind its header with room for `n` bytes, and follows `c` in the list, and `c`
ends at `lim - t`. -/
theorem HM_splitChunk_splits (k : Consts) (bs : Nat) (s : State) (H : Ptr) (c : Nat)
    (pre post : List Ptr) (n fr lim : Nat) (hH : HeadWF s H (pre ++ c :: post))
    (hbs : 0 < bs) (hk : 0 < k.sizeofChunk) (hfr : (s.chunks c).frontier = fr)
    (hlim : (s.chunks c).limit = lim) (hcf : c + k.sizeofChunk ≤ fr) (hcap : fr + n ≤ lim)
    (htop : lim + bs ≤ W64) (hdc : bs ∣ c) (hdvd : bs ∣ lim)
    (hfresh : ∀ a : Nat, a ∈ pre ++ post → a ≤ c ∨ lim ≤ a) :
    align (n + k.sizeofChunk) bs ≤ lim - c ∧ c ≤ lim - align (n + k.sizeofChunk) bs ∧
      (lim - align (n + k.sizeofChunk) bs < fr →
        ∀ fuel, HM_splitChunk k bs fuel s c n = .ok (s, 0)) ∧
      (fr ≤ lim - align (n + k.sizeofChunk) bs → ∃ N, ∀ fuel, N ≤ fuel →
        ∃ s', HM_splitChunk k bs fuel s c n
            = .ok (s', lim - align (n + k.sizeofChunk) bs) ∧
          lim - align (n + k.sizeofChunk) bs ≠ 0 ∧
          (s'.chunks c).limit = lim - align (n + k.sizeofChunk) bs ∧
          (s'.chunks (lim - align (n + k.sizeofChunk) bs)).limit = lim ∧
          (s'.chunks (lim - align (n + k.sizeofChunk) bs)).frontier
            = lim - align (n + k.sizeofChunk) bs + k.sizeofChunk ∧
          (s'.chunks (lim - align (n + k.sizeofChunk) bs)).frontier + n ≤ lim ∧
          HeadWF s' H (pre ++ c :: (lim - align (n + k.sizeofChunk) bs) :: post)) := by
  have hmod : (n + k.sizeofChunk) % W64 = n + k.sizeofChunk := Nat.mod_eq_of_lt (by omega)
  have h1 : n + k.sizeofChunk ≤ align (n + k.sizeofChunk) bs := align_ge _ _ (by omega) hbs
  have h2 : align (n + k.sizeofChunk) bs ≤ lim - c :=
    align_le_of_dvd _ _ _ (by omega) hbs (by omega) (Nat.dvd_sub' hdvd hdc)
  have hcmem : (c : Ptr) ∈ pre ++ c :: post := by simp
  have hc0 : (c : Ptr) ≠ 0 := Path.ne_zero_of_mem hH.2.1 c hcmem
  have hsp : (lim + W64 - align (n + k.sizeofChunk) bs % W64) % W64
      = lim - align (n + k.sizeofChunk) bs := sub_ptr_exact _ _ (by omega) (by omega)
  refine ⟨h2, by omega, fun hlt fuel => ?_, fun hge => ?_⟩
  · unfold HM_splitChunk
    simp only [if_neg hc0, hmod, hlim, hsp, hfr, if_pos hlt]
  · obtain ⟨-, path, hpath⟩ := hH.2.2.2 c hcmem
    have hsp0 : ((lim - align (n + k.sizeofChunk) bs : Nat) : Ptr) ≠ 0 :=
      Nat.pos_iff_ne_zero.1 (by omega)
    have hspf : ((lim - align (n + k.sizeofChunk) bs : Nat) : Ptr) ∉ pre ++ c :: post := by
      intro hmem
      rcases List.mem_append.1 hmem with hm | hm
      · rcases hfresh _ (List.mem_append_left _ hm) with h | h <;> omega
      · rcases List.mem_cons.1 hm with e | hm
        · have e' : lim - align (n + k.sizeofChunk) bs = c := e
          omega
        · rcases hfresh _ (List.mem_append_right _ hm) with h | h <;> omega
    refine ⟨path.length + 1, fun fuel hfuel => ?_⟩
    obtain ⟨s0, s', -, hrun, hwf, -, ⟨hl1, hl2, hl3, -, -, -⟩, -⟩ :=
      splitChunkAt_spec k s H c (lim - align (n + k.sizeofChunk) bs) pre post path fuel hH hpath
        (by omega) hsp0 hspf
    have hroom : lim - align (n + k.sizeofChunk) bs + k.sizeofChunk + n ≤ lim := by omega
    refine ⟨s', ?_, hsp0, hl1, by rw [hl2, hlim], hl3, by rw [hl3]; exact hroom, hwf⟩
    unfold HM_splitChunk
    simp only [if_neg hc0, hmod, hlim, hsp, hfr, if_neg (Nat.not_lt.2 hge)]
    exact hrun

theorem HM_splitChunk_splits_witness :
    align (3000 + 64) 4096 ≤ 81920 - 65536 ∧ 65536 ≤ 81920 - align (3000 + 64) 4096 ∧
      (81920 - align (3000 + 64) 4096 < 65600 →
        ∀ fuel, HM_splitChunk ⟨64, 99⟩ 4096 fuel poolS2 65536 3000 = .ok (poolS2, 0)) ∧
      (65600 ≤ 81920 - align (3000 + 64) 4096 → ∃ N, ∀ fuel, N ≤ fuel →
        ∃ s', HM_splitChunk ⟨64, 99⟩ 4096 fuel poolS2 65536 3000
            = .ok (s', 81920 - align (3000 + 64) 4096) ∧
          81920 - align (3000 + 64) 4096 ≠ 0 ∧
          (s'.chunks 65536).limit = 81920 - align (3000 + 64) 4096 ∧
          (s'.chunks (81920 - align (3000 + 64) 4096)).limit = 81920 ∧
          (s'.chunks (81920 - align (3000 + 64) 4096)).frontier
            = 81920 - align (3000 + 64) 4096 + 64 ∧
          (s'.chunks (81920 - align (3000 + 64) 4096)).frontier + 3000 ≤ 81920 ∧
          HeadWF s' 9 ([] ++ 65536 :: (81920 - align (3000 + 64) 4096) :: [])) :=
  HM_splitChunk_splits ⟨64, 99⟩ 4096 poolS2 9 65536 [] [] 3000 65600 81920 poolS2_wf
    (by decide) (by decide) rfl rfl (by decide) (by decide) (by decide) (by decide)
    (by decide) (fun _ h => absurd h (List.not_mem_nil _))

/-! ## Claim on `HM_getLevelSize` -/

/-- The loop of `HM_getLevelSize` on a strictly descending level list `hs`: it stops at the
head of level `level` if there is one, and otherwise at `NULL` or at a head of another
level. -/
theorem HM_getLevelSize_loop_spec (s : State) (level : Nat) :
    ∀ (hs : List Ptr) (L : Ptr) (fuel : Nat), LevelList s L hs → Descending s hs →
      hs.length < fuel →
      ∃ cursor, HM_getLevelSize_loop fuel s L level = .ok cursor ∧
        (∀ h ∈ hs, (s.lists h).level = level → cursor = h) ∧
        ((∀ h ∈ hs, (s.lists h).level ≠ level) →
          cursor = 0 ∨ (s.lists cursor).level ≠ level)
  | [], L, fuel, hL, _, hf => by
    obtain ⟨f, rfl⟩ : ∃ f, fuel = f + 1 := ⟨fuel - 1, by simp at hf; omega⟩
    have hL0 : L = 0 := hL.1
    refine ⟨0, ?_, fun h hh => absurd hh (List.not_mem_nil _), fun _ => Or.inl rfl⟩
    simp [HM_getLevelSize_loop, hL0]
  | x :: xs, L, fuel, hL, hd, hf => by
    obtain ⟨f, rfl⟩ : ∃ f, fuel = f + 1 := ⟨fuel - 1, by simp at hf; omega⟩
    have hLx : L = x := hL.1
    subst hLx
    have hL0 : L ≠ 0 := hL.2.1
    by_cases hgt : (s.lists L).level > level
    · obtain ⟨cursor, hrun, h1, h2⟩ :=
        HM_getLevelSize_loop_spec s level xs (s.lists L).nextHead f hL.2.2
          (List.pairwise_cons.1 hd).2 (by simp at hf; omega)
      refine ⟨cursor, ?_, fun h hh hlv => ?_, fun hne => ?_⟩
      · rw [HM_getLevelSize_loop, if_pos ⟨hL0, hgt⟩]
        exact hrun
      · rcases List.mem_cons.1 hh with e | hh
        · rw [e] at hlv; omega
        · exact h1 h hh hlv
      · exact h2 (fun h hh => hne h (List.mem_cons_of_mem _ hh))
    · refine ⟨L, ?_, fun h hh hlv => ?_, fun hne => ?_⟩
      · rw [HM_getLevelSize_loop, if_neg (fun h => hgt h.2)]
      · rcases List.mem_cons.1 hh with e | hh
        · exact e.symm
        · have := (List.pairwise_cons.1 hd).1 h hh
          omega
      · exact Or.inr (hne L (List.mem_cons_self _ _))

/-- C24: on a strictly descending level list `hs`, `HM_getLevelSize(levelList, level)` with
enough fuel returns the `size` field of the head of level `level` when there is one in the
list, and `0` when no head of the list has that level (the empty list included). -/
theorem HM_getLevelSize_finds (s : State) (L : Ptr) (hs : List Ptr) (level : Nat)
    (hL : LevelList s L hs) (hd : Descending s hs) :
    ∃ N, ∀ fuel, N ≤ fuel →
      (∀ h ∈ hs, (s.lists h).level = level →
        HM_getLevelSize fuel s L level = .ok (s.lists h).size) ∧
      ((∀ h ∈ hs, (s.lists h).level ≠ level) → HM_getLevelSize fuel s L level = .ok 0) := by
  refine ⟨hs.length + 1, fun fuel hfuel => ?_⟩
  obtain ⟨cursor, hrun, h1, h2⟩ :=
    HM_getLevelSize_loop_spec s level hs L fuel hL hd (by omega)
  refine ⟨fun h hh hlv => ?_, fun hne => ?_⟩
  · have hc := h1 h hh hlv
    subst hc
    have hc0 : cursor ≠ 0 := Path.ne_zero_of_mem hL cursor hh
    unfold HM_getLevelSize
    simp only [hrun]
    rw [if_neg (fun hor => hor.elim hc0 (fun hx => hx hlv))]
  · unfold HM_getLevelSize
    simp only [hrun]
    rw [if_pos (h2 hne)]

theorem HM_getLevelSize_finds_witness :
    ∃ N, ∀ fuel, N ≤ fuel →
      (∀ h ∈ [1, 2, 3], (heapS2.lists h).level = 2 →
        HM_getLevelSize fuel heapS2 1 2 = .ok (heapS2.lists h).size) ∧
      ((∀ h ∈ [1, 2, 3], (heapS2.lists h).level ≠ 2) →
        HM_getLevelSize fuel heapS2 1 2 = .ok 0) :=
  HM_getLevelSize_finds heapS2 1 [1, 2, 3] 2 (by decide) (by decide)

/-! ## Claim on the to-space flag of level heads -/

/-- C25 (amended): `HM_newChunkList` creates a head on which `isInToSpace` mirrors the
sentinel. After `HM_mergeLevelList(A, B, hh, resetToFromSpace)` on strictly descending level
lists a head of the output list has the mirror exactly when `resetToFromSpace` is set and
`hh` is not the sentinel, or `resetToFromSpace` is not set and the flag of the head agreed
with `hh` before the call. After `HM_updateLevelListPointers(levelList, hh)` a head of the
list has the mirror exactly when its flag agrees with `hh`. -/
theorem isInToSpace_mirror (copyHH : Ptr) (s : State) :
    (∀ (list hh : Ptr) (level : Nat), list ≠ 0 →
      ∃ s', HM_newChunkList copyHH s list hh level = .ok (s', list) ∧
        Mirrors copyHH s' list) ∧
    (∀ (a b hh : Ptr) (r : Bool) (xs ys : List Ptr) (fuel : Nat), LevelList s a xs →
      LevelList s b ys → Descending s xs → Descending s ys → xs.length + ys.length < fuel →
      ∃ s' out zs, HM_mergeLevelList fuel s a b hh r = .ok (s', out) ∧ LevelList s' out zs ∧
        ∀ z ∈ zs, (Mirrors copyHH s' z ↔
          if r = true then hh ≠ copyHH
          else (s.lists z).isInToSpace = decide (hh = copyHH))) ∧
    (∀ (levelList hh : Ptr) (hs : List Ptr) (fuel : Nat), LevelList s levelList hs →
      hs.length < fuel →
      ∃ s', HM_updateLevelListPointers fuel s levelList hh = .ok s' ∧
        ∀ z ∈ hs, (Mirrors copyHH s' z ↔
          (s.lists z).isInToSpace = decide (hh = copyHH))) := by
  refine ⟨fun list hh level h0 => ?_, fun a b hh r xs ys fuel hl1 hl2 hd1 hd2 hf => ?_,
    fun levelList hh hs fuel hl hf => ?_⟩
  · refine ⟨_, by rw [HM_newChunkList, if_neg h0], ?_⟩
    unfold Mirrors
    simp
  · obtain ⟨s', out, t, hrun, hl, -, hhh, hto, -⟩ :=
      HM_mergeLevelList_spec s a b hh r xs ys fuel hl1 hl2 hd1 hd2 hf
    refine ⟨s', out, _, hrun, hl, fun z hz => ?_⟩
    unfold Mirrors
    rw [hhh z, if_pos hz, hto z]
    cases r with
    | true => simp [hz]
    | false => simp
  · obtain ⟨s', hrun, -, hlists⟩ := setContainingHH_loop_spec hh hs s levelList fuel hl hf
    refine ⟨s', hrun, fun z hz => ?_⟩
    unfold Mirrors
    rw [hlists z, if_pos hz]

theorem isInToSpace_mirror_witness :
    (∃ s', HM_newChunkList 99 heapS5 30 99 4 = .ok (s', 30) ∧ Mirrors 99 s' 30) ∧
    (∃ s' out zs, HM_mergeLevelList 7 heapS5 11 21 7 true = .ok (s', out) ∧
      LevelList s' out zs ∧
      ∀ z ∈ zs, (Mirrors 99 s' z ↔
        if true = true then 7 ≠ 99
        else (heapS5.lists z).isInToSpace = decide (7 = 99))) ∧
    (∃ s', HM_updateLevelListPointers 4 heapS5 11 8 = .ok s' ∧
      ∀ z ∈ [11, 12, 13], (Mirrors 99 s' z ↔
        (heapS5.lists z).isInToSpace = decide (8 = 99))) :=
  ⟨(isInToSpace_mirror 99 heapS5).1 30 99 4 (by decide),
    (isInToSpace_mirror 99 heapS5).2.1 11 21 7 true [11, 12, 13] [21, 22, 23] 7 (by decide)
      (by decide) (by decide) (by decide) (by decide),
    (isInToSpace_mirror 99 heapS5).2.2 11 8 [11, 12, 13] 4 (by decide) (by decide)⟩

/-- C25, as stated, fails: on the store `heapS5`, where `isInToSpace` mirrors the sentinel
`99` on every head, `HM_mergeLevelList` with `hh` the sentinel and `resetToFromSpace` set
leaves the head `11` with `containingHH = 99` and `isInToSpace = false`, `HM_mergeLevelList`
with `hh = 7` and `resetToFromSpace` cleared leaves the head `22` with `containingHH = 7` and
`isInToSpace = true`, and `HM_updateLevelListPointers` with `hh` the sentinel leaves the head
`11` with `containingHH = 99` and `isInToSpace = false`. -/
theorem isInToSpace_mirror_counterexample :
    (∀ n ∈ [11, 12, 13, 21, 22, 23], Mirrors 99 heapS5 n) ∧
    (∃ s' l, HM_mergeLevelList 10 heapS5 11 21 99 true = .ok (s', l) ∧ l = 11 ∧
      (s'.lists 11).containingHH = 99 ∧ (s'.lists 11).isInToSpace = false ∧
      ¬ Mirrors 99 s' 11) ∧
    (∃ s' l, HM_mergeLevelList 10 heapS5 11 21 7 false = .ok (s', l) ∧ l = 11 ∧
      (s'.lists 22).containingHH = 7 ∧ (s'.lists 22).isInToSpace = true ∧
      ¬ Mirrors 99 s' 22) ∧
    (∃ s', HM_updateLevelListPointers 10 heapS5 11 99 = .ok s' ∧
      (s'.lists 11).containingHH = 99 ∧ (s'.lists 11).isInToSpace = false ∧
      ¬ Mirrors 99 s' 11) :=
  ⟨by decide,
   ⟨_, _, rfl, by decide, by decide, by decide, by decide⟩,
   ⟨_, _, rfl, by decide, by decide, by decide, by decide⟩,
   ⟨_, rfl, by decide, by decide, by decide⟩⟩

/-! ## Claim on the chunk header invariant -/

/-- The chunk header invariant survives growing limits and frontier resets. -/
theorem Grows.chunkInv {k : Consts} {s s' : State} (h : Grows k s s') {d : Ptr}
    (hd : ChunkInv k s d) : ChunkInv k s' d := by
  obtain ⟨hl, hf⟩ := h d
  obtain ⟨h1, h2⟩ := hd
  unfold ChunkInv at *
  rcases hf with e | e
  · rw [e]; exact ⟨h1, le_trans h2 hl⟩
  · rw [e]; exact ⟨le_refl _, le_trans (le_trans h1 h2) hl⟩

/-- C23: the chunk header invariant `HM_getChunkStart(c) ≤ c->frontier ≤ c->limit`, with the
header no larger than a block. `HM_initializeChunk(start, end)` with `start + bs ≤ end`
establishes it on the new chunk; `splitChunkAt(c, p)` with `c->frontier ≤ p` and
`p + sizeof(struct HM_chunk) ≤ c->limit` gives it on both pieces; `HM_coalesceChunks(l, r)`
with `l->limit = r` keeps it on `l`; `HM_updateChunkValues(c, f)` with
`c->frontier ≤ f ≤ c->limit` keeps it on `c`; and `HM_freeChunks` on a well-formed heap whose
chunks satisfy it returns with every pool chunk reset to its payload start and satisfying it.
Each operation also keeps it on every other chunk where it held. -/
theorem ChunkInv_preserved (k : Consts) (bs : Nat) (s : State) (hk : k.sizeofChunk ≤ bs) :
    (∀ start end_ : Ptr, start ≠ 0 → start + bs ≤ end_ →
      ∃ s', HM_initializeChunk k s start end_ = .ok (s', start) ∧ ChunkInv k s' start ∧
        ∀ d, d ≠ start → ChunkInv k s d → ChunkInv k s' d) ∧
    (∀ (H c p : Ptr) (pre post : List Ptr), HeadWF s H (pre ++ c :: post) → p ≠ 0 →
      p ∉ pre ++ c :: post → ChunkInv k s c → (s.chunks c).frontier ≤ p →
      p + k.sizeofChunk ≤ (s.chunks c).limit →
      ∃ N, ∀ fuel, N ≤ fuel → ∃ s', splitChunkAt k fuel s c p = .ok (s', p) ∧
        ChunkInv k s' c ∧ ChunkInv k s' p ∧
        ∀ d, d ≠ p → ChunkInv k s d → ChunkInv k s' d) ∧
    (∀ l r : Ptr, l ≠ 0 → r ≠ 0 → ChunkInv k s l → ChunkInv k s r → (s.chunks l).limit = r →
      ∃ s', HM_coalesceChunks s l r = .ok s' ∧ ChunkInv k s' l ∧
        ∀ d, ChunkInv k s d → ChunkInv k s' d) ∧
    (∀ c frontier : Ptr, c ≠ 0 → ChunkInv k s c → (s.chunks c).frontier ≤ frontier →
      frontier ≤ (s.chunks c).limit →
      ∃ s', HM_updateChunkValues s c frontier = .ok s' ∧ ChunkInv k s' c ∧
        ∀ d, ChunkInv k s d → ChunkInv k s' d) ∧
    (∀ (L P : Ptr) (hs : List Ptr) (cl : Ptr → List Ptr) (live : Ptr → Prop)
      (D minLevel : Nat) (coalesce : Bool),
      HeapWF (P :: hs) cl live D s → LevelList s L hs → Descending s hs → P ∉ hs →
      PoolReset k s (cl P) → (∀ h ∈ P :: hs, ∀ c ∈ cl h, ChunkInv k s c) →
      ∃ N, ∀ fuel, N ≤ fuel → ∃ s' l ps',
        HM_freeChunks k fuel s L P minLevel coalesce = .ok (s', l) ∧ HeadWF s' P ps' ∧
        (∀ d ∈ ps', (s'.chunks d).frontier = HM_getChunkStart k d ∧ ChunkInv k s' d) ∧
        ∀ d, ChunkInv k s d → ChunkInv k s' d) := by
  refine ⟨fun start end_ h0 hle => ?_, fun H c p pre post hH hp hpcs hc hfp hpl => ?_,
    fun l r hl hr hil hir hlim => ?_, fun c f hc hic hlo hhi => ?_,
    fun L P hs cl live D minLevel coalesce hwf hL hdesc hPhs hreset hinv => ?_⟩
  · refine ⟨_, by rw [HM_initializeChunk, if_neg h0], ?_, fun d hd hi => ?_⟩
    · unfold ChunkInv HM_getChunkStart
      simp only [chunks_setChunk, if_pos]
      constructor
      · exact le_refl _
      · have : start + k.sizeofChunk ≤ start + bs := Nat.add_le_add_left hk _
        exact le_trans this hle
    · unfold ChunkInv at *
      simp only [chunks_setChunk, if_neg hd]
      exact hi
  · obtain ⟨-, path, hpath⟩ := hH.2.2.2 c (by simp)
    refine ⟨path.length + 1, fun fuel hfuel => ?_⟩
    obtain ⟨s0, s', -, hrun, -, -, ⟨hl1, hl2, hl3, -, -, -⟩, -, hoth, -, hfrm, -⟩ :=
      splitChunkAt_spec k s H c p pre post path fuel hH hpath (by omega) hp hpcs
    have hcp : c ≠ p := fun e => hpcs (e ▸ (by simp))
    have hic : ChunkInv k s' c := by
      unfold ChunkInv at *
      rw [(hfrm c hcp).1, hl1]
      exact ⟨hc.1, hfp⟩
    refine ⟨s', hrun, hic, ?_, fun d hdp hi => ?_⟩
    · unfold ChunkInv HM_getChunkStart
      rw [hl3, hl2]
      exact ⟨le_refl _, hpl⟩
    · by_cases hdc : d = c
      · rw [hdc]; exact hic
      · unfold ChunkInv at *
        rw [(hfrm d hdp).1, (hoth d hdc hdp).2.2]
        exact hi
  · obtain ⟨s', hrun, -, hlim', -, -, hrest⟩ := HM_coalesceChunks_fields s l r hl hr
    have hle : (s.chunks l).limit ≤ (s.chunks r).limit := by
      rw [hlim]
      exact le_trans (Nat.le_add_right _ _) (le_trans hir.1 hir.2)
    have hg : Grows k s s' := fun d => by
      refine ⟨?_, Or.inl (hrest d).2.2.2.1⟩
      rw [hlim' d]
      by_cases hdl : d = l
      · rw [if_pos hdl, hdl]; exact hle
      · rw [if_neg hdl]
    exact ⟨s', hrun, hg.chunkInv hil, fun d hi => hg.chunkInv hi⟩
  · refine ⟨_, by rw [HM_updateChunkValues, if_neg hc], ?_, fun d hi => ?_⟩
    · unfold ChunkInv at *
      rw [frontier_setFrontier, limit_setFrontier, if_pos rfl]
      exact ⟨le_trans hic.1 hlo, hhi⟩
    · by_cases hdc : d = c
      · unfold ChunkInv at *
        rw [frontier_setFrontier, limit_setFrontier, if_pos hdc, hdc]
        exact ⟨le_trans hic.1 hlo, hhi⟩
      · unfold ChunkInv at *
        rw [frontier_setFrontier, limit_setFrontier, if_neg hdc]
        exact hi
  · obtain ⟨N, hN⟩ := HM_freeChunks_spec k s L P hs cl live D minLevel coalesce hwf hL hdesc
      hPhs hreset
    refine ⟨N, fun fuel hfuel => ?_⟩
    obtain ⟨s', ps', hrun, -, -, hPwf, -, hres, -, -, -, hsub, hgrow⟩ := hN fuel hfuel
    refine ⟨s', _, ps', hrun, hPwf, fun d hd => ⟨(hres d hd).1, ?_⟩, fun d hi => hgrow.chunkInv hi⟩
    refine hgrow.chunkInv ?_
    rcases hsub d hd with hd | ⟨h, hh, hd⟩
    · exact hinv P (List.mem_cons_self _ _) d hd
    · exact hinv h (List.mem_cons_of_mem _ hh) d hd

theorem ChunkInv_preserved_witness :
    (∃ s', HM_initializeChunk ⟨64, 99⟩ heapS4 8192 12288 = .ok (s', 8192) ∧
      ChunkInv ⟨64, 99⟩ s' 8192 ∧
      ∀ d, d ≠ 8192 → ChunkInv ⟨64, 99⟩ heapS4 d → ChunkInv ⟨64, 99⟩ s' d) ∧
    (∃ N, ∀ fuel, N ≤ fuel →
      ∃ s', splitChunkAt ⟨64, 99⟩ fuel poolS2 65536 69632 = .ok (s', 69632) ∧
        ChunkInv ⟨64, 99⟩ s' 65536 ∧ ChunkInv ⟨64, 99⟩ s' 69632 ∧
        ∀ d, d ≠ 69632 → ChunkInv ⟨64, 99⟩ poolS2 d → ChunkInv ⟨64, 99⟩ s' d) ∧
    (∃ s', HM_coalesceChunks heapS4 61440 65536 = .ok s' ∧ ChunkInv ⟨64, 99⟩ s' 61440 ∧
      ∀ d, ChunkInv ⟨64, 99⟩ heapS4 d → ChunkInv ⟨64, 99⟩ s' d) ∧
    (∃ s', HM_updateChunkValues poolS2 65536 70000 = .ok s' ∧ ChunkInv ⟨64, 99⟩ s' 65536 ∧
      ∀ d, ChunkInv ⟨64, 99⟩ poolS2 d → ChunkInv ⟨64, 99⟩ s' d) ∧
    (∃ N, ∀ fuel, N ≤ fuel → ∃ s' l ps',
      HM_freeChunks ⟨64, 99⟩ fuel heapS4 5 9 2 true = .ok (s', l) ∧ HeadWF s' 9 ps' ∧
      (∀ d ∈ ps', (s'.chunks d).frontier = HM_getChunkStart ⟨64, 99⟩ d ∧
        ChunkInv ⟨64, 99⟩ s' d) ∧
      ∀ d, ChunkInv ⟨64, 99⟩ heapS4 d → ChunkInv ⟨64, 99⟩ s' d) :=
  ⟨(ChunkInv_preserved ⟨64, 99⟩ 4096 heapS4 (by decide)).1 8192 12288 (by decide) (by decide),
    (ChunkInv_preserved ⟨64, 99⟩ 4096 poolS2 (by decide)).2.1 9 65536 69632 [] [] poolS2_wf
      (by decide) (by decide) (by decide) (by decide) (by decide),
    (ChunkInv_preserved ⟨64, 99⟩ 4096 heapS4 (by decide)).2.2.1 61440 65536 (by decide)
      (by decide) (by decide) (by decide) (by decide),
    (ChunkInv_preserved ⟨64, 99⟩ 4096 poolS2 (by decide)).2.2.2.1 65536 70000 (by decide)
      (by decide) (by decide) (by decide),
    (ChunkInv_preserved ⟨64, 99⟩ 4096 heapS4 (by decide)).2.2.2.2 5 9 [5, 6] heapS4_chunks
      (fun a => a ∈ [61440, 65536, 69632, 73728]) 1 2 true heapS4_wf (by decide) (by decide)
      (by decide)
      (fun d hd => by
        have hd' : d = 61440 := by simpa [heapS4_chunks] using hd
        subst hd'
        decide)
      (by decide)⟩

/-! ## The rotating critical section: steps and the mutex -/

theorem wrapInt32_eq (x : Int) (h1 : -2147483648 ≤ x) (h2 : x < 2147483648) :
    wrapInt32 x = x := by
  unfold wrapInt32; omega

@[simp] theorem CritState.goto_pc (c : CritState) (p q : Nat) (x : CritPc) :
    (c.goto p x).pc q = if q = p then x else c.pc q := rfl

@[simp] theorem CritState.goto_syncCount (c : CritState) (p : Nat) (x : CritPc) :
    (c.goto p x).Proc_syncCount = c.Proc_syncCount := rfl

@[simp] theorem CritState.goto_criticalTicket (c : CritState) (p : Nat) (x : CritPc) :
    (c.goto p x).Proc_criticalTicket = c.Proc_criticalTicket := rfl

@[simp] theorem CritState.goto_lock (c : CritState) (p : Nat) (x : CritPc) :
    (c.goto p x).Proc_syncCountLock = c.Proc_syncCountLock := rfl

@[simp] theorem CritState.goto_initializedCount (c : CritState) (p : Nat) (x : CritPc) :
    (c.goto p x).Proc_initializedCount = c.Proc_initializedCount := rfl

/-- The steps of `critStep` never write `Proc_initializedCount`. -/
theorem critStep_initializedCount (N : Nat) (c : CritState) (p : Nat) :
    (critStep N c p).Proc_initializedCount = c.Proc_initializedCount := by
  unfold critStep Proc_beginCriticalSection_step Proc_endCriticalSection_step
  split_ifs <;> first | rfl | (split <;> rfl)

/-- The mutex is held by the processors between lock and unlock, after every step. -/
theorem LockInv.step_lock {N : Nat} {c : CritState} (h : LockInv N c) (p : Nat) :
    LockInv N (critStep N c p) := by
  unfold critStep
  by_cases hp : N ≤ p
  · rw [if_pos hp]; exact h
  rw [if_neg hp]
  have hp' := h p (not_le.1 hp)
  intro q hq
  have hq' := h q hq
  cases hpc : c.pc p <;>
    simp only [hpc, CritPc.inBegin, Proc_beginCriticalSection_step,
      Proc_endCriticalSection_step, if_true, Bool.false_eq_true, if_false] <;>
    (try split_ifs) <;>
    (try simp only [CritState.goto_pc, CritState.goto_lock]) <;>
    (by_cases hqp : q = p
     · subst hqp; simp_all
     · simp_all [Ne.symm hqp])

/-! ## The rotating critical section: the gathering phase -/

theorem counted_card_congr {N : Nat} {c c' : CritState}
    (h : ∀ q, q < N → (Counted c' q ↔ Counted c q)) :
    ((Finset.range N).filter (fun p => Counted c' p)).card =
      ((Finset.range N).filter (fun p => Counted c p)).card := by
  rw [Finset.filter_congr (fun q hq => h q (Finset.mem_range.1 hq))]

theorem counted_card_succ {N : Nat} {c c' : CritState} {p : Nat} (hp : p < N)
    (h1 : ¬ Counted c p) (h2 : Counted c' p)
    (h : ∀ q, q < N → q ≠ p → (Counted c' q ↔ Counted c q)) :
    ((Finset.range N).filter (fun p => Counted c' p)).card =
      ((Finset.range N).filter (fun p => Counted c p)).card + 1 := by
  have he : (Finset.range N).filter (fun p => Counted c' p) =
      insert p ((Finset.range N).filter (fun p => Counted c p)) := by
    ext q
    simp only [Finset.mem_filter, Finset.mem_range, Finset.mem_insert]
    by_cases hqp : q = p
    · subst hqp
      exact ⟨fun _ => Or.inl rfl, fun _ => ⟨hp, h2⟩⟩
    · constructor
      · rintro ⟨hq, hc⟩
        exact Or.inr ⟨hq, (h q hq hqp).1 hc⟩
      · rintro (e | ⟨hq, hc⟩)
        · exact absurd e hqp
        · exact ⟨hq, (h q hq hqp).2 hc⟩
  rw [he, Finset.card_insert_of_not_mem]
  simp only [Finset.mem_filter, not_and]
  exact fun _ => h1

theorem counted_all {N : Nat} {c : CritState}
    (h : ((Finset.range N).filter (fun p => Counted c p)).card = N) :
    ∀ q, q < N → Counted c q := fun q hq =>
  Finset.filter_card_eq (by rw [h, Finset.card_range]) q (Finset.mem_range.2 hq)

theorem counted_card_lt {N : Nat} {c : CritState} {p : Nat} (hp : p < N)
    (h : ¬ Counted c p) : ((Finset.range N).filter (fun p => Counted c p)).card < N := by
  have := Finset.card_lt_card (Finset.filter_ssubset.2 ⟨p, Finset.mem_range.2 hp, h⟩)
  rwa [Finset.card_range] at this

theorem counted_card_zero {N : Nat} {c : CritState} (h : ∀ q, q < N → ¬ Counted c q) :
    ((Finset.range N).filter (fun p => Counted c p)).card = 0 := by
  rw [Finset.card_eq_zero, Finset.filter_eq_empty_iff]
  exact fun q hq => h q (Finset.mem_range.1 hq)

theorem rounds_succ (N r : Nat) : rounds N (r + 1) = rounds N r ++ List.range N := by
  unfold rounds
  rw [List.replicate_succ', List.flatten_append]
  simp

theorem critStep_begin {N : Nat} {c : CritState} {p : Nat} (hp : p < N)
    (h : (c.pc p).inBegin = true) :
    critStep N c p = Proc_beginCriticalSection_step N c p := by
  unfold critStep
  rw [if_neg (not_le.2 hp), if_pos h]

theorem critStep_end {N : Nat} {c : CritState} {p : Nat} (hp : p < N)
    (h : (c.pc p).inBegin = false) :
    critStep N c p = Proc_endCriticalSection_step N c p := by
  unfold critStep
  rw [if_neg (not_le.2 hp), if_neg (by rw [h]; exact Bool.false_ne_true)]

/-- A move of processor `p` between program points of the gathering phase that keeps it
counted or not counted. -/
theorem Gathering.of_move {N : Nat} {c c' : CritState} (hg : Gathering N c) {p : Nat}
    {x : CritPc} (hpc : ∀ q, c'.pc q = if q = p then x else c.pc q)
    (htk : c'.Proc_criticalTicket = c.Proc_criticalTicket)
    (hsc : c'.Proc_syncCount = c.Proc_syncCount)
    (hcnt : Counted c p ↔ (x = .beginUnlock ∨ x = .beginSpin))
    (hx : x = .outside ∨ x = .beginLock ∨ x = .beginCount ∨ x = .beginUnlock ∨
      x = .beginSpin ∨ x = .endSpin) : Gathering N c' := by
  obtain ⟨ht, hs, hpcs, hsig⟩ := hg
  have hxs : x ≠ .beginSignal := by
    rcases hx with e | e | e | e | e | e <;> rw [e] <;> decide
  have hc : ∀ q, q < N → (Counted c' q ↔ Counted c q) := fun q _ => by
    by_cases hqp : q = p
    · rw [hqp, hcnt]
      unfold Counted
      rw [hpc, if_pos rfl]
      simp [hxs]
    · unfold Counted
      rw [hpc, if_neg hqp]
  refine ⟨htk.trans ht, ?_, fun q hq => ?_, fun q hq hqs => ?_⟩
  · rw [hsc, hs, counted_card_congr hc]
  · rw [hpc]
    by_cases hqp : q = p
    · rw [if_pos hqp]
      rcases hx with e | e | e | e | e | e <;> simp [e]
    · rw [if_neg hqp]; exact hpcs q hq
  · rw [hpc] at hqs
    by_cases hqp : q = p
    · rw [if_pos hqp] at hqs; exact absurd hqs hxs
    · rw [if_neg hqp] at hqs
      rw [hsc]; exact hsig q hq hqs

theorem Proc_isInitialized_of_eq {c : CritState} {N : Nat}
    (h : c.Proc_initializedCount = N) : Proc_isInitialized c.Proc_initializedCount N = true := by
  unfold Proc_isInitialized
  rw [h]
  simp

/-- A step in the gathering phase: the phase goes on, or the last processor to be counted
signals ticket `0`. -/
theorem Gathering.step_gather {N : Nat} {c : CritState} {log : List Nat} {r : Nat}
    (hN : N < 2147483648) (hinit : c.Proc_initializedCount = N) (hlock : LockInv N c)
    (hg : Gathering N c) (hlog : log = rounds N r) {p : Nat} (hp : p < N) :
    Phase N (critStep N c p) (if isAdmission N c p then log ++ [p] else log) := by
  have hg0 := hg
  obtain ⟨ht, hsc, hpcs, hsig⟩ := hg
  have hadm : isAdmission N c p = false := by
    unfold isAdmission
    rw [ht, decide_eq_false_iff_not]
    rintro ⟨-, -, h⟩
    omega
  rw [hadm]
  simp only [Bool.false_eq_true, if_false]
  have hinit' := Proc_isInitialized_of_eq hinit
  rcases hpcs p hp with e | e | e | e | e | e | e
  · rw [critStep_begin hp (by rw [e]; rfl)]
    simp only [Proc_beginCriticalSection_step, e, hinit', if_true]
    exact ⟨r, Or.inl ⟨hg0.of_move (fun q => rfl) rfl rfl (by unfold Counted; rw [e]; simp)
      (by simp), hlog⟩⟩
  · rw [critStep_begin hp (by rw [e]; rfl)]
    simp only [Proc_beginCriticalSection_step, e]
    split_ifs with hl
    · exact ⟨r, Or.inl ⟨hg0.of_move (fun q => rfl) rfl rfl (by unfold Counted; rw [e]; simp)
        (by simp), hlog⟩⟩
    · exact ⟨r, Or.inl ⟨hg0, hlog⟩⟩
  · rw [critStep_begin hp (by rw [e]; rfl)]
    simp only [Proc_beginCriticalSection_step, e]
    have hnc : ¬ Counted c p := by unfold Counted; rw [e]; simp
    have hlt := counted_card_lt hp hnc
    have hw : wrapInt32 (c.Proc_syncCount + 1) = c.Proc_syncCount + 1 :=
      wrapInt32_eq _ (by omega) (by omega)
    rw [hw]
    have hholder : c.Proc_syncCountLock = some p := (hlock p hp).1 (Or.inl e)
    have hothers : ∀ q, q < N → q ≠ p → c.pc q ≠ .beginSignal := fun q hq hqp hs => by
      have := (hlock q hq).1 (Or.inr (Or.inl hs))
      rw [hholder] at this
      exact hqp (Option.some.inj this).symm
    obtain ⟨c', hc'⟩ : ∃ c', c' = CritState.goto
        { c with Proc_syncCount := c.Proc_syncCount + 1 } p
        (if c.Proc_syncCount + 1 = (N : Int) then CritPc.beginSignal else CritPc.beginUnlock) :=
      ⟨_, rfl⟩
    rw [← hc']
    have hpc' : ∀ q, c'.pc q = if q = p then
        (if c.Proc_syncCount + 1 = (N : Int) then CritPc.beginSignal else CritPc.beginUnlock)
        else c.pc q := fun q => by rw [hc']; rfl
    have hsc' : c'.Proc_syncCount = c.Proc_syncCount + 1 := by rw [hc']; rfl
    have htk' : c'.Proc_criticalTicket = c.Proc_criticalTicket := by rw [hc']; rfl
    refine ⟨r, Or.inl ⟨⟨htk'.trans ht, ?_, fun q hq => ?_, fun q hq hqs => ?_⟩, hlog⟩⟩
    · rw [hsc', hsc, @counted_card_succ N c c' p hp hnc]
      · push_cast; rfl
      · unfold Counted
        rw [hpc', if_pos rfl]
        split_ifs <;> simp
      · intro q _ hqp
        unfold Counted
        rw [hpc', if_neg hqp]
    · rw [hpc']
      by_cases hqp : q = p
      · rw [if_pos hqp]
        split_ifs <;> simp
      · rw [if_neg hqp]; exact hpcs q hq
    · rw [hpc'] at hqs
      by_cases hqp : q = p
      · rw [if_pos hqp] at hqs
        rw [hsc']
        by_contra hne
        rw [if_neg hne] at hqs
        exact absurd hqs (by decide)
      · rw [if_neg hqp] at hqs
        exact absurd hqs (hothers q hq hqp)
  · rw [critStep_begin hp (by rw [e]; rfl)]
    simp only [Proc_beginCriticalSection_step, e]
    have hN' := hsig p hp e
    have hcard : ((Finset.range N).filter (fun p => Counted c p)).card = N := by
      rw [hsc] at hN'; exact_mod_cast hN'
    have hall := counted_all hcard
    have hholder : c.Proc_syncCountLock = some p := (hlock p hp).1 (Or.inr (Or.inl e))
    have hspin : ∀ q, q < N → q ≠ p → c.pc q = .beginSpin := fun q hq hqp => by
      rcases hall q hq with h | h | h
      · have := (hlock q hq).1 (Or.inr (Or.inl h))
        rw [hholder] at this
        exact absurd (Option.some.inj this).symm hqp
      · have := (hlock q hq).1 (Or.inr (Or.inr h))
        rw [hholder] at this
        exact absurd (Option.some.inj this).symm hqp
      · exact h
    obtain ⟨c', hc'⟩ : ∃ c', c' = CritState.goto { c with Proc_criticalTicket := 0 } p
        CritPc.beginUnlock := ⟨_, rfl⟩
    rw [← hc']
    have hpc' : ∀ q, c'.pc q = if q = p then CritPc.beginUnlock else c.pc q :=
      fun q => by rw [hc']; rfl
    have hwait : ∀ q, q < N → c'.pc q = .beginUnlock ∨ c'.pc q = .beginSpin := fun q hq => by
      rw [hpc']
      by_cases hqp : q = p
      · rw [if_pos hqp]; exact Or.inl rfl
      · rw [if_neg hqp]; exact Or.inr (hspin q hq hqp)
    have h0 : 0 < N := by omega
    refine ⟨r, Or.inr (Or.inl ⟨0, ⟨h0, by rw [hc']; rfl, by rw [hc']; exact hN',
      fun q hq => ⟨fun h => absurd h (Nat.not_lt_zero _), fun _ => ?_, fun _ => hwait q hq⟩⟩,
      ?_⟩)⟩
    · rcases hwait q hq with h | h
      · exact Or.inl h
      · exact Or.inr (Or.inl h)
    · have hno : ¬ (c'.pc 0 = .inside ∨ c'.pc 0 = .endTicket) := by
        rcases hwait 0 h0 with h | h <;> rw [h] <;> simp
      rw [if_neg hno, hlog]
      simp
  · rw [critStep_begin hp (by rw [e]; rfl)]
    simp only [Proc_beginCriticalSection_step, e]
    exact ⟨r, Or.inl ⟨hg0.of_move (fun q => rfl) rfl rfl (by unfold Counted; rw [e]; simp)
      (by simp), hlog⟩⟩
  · rw [critStep_begin hp (by rw [e]; rfl)]
    simp only [Proc_beginCriticalSection_step, e]
    rw [if_pos (by rw [ht]; omega)]
    exact ⟨r, Or.inl ⟨hg0, hlog⟩⟩
  · rw [critStep_end hp (by rw [e]; rfl)]
    simp only [Proc_endCriticalSection_step, e]
    rw [if_neg (by rw [ht]; omega)]
    exact ⟨r, Or.inl ⟨hg0.of_move (fun q => rfl) rfl rfl (by unfold Counted; rw [e]; simp)
      (by simp), hlog⟩⟩

/-! ## The rotating critical section: serving and resetting -/

/-- A step while ticket `t` is served: processor `t` goes on, into its region (an admission)
and out of it, which serves the next ticket or starts the reset. -/
theorem Serving.step_serve {N : Nat} {c : CritState} {log : List Nat} {r t : Nat}
    (hN : N < 2147483648) (hinit : c.Proc_initializedCount = N)
    (hs : Serving N c t)
    (hlog : log = rounds N r ++
      List.range (t + if c.pc t = .inside ∨ c.pc t = .endTicket then 1 else 0))
    {p : Nat} (hp : p < N) :
    Phase N (critStep N c p) (if isAdmission N c p then log ++ [p] else log) := by
  have hs0 := hs
  obtain ⟨htN, htk, hsc, hall⟩ := hs
  have hinit' := Proc_isInitialized_of_eq hinit
  have hstay : Phase N c log := ⟨r, Or.inr (Or.inl ⟨t, hs0, hlog⟩)⟩
  -- a move of a processor that is not `t`, or of `t` outside `inside` and `endTicket`
  have hwaitmove : ∀ c', (∀ q, c'.pc q = if q = p then CritPc.beginSpin else c.pc q) →
      c'.Proc_criticalTicket = c.Proc_criticalTicket → c'.Proc_syncCount = c.Proc_syncCount →
      c.pc p = .beginUnlock → Phase N c' log := fun c' hpc' htk' hsc' e => by
    refine ⟨r, Or.inr (Or.inl ⟨t, ⟨htN, htk'.trans htk, hsc'.trans hsc, fun q hq => ?_⟩, ?_⟩)⟩
    · rw [hpc']
      by_cases hqp : q = p
      · rw [if_pos hqp]
        refine ⟨fun h => ?_, fun _ => Or.inr (Or.inl rfl), fun _ => Or.inr rfl⟩
        have := (hall q hq).1 h
        rw [hqp, e] at this
        exact absurd this (by decide)
      · rw [if_neg hqp]; exact hall q hq
    · rw [hlog, hpc']
      by_cases htp : t = p
      · rw [if_pos htp, htp, e]
        simp
      · rw [if_neg htp]
  have hnadm : ∀ {x : CritPc}, c.pc p = x → x ≠ .beginSpin → isAdmission N c p = false :=
    fun e hx => by
      unfold isAdmission
      rw [decide_eq_false_iff_not, e]
      rintro ⟨-, h, -⟩
      exact hx h
  rcases Nat.lt_trichotomy p t with hpt | hpt | hpt
  · have e := (hall p hp).1 hpt
    rw [hnadm e (by decide)]
    simp only [Bool.false_eq_true, if_false]
    rw [critStep_end hp (by rw [e]; rfl)]
    simp only [Proc_endCriticalSection_step, e]
    rw [if_pos (by rw [htk]; omega)]
    exact hstay
  · subst hpt
    rcases (hall p hp).2.1 rfl with e | e | e | e
    · rw [hnadm e (by decide)]
      simp only [Bool.false_eq_true, if_false]
      rw [critStep_begin hp (by rw [e]; rfl)]
      simp only [Proc_beginCriticalSection_step, e]
      exact hwaitmove _ (fun q => rfl) rfl rfl e
    · have hadm : isAdmission N c p = true := by
        unfold isAdmission
        rw [decide_eq_true_iff]
        exact ⟨hp, e, htk⟩
      rw [hadm]
      simp only [if_true]
      rw [critStep_begin hp (by rw [e]; rfl)]
      simp only [Proc_beginCriticalSection_step, e]
      rw [if_neg (by rw [htk]; simp)]
      refine ⟨r, Or.inr (Or.inl ⟨p, ⟨htN, htk, hsc, fun q hq => ?_⟩, ?_⟩)⟩
      · rw [CritState.goto_pc]
        by_cases hqp : q = p
        · rw [if_pos hqp]
          exact ⟨fun h => absurd h (by omega), fun _ => Or.inr (Or.inr (Or.inl rfl)),
            fun h => absurd h (by omega)⟩
        · rw [if_neg hqp]; exact hall q hq
      · rw [hlog, e, CritState.goto_pc, if_pos rfl]
        simp [List.range_succ]
    · rw [hnadm e (by decide)]
      simp only [Bool.false_eq_true, if_false]
      rw [critStep_end hp (by rw [e]; rfl)]
      simp only [Proc_endCriticalSection_step, e, hinit', if_true]
      refine ⟨r, Or.inr (Or.inl ⟨p, ⟨htN, htk, hsc, fun q hq => ?_⟩, ?_⟩)⟩
      · rw [CritState.goto_pc]
        by_cases hqp : q = p
        · rw [if_pos hqp]
          exact ⟨fun h => absurd h (by omega), fun _ => Or.inr (Or.inr (Or.inr rfl)),
            fun h => absurd h (by omega)⟩
        · rw [if_neg hqp]; exact hall q hq
      · rw [hlog, e, CritState.goto_pc, if_pos rfl]
        simp
    · rw [hnadm e (by decide)]
      simp only [Bool.false_eq_true, if_false]
      rw [critStep_end hp (by rw [e]; rfl)]
      simp only [Proc_endCriticalSection_step, e]
      have hw : wrapInt32 (c.Proc_criticalTicket + 1) = ((p + 1 : Nat) : Int) := by
        rw [wrapInt32_eq (c.Proc_criticalTicket + 1) (by omega) (by omega), htk]
        push_cast; rfl
      rw [hw]
      have hlog1 : log = rounds N r ++ List.range (p + 1) := by
        rw [hlog, e]; simp
      by_cases hlast : p + 1 = N
      · rw [if_pos (by exact_mod_cast hlast)]
        refine ⟨r + 1, Or.inr (Or.inr ⟨⟨by
          show ((p + 1 : Nat) : Int) = (N : Int)
          exact_mod_cast hlast, p, hp, Or.inl ⟨by rw [CritState.goto_pc, if_pos rfl], hsc⟩,
          fun q hq hqp => ?_⟩, ?_⟩)⟩
        · rw [CritState.goto_pc, if_neg hqp]
          exact (hall q hq).1 (by omega)
        · rw [rounds_succ, hlog1, hlast]
      · rw [if_neg (by
          intro h
          exact hlast (by exact_mod_cast h))]
        have hnext : c.pc (p + 1) = .beginUnlock ∨ c.pc (p + 1) = .beginSpin :=
          (hall (p + 1) (by omega)).2.2 (by omega)
        refine ⟨r, Or.inr (Or.inl ⟨p + 1, ⟨by omega, rfl, hsc, fun q hq => ?_⟩, ?_⟩)⟩
        · rw [CritState.goto_pc]
          by_cases hqp : q = p
          · rw [if_pos hqp]
            exact ⟨fun _ => rfl, fun h => absurd h (by omega), fun h => absurd h (by omega)⟩
          · rw [if_neg hqp]
            refine ⟨fun h => (hall q hq).1 (by omega), fun h => ?_,
              fun h => (hall q hq).2.2 (by omega)⟩
            rcases (hall q hq).2.2 (by omega) with h' | h'
            · exact Or.inl h'
            · exact Or.inr (Or.inl h')
        · rw [hlog1, CritState.goto_pc, if_neg (show ¬ (p + 1 = p) by omega)]
          have hno : ¬ (c.pc (p + 1) = .inside ∨ c.pc (p + 1) = .endTicket) := by
            rcases hnext with h | h <;> rw [h] <;> simp
          rw [if_neg hno]
  · have hadm : isAdmission N c p = false := by
      unfold isAdmission
      rw [decide_eq_false_iff_not, htk]
      rintro ⟨-, -, h⟩
      omega
    rw [hadm]
    simp only [Bool.false_eq_true, if_false]
    rcases (hall p hp).2.2 hpt with e | e
    · rw [critStep_begin hp (by rw [e]; rfl)]
      simp only [Proc_beginCriticalSection_step, e]
      exact hwaitmove _ (fun q => rfl) rfl rfl e
    · rw [critStep_begin hp (by rw [e]; rfl)]
      simp only [Proc_beginCriticalSection_step, e]
      rw [if_pos (by rw [htk]; omega)]
      exact hstay

/-- A step during the reset: the last processor clears the counter, then the ticket, which
starts the gathering of the next round. -/
theorem Resetting.step_reset {N : Nat} {c : CritState} {log : List Nat} {r : Nat}
    (hr : Resetting N c) (hlog : log = rounds N r) {p : Nat} (hp : p < N) :
    Phase N (critStep N c p) (if isAdmission N c p then log ++ [p] else log) := by
  have hr0 := hr
  obtain ⟨htk, q, hq, hqpc, hoth⟩ := hr
  have hnadm : ∀ {x : CritPc}, c.pc p = x → x ≠ .beginSpin → isAdmission N c p = false :=
    fun e hx => by
      unfold isAdmission
      rw [decide_eq_false_iff_not, e]
      rintro ⟨-, h, -⟩
      exact hx h
  by_cases hpq : p = q
  · subst hpq
    rcases hqpc with ⟨e, hsc⟩ | ⟨e, hsc⟩
    · rw [hnadm e (by decide)]
      simp only [Bool.false_eq_true, if_false]
      rw [critStep_end hp (by rw [e]; rfl)]
      simp only [Proc_endCriticalSection_step, e]
      refine ⟨r, Or.inr (Or.inr ⟨⟨htk, p, hp, Or.inr ⟨by rw [CritState.goto_pc, if_pos rfl],
        rfl⟩, fun q' hq' hne => ?_⟩, hlog⟩)⟩
      rw [CritState.goto_pc, if_neg hne]
      exact hoth q' hq' hne
    · rw [hnadm e (by decide)]
      simp only [Bool.false_eq_true, if_false]
      rw [critStep_end hp (by rw [e]; rfl)]
      simp only [Proc_endCriticalSection_step, e]
      have hpc' : ∀ q', q' < N →
          (CritState.goto { c with Proc_criticalTicket := -1 } p CritPc.endSpin).pc q' =
            .endSpin := fun q' hq' => by
        rw [CritState.goto_pc]
        by_cases hne : q' = p
        · rw [if_pos hne]
        · rw [if_neg hne]; exact hoth q' hq' hne
      refine ⟨r, Or.inl ⟨⟨rfl, ?_, fun q' hq' => ?_, fun q' hq' h => ?_⟩, hlog⟩⟩
      · rw [counted_card_zero (fun q' hq' => by
          unfold Counted
          rw [hpc' q' hq']
          simp)]
        exact hsc
      · exact Or.inr (Or.inr (Or.inr (Or.inr (Or.inr (Or.inr (hpc' q' hq'))))))
      · rw [hpc' q' hq'] at h
        exact absurd h (by decide)
  · have e := hoth p hp hpq
    rw [hnadm e (by decide)]
    simp only [Bool.false_eq_true, if_false]
    rw [critStep_end hp (by rw [e]; rfl)]
    simp only [Proc_endCriticalSection_step, e]
    rw [if_pos (by rw [htk]; omega)]
    exact ⟨r, Or.inr (Or.inr ⟨hr0, hlog⟩)⟩

/-! ## The rotating critical section: the invariant -/

/-- The invariant is kept by every step. -/
theorem CritInv.step_inv {N : Nat} {c : CritState} {log : List Nat} (hN : N < 2147483648)
    (h : CritInv N c log) (p : Nat) :
    CritInv N (critStepLog N (c, log) p).1 (critStepLog N (c, log) p).2 := by
  obtain ⟨hinit, hlock, r, hph⟩ := h
  show CritInv N (critStep N c p) (if isAdmission N c p then log ++ [p] else log)
  by_cases hp : p < N
  · refine ⟨(critStep_initializedCount N c p).trans hinit, hlock.step_lock p, ?_⟩
    rcases hph with ⟨hg, hlog⟩ | ⟨t, hs, hlog⟩ | ⟨hr, hlog⟩
    · exact hg.step_gather hN hinit hlock hlog hp
    · exact hs.step_serve hN hinit hlog hp
    · exact hr.step_reset hlog hp
  · have hstep : critStep N c p = c := by
      unfold critStep
      rw [if_pos (not_lt.1 hp)]
    have hadm : isAdmission N c p = false := by
      unfold isAdmission
      rw [decide_eq_false_iff_not]
      exact fun h => hp h.1
    rw [hstep, hadm]
    exact ⟨hinit, hlock, r, hph⟩

/-- The invariant holds initially. -/
theorem CritInv.init_inv (N : Nat) : CritInv N (critInit N) [] := by
  refine ⟨rfl, fun p _ => ?_, 0, Or.inl ⟨⟨rfl, ?_, fun p _ => Or.inl rfl, fun p _ h => ?_⟩, rfl⟩⟩
  · show (CritPc.outside = .beginCount ∨ CritPc.outside = .beginSignal ∨
      CritPc.outside = .beginUnlock) ↔ (none : Option Nat) = some p
    simp
  · rw [counted_card_zero (fun q _ => by
      unfold Counted critInit
      simp)]
    rfl
  · exact absurd h (by unfold critInit; simp)

/-- The invariant holds after every schedule. -/
theorem CritInv.run_inv {N : Nat} (hN : N < 2147483648) (sched : List Nat) :
    ∀ (c : CritState) (log : List Nat), CritInv N c log →
      CritInv N (critRun N (c, log) sched).1 (critRun N (c, log) sched).2 := by
  induction sched with
  | nil => intro c log h; exact h
  | cons p ps ih =>
    intro c log h
    have := ih _ _ (h.step_inv hN p)
    exact this

/-- In a state of the invariant a processor in its region holds the ticket, and so do a
processor about to take its ticket at the end and one resetting the counters. -/
theorem CritInv.inside_ticket {N : Nat} {c : CritState} {log : List Nat} (h : CritInv N c log)
    {p : Nat} (hp : p < N) (hpc : c.pc p = .inside) : c.Proc_criticalTicket = p := by
  obtain ⟨-, -, r, hph⟩ := h
  rcases hph with ⟨hg, -⟩ | ⟨t, hs, -⟩ | ⟨hr, -⟩
  · rcases hg.2.2.1 p hp with e | e | e | e | e | e | e <;> rw [hpc] at e <;>
      exact absurd e (by decide)
  · obtain ⟨-, htk, -, hall⟩ := hs
    rcases Nat.lt_trichotomy p t with hpt | hpt | hpt
    · have e := (hall p hp).1 hpt
      rw [hpc] at e
      exact absurd e (by decide)
    · rw [hpt]; exact htk
    · rcases (hall p hp).2.2 hpt with e | e <;> rw [hpc] at e <;> exact absurd e (by decide)
  · obtain ⟨-, q, -, hq, hoth⟩ := hr
    by_cases hpq : p = q
    · rw [← hpq, hpc] at hq
      rcases hq with ⟨e, -⟩ | ⟨e, -⟩ <;> exact absurd e (by decide)
    · have e := hoth p hp hpq
      rw [hpc] at e
      exact absurd e (by decide)

/-- In a state of the invariant the log is made of full rounds and the start of a round. -/
theorem CritInv.log_eq {N : Nat} {c : CritState} {log : List Nat} (h : CritInv N c log) :
    ∃ r m, m ≤ N ∧ log = rounds N r ++ List.range m := by
  obtain ⟨-, -, r, hph⟩ := h
  rcases hph with ⟨-, hlog⟩ | ⟨t, hs, hlog⟩ | ⟨-, hlog⟩
  · exact ⟨r, 0, Nat.zero_le _, by rw [hlog]; simp⟩
  · refine ⟨r, _, ?_, hlog⟩
    have := hs.1
    split_ifs <;> omega
  · exact ⟨r, 0, Nat.zero_le _, by rw [hlog]; simp⟩

/-- In a state of the invariant in which every processor waits at the end of
`Proc_endCriticalSection`, the counters are at their initializers. -/
theorem CritInv.all_done {N : Nat} {c : CritState} {log : List Nat} (h : CritInv N c log)
    (hall : ∀ q, q < N → c.pc q = .endSpin) :
    c.Proc_syncCount = 0 ∧ c.Proc_criticalTicket = -1 := by
  obtain ⟨-, -, r, hph⟩ := h
  rcases hph with ⟨hg, -⟩ | ⟨t, hs, -⟩ | ⟨hr, -⟩
  · refine ⟨?_, hg.1⟩
    rw [hg.2.1, counted_card_zero (fun q hq => by
      unfold Counted
      rw [hall q hq]
      simp)]
    rfl
  · have := (hs.2.2.2 t hs.1).2.1 rfl
    rw [hall t hs.1] at this
    rcases this with e | e | e | e <;> exact absurd e (by decide)
  · obtain ⟨-, q, hq, hqpc, -⟩ := hr
    rw [hall q hq] at hqpc
    rcases hqpc with ⟨e, -⟩ | ⟨e, -⟩ <;> exact absurd e (by decide)

/-! ## Claims on the rotating critical section: the reset -/

/-- Scenario S5: three processors enter one after the other; the regions are entered in the
order `0, 1, 2`, and after the third `Proc_endCriticalSection` the counters are at their
initializers and every processor leaves the wait loop. -/
theorem critRun_scenario :
    (critRun 3 (critInit 3, [])
      [0, 0, 0, 0, 1, 1, 1, 1, 2, 2, 2, 2, 2,
        0, 0, 0, 1, 1, 1, 2, 2, 2, 2, 2, 0, 1, 2]).2 = [0, 1, 2] ∧
    (critRun 3 (critInit 3, [])
      [0, 0, 0, 0, 1, 1, 1, 1, 2, 2, 2, 2, 2,
        0, 0, 0, 1, 1, 1, 2, 2, 2, 2, 2, 0, 1, 2]).1.Proc_syncCount = 0 ∧
    (critRun 3 (critInit 3, [])
      [0, 0, 0, 0, 1, 1, 1, 1, 2, 2, 2, 2, 2,
        0, 0, 0, 1, 1, 1, 2, 2, 2, 2, 2, 0, 1, 2]).1.Proc_criticalTicket = -1 ∧
    ∀ p ∈ [0, 1, 2], (critRun 3 (critInit 3, [])
      [0, 0, 0, 0, 1, 1, 1, 1, 2, 2, 2, 2, 2,
        0, 0, 0, 1, 1, 1, 2, 2, 2, 2, 2, 0, 1, 2]).1.pc p = .outside := by
  decide

/-- C30: with all `N` processors initialized, in the state after any schedule: the
`Proc_endCriticalSection` call of a processor `p` whose increment brings
`Proc_criticalTicket` to `N` then sets `Proc_syncCount` to `0` and `Proc_criticalTicket` to
`-1`; a call whose increment gives another value goes to its wait loop, and its steps leave
`Proc_syncCount` as it is; and once every processor is in the wait loop of
`Proc_endCriticalSection`, `Proc_syncCount = 0` and `Proc_criticalTicket = -1`. -/
theorem Proc_endCriticalSection_resets (N : Nat) (hN : N < 2147483648) (sched : List Nat)
    (p : Nat) (hp : p < N) :
    ((critRun N (critInit N, []) sched).1.pc p = .endTicket →
      wrapInt32 ((critRun N (critInit N, []) sched).1.Proc_criticalTicket + 1) = N →
      (critStep N (critStep N (critStep N (critRun N (critInit N, []) sched).1 p) p)
        p).Proc_syncCount = 0 ∧
      (critStep N (critStep N (critStep N (critRun N (critInit N, []) sched).1 p) p)
        p).Proc_criticalTicket = -1) ∧
    ((critRun N (critInit N, []) sched).1.pc p = .endTicket →
      wrapInt32 ((critRun N (critInit N, []) sched).1.Proc_criticalTicket + 1) ≠ N →
      (critStep N (critRun N (critInit N, []) sched).1 p).pc p = .endSpin ∧
      (critStep N (critRun N (critInit N, []) sched).1 p).Proc_syncCount =
        (critRun N (critInit N, []) sched).1.Proc_syncCount) ∧
    ((critRun N (critInit N, []) sched).1.pc p = .inside ∨
        (critRun N (critInit N, []) sched).1.pc p = .endSpin →
      (critStep N (critRun N (critInit N, []) sched).1 p).Proc_syncCount =
        (critRun N (critInit N, []) sched).1.Proc_syncCount) ∧
    ((∀ q, q < N → (critRun N (critInit N, []) sched).1.pc q = .endSpin) →
      (critRun N (critInit N, []) sched).1.Proc_syncCount = 0 ∧
      (critRun N (critInit N, []) sched).1.Proc_criticalTicket = -1) := by
  have h := (CritInv.init_inv N).run_inv hN sched
  generalize (critRun N (critInit N, []) sched).1 = c at h ⊢
  generalize (critRun N (critInit N, []) sched).2 = log at h
  refine ⟨fun e hw => ?_, fun e hw => ?_, fun e => ?_, fun hall => h.all_done hall⟩
  · have h1 : critStep N c p = CritState.goto
        { c with Proc_criticalTicket := wrapInt32 (c.Proc_criticalTicket + 1) } p
        .endResetCount := by
      rw [critStep_end hp (by rw [e]; rfl)]
      simp only [Proc_endCriticalSection_step, e, hw, if_true]
    have h2 : critStep N (critStep N c p) p = CritState.goto
        { critStep N c p with Proc_syncCount := 0 } p .endResetTicket := by
      have e' : (critStep N c p).pc p = .endResetCount := by rw [h1]; simp
      rw [critStep_end hp (by rw [e']; rfl)]
      simp only [Proc_endCriticalSection_step, e']
    have h3 : critStep N (critStep N (critStep N c p) p) p = CritState.goto
        { critStep N (critStep N c p) p with Proc_criticalTicket := -1 } p .endSpin := by
      have e' : (critStep N (critStep N c p) p).pc p = .endResetTicket := by rw [h2]; simp
      rw [critStep_end hp (by rw [e']; rfl)]
      simp only [Proc_endCriticalSection_step, e']
    rw [h3]
    refine ⟨?_, rfl⟩
    rw [CritState.goto_syncCount, h2]
    rfl
  · rw [critStep_end hp (by rw [e]; rfl)]
    simp only [Proc_endCriticalSection_step, e, if_neg hw]
    exact ⟨by simp, rfl⟩
  · rcases e with e | e
    · rw [critStep_end hp (by rw [e]; rfl)]
      simp only [Proc_endCriticalSection_step, e]
      split_ifs <;> rfl
    · rw [critStep_end hp (by rw [e]; rfl)]
      simp only [Proc_endCriticalSection_step, e]
      split_ifs <;> rfl

theorem Proc_endCriticalSection_resets_witness :
    (critStep 3 (critStep 3 (critStep 3 (critRun 3 (critInit 3, [])
      [0, 0, 0, 0, 1, 1, 1, 1, 2, 2, 2, 2, 2, 0, 0, 0, 1, 1, 1, 2, 2]).1 2) 2)
        2).Proc_syncCount = 0 ∧
    (critStep 3 (critStep 3 (critStep 3 (critRun 3 (critInit 3, [])
      [0, 0, 0, 0, 1, 1, 1, 1, 2, 2, 2, 2, 2, 0, 0, 0, 1, 1, 1, 2, 2]).1 2) 2)
        2).Proc_criticalTicket = -1 :=
  (Proc_endCriticalSection_resets 3 (by decide)
    [0, 0, 0, 0, 1, 1, 1, 1, 2, 2, 2, 2, 2, 0, 0, 0, 1, 1, 1, 2, 2] 2 (by decide)).1
    (by decide) (by decide)

/-! ## Claims on the BSP coordinator -/

/-- C26: a call of `Proc_BSP` with all processors initialized that reads `Proc_bspState` as
`IN_PROGRESS`, or as `WAITING` with a non-null `functions`, or as `DONE` with a null
`functions`, returns `FALSE`; the static variables of the coordinator and the calls of the
other processors are as before. -/
theorem Proc_BSP_rejects (N : Nat) (res : Nat → Nat → Bool) (c : BSPConfig) (p : Nat)
    (hpc : (c.threads p).pc = .entry)
    (hinit : Proc_isInitialized c.shared.Proc_initializedCount N = true)
    (hcase : c.shared.Proc_bspState = .IN_PROGRESS ∨
      ((c.threads p).functions ≠ 0 ∧ c.shared.Proc_bspState = .WAITING) ∨
      ((c.threads p).functions = 0 ∧ c.shared.Proc_bspState = .DONE)) :
    ((Proc_BSP_step N res c p).threads p).pc = .returned false ∧
      (Proc_BSP_step N res c p).shared = c.shared ∧
      ∀ q, q ≠ p → (Proc_BSP_step N res c p).threads q = c.threads q := by
  unfold Proc_BSP_step
  rw [hpc]
  simp only [hinit, Bool.true_eq_false, if_false, if_pos hcase]
  refine ⟨?_, rfl, fun q hq => ?_⟩
  · simp [BSPConfig.update]
  · simp [BSPConfig.update, hq]

theorem Proc_BSP_rejects_witness :
    (((Proc_BSP_step 2 (fun _ _ => true) (bspTwo 2) 1).threads 1).pc = .returned false ∧
      (Proc_BSP_step 2 (fun _ _ => true) (bspTwo 2) 1).shared = (bspTwo 2).shared ∧
      ∀ q, q ≠ 1 → (Proc_BSP_step 2 (fun _ _ => true) (bspTwo 2) 1).threads q =
        (bspTwo 2).threads q) ∧
    (((Proc_BSP_step 2 (fun _ _ => true)
        (bspRun 2 (fun _ _ => true) ((bspTwo 2).call 1 300 1 400) [0, 0, 0, 0, 0]) 1).threads
          1).pc = .returned false ∧
      (Proc_BSP_step 2 (fun _ _ => true)
        (bspRun 2 (fun _ _ => true) ((bspTwo 2).call 1 300 1 400) [0, 0, 0, 0, 0]) 1).shared =
        (bspRun 2 (fun _ _ => true) ((bspTwo 2).call 1 300 1 400) [0, 0, 0, 0, 0]).shared ∧
      ∀ q, q ≠ 1 → (Proc_BSP_step 2 (fun _ _ => true)
        (bspRun 2 (fun _ _ => true) ((bspTwo 2).call 1 300 1 400) [0, 0, 0, 0, 0]) 1).threads
          q =
        (bspRun 2 (fun _ _ => true) ((bspTwo 2).call 1 300 1 400)
          [0, 0, 0, 0, 0]).threads q) ∧
    (((Proc_BSP_step 2 (fun _ _ => true)
        ((bspRun 2 (fun _ _ => true) (bspTwo 2)
          bspSecondStep).call 1 0 0 0) 1).threads 1).pc = .returned false ∧
      (Proc_BSP_step 2 (fun _ _ => true)
        ((bspRun 2 (fun _ _ => true) (bspTwo 2)
          bspSecondStep).call 1 0 0 0) 1).shared =
        ((bspRun 2 (fun _ _ => true) (bspTwo 2)
          bspSecondStep).call 1 0 0 0).shared ∧
      ∀ q, q ≠ 1 → (Proc_BSP_step 2 (fun _ _ => true)
        ((bspRun 2 (fun _ _ => true) (bspTwo 2)
          bspSecondStep).call 1 0 0 0) 1).threads q =
        ((bspRun 2 (fun _ _ => true) (bspTwo 2)
          bspSecondStep).call 1 0 0 0).threads q) :=
  ⟨Proc_BSP_rejects 2 (fun _ _ => true) (bspTwo 2) 1 (by decide) (by decide)
      (Or.inr (Or.inr ⟨by decide, by decide⟩)),
    Proc_BSP_rejects 2 (fun _ _ => true)
      (bspRun 2 (fun _ _ => true) ((bspTwo 2).call 1 300 1 400) [0, 0, 0, 0, 0]) 1 (by decide)
      (by decide) (Or.inr (Or.inl ⟨by decide, by decide⟩)),
    Proc_BSP_rejects 2 (fun _ _ => true)
      ((bspRun 2 (fun _ _ => true) (bspTwo 2)
        bspSecondStep).call 1 0 0 0) 1 (by decide) (by decide)
      (Or.inl (by decide))⟩

/-- C27: a round of two processors with a pipeline of two functions. Processor `0`, the
initiator, and processor `1` return `TRUE`, and the static variables of the coordinator are
at their initial values except `Proc_bspCount`, which is `2`. A later call of processor `0`
with a non-null `functions`, made in state `DONE`, gets `myBSPCount = 3`, takes the branch of
an initiator that lost the race while `Proc_bspState` is `DONE`, and returns `FALSE`. -/
theorem Proc_BSP_count_not_reset :
    ((bspRun 2 (fun _ _ => true) (bspTwo 2)
      bspFullRound).threads 0).pc = .returned true ∧
    ((bspRun 2 (fun _ _ => true) (bspTwo 2)
      bspFullRound).threads 1).pc = .returned true ∧
    (bspRun 2 (fun _ _ => true) (bspTwo 2)
      bspFullRound).shared =
      { bspShared0 2 with Proc_bspCount := 2 } ∧
    ((bspRun 2 (fun _ _ => true)
      ((bspRun 2 (fun _ _ => true) (bspTwo 2)
        bspFullRound).call 0 100 2 200)
      [0, 0, 0]).threads 0).pc = .lostRace ∧
    ((bspRun 2 (fun _ _ => true)
      ((bspRun 2 (fun _ _ => true) (bspTwo 2)
        bspFullRound).call 0 100 2 200)
      [0, 0, 0]).threads 0).myBSPCount = 3 ∧
    (bspRun 2 (fun _ _ => true)
      ((bspRun 2 (fun _ _ => true) (bspTwo 2)
        bspFullRound).call 0 100 2 200)
      [0, 0, 0]).shared.Proc_bspState = .DONE ∧
    ((bspRun 2 (fun _ _ => true)
      ((bspRun 2 (fun _ _ => true) (bspTwo 2)
        bspFullRound).call 0 100 2 200)
      [0, 0, 0, 0, 0]).threads 0).pc = .returned false ∧
    (bspRun 2 (fun _ _ => true)
      ((bspRun 2 (fun _ _ => true) (bspTwo 2)
        bspFullRound).call 0 100 2 200)
      [0, 0, 0, 0, 0]).shared = { bspShared0 2 with Proc_bspCount := 2 } := by
  decide

/-- C28: a round of two processors with a pipeline of three functions that all return
`TRUE`. After both processors have completed `f[0]`, processor `0` completes `f[1]`, finds
`numParticipantsFinished = 3` not below `numParticipants = 2` and begins `f[2]`, while
processor `1` has not begun `f[1]`. -/
theorem Proc_BSP_rendezvous_passed :
    ((bspRun 2 (fun _ _ => true) (bspTwo 3)
      (bspFirstStep ++ [0, 0, 0])).threads 0).pc = .rendezvous 1 ∧
    (bspRun 2 (fun _ _ => true) (bspTwo 3)
      (bspFirstStep ++ [0, 0, 0])).shared.numParticipantsFinished = 3 ∧
    (bspRun 2 (fun _ _ => true) (bspTwo 3)
      (bspFirstStep ++ [0, 0, 0])).shared.numParticipants = 2 ∧
    ((bspRun 2 (fun _ _ => true) (bspTwo 3)
      (bspFirstStep ++ [0, 0, 0, 0])).threads 0).pc = .running 2 ∧
    ((bspRun 2 (fun _ _ => true) (bspTwo 3)
      (bspFirstStep ++ [0, 0, 0, 0])).threads 1).pc = .rendezvous 0 ∧
    (bspRun 2 (fun _ _ => true) (bspTwo 3)
      (bspFirstStep ++ [0, 0, 0, 0])).shared.Proc_bspState = .IN_PROGRESS := by
  decide

/-! ## Claim on the atomic sections -/

/-- C31: for a state whose `atomicState` can be incremented without overflow and whose
`limitPlusSlop` is a pointer at or above `GC_HEAP_LIMIT_SLOP`: `beginAtomic` adds one to
`atomicState` and sets `limit` to `limitPlusSlop - GC_HEAP_LIMIT_SLOP` if `limit` was `0`,
leaving it otherwise; `endAtomic`, called with `atomicState >= 1`, subtracts one from
`atomicState` and sets `limit` to `0` if the new `atomicState` is `0` and a signal is pending,
leaving it otherwise; both leave `limitPlusSlop` and `signalIsPending` as they are; and
`endAtomic` after `beginAtomic` gives back the `atomicState` before the two calls. -/
theorem atomic_frame (A slop : Nat) (s : GC_atomic) (hA : s.atomicState + 1 < A)
    (hslop : slop ≤ s.limitPlusSlop) (hlps : s.limitPlusSlop < W64) :
    (beginAtomic A slop s).atomicState = s.atomicState + 1 ∧
    (beginAtomic A slop s).limit =
      (if s.limit = 0 then s.limitPlusSlop - slop else s.limit) ∧
    (beginAtomic A slop s).limitPlusSlop = s.limitPlusSlop ∧
    (beginAtomic A slop s).signalIsPending = s.signalIsPending ∧
    (1 ≤ s.atomicState →
      (endAtomic A s).atomicState = s.atomicState - 1 ∧
      (endAtomic A s).limit =
        (if s.atomicState - 1 = 0 ∧ s.signalIsPending = true then 0 else s.limit)) ∧
    (endAtomic A s).limitPlusSlop = s.limitPlusSlop ∧
    (endAtomic A s).signalIsPending = s.signalIsPending ∧
    (endAtomic A (beginAtomic A slop s)).atomicState = s.atomicState := by
  have hb : (s.atomicState + 1) % A = s.atomicState + 1 := Nat.mod_eq_of_lt hA
  have hsub : (s.limitPlusSlop + W64 - slop % W64) % W64 = s.limitPlusSlop - slop := by
    have h1 : slop % W64 = slop := Nat.mod_eq_of_lt (lt_of_le_of_lt hslop hlps)
    have h2 : s.limitPlusSlop - slop < W64 := lt_of_le_of_lt (Nat.sub_le _ _) hlps
    rw [h1, Nat.sub_add_comm hslop, Nat.add_mod_right, Nat.mod_eq_of_lt h2]
  have hbs : (beginAtomic A slop s).atomicState = s.atomicState + 1 := by
    unfold beginAtomic
    simp only [hb]
    split_ifs <;> rfl
  refine ⟨hbs, ?_, ?_, ?_, fun h1 => ?_, ?_, ?_, ?_⟩
  · unfold beginAtomic
    by_cases h0 : s.limit = 0
    · simp only [h0, if_true, hsub]
    · have h0' : ¬ (0 = s.limit) := fun e => h0 e.symm
      simp only [if_neg h0, if_neg h0']
  · unfold beginAtomic
    simp only
    split_ifs <;> rfl
  · unfold beginAtomic
    simp only
    split_ifs <;> rfl
  · have he : (s.atomicState + A - 1) % A = s.atomicState - 1 := by
      rw [show s.atomicState + A - 1 = (s.atomicState - 1) + A by omega, Nat.add_mod_right,
        Nat.mod_eq_of_lt (by omega)]
    unfold endAtomic
    simp only [he]
    constructor
    · split_ifs <;> rfl
    · by_cases hc : s.atomicState - 1 = 0 ∧ s.signalIsPending = true
      · have hc' : 0 = s.atomicState - 1 ∧ s.signalIsPending = true := ⟨hc.1.symm, hc.2⟩
        simp only [if_pos hc, if_pos hc']
      · have hc' : ¬ (0 = s.atomicState - 1 ∧ s.signalIsPending = true) :=
          fun h => hc ⟨h.1.symm, h.2⟩
        simp only [if_neg hc, if_neg hc']
  · unfold endAtomic
    simp only
    split_ifs <;> rfl
  · unfold endAtomic
    simp only
    split_ifs <;> rfl
  · have he : ((beginAtomic A slop s).atomicState + A - 1) % A = s.atomicState := by
      rw [hbs, show s.atomicState + 1 + A - 1 = s.atomicState + A by omega, Nat.add_mod_right,
        Nat.mod_eq_of_lt (by omega)]
    unfold endAtomic
    simp only [he]
    split_ifs <;> rfl

theorem atomic_frame_witness :
    (beginAtomic 4294967296 512 ⟨0, 0, 100000, true⟩).atomicState = 0 + 1 ∧
    (beginAtomic 4294967296 512 ⟨0, 0, 100000, true⟩).limit =
      (if (0 : Ptr) = 0 then 100000 - 512 else 0) ∧
    (beginAtomic 4294967296 512 ⟨0, 0, 100000, true⟩).limitPlusSlop = 100000 ∧
    (beginAtomic 4294967296 512 ⟨0, 0, 100000, true⟩).signalIsPending = true ∧
    (endAtomic 4294967296 ⟨1, 99488, 100000, true⟩).atomicState = 1 - 1 ∧
    (endAtomic 4294967296 ⟨1, 99488, 100000, true⟩).limit =
      (if 1 - 1 = 0 ∧ true = true then 0 else 99488) ∧
    (endAtomic 4294967296 (beginAtomic 4294967296 512 ⟨0, 0, 100000, true⟩)).atomicState = 0 :=
  ⟨(atomic_frame 4294967296 512 ⟨0, 0, 100000, true⟩ (by decide) (by decide) (by decide)).1,
    (atomic_frame 4294967296 512 ⟨0, 0, 100000, true⟩ (by decide) (by decide) (by decide)).2.1,
    (atomic_frame 4294967296 512 ⟨0, 0, 100000, true⟩ (by decide) (by decide)
      (by decide)).2.2.1,
    (atomic_frame 4294967296 512 ⟨0, 0, 100000, true⟩ (by decide) (by decide)
      (by decide)).2.2.2.1,
    ((atomic_frame 4294967296 512 ⟨1, 99488, 100000, true⟩ (by decide) (by decide)
      (by decide)).2.2.2.2.1 (by decide)).1,
    ((atomic_frame 4294967296 512 ⟨1, 99488, 100000, true⟩ (by decide) (by decide)
      (by decide)).2.2.2.2.1 (by decide)).2,
    (atomic_frame 4294967296 512 ⟨0, 0, 100000, true⟩ (by decide) (by decide)
      (by decide)).2.2.2.2.2.2.2⟩

/-! ## Claim on `appendChunkList` and the chunk-list invariants -/

/-- C32: on the store `poolS2`, whose head `9` has the chunk `65536` and whose head `5` has
no chunk, both well formed with consistent `prevChunk` links, `appendChunkList(9, 5)`
leaves the head `9` with the chunk sequence `65536` from `firstChunk` and with
`lastChunk = NULL`: the head `9` is not well formed, and `lastChunk` is not the chunk that
the walk of `HM_assertChunkListInvariants` from `firstChunk` ends in. -/
theorem appendChunkList_empty_src :
    HeadWF poolS2 9 [65536] ∧ HeadWF poolS2 5 [] ∧ PrevLinks poolS2 0 [65536] ∧
    ∃ s', appendChunkList poolS2 9 5 = .ok s' ∧
      ChunkSeq s' (s'.lists 9).firstChunk ([65536] ++ []) ∧
      (s'.lists 9).firstChunk = 65536 ∧ (s'.chunks 65536).nextChunk = 0 ∧
      (s'.lists 9).lastChunk = 0 ∧ ¬ HeadWF s' 9 ([65536] ++ []) :=
  ⟨poolS2_wf, ⟨by decide, by decide, by decide, fun c h => absurd h (List.not_mem_nil _)⟩,
    by decide, _, rfl, by decide, by decide, by decide, by decide,
    fun h => absurd h.2.2.1 (by decide)⟩

/-! ## Claim on the transparency of path compression -/

theorem State.setChunk_self (s : State) (c : Ptr) : s.setChunk c (s.chunks c) = s := by
  cases s with
  | mk ch ls =>
    unfold State.setChunk
    congr
    funext q
    by_cases hq : q = c
    · rw [if_pos hq, hq]
    · rw [if_neg hq]

/-- C34: `HM_getLevelHeadPathCompress(c)` on a chunk `c` whose `levelHead` chain is acyclic
and ends in the level head `R`. For every chunk `d` whose chain is acyclic, `HM_getLevelHead(d)`
returns the same node after the call as before; the chunks other than `c` and the nodes
outside the chain of `c` are unchanged, `c` changes only in `levelHead` and a node of the
chain only in `parent`, both of which become `R`; the level heads are the same nodes; and a
second `HM_getLevelHeadPathCompress(c)` returns `R` and leaves the store as it is. -/
theorem HM_getLevelHeadPathCompress_transparent (s : State) (c R : Ptr) (path : List Ptr)
    (fuel : Nat) (hc : c ≠ 0) (h : ParentPath s (s.chunks c).levelHead path R)
    (hf : path.length < fuel) :
    ∃ s', HM_getLevelHeadPathCompress fuel s c = .ok (s', R) ∧
      (∀ (d e : Ptr) (q : List Ptr) (f : Nat), d ≠ 0 →
        Path (fun x => (s.lists x).parent) (isRootOrNull s) (s.chunks d).levelHead q e →
        q.length < f → HM_getLevelHead f s d = .ok e ∧ HM_getLevelHead f s' d = .ok e) ∧
      (∀ d, s'.chunks d = if d = c then { s.chunks c with levelHead := R } else s.chunks d) ∧
      (∀ x ∈ path, s'.lists x = { s.lists x with parent := R }) ∧
      (∀ y, y ∉ path → s'.lists y = s.lists y) ∧
      (∀ n, isLevelHead s' n ↔ isLevelHead s n) ∧
      (∀ f, 0 < f → HM_getLevelHeadPathCompress f s' c = .ok (s', R)) := by
  obtain ⟨s', hrun, hC⟩ := HM_getLevelHeadPathCompress_compressed s c R path fuel hc h hf
  have hself := hC.resolves_self
  refine ⟨s', hrun, fun d e q f hd hq hqf => ?_, hC.2.1, hC.2.2.1, hC.2.2.2,
    hC.isLevelHead_iff, fun f hf0 => ?_⟩
  · have hbefore : HM_getLevelHead f s d = .ok e := by
      unfold HM_getLevelHead
      rw [if_neg hd]
      exact HM_getLevelHead_loop_of_path s q _ e f hq hqf
    refine ⟨hbefore, ?_⟩
    unfold HM_getLevelHead
    rw [if_neg hd]
    by_cases hdc : d = c
    · subst hdc
      obtain ⟨-, e'⟩ := Path.det hq h.1
      subst e'
      exact HM_getLevelHead_loop_of_path s' [] _ e f hself.1 (by simp; omega)
    · obtain ⟨q', hq', hlen⟩ := hC.chain q _ e hq
      rw [hC.chunk_ne hdc]
      exact HM_getLevelHead_loop_of_path s' q' _ e f hq' (by omega)
  · obtain ⟨f', rfl⟩ : ∃ f', f = f' + 1 := ⟨f - 1, by omega⟩
    have hget : HM_getLevelHead (f' + 1) s' c = .ok R :=
      HM_getLevelHead_of_resolves s' c R [] (f' + 1) hc hself (by simp)
    have hlh : (s'.chunks c).levelHead = R := hC.levelHead_self
    have hrec : ({ s'.chunks c with levelHead := R } : HM_chunk) = s'.chunks c := by
      rw [← hlh]
    unfold HM_getLevelHeadPathCompress
    rw [hget]
    simp only [hrec, State.setChunk_self, hlh]
    unfold HM_getLevelHeadPathCompress_loop
    simp

theorem HM_getLevelHeadPathCompress_transparent_witness :
    ∃ s', HM_getLevelHeadPathCompress 3 chainedHeads 16384 = .ok (s', 1) ∧
      (HM_getLevelHead 3 chainedHeads 12288 = .ok 1 ∧ HM_getLevelHead 3 s' 12288 = .ok 1) ∧
      (HM_getLevelHead 3 chainedHeads 4096 = .ok 1 ∧ HM_getLevelHead 3 s' 4096 = .ok 1) ∧
      (∀ d, s'.chunks d =
        if d = 16384 then { chainedHeads.chunks 16384 with levelHead := 1 }
        else chainedHeads.chunks d) ∧
      (∀ x ∈ [3, 2], s'.lists x = { chainedHeads.lists x with parent := 1 }) ∧
      (∀ y, y ∉ [3, 2] → s'.lists y = chainedHeads.lists y) ∧
      (∀ n, isLevelHead s' n ↔ isLevelHead chainedHeads n) ∧
      (∀ f, 0 < f → HM_getLevelHeadPathCompress f s' 16384 = .ok (s', 1)) :=
  let ⟨s', h1, h2, h3⟩ :=
    HM_getLevelHeadPathCompress_transparent chainedHeads 16384 1 [3, 2] 3 (by decide)
      (by decide) (by decide)
  ⟨s', h1, h2 12288 1 [3, 2] 3 (by decide) (by decide) (by decide),
    h2 4096 1 [] 3 (by decide) (by decide) (by decide), h3⟩

/-! ## Claim on `Proc_BSP` on a single processor -/

theorem bspRunLog_add (N : Nat) (res : Nat → Nat → Bool) (cl : BSPConfig × List (Nat × Nat))
    (a b : Nat) :
    bspRunLog N res cl (List.replicate (a + b) 0) =
      bspRunLog N res (bspRunLog N res cl (List.replicate a 0)) (List.replicate b 0) := by
  unfold bspRunLog
  rw [List.replicate_add, List.foldl_append]

/-- The first steps of the first call of a single processor: it is elected, sets up the
round and reaches the loop over the pipeline without calling a function. -/
theorem Proc_BSP_single_prefix (res : Nat → Nat → Bool) (functions args : Ptr) (k : Nat)
    (hfn : functions ≠ 0) :
    ((bspRunLog 1 res (bspOne functions k args, []) (List.replicate 12 0)).1.threads 0).pc =
        (if 0 < k then .running 0 else .leave) ∧
      ((bspRunLog 1 res (bspOne functions k args, [])
        (List.replicate 12 0)).1.threads 0).numFunctions = k ∧
      ((bspRunLog 1 res (bspOne functions k args, [])
        (List.replicate 12 0)).1.threads 0).amInitiator = true ∧
      (bspRunLog 1 res (bspOne functions k args, [])
        (List.replicate 12 0)).1.shared.numParticipantsFinished = 0 ∧
      (bspRunLog 1 res (bspOne functions k args, [])
        (List.replicate 12 0)).1.shared.numParticipants = 1 ∧
      (bspRunLog 1 res (bspOne functions k args, []) (List.replicate 12 0)).2 = [] := by
  simp [bspRunLog, List.replicate, bspStepLog, Proc_BSP_step, bspCall, BSPConfig.update,
    bspOne, BSPThread.enter, bspShared0, Proc_isInitialized, wrapInt32, hfn, W64]

/-- A call of the pipeline that returns `FALSE`: processor `0` leaves the loop. -/
theorem Proc_BSP_single_false (res : Nat → Nat → Bool) (c : BSPConfig)
    (log : List (Nat × Nat)) (i : Nat) (hpc : (c.threads 0).pc = .running i)
    (hres : res 0 i = false) :
    ((bspRunLog 1 res (c, log) (List.replicate 1 0)).1.threads 0).pc = .leave ∧
      ((bspRunLog 1 res (c, log) (List.replicate 1 0)).1.threads 0).amInitiator =
        (c.threads 0).amInitiator ∧
      (bspRunLog 1 res (c, log) (List.replicate 1 0)).1.shared = c.shared ∧
      (bspRunLog 1 res (c, log) (List.replicate 1 0)).2 = log ++ [(0, i)] := by
  simp [bspRunLog, List.replicate, bspStepLog, Proc_BSP_step, bspCall, BSPConfig.update, hpc,
    hres]

/-- A call of the pipeline that returns `TRUE` on a single processor: the counter of finished
participants is at least the number of participants, so processor `0` goes on to the next
call or leaves the loop after the last one. -/
theorem Proc_BSP_single_true (res : Nat → Nat → Bool) (c : BSPConfig)
    (log : List (Nat × Nat)) (i k : Nat) (hpc : (c.threads 0).pc = .running i)
    (hres : res 0 i = true) (hk : (c.threads 0).numFunctions = k)
    (hfin : c.shared.numParticipantsFinished = i) (hnum : c.shared.numParticipants = 1)
    (hi : i + 1 < W64) :
    ((bspRunLog 1 res (c, log) (List.replicate 3 0)).1.threads 0).pc = BSPPc.next k i ∧
      ((bspRunLog 1 res (c, log) (List.replicate 3 0)).1.threads 0).numFunctions = k ∧
      ((bspRunLog 1 res (c, log) (List.replicate 3 0)).1.threads 0).amInitiator =
        (c.threads 0).amInitiator ∧
      (bspRunLog 1 res (c, log) (List.replicate 3 0)).1.shared.numParticipantsFinished =
        i + 1 ∧
      (bspRunLog 1 res (c, log) (List.replicate 3 0)).1.shared.numParticipants = 1 ∧
      (bspRunLog 1 res (c, log) (List.replicate 3 0)).2 = log ++ [(0, i)] := by
  have hmod : (i + 1) % W64 = i + 1 := Nat.mod_eq_of_lt hi
  simp [bspRunLog, List.replicate, bspStepLog, Proc_BSP_step, bspCall, BSPConfig.update, hpc,
    hres, hk, hfin, hnum, hmod]

/-- The end of a call of `Proc_BSP` by the initiator on a single processor: it leaves the
round, resets the shared variables, sets `DONE` and returns `TRUE`, without calling a
function. -/
theorem Proc_BSP_single_tail (res : Nat → Nat → Bool) (c : BSPConfig)
    (log : List (Nat × Nat)) (hpc : (c.threads 0).pc = .leave)
    (hinit : (c.threads 0).amInitiator = true) (hnum : c.shared.numParticipants = 1) :
    ((bspRunLog 1 res (c, log) (List.replicate 4 0)).1.threads 0).pc = .returned true ∧
      (bspRunLog 1 res (c, log) (List.replicate 4 0)).1.shared.Proc_bspState = .DONE ∧
      (bspRunLog 1 res (c, log) (List.replicate 4 0)).2 = log := by
  simp [bspRunLog, List.replicate, bspStepLog, Proc_BSP_step, bspCall, BSPConfig.update, hpc,
    hinit, hnum, W64]

/-- The loop over the pipeline on a single processor, from the call of index `i`: the calls
of the indices `i, …, m - 1` are made in this order, all but the last return `TRUE`, and the
loop is left before the end of the pipeline only after a call that returns `FALSE`. -/
theorem Proc_BSP_single_loop (res : Nat → Nat → Bool) (k : Nat) (hk : k < W64) :
    ∀ (j i : Nat) (c : BSPConfig) (log : List (Nat × Nat)), k - i = j → i < k →
      (c.threads 0).pc = .running i → (c.threads 0).numFunctions = k →
      (c.threads 0).amInitiator = true → c.shared.numParticipantsFinished = i →
      c.shared.numParticipants = 1 →
      ∃ n m, i < m ∧ m ≤ k ∧
        ((bspRunLog 1 res (c, log) (List.replicate n 0)).1.threads 0).pc = .leave ∧
        ((bspRunLog 1 res (c, log) (List.replicate n 0)).1.threads 0).amInitiator = true ∧
        (bspRunLog 1 res (c, log) (List.replicate n 0)).1.shared.numParticipants = 1 ∧
        (bspRunLog 1 res (c, log) (List.replicate n 0)).2 =
          log ++ (List.range' i (m - i)).map (fun x => (0, x)) ∧
        (∀ x, i ≤ x → x + 1 < m → res 0 x = true) ∧ (m < k → res 0 (m - 1) = false)
  | 0, i, _, _, hj, hik, _, _, _, _, _ => by omega
  | j + 1, i, c, log, hj, hik, hpc, hnf, hinit, hfin, hnum => by
    cases hres : res 0 i with
    | false =>
      obtain ⟨a1, a2, a3, a4⟩ := Proc_BSP_single_false res c log i hpc hres
      refine ⟨1, i + 1, by omega, by omega, a1, a2.trans hinit, by rw [a3]; exact hnum, ?_,
        fun x h1 h2 => by omega, fun _ => by simpa using hres⟩
      rw [a4]
      simp [List.range']
    | true =>
      obtain ⟨a1, a2, a3, a4, a5, a6⟩ :=
        Proc_BSP_single_true res c log i k hpc hres hnf hfin hnum (by omega)
      by_cases hlast : i + 1 < k
      · have hnext : BSPPc.next k i = .running (i + 1) := by
          unfold BSPPc.next
          rw [if_pos hlast]
        rw [hnext] at a1
        obtain ⟨n, m, b1, b2, b3, b4, b5, b6, b7, b8⟩ :=
          Proc_BSP_single_loop res k hk j (i + 1)
            (bspRunLog 1 res (c, log) (List.replicate 3 0)).1
            (bspRunLog 1 res (c, log) (List.replicate 3 0)).2 (by omega) hlast a1 a2
            (a3.trans hinit) a4 a5
        refine ⟨3 + n, m, by omega, b2, ?_, ?_, ?_, ?_, fun x h1 h2 => ?_, b8⟩
        · rw [bspRunLog_add]; exact b3
        · rw [bspRunLog_add]; exact b4
        · rw [bspRunLog_add]; exact b5
        · rw [bspRunLog_add, b6, a6, List.append_assoc]
          congr 1
          have hm : m - i = (m - (i + 1)) + 1 := by omega
          rw [hm, List.range'_succ]
          simp
        · rcases Nat.eq_or_lt_of_le h1 with e | hlt
          · rw [← e]; exact hres
          · exact b7 x hlt h2
      · have hnext : BSPPc.next k i = .leave := by
          unfold BSPPc.next
          rw [if_neg hlast]
        rw [hnext] at a1
        have hik' : i + 1 = k := by omega
        refine ⟨3, k, hik, le_refl _, a1, a3.trans hinit, a5, ?_,
          fun x h1 h2 => ?_, fun h => absurd h (lt_irrefl _)⟩
        · rw [a6, ← hik']
          simp [List.range']
        · have : x = i := by omega
          rw [this]; exact hres

/-- The first call of `Proc_BSP` on a single initialized processor, with a non-null
`functions` and the coordinator as `Proc_signalInitialization` leaves it: the call returns
`TRUE` and leaves `Proc_bspState = DONE`; it calls `functions[0], …, functions[m - 1]` in this
order and no other, where every call but the last returns `TRUE` and, if `m` is less than
`numFunctions`, the last returns `FALSE`. -/
theorem Proc_BSP_single_first (res : Nat → Nat → Bool) (functions args : Ptr) (k : Nat)
    (hfn : functions ≠ 0) (hk : k < W64) :
    ∃ n m, m ≤ k ∧ (0 < k → 0 < m) ∧
      ((bspRunLog 1 res (bspOne functions k args, []) (List.replicate n 0)).1.threads 0).pc =
        .returned true ∧
      (bspRunLog 1 res (bspOne functions k args, [])
        (List.replicate n 0)).1.shared.Proc_bspState = .DONE ∧
      (bspRunLog 1 res (bspOne functions k args, []) (List.replicate n 0)).2 =
        (List.range m).map (fun x => (0, x)) ∧
      (∀ x, x + 1 < m → res 0 x = true) ∧ (m < k → res 0 (m - 1) = false) := by
  obtain ⟨p1, p2, p3, p4, p5, p6⟩ := Proc_BSP_single_prefix res functions args k hfn
  by_cases hk0 : 0 < k
  · rw [if_pos hk0] at p1
    obtain ⟨n, m, b1, b2, b3, b4, b5, b6, b7, b8⟩ :=
      Proc_BSP_single_loop res k hk k 0
        (bspRunLog 1 res (bspOne functions k args, []) (List.replicate 12 0)).1
        (bspRunLog 1 res (bspOne functions k args, []) (List.replicate 12 0)).2 (by omega) hk0
        p1 p2 p3 p4 p5
    obtain ⟨t1, t2, t3⟩ := Proc_BSP_single_tail res
      (bspRunLog 1 res (bspRunLog 1 res (bspOne functions k args, []) (List.replicate 12 0))
        (List.replicate n 0)).1
      (bspRunLog 1 res (bspRunLog 1 res (bspOne functions k args, []) (List.replicate 12 0))
        (List.replicate n 0)).2 b3 b4 b5
    refine ⟨12 + n + 4, m, b2, fun _ => b1, ?_, ?_, ?_, fun x hx => b7 x (Nat.zero_le _) hx,
      b8⟩
    · rw [bspRunLog_add, bspRunLog_add]; exact t1
    · rw [bspRunLog_add, bspRunLog_add]; exact t2
    · rw [bspRunLog_add, bspRunLog_add, t3, b6, p6, List.range_eq_range']
      simp
  · rw [if_neg hk0] at p1
    obtain ⟨t1, t2, t3⟩ := Proc_BSP_single_tail res
      (bspRunLog 1 res (bspOne functions k args, []) (List.replicate 12 0)).1
      (bspRunLog 1 res (bspOne functions k args, []) (List.replicate 12 0)).2 p1 p3 p5
    refine ⟨12 + 4, 0, Nat.zero_le _, fun h => absurd h hk0, ?_, ?_, ?_,
      fun x hx => absurd hx (Nat.not_lt_zero _), fun h => absurd h hk0⟩
    · rw [bspRunLog_add]; exact t1
    · rw [bspRunLog_add]; exact t2
    · rw [bspRunLog_add, t3, p6]
      rfl

/-- C33: a single initialized processor. Its first call of `Proc_BSP`, with three functions
of which the second returns `FALSE`, calls `functions[0]` and `functions[1]`, returns `TRUE`
and leaves `Proc_bspState = DONE`, with `Proc_bspCount = 1`. Its next call with a non-null
`functions`, made in this state `DONE`, calls no function and returns `FALSE`. -/
theorem Proc_BSP_single_second_call :
    ((bspRunLog 1 (fun _ i => decide (i ≠ 1)) (bspOne 100 3 200, [])
      (List.replicate 20 0)).1.threads 0).pc = .returned true ∧
    (bspRunLog 1 (fun _ i => decide (i ≠ 1)) (bspOne 100 3 200, [])
      (List.replicate 20 0)).2 = [(0, 0), (0, 1)] ∧
    (bspRunLog 1 (fun _ i => decide (i ≠ 1)) (bspOne 100 3 200, [])
      (List.replicate 20 0)).1.shared = { bspShared0 1 with Proc_bspCount := 1 } ∧
    ((bspRunLog 1 (fun _ i => decide (i ≠ 1))
      ((bspRunLog 1 (fun _ i => decide (i ≠ 1)) (bspOne 100 3 200, [])
        (List.replicate 20 0)).1.call 0 100 3 200, [])
      (List.replicate 5 0)).1.threads 0).pc = .returned false ∧
    (bspRunLog 1 (fun _ i => decide (i ≠ 1))
      ((bspRunLog 1 (fun _ i => decide (i ≠ 1)) (bspOne 100 3 200, [])
        (List.replicate 20 0)).1.call 0 100 3 200, [])
      (List.replicate 5 0)).2 = [] ∧
    (bspRunLog 1 (fun _ i => decide (i ≠ 1))
      ((bspRunLog 1 (fun _ i => decide (i ≠ 1)) (bspOne 100 3 200, [])
        (List.replicate 20 0)).1.call 0 100 3 200, [])
      (List.replicate 5 0)).1.shared.Proc_bspState = .DONE := by
  decide

/-! ## Well-formed level heads are kept by the chunk-list operations -/

/-- A step of processor `p` leaves the program points of the others alone. -/
theorem critStep_pc_other (N : Nat) (c : CritState) {p q : Nat} (hqp : q ≠ p) :
    (critStep N c p).pc q = c.pc q := by
  unfold critStep
  by_cases hp : N ≤ p
  · rw [if_pos hp]
  rw [if_neg hp]
  cases hpc : c.pc p <;>
    simp only [hpc, CritPc.inBegin, Proc_beginCriticalSection_step,
      Proc_endCriticalSection_step, if_true, Bool.false_eq_true, if_false] <;>
    (try split_ifs) <;>
    simp [hqp]

/-- With all processors initialized no processor is at a single-processor point. -/
theorem CritInv.no_solo {N : Nat} {c : CritState} {log : List Nat} (h : CritInv N c log)
    {p : Nat} (hp : p < N) : c.pc p ≠ .beginSolo ∧ c.pc p ≠ .endSolo := by
  obtain ⟨-, -, r, hph⟩ := h
  rcases hph with ⟨hg, -⟩ | ⟨t, hs, -⟩ | ⟨hr, -⟩
  · rcases hg.2.2.1 p hp with e | e | e | e | e | e | e <;> rw [e] <;> exact ⟨by decide, by decide⟩
  · obtain ⟨-, -, -, hall⟩ := hs
    rcases Nat.lt_trichotomy p t with hpt | hpt | hpt
    · rw [(hall p hp).1 hpt]; exact ⟨by decide, by decide⟩
    · rcases (hall p hp).2.1 hpt with e | e | e | e <;> rw [e] <;> exact ⟨by decide, by decide⟩
    · rcases (hall p hp).2.2 hpt with e | e <;> rw [e] <;> exact ⟨by decide, by decide⟩
  · obtain ⟨-, q, -, hq, hoth⟩ := hr
    by_cases hpq : p = q
    · subst hpq
      rcases hq with ⟨e, -⟩ | ⟨e, -⟩ <;> rw [e] <;> exact ⟨by decide, by decide⟩
    · rw [hoth p hp hpq]; exact ⟨by decide, by decide⟩

/-- The step of a processor `p`: an admission takes it from the last point of
`Proc_beginCriticalSection` to its region, and every other step of a processor that is not
held up takes it to a point of higher rank; a processor that is held up stays. -/
theorem critStep_rank {N : Nat} {c : CritState} {log : List Nat} (h : CritInv N c log)
    {p : Nat} (hp : p < N) :
    (isAdmission N c p = true → critCanMove N c p = true ∧ (c.pc p).rank = 10 ∧
      ((critStep N c p).pc p).rank = 0) ∧
    (isAdmission N c p = false →
      (c.pc p).rank + (if critCanMove N c p then 1 else 0) ≤ ((critStep N c p).pc p).rank) := by
  have hinit := Proc_isInitialized_of_eq h.1
  obtain ⟨hs1, hs2⟩ := h.no_solo hp
  cases hpc : c.pc p
  case beginSolo => exact absurd hpc hs1
  case endSolo => exact absurd hpc hs2
  all_goals
    first
    | rw [critStep_begin hp (by rw [hpc]; rfl)]
    | rw [critStep_end hp (by rw [hpc]; rfl)]
  all_goals
    simp only [Proc_beginCriticalSection_step, Proc_endCriticalSection_step, hpc, hinit,
      if_true, isAdmission, critCanMove, decide_eq_true_eq, decide_eq_false_iff_not]
  all_goals
    (try split_ifs) <;> simp_all [CritPc.rank]

theorem CritPc.rank_le (x : CritPc) : x.rank ≤ 10 := by
  cases x <;> decide

/-- A step of a processor that is not held up raises the potential. -/
theorem critPotential_step {N : Nat} {c : CritState} {log : List Nat} (h : CritInv N c log)
    (p : Nat) :
    critPotential N c log + (if critCanMove N c p then 1 else 0) ≤
      critPotential N (critStepLog N (c, log) p).1 (critStepLog N (c, log) p).2 := by
  show critPotential N c log + _ ≤
    critPotential N (critStep N c p) (if isAdmission N c p then log ++ [p] else log)
  by_cases hp : p < N
  · have hmem : p ∈ Finset.range N := Finset.mem_range.2 hp
    have hrest : ((Finset.range N).erase p).sum (fun q => ((critStep N c p).pc q).rank) =
        ((Finset.range N).erase p).sum (fun q => (c.pc q).rank) :=
      Finset.sum_congr rfl (fun q hq => by
        rw [critStep_pc_other N c (Finset.ne_of_mem_erase hq)])
    have e1 := Finset.add_sum_erase (Finset.range N) (fun q => (c.pc q).rank) hmem
    have e2 := Finset.add_sum_erase (Finset.range N)
      (fun q => ((critStep N c p).pc q).rank) hmem
    obtain ⟨ha, hb⟩ := critStep_rank h hp
    unfold critPotential
    rw [← e1, ← e2, hrest]
    simp only at ha hb ⊢
    cases hadm : isAdmission N c p
    · have := hb hadm
      simp only [Bool.false_eq_true, if_false]
      omega
    · obtain ⟨h1, h2, h3⟩ := ha hadm
      simp only [if_true, h1, List.length_append, List.length_singleton]
      omega
  · have e : critStep N c p = c := by
      unfold critStep
      rw [if_pos (not_lt.1 hp)]
    have e2 : isAdmission N c p = false := by
      unfold isAdmission
      rw [decide_eq_false_iff_not]
      exact fun h => hp h.1
    have e3 : critCanMove N c p = false := by
      unfold critCanMove
      rw [decide_eq_false_iff_not]
      exact fun h => hp h.1
    rw [e, e2, e3]
    simp

/-- Along every schedule the potential grows by the number of steps taken by processors that
were not held up, at least. -/
theorem critPotential_run {N : Nat} (hN : N < 2147483648) (sched : List Nat) :
    ∀ (c : CritState) (log : List Nat), CritInv N c log →
      critPotential N c log + critMoves N c sched ≤
        critPotential N (critRun N (c, log) sched).1 (critRun N (c, log) sched).2 := by
  induction sched with
  | nil => intro c log _; exact le_rfl
  | cons p ps ih =>
    intro c log h
    have h1 := critPotential_step h p
    have h2 : critPotential N (critStepLog N (c, log) p).1 (critStepLog N (c, log) p).2 +
        critMoves N (critStep N c p) ps ≤
        critPotential N (critRun N (critStepLog N (c, log) p) ps).1
          (critRun N (critStepLog N (c, log) p) ps).2 := ih _ _ (h.step_inv hN p)
    show critPotential N c log + ((if critCanMove N c p then 1 else 0) +
      critMoves N (critStep N c p) ps) ≤
      critPotential N (critRun N (critStepLog N (c, log) p) ps).1
        (critRun N (critStepLog N (c, log) p) ps).2
    omega

theorem critPotential_init (N : Nat) : critPotential N (critInit N) [] = 5 * N := by
  unfold critPotential critInit
  simp [CritPc.rank, Finset.sum_const, Finset.card_range, Nat.mul_comm]

theorem critPotential_le (N : Nat) (c : CritState) (log : List Nat) :
    critPotential N c log ≤ 11 * log.length + 10 * N := by
  unfold critPotential
  have := Finset.sum_le_card_nsmul (Finset.range N) (fun p => (c.pc p).rank) 10
    (fun p _ => CritPc.rank_le _)
  rw [Finset.card_range, smul_eq_mul] at this
  omega

/-- The number of steps taken by processors that were not held up is bounded by the number of
admissions: eleven steps for every admission, and five more for every processor. -/
theorem critMoves_le {N : Nat} (hN : N < 2147483648) (sched : List Nat) :
    critMoves N (critInit N) sched ≤
      11 * (critRun N (critInit N, []) sched).2.length + 5 * N := by
  have h1 := critPotential_run hN sched (critInit N) [] (CritInv.init_inv N)
  have h2 := critPotential_le N (critRun N (critInit N, []) sched).1
    (critRun N (critInit N, []) sched).2
  rw [critPotential_init] at h1
  omega

/-! ### Some processor is never held up -/

theorem CritInv.endTicket_ticket {N : Nat} {c : CritState} {log : List Nat}
    (h : CritInv N c log) {p : Nat} (hp : p < N) (hpc : c.pc p = .endTicket) :
    c.Proc_criticalTicket = p := by
  obtain ⟨-, -, r, hph⟩ := h
  rcases hph with ⟨hg, -⟩ | ⟨t, hs, -⟩ | ⟨hr, -⟩
  · rcases hg.2.2.1 p hp with e | e | e | e | e | e | e <;> rw [hpc] at e <;>
      exact absurd e (by decide)
  · obtain ⟨-, htk, -, hall⟩ := hs
    rcases Nat.lt_trichotomy p t with hpt | hpt | hpt
    · have e := (hall p hp).1 hpt
      rw [hpc] at e
      exact absurd e (by decide)
    · rw [htk, hpt]
    · rcases (hall p hp).2.2 hpt with e | e <;> rw [hpc] at e <;> exact absurd e (by decide)
  · obtain ⟨-, q, -, hq, hoth⟩ := hr
    by_cases hpq : p = q
    · subst hpq
      rcases hq with ⟨e, -⟩ | ⟨e, -⟩ <;> rw [hpc] at e <;> exact absurd e (by decide)
    · have e := hoth p hp hpq
      rw [hpc] at e
      exact absurd e (by decide)

theorem CritInv.resetTicket_count {N : Nat} {c : CritState} {log : List Nat}
    (h : CritInv N c log) {p : Nat} (hp : p < N) (hpc : c.pc p = .endResetTicket) :
    c.Proc_syncCount = 0 := by
  obtain ⟨-, -, r, hph⟩ := h
  rcases hph with ⟨hg, -⟩ | ⟨t, hs, -⟩ | ⟨hr, -⟩
  · rcases hg.2.2.1 p hp with e | e | e | e | e | e | e <;> rw [hpc] at e <;>
      exact absurd e (by decide)
  · obtain ⟨-, -, -, hall⟩ := hs
    rcases Nat.lt_trichotomy p t with hpt | hpt | hpt
    · have e := (hall p hp).1 hpt
      rw [hpc] at e
      exact absurd e (by decide)
    · rcases (hall p hp).2.1 hpt with e | e | e | e <;> rw [hpc] at e <;>
        exact absurd e (by decide)
    · rcases (hall p hp).2.2 hpt with e | e <;> rw [hpc] at e <;> exact absurd e (by decide)
  · obtain ⟨-, q, -, hq, hoth⟩ := hr
    by_cases hpq : p = q
    · subst hpq
      rcases hq with ⟨e, -⟩ | ⟨-, e⟩
      · rw [hpc] at e
        exact absurd e (by decide)
      · exact e
    · have e := hoth p hp hpq
      rw [hpc] at e
      exact absurd e (by decide)

theorem CritLive.init_live (N : Nat) : CritLive N (critInit N) := by
  refine ⟨fun q h => (by cases h), fun h0 _ h => ?_⟩
  have e : (0 : Int) = N := h
  omega

/-- A step that leaves the counters alone, and the mutex alone or free or with processor `p`,
taken by a processor that is not about to signal. -/
theorem CritLive.keep_live {N : Nat} {c c' : CritState} (hl : CritLive N c) {p : Nat}
    (hp : p < N)
    (hlock : c'.Proc_syncCountLock = c.Proc_syncCountLock ∨ c'.Proc_syncCountLock = none ∨
      c'.Proc_syncCountLock = some p)
    (htk : c'.Proc_criticalTicket = c.Proc_criticalTicket)
    (hsc : c'.Proc_syncCount = c.Proc_syncCount)
    (hpc : ∀ q, q ≠ p → c'.pc q = c.pc q) (hps : c.pc p ≠ .beginSignal) : CritLive N c' := by
  refine ⟨fun q hq => ?_, fun h0 h1 h2 => ?_⟩
  · rcases hlock with e | e | e
    · exact hl.1 q (by rw [← e]; exact hq)
    · rw [e] at hq; cases hq
    · rw [e] at hq
      cases hq
      exact hp
  · obtain ⟨q, hq, hqs⟩ := hl.2 h0 (by rw [← htk]; exact h1) (by rw [← hsc]; exact h2)
    have hqp : q ≠ p := fun e => hps (e ▸ hqs)
    exact ⟨q, hq, by rw [hpc q hqp]; exact hqs⟩

/-- The invariant `CritLive` is kept by every step. -/
theorem CritLive.step_live {N : Nat} {c : CritState} {log : List Nat} (hN : N < 2147483648)
    (hi : CritInv N c log) (hl : CritLive N c) (p : Nat) : CritLive N (critStep N c p) := by
  by_cases hp : p < N
  swap
  · have e : critStep N c p = c := by
      unfold critStep
      rw [if_pos (not_lt.1 hp)]
    rw [e]; exact hl
  have hinit := Proc_isInitialized_of_eq hi.1
  obtain ⟨hs1, hs2⟩ := hi.no_solo hp
  have hoth : ∀ (c0 : CritState) (x : CritPc) (q : Nat), q ≠ p →
      (CritState.goto c0 p x).pc q = c0.pc q := fun c0 x q hq => by
    rw [CritState.goto_pc, if_neg hq]
  cases hpc : c.pc p with
  | beginSolo => exact absurd hpc hs1
  | endSolo => exact absurd hpc hs2
  | outside =>
    rw [critStep_begin hp (by rw [hpc]; rfl)]
    simp only [Proc_beginCriticalSection_step, hpc, hinit, if_true]
    exact hl.keep_live hp (Or.inl rfl) rfl rfl (hoth _ _) (by rw [hpc]; decide)
  | beginLock =>
    rw [critStep_begin hp (by rw [hpc]; rfl)]
    simp only [Proc_beginCriticalSection_step, hpc]
    split_ifs
    · exact hl.keep_live hp (Or.inr (Or.inr rfl)) rfl rfl (hoth _ _) (by rw [hpc]; decide)
    · exact hl
  | beginCount =>
    rw [critStep_begin hp (by rw [hpc]; rfl)]
    simp only [Proc_beginCriticalSection_step, hpc]
    refine ⟨fun q hq => hl.1 q hq, fun _ _ h2 => ⟨p, hp, ?_⟩⟩
    have h2' : wrapInt32 (c.Proc_syncCount + 1) = N := h2
    rw [CritState.goto_pc, if_pos rfl, if_pos h2']
  | beginSignal =>
    rw [critStep_begin hp (by rw [hpc]; rfl)]
    simp only [Proc_beginCriticalSection_step, hpc]
    refine ⟨fun q hq => hl.1 q hq, fun _ h1 _ => ?_⟩
    have h1' : (0 : Int) = -1 := h1
    omega
  | beginUnlock =>
    rw [critStep_begin hp (by rw [hpc]; rfl)]
    simp only [Proc_beginCriticalSection_step, hpc]
    exact hl.keep_live hp (Or.inr (Or.inl rfl)) rfl rfl (hoth _ _) (by rw [hpc]; decide)
  | beginSpin =>
    rw [critStep_begin hp (by rw [hpc]; rfl)]
    simp only [Proc_beginCriticalSection_step, hpc]
    split_ifs
    · exact hl
    · exact hl.keep_live hp (Or.inl rfl) rfl rfl (hoth _ _) (by rw [hpc]; decide)
  | inside =>
    rw [critStep_end hp (by rw [hpc]; rfl)]
    simp only [Proc_endCriticalSection_step, hpc, hinit, if_true]
    exact hl.keep_live hp (Or.inl rfl) rfl rfl (hoth _ _) (by rw [hpc]; decide)
  | endTicket =>
    rw [critStep_end hp (by rw [hpc]; rfl)]
    simp only [Proc_endCriticalSection_step, hpc]
    have htk := hi.endTicket_ticket hp hpc
    have hw : wrapInt32 (c.Proc_criticalTicket + 1) = c.Proc_criticalTicket + 1 :=
      wrapInt32_eq _ (by omega) (by omega)
    refine ⟨fun q hq => hl.1 q hq, fun _ h1 _ => ?_⟩
    have h1' : wrapInt32 (c.Proc_criticalTicket + 1) = -1 := h1
    omega
  | endResetCount =>
    rw [critStep_end hp (by rw [hpc]; rfl)]
    simp only [Proc_endCriticalSection_step, hpc]
    refine ⟨fun q hq => hl.1 q hq, fun h0 _ h2 => ?_⟩
    have h2' : (0 : Int) = N := h2
    omega
  | endResetTicket =>
    rw [critStep_end hp (by rw [hpc]; rfl)]
    simp only [Proc_endCriticalSection_step, hpc]
    have hsc := hi.resetTicket_count hp hpc
    refine ⟨fun q hq => hl.1 q hq, fun h0 _ h2 => ?_⟩
    have h2' : c.Proc_syncCount = N := h2
    omega
  | endSpin =>
    rw [critStep_end hp (by rw [hpc]; rfl)]
    simp only [Proc_endCriticalSection_step, hpc]
    split_ifs
    · exact hl
    · exact hl.keep_live hp (Or.inl rfl) rfl rfl (hoth _ _) (by rw [hpc]; decide)

/-- The invariants after every schedule run from a state that satisfies them. -/
theorem CritLive.run_live {N : Nat} (hN : N < 2147483648) (sched : List Nat) :
    ∀ (c : CritState) (log : List Nat), CritInv N c log → CritLive N c →
      CritLive N (critRun N (c, log) sched).1 := by
  induction sched with
  | nil => intro c log _ h; exact h
  | cons p ps ih =>
    intro c log hi hl
    exact ih _ _ (hi.step_inv hN p) (hl.step_live hN hi p)

/-- With at least one processor, some processor is not held up. -/
theorem CritInv.can_move {N : Nat} {c : CritState} {log : List Nat} (hi : CritInv N c log)
    (hl : CritLive N c) (h0 : 0 < N) : ∃ p, p < N ∧ critCanMove N c p = true := by
  have hcm : ∀ p, p < N → ¬ (c.pc p = .beginLock ∧ c.Proc_syncCountLock ≠ none) →
      ¬ (c.pc p = .beginSpin ∧ c.Proc_criticalTicket ≠ (p : Int)) →
      ¬ (c.pc p = .endSpin ∧ c.Proc_criticalTicket ≥ 0) → critCanMove N c p = true :=
    fun p hp h1 h2 h3 => by
      unfold critCanMove
      rw [decide_eq_true_eq]
      exact ⟨hp, h1, h2, h3⟩
  obtain ⟨-, hlock, r, hph⟩ := hi
  rcases hph with ⟨hg, -⟩ | ⟨t, hs, -⟩ | ⟨hr, -⟩
  · obtain ⟨htk, hsc, hpcs, -⟩ := hg
    by_cases hex : ∃ p, p < N ∧ c.pc p ≠ .beginLock ∧ c.pc p ≠ .beginSpin
    · obtain ⟨p, hp, h1, h2⟩ := hex
      exact ⟨p, hp, hcm p hp (fun h => h1 h.1) (fun h => h2 h.1) (fun h => by
        have := h.2
        rw [htk] at this
        omega)⟩
    · push_neg at hex
      have hfree : c.Proc_syncCountLock = none := by
        cases hlk : c.Proc_syncCountLock with
        | none => rfl
        | some q =>
          have hq := hl.1 q hlk
          have := (hlock q hq).2 hlk
          by_cases hb : c.pc q = .beginLock
          · rw [hb] at this
            rcases this with e | e | e <;> exact absurd e (by decide)
          · have hs := hex q hq hb
            rw [hs] at this
            rcases this with e | e | e <;> exact absurd e (by decide)
      by_cases hex2 : ∃ p, p < N ∧ c.pc p = .beginLock
      · obtain ⟨p, hp, hb⟩ := hex2
        exact ⟨p, hp, hcm p hp (fun h => h.2 hfree) (fun h => by
          rw [hb] at h
          exact absurd h.1 (by decide)) (fun h => by
          rw [hb] at h
          exact absurd h.1 (by decide))⟩
      · push_neg at hex2
        have hall : ∀ q, q < N → c.pc q = .beginSpin := fun q hq => hex q hq (hex2 q hq)
        have hcard : ((Finset.range N).filter (fun p => Counted c p)).card = N := by
          rw [Finset.filter_true_of_mem (fun q hq => by
            unfold Counted
            exact Or.inr (Or.inr (hall q (Finset.mem_range.1 hq)))), Finset.card_range]
        obtain ⟨p, hp, hsig⟩ := hl.2 h0 htk (by rw [hsc, hcard])
        rw [hall p hp] at hsig
        exact absurd hsig (by decide)
  · obtain ⟨ht, htk, -, hall⟩ := hs
    refine ⟨t, ht, hcm t ht (fun h => ?_) (fun h => h.2 htk) (fun h => ?_)⟩
    · rcases (hall t ht).2.1 rfl with e | e | e | e <;> rw [h.1] at e <;>
        exact absurd e (by decide)
    · rcases (hall t ht).2.1 rfl with e | e | e | e <;> rw [h.1] at e <;>
        exact absurd e (by decide)
  · obtain ⟨-, q, hq, hpc, -⟩ := hr
    refine ⟨q, hq, hcm q hq (fun h => ?_) (fun h => ?_) (fun h => ?_)⟩ <;>
      rcases hpc with ⟨e, -⟩ | ⟨e, -⟩ <;> rw [h.1] at e <;> exact absurd e (by decide)

/-! ### Every processor is admitted, round after round -/

theorem count_range_nat (m p : Nat) : (List.range m).count p = if p < m then 1 else 0 := by
  by_cases h : p < m
  · rw [if_pos h]
    exact List.count_eq_one_of_mem (List.nodup_range m) (List.mem_range.2 h)
  · rw [if_neg h]
    exact List.count_eq_zero_of_not_mem (fun hm => h (List.mem_range.1 hm))

theorem count_rounds (N : Nat) {p : Nat} (hp : p < N) : ∀ r, (rounds N r).count p = r
  | 0 => rfl
  | r + 1 => by
    rw [rounds_succ, List.count_append, count_rounds N hp r, count_range_nat, if_pos hp]

theorem length_rounds (N : Nat) : ∀ r, (rounds N r).length = r * N
  | 0 => by simp [rounds]
  | r + 1 => by
    rw [rounds_succ, List.length_append, length_rounds N r, List.length_range, Nat.succ_mul]

theorem critRun_append (N : Nat) (cl : CritState × List Nat) (s1 s2 : List Nat) :
    critRun N cl (s1 ++ s2) = critRun N (critRun N cl s1) s2 :=
  List.foldl_append _ _ _ _

theorem critMoves_append (N : Nat) (s2 : List Nat) :
    ∀ (s1 : List Nat) (c : CritState) (log : List Nat),
      critMoves N c (s1 ++ s2) = critMoves N c s1 + critMoves N (critRun N (c, log) s1).1 s2
  | [], c, log => by
    show critMoves N c s2 = 0 + critMoves N c s2
    rw [Nat.zero_add]
  | p :: ps, c, log => by
    show (if critCanMove N c p then 1 else 0) + critMoves N (critStep N c p) (ps ++ s2) =
      (if critCanMove N c p then 1 else 0) + critMoves N (critStep N c p) ps +
        critMoves N (critRun N (critStepLog N (c, log) p) ps).1 s2
    rw [critMoves_append N s2 ps (critStep N c p) (critStepLog N (c, log) p).2, Nat.add_assoc]
    rfl

/-- After `11 * N * R + 5 * N` steps taken by processors that were not held up, every
processor has been admitted `R` times at least. -/
theorem critMoves_admits {N : Nat} (hN : N < 2147483648) (sched : List Nat) (R : Nat)
    (hm : 11 * N * R + 5 * N ≤ critMoves N (critInit N) sched) (p : Nat) (hp : p < N) :
    R ≤ (critRun N (critInit N, []) sched).2.count p := by
  have hle := critMoves_le hN sched
  obtain ⟨r, m, hmN, hlog⟩ := ((CritInv.init_inv N).run_inv hN sched).log_eq
  rw [hlog, List.length_append, length_rounds, List.length_range] at hle
  rw [hlog, List.count_append, count_rounds N hp, count_range_nat]
  have h1 : N * R ≤ r * N + m := by
    have : 11 * (N * R) ≤ 11 * (r * N + m) := by
      rw [← Nat.mul_assoc]
      omega
    exact Nat.le_of_mul_le_mul_left this (by decide)
  by_cases hRr : R ≤ r
  · omega
  · have h2 : N * (r + 1) ≤ N * R := Nat.mul_le_mul_left N (by omega)
    have h3 : N * (r + 1) = r * N + N := by rw [Nat.mul_succ, Nat.mul_comm]
    have hmeq : m = N := by omega
    rw [hmeq, if_pos hp]
    have h4 : N * R ≤ N * (r + 1) := by rw [h3]; omega
    exact Nat.le_of_mul_le_mul_left h4 (by omega)

/-- Every run can be continued by any number of steps of processors that are not held
up. -/
theorem critRun_extend {N : Nat} (hN : N < 2147483648) (h0 : 0 < N) (sched : List Nat) :
    ∀ K, ∃ ext, K ≤ critMoves N (critInit N) (sched ++ ext)
  | 0 => ⟨[], Nat.zero_le _⟩
  | K + 1 => by
    obtain ⟨ext, hext⟩ := critRun_extend hN h0 sched K
    have hi := (CritInv.init_inv N).run_inv hN (sched ++ ext)
    have hl := (CritLive.init_live N).run_live hN (sched ++ ext) _ _ (CritInv.init_inv N)
    obtain ⟨p, -, hcm⟩ := hi.can_move hl h0
    refine ⟨ext ++ [p], ?_⟩
    rw [← List.append_assoc, critMoves_append N [p] (sched ++ ext) (critInit N) []]
    show K + 1 ≤ critMoves N (critInit N) (sched ++ ext) +
      ((if critCanMove N (critRun N (critInit N, []) (sched ++ ext)).1 p then 1 else 0) + 0)
    rw [hcm]
    simp only [if_true]
    omega

/-- Every run can be continued so that every processor has been admitted `R` times. -/
theorem critRun_rounds {N : Nat} (hN : N < 2147483648) (sched : List Nat) (R : Nat) :
    ∃ ext, ∀ p, p < N → R ≤ (critRun N (critInit N, []) (sched ++ ext)).2.count p := by
  by_cases h0 : 0 < N
  · obtain ⟨ext, hext⟩ := critRun_extend hN h0 sched (11 * N * R + 5 * N)
    exact ⟨ext, fun p hp => critMoves_admits hN (sched ++ ext) R hext p hp⟩
  · exact ⟨[], fun p hp => absurd hp (by omega)⟩

/-! ## Claims on the rotating critical section: the rotation -/

/-- C29: with all `N` processors initialized, after every schedule of steps of
`Proc_beginCriticalSection` and `Proc_endCriticalSection`: no two processors are between
their return from `Proc_beginCriticalSection` and their call of `Proc_endCriticalSection`;
a processor there has `Proc_criticalTicket` equal to its number; and the admissions so far
are the processors `0, …, N - 1` in this order, round after round, followed by the first
`m` processors of the current round in this order, so that every processor has been
admitted once in every full round and, in the current round, once when its number is below
`m` and not yet otherwise. And the rotation goes on: some processor is not held up; the
steps taken so far by processors that were not held up are at most eleven for every
admission and five for every processor, so that after `11 * N * R + 5 * N` such steps every
processor has been admitted `R` times at least; and every schedule has a continuation
after which every processor has been admitted `R` times at least, for every `R`. -/
theorem Proc_criticalSection_rotates (N : Nat) (hN : N < 2147483648) (sched : List Nat) :
    (∀ p q, p < N → q < N → (critRun N (critInit N, []) sched).1.pc p = .inside →
      (critRun N (critInit N, []) sched).1.pc q = .inside → p = q) ∧
    (∀ p, p < N → (critRun N (critInit N, []) sched).1.pc p = .inside →
      (critRun N (critInit N, []) sched).1.Proc_criticalTicket = p) ∧
    (∃ r m, m ≤ N ∧ (critRun N (critInit N, []) sched).2 = rounds N r ++ List.range m ∧
      ∀ p, p < N →
        (critRun N (critInit N, []) sched).2.count p = r + if p < m then 1 else 0) ∧
    (0 < N → ∃ p, p < N ∧ critCanMove N (critRun N (critInit N, []) sched).1 p = true) ∧
    critMoves N (critInit N) sched ≤
      11 * (critRun N (critInit N, []) sched).2.length + 5 * N ∧
    (∀ R, 11 * N * R + 5 * N ≤ critMoves N (critInit N) sched →
      ∀ p, p < N → R ≤ (critRun N (critInit N, []) sched).2.count p) ∧
    (∀ R, ∃ ext, ∀ p, p < N →
      R ≤ (critRun N (critInit N, []) (sched ++ ext)).2.count p) := by
  have h := (CritInv.init_inv N).run_inv hN sched
  have hl := (CritLive.init_live N).run_live hN sched _ _ (CritInv.init_inv N)
  refine ⟨fun p q hp hq h1 h2 => ?_, fun p hp h1 => h.inside_ticket hp h1, ?_,
    fun h0 => h.can_move hl h0, critMoves_le hN sched,
    fun R hm p hp => critMoves_admits hN sched R hm p hp,
    fun R => critRun_rounds hN sched R⟩
  · have e1 := h.inside_ticket hp h1
    have e2 := h.inside_ticket hq h2
    rw [e1] at e2
    exact_mod_cast e2
  · obtain ⟨r, m, hm, hlog⟩ := h.log_eq
    refine ⟨r, m, hm, hlog, fun p hp => ?_⟩
    rw [hlog, List.count_append, count_rounds N hp, count_range_nat]

/-- C29 on three processors, after processors `0`, `1` and `2` have gone through
`Proc_beginCriticalSection` one after the other and processor `0` has left its wait loop:
the ticket is `0`, the admissions are those of full rounds and a first part of a round, some
processor is not held up, the steps taken are bounded by the admissions, and the schedule
can be continued so that every processor has been admitted any number of times. -/
theorem Proc_criticalSection_rotates_witness :
    (critRun 3 (critInit 3, []) [0, 0, 0, 0, 1, 1, 1, 1, 2, 2, 2, 2, 2, 0]).1.Proc_criticalTicket
      = (0 : Nat) ∧
    (∃ r m, m ≤ 3 ∧
      (critRun 3 (critInit 3, []) [0, 0, 0, 0, 1, 1, 1, 1, 2, 2, 2, 2, 2, 0]).2 =
        rounds 3 r ++ List.range m ∧
      ∀ p, p < 3 →
        (critRun 3 (critInit 3, []) [0, 0, 0, 0, 1, 1, 1, 1, 2, 2, 2, 2, 2, 0]).2.count p =
          r + if p < m then 1 else 0) ∧
    (∃ p, p < 3 ∧ critCanMove 3
      (critRun 3 (critInit 3, []) [0, 0, 0, 0, 1, 1, 1, 1, 2, 2, 2, 2, 2, 0]).1 p = true) ∧
    critMoves 3 (critInit 3) [0, 0, 0, 0, 1, 1, 1, 1, 2, 2, 2, 2, 2, 0] ≤
      11 * (critRun 3 (critInit 3, []) [0, 0, 0, 0, 1, 1, 1, 1, 2, 2, 2, 2, 2, 0]).2.length
        + 5 * 3 ∧
    (∀ R, ∃ ext, ∀ p, p < 3 →
      R ≤ (critRun 3 (critInit 3, [])
        ([0, 0, 0, 0, 1, 1, 1, 1, 2, 2, 2, 2, 2, 0] ++ ext)).2.count p) :=
  have h := Proc_criticalSection_rotates 3 (by decide)
    [0, 0, 0, 0, 1, 1, 1, 1, 2, 2, 2, 2, 2, 0]
  ⟨h.2.1 0 (by decide) (by decide), h.2.2.1, h.2.2.2.1 (by decide), h.2.2.2.2.1,
    h.2.2.2.2.2.2⟩

end HM
